import Mathlib

/-!
# Scheduler simulators of SYSC4001 Assignment 3, Part 1

A shallow embedding of the three tick-driven scheduler simulators

* `interrupts_101116888_101276841_EP.cpp`    (external priorities, no preemption),
* `interrupts_101116888_101276841_RR.cpp`    (round robin, quantum 100),
* `interrupts_101116888_101276841_EP_RR.cpp` (external priorities with preemption + round robin),

followed by theorems about them.

Conventions of the embedding.

* A `std::vector<PCB>` is a `List PCB`; `push_back` appends at the end, `back()` is the last
  element, `insert(begin(), x)` conses at the head.
* `unsigned int` is 32 bits wide: fields are natural numbers and the three operations that can
  wrap (`--`, `++`, binary `-`) are `udec`, `uinc`, `usub`.
* The execution table (a string in the source) is the list of its rows, one `Event` per call of
  `print_exec_status`; header and footer carry no information and are left out.
* Everything the sources take from the header `interrupts_101116888_101276841.hpp` that the
  simulation depends on but whose body is not available is a field of `Env`: the result of
  `std::sort`, the answers of `assign_memory`, and `idle_CPU`.
-/

namespace Sched

/-- The `states` enumeration used by the three simulators. -/
inductive States where
  | NEW
  | READY
  | RUNNING
  | WAITING
  | TERMINATED
  | NOT_ASSIGNED
deriving DecidableEq, Repr

/-- Modelled from the spec: the process control block `PCB` is declared in the header
`interrupts_101116888_101276841.hpp`; these are the fields the three simulators read or write
(`priority` is the spec's `size`, `processing_time` its `totalBurst`, `remaining_time` its
`remainingBurst`, `time_in_cpu` its `cpuTimeInBurst`/`ioStartTick`). `PID` and `start_time` are
signed (`start_time == -1` is the unset sentinel), the other numeric fields are `unsigned int`. -/
structure PCB where
  PID : Int
  priority : Nat
  arrival_time : Nat
  start_time : Int
  processing_time : Nat
  remaining_time : Nat
  state : States
  io_freq : Nat
  io_duration : Nat
  time_in_cpu : Nat
deriving DecidableEq, Repr

/-- One row of the execution table: `print_exec_status(time, PID, old_state, new_state)`. -/
structure Event where
  time : Nat
  PID : Int
  old_state : States
  new_state : States
deriving DecidableEq, Repr

/-- What the simulators obtain from outside the three source files.

* `sort comp v` is the content of the vector `v` after `std::sort(v.begin(), v.end(), comp)`.
* `assign_memory t i` is the answer of `assign_memory(process)` when it is called at tick `t` for
  the entry at position `i` of `list_processes` (the allocator is stateful, so its answer is
  indexed by the call, not by the value of the process).
* `idle_CPU r` is the content of `running` after `idle_CPU(running)` was called on `r`. -/
structure Env where
  sort : (PCB → PCB → Bool) → List PCB → List PCB
  assign_memory : Nat → Nat → Bool
  idle_CPU : PCB → PCB

/-- `x--` on an `unsigned int`. -/
def udec (x : Nat) : Nat := if x = 0 then 4294967295 else x - 1

/-- `x++` on an `unsigned int`. -/
def uinc (x : Nat) : Nat := if x + 1 = 4294967296 then 0 else x + 1

/-- `a - b` on `unsigned int`s. -/
def usub (a b : Nat) : Nat := if b ≤ a then a - b else a + 4294967296 - b

/-- `const unsigned int TIME_QUANTUM = 100;` (RR and EP_RR). -/
def TIME_QUANTUM : Nat := 100

/-- Modelled from the spec: `sync_queue(queue, process)` of the missing header; the entry of the
job registry that carries the PID of `process` is replaced by `process`. -/
def sync_queue (process_queue : List PCB) (process : PCB) : List PCB :=
  process_queue.map (fun q => if q.PID = process.PID then process else q)

/-- Modelled from the spec: `all_process_terminated(job_list)` of the missing header; every
process in the registry is TERMINATED. -/
def all_process_terminated (processes : List PCB) : Bool :=
  processes.all (fun p => decide (p.state = States.TERMINATED))

/-- Modelled from the spec: `terminate_process(running, job_list)` of the missing header; the
process becomes TERMINATED with no remaining burst and the registry is synchronised. Returns the
new content of `running` and of `job_list`. -/
def terminate_process (running : PCB) (job_list : List PCB) : PCB × List PCB :=
  let r : PCB := { running with remaining_time := 0, state := States.TERMINATED }
  (r, sync_queue job_list r)

/-- The variables of `run_simulation`. `io_start_time` exists only in the EP simulator,
`quantum_remaining` only in the RR and EP_RR simulators; the simulator that does not have the
variable never reads or writes the field. -/
structure SimState where
  list_processes : List PCB
  ready_queue : List PCB
  wait_queue : List PCB
  job_list : List PCB
  current_time : Nat
  io_start_time : Nat
  quantum_remaining : Nat
  running : PCB
  execution_status : List Event
deriving DecidableEq, Repr

/-- The declaration `PCB running;` before `idle_CPU(running)` is called on it. The fields are
indeterminate in C++; they are never read. -/
def uninitialised : PCB :=
  ⟨0, 0, 0, 0, 0, 0, States.NOT_ASSIGNED, 0, 0, 0⟩

/-- The state at the first evaluation of the loop condition. -/
def init (E : Env) (list_processes : List PCB) : SimState :=
  { list_processes := list_processes
    ready_queue := []
    wait_queue := []
    job_list := []
    current_time := 0
    io_start_time := 0
    quantum_remaining := TIME_QUANTUM
    running := E.idle_CPU uninitialised
    execution_status := [] }

/-- The loop condition `!all_process_terminated(job_list) || job_list.empty()`. -/
def loop_condition (s : SimState) : Bool :=
  !all_process_terminated s.job_list || s.job_list.isEmpty

/-! ## Admission (STEP 1), shared shape

`for(auto &process : list_processes)`: the entries are visited in order; an entry whose
`arrival_time` is the current tick and whose `assign_memory` call succeeds is changed by
`touch` (in place, so `list_processes` changes too) and the changed value is pushed to the back
of the ready queue and of the job list, and a NEW -> READY row is printed. -/

/-- The processes admitted at tick `now`, in order; `i` is the position of the head of the list
in `list_processes`. -/
def admitted (E : Env) (touch : PCB → PCB) (now : Nat) : Nat → List PCB → List PCB
  | _, [] => []
  | i, p :: ps =>
    if p.arrival_time = now ∧ E.assign_memory now i = true then
      touch p :: admitted E touch now (i + 1) ps
    else admitted E touch now (i + 1) ps

/-- The content of `list_processes` after the admission loop of tick `now`. -/
def marked (E : Env) (touch : PCB → PCB) (now : Nat) : Nat → List PCB → List PCB
  | _, [] => []
  | i, p :: ps =>
    if p.arrival_time = now ∧ E.assign_memory now i = true then
      touch p :: marked E touch now (i + 1) ps
    else p :: marked E touch now (i + 1) ps

/-- STEP 1 of all three simulators, `touch` being the assignments made to the admitted process
before it is pushed. -/
def populate (E : Env) (touch : PCB → PCB) (s : SimState) : SimState :=
  let adm := admitted E touch s.current_time 0 s.list_processes
  { s with
    list_processes := marked E touch s.current_time 0 s.list_processes
    ready_queue := s.ready_queue ++ adm
    job_list := s.job_list ++ adm
    execution_status := s.execution_status ++
      adm.map (fun p => Event.mk s.current_time p.PID States.NEW States.READY) }

/-! ## I/O completion (STEP 2), shared shape

`for(auto &process : wait_queue)`: a process whose wait is over is changed by `touch`, pushed to
the back of the ready queue, synchronised into the job list and a WAITING -> READY row is
printed; the others are collected in `still_waiting`, which then replaces `wait_queue`. -/

/-- STEP 2 of all three simulators; `started p` is the tick the simulator takes as the start of
the wait of `p`. -/
def manage_wait_queue (started : PCB → Nat) (touch : PCB → PCB) (s : SimState) : SimState :=
  let over : PCB → Bool := fun p => decide (usub s.current_time (started p) ≥ p.io_duration)
  let done := (s.wait_queue.filter over).map touch
  { s with
    ready_queue := s.ready_queue ++ done
    job_list := done.foldl sync_queue s.job_list
    execution_status := s.execution_status ++
      done.map (fun p => Event.mk s.current_time p.PID States.WAITING States.READY)
    wait_queue := s.wait_queue.filter (fun p => !over p) }

/-! ## Dispatch (STEP 4), shared shape -/

/-- The process `back` taken from the ready queue, as STEP 4 leaves it in `running` at tick
`now`: `start_time` is set if it was still -1, and `state` is RUNNING. -/
def started_at (now : Nat) (back : PCB) : PCB :=
  let r1 : PCB := if back.start_time = -1 then { back with start_time := (now : Int) } else back
  { r1 with state := States.RUNNING }

/-- STEP 4 of all three simulators: `schedule` is the sorting function of the policy and
`quantum` what happens to `quantum_remaining` (nothing in EP, reset in RR and EP_RR). -/
def dispatch (schedule : List PCB → List PCB) (quantum : Nat → Nat) (s : SimState) : SimState :=
  if s.running.state = States.NOT_ASSIGNED ∧ s.ready_queue ≠ [] then
    let sorted := schedule s.ready_queue
    match sorted.getLast? with
    | none => s
    | some back =>
      let running := started_at s.current_time back
      { s with
        ready_queue := sorted.dropLast
        running := running
        quantum_remaining := quantum s.quantum_remaining
        job_list := sync_queue s.job_list running
        execution_status := s.execution_status ++
          [Event.mk s.current_time running.PID States.READY States.RUNNING] }
  else s

/-! ## The EP simulator (`interrupts_101116888_101276841_EP.cpp`) -/

/-- The comparator of `external_priorities`: `first` goes before `second` when its priority value
is larger, or, at equal priority, when it arrived later. -/
def external_priorities_cmp (first second : PCB) : Bool :=
  if first.priority = second.priority then decide (first.arrival_time > second.arrival_time)
  else decide (first.priority > second.priority)

/-- The function `external_priorities(ready_queue)`. -/
def external_priorities (E : Env) (ready_queue : List PCB) : List PCB :=
  E.sort external_priorities_cmp ready_queue

namespace EP

/-- STEP 1 of EP: the admitted process gets `state = READY`. -/
def touch_new (p : PCB) : PCB := { p with state := States.READY }

/-- STEP 2 of EP: the process whose I/O is over gets `state = READY`. -/
def touch_done (p : PCB) : PCB := { p with state := States.READY }

/-- STEP 3 of EP, the I/O check, entered after `running.remaining_time--`. -/
def io_check (E : Env) (s : SimState) : SimState :=
  if s.running.io_freq > 0 ∧ s.running.remaining_time > 0 then
    let time_since_start := usub s.running.processing_time s.running.remaining_time
    if time_since_start > 0 ∧ time_since_start % s.running.io_freq = 0 then
      let w : PCB := { s.running with state := States.WAITING }
      { s with
        io_start_time := s.current_time
        wait_queue := s.wait_queue ++ [w]
        job_list := sync_queue s.job_list w
        execution_status := s.execution_status ++
          [Event.mk s.current_time w.PID States.RUNNING States.WAITING]
        running := E.idle_CPU w }
    else s
  else s

/-- STEP 3 of EP, the completion check `if(running.remaining_time == 0)`; it is evaluated on
whatever `running` holds after the I/O check. -/
def completion_check (E : Env) (s : SimState) : SimState :=
  if s.running.remaining_time = 0 then
    let t := terminate_process s.running s.job_list
    { s with
      execution_status := s.execution_status ++
        [Event.mk s.current_time s.running.PID States.RUNNING States.TERMINATED]
      job_list := t.2
      running := E.idle_CPU t.1 }
  else s

/-- STEP 3 of EP. -/
def handle_running (E : Env) (s : SimState) : SimState :=
  if s.running.state = States.RUNNING then
    completion_check E (io_check E
      { s with running := { s.running with remaining_time := udec s.running.remaining_time } })
  else s

/-- STEP 4 of EP. -/
def schedule (E : Env) (s : SimState) : SimState :=
  dispatch (external_priorities E) (fun q => q) s

/-- One iteration of the loop body up to and including `current_time++`. -/
def tick (E : Env) (s : SimState) : SimState :=
  let s1 := populate E touch_new s
  let s2 := manage_wait_queue (fun _ => s1.io_start_time) touch_done s1
  let s3 := handle_running E s2
  let s4 := schedule E s3
  { s4 with current_time := s4.current_time + 1 }

/-- The `while` loop; the second component tells whether the loop was left through the
`current_time > 100000` safety check. The fuel is only there for structural recursion: started
with `100001 - current_time` it is never exhausted. -/
def loop (E : Env) : Nat → SimState → SimState × Bool
  | 0, s => (s, true)
  | fuel + 1, s =>
    if loop_condition s = true then
      let s' := tick E s
      if s'.current_time > 100000 then (s', true) else loop E fuel s'
    else (s, false)

/-- The function `run_simulation(list_processes)` of EP: the final state (whose
`execution_status` is the table that is returned) and the time-out flag. -/
def run_simulation (E : Env) (list_processes : List PCB) : SimState × Bool :=
  loop E 100001 (init E list_processes)

end EP

/-! ## Code shared verbatim by the RR and EP_RR simulators -/

namespace Quantum

/-- STEP 1 of RR and EP_RR: the admitted process gets `state = READY`, `time_in_cpu = 0`. -/
def touch_new (p : PCB) : PCB := { p with state := States.READY, time_in_cpu := 0 }

/-- STEP 2 of RR and EP_RR: the process whose I/O is over gets `state = READY`,
`time_in_cpu = 0`. -/
def touch_done (p : PCB) : PCB := { p with state := States.READY, time_in_cpu := 0 }

/-- STEP 3, first three statements: `running.remaining_time--; running.time_in_cpu++;
quantum_remaining--;`. -/
def execute (s : SimState) : SimState :=
  { s with
    running := { s.running with
      remaining_time := udec s.running.remaining_time
      time_in_cpu := uinc s.running.time_in_cpu }
    quantum_remaining := udec s.quantum_remaining }

/-- STEP 3, the I/O check. -/
def io_check (E : Env) (s : SimState) : SimState :=
  if s.running.io_freq > 0 ∧ s.running.remaining_time > 0 then
    let total_cpu_time := usub s.running.processing_time s.running.remaining_time
    if total_cpu_time > 0 ∧ total_cpu_time % s.running.io_freq = 0 then
      let w : PCB := { s.running with state := States.WAITING, time_in_cpu := s.current_time }
      { s with
        wait_queue := s.wait_queue ++ [w]
        job_list := sync_queue s.job_list w
        execution_status := s.execution_status ++
          [Event.mk s.current_time w.PID States.RUNNING States.WAITING]
        running := E.idle_CPU w
        quantum_remaining := TIME_QUANTUM }
    else s
  else s

/-- STEP 3, the completion check
`if(running.remaining_time == 0 && running.state == RUNNING)`. -/
def completion_check (E : Env) (s : SimState) : SimState :=
  if s.running.remaining_time = 0 ∧ s.running.state = States.RUNNING then
    let t := terminate_process s.running s.job_list
    { s with
      execution_status := s.execution_status ++
        [Event.mk s.current_time s.running.PID States.RUNNING States.TERMINATED]
      job_list := t.2
      running := E.idle_CPU t.1
      quantum_remaining := TIME_QUANTUM }
  else s

/-- The body of the quantum-expiry preemption (identical in RR and EP_RR): the running process
becomes READY and is inserted at the front of the ready queue. -/
def preempt (E : Env) (s : SimState) : SimState :=
  let r : PCB := { s.running with state := States.READY, time_in_cpu := 0 }
  { s with
    ready_queue := r :: s.ready_queue
    job_list := sync_queue s.job_list r
    execution_status := s.execution_status ++
      [Event.mk s.current_time r.PID States.RUNNING States.READY]
    running := E.idle_CPU r
    quantum_remaining := TIME_QUANTUM }

end Quantum

/-! ## The RR simulator (`interrupts_101116888_101276841_RR.cpp`) -/

/-- The comparator of `fcfs_rr`: `first` goes before `second` when it arrived later. -/
def fcfs_rr_cmp (first second : PCB) : Bool :=
  decide (first.arrival_time > second.arrival_time)

/-- The function `fcfs_rr(ready_queue)`. -/
def fcfs_rr (E : Env) (ready_queue : List PCB) : List PCB :=
  E.sort fcfs_rr_cmp ready_queue

namespace RR

/-- STEP 3 of RR, the quantum check. -/
def quantum_check (E : Env) (s : SimState) : SimState :=
  if s.quantum_remaining = 0 ∧ s.running.state = States.RUNNING ∧ s.running.remaining_time > 0 then
    Quantum.preempt E s
  else s

/-- STEP 3 of RR. -/
def handle_running (E : Env) (s : SimState) : SimState :=
  if s.running.state = States.RUNNING then
    quantum_check E (Quantum.completion_check E (Quantum.io_check E (Quantum.execute s)))
  else s

/-- STEP 4 of RR. -/
def schedule (E : Env) (s : SimState) : SimState :=
  dispatch (fcfs_rr E) (fun _ => TIME_QUANTUM) s

/-- One iteration of the loop body up to and including `current_time++`. -/
def tick (E : Env) (s : SimState) : SimState :=
  let s1 := populate E Quantum.touch_new s
  let s2 := manage_wait_queue (fun p => p.time_in_cpu) Quantum.touch_done s1
  let s3 := handle_running E s2
  let s4 := schedule E s3
  { s4 with current_time := s4.current_time + 1 }

/-- The `while` loop of RR (see `EP.loop`). -/
def loop (E : Env) : Nat → SimState → SimState × Bool
  | 0, s => (s, true)
  | fuel + 1, s =>
    if loop_condition s = true then
      let s' := tick E s
      if s'.current_time > 100000 then (s', true) else loop E fuel s'
    else (s, false)

/-- The function `run_simulation(list_processes)` of RR. -/
def run_simulation (E : Env) (list_processes : List PCB) : SimState × Bool :=
  loop E 100001 (init E list_processes)

end RR

/-! ## The EP_RR simulator (`interrupts_101116888_101276841_EP_RR.cpp`) -/

/-- The comparator of `ep_rr_schedule`. -/
def ep_rr_schedule_cmp (first second : PCB) : Bool :=
  if first.priority ≠ second.priority then decide (first.priority > second.priority)
  else decide (first.arrival_time > second.arrival_time)

/-- The function `ep_rr_schedule(ready_queue)`. -/
def ep_rr_schedule (E : Env) (ready_queue : List PCB) : List PCB :=
  E.sort ep_rr_schedule_cmp ready_queue

/-- The function `should_preempt(running, ready_queue)`. -/
def should_preempt (running : PCB) (ready_queue : List PCB) : Bool :=
  match ready_queue.getLast? with
  | none => false
  | some back =>
    if running.state ≠ States.RUNNING then false
    else decide (back.priority < running.priority)

namespace EP_RR

/-- STEP 2.5 of EP_RR. `still_waiting` is the local vector of STEP 2; when STEP 2.5 runs,
`wait_queue = still_waiting` has already been executed, so `s.wait_queue` is that same vector. -/
def check_preemption (E : Env) (new_arrival : Bool) (still_waiting : List PCB) (s : SimState) :
    SimState :=
  if new_arrival = true ∨ still_waiting.length ≠ s.wait_queue.length then
    let rq := ep_rr_schedule E s.ready_queue
    if should_preempt s.running rq = true then
      let r : PCB := { s.running with state := States.READY, time_in_cpu := 0 }
      { s with
        ready_queue := r :: rq
        job_list := sync_queue s.job_list r
        execution_status := s.execution_status ++
          [Event.mk s.current_time r.PID States.RUNNING States.READY]
        running := E.idle_CPU r
        quantum_remaining := TIME_QUANTUM }
    else { s with ready_queue := rq }
  else s

/-- STEP 3 of EP_RR, the quantum check. -/
def quantum_check (E : Env) (s : SimState) : SimState :=
  if s.quantum_remaining = 0 ∧ s.running.state = States.RUNNING ∧ s.running.remaining_time > 0 then
    if s.ready_queue.any (fun proc => decide (proc.priority = s.running.priority)) = true then
      Quantum.preempt E s
    else { s with quantum_remaining := TIME_QUANTUM }
  else s

/-- STEP 3 of EP_RR. -/
def handle_running (E : Env) (s : SimState) : SimState :=
  if s.running.state = States.RUNNING then
    quantum_check E (Quantum.completion_check E (Quantum.io_check E (Quantum.execute s)))
  else s

/-- STEP 4 of EP_RR. -/
def schedule (E : Env) (s : SimState) : SimState :=
  dispatch (ep_rr_schedule E) (fun _ => TIME_QUANTUM) s

/-- STEPS 1 to 2.5 of EP_RR. -/
def arrivals (E : Env) (s : SimState) : SimState :=
  let new_arrival : Bool :=
    !(admitted E Quantum.touch_new s.current_time 0 s.list_processes).isEmpty
  let s1 := populate E Quantum.touch_new s
  let s2 := manage_wait_queue (fun p => p.time_in_cpu) Quantum.touch_done s1
  check_preemption E new_arrival s2.wait_queue s2

/-- One iteration of the loop body up to and including `current_time++`. -/
def tick (E : Env) (s : SimState) : SimState :=
  let s3 := handle_running E (arrivals E s)
  let s4 := schedule E s3
  { s4 with current_time := s4.current_time + 1 }

/-- The `while` loop of EP_RR (see `EP.loop`). -/
def loop (E : Env) : Nat → SimState → SimState × Bool
  | 0, s => (s, true)
  | fuel + 1, s =>
    if loop_condition s = true then
      let s' := tick E s
      if s'.current_time > 100000 then (s', true) else loop E fuel s'
    else (s, false)

/-- The function `run_simulation(list_processes)` of EP_RR. -/
def run_simulation (E : Env) (list_processes : List PCB) : SimState × Bool :=
  loop E 100001 (init E list_processes)

end EP_RR

/-! ## A concrete environment -/

/-- Insertion of `a` into a list sorted for `comp`, before the first element that does not have
to come before `a`. -/
def insert_sorted (comp : PCB → PCB → Bool) (a : PCB) : List PCB → List PCB
  | [] => [a]
  | b :: l => if comp b a = true then b :: insert_sorted comp a l else a :: b :: l

/-- A sorting function that meets the contract of `std::sort`: stable insertion sort. -/
def insertion_sort (comp : PCB → PCB → Bool) : List PCB → List PCB
  | [] => []
  | a :: l => insert_sorted comp a (insertion_sort comp l)

/-- The placeholder left in `running` by `idle_CPU` in the concrete environment: no process
(PID -1), all counters zero. -/
def idle_pcb : PCB :=
  ⟨-1, 0, 0, 0, 0, 0, States.NOT_ASSIGNED, 0, 0, 0⟩

/-- An environment in which every admission is granted. -/
def grant_all : Env :=
  { sort := insertion_sort
    assign_memory := fun _ _ => true
    idle_CPU := fun _ => idle_pcb }

/-- A freshly loaded process: `start_time = -1`, `remaining_time = processing_time`. -/
def mk_process (pid : Int) (arrival burst io_freq io_duration size : Nat) : PCB :=
  ⟨pid, size, arrival, -1, burst, burst, States.NOT_ASSIGNED, io_freq, io_duration, 0⟩

/-- The workload of the concrete scenario of the specification: P1(arrival 0, burst 5, size 5),
P2(arrival 0, burst 5, size 1), P3(arrival 2, burst 3, size 3), none with I/O. -/
def scenario : List PCB :=
  [mk_process 1 0 5 0 0 5, mk_process 2 0 5 0 0 1, mk_process 3 2 3 0 0 3]

/-- The state of the scenario at tick 0 just before STEP 4: P1 and P2 are ready, the CPU is
idle. -/
def scenario_before_dispatch : SimState :=
  manage_wait_queue (fun p => p.time_in_cpu) Quantum.touch_done
    (populate grant_all Quantum.touch_new (init grant_all scenario))

/-- The two-process workload of the specification's preemption property: A (PID 1, size 10,
arrival 0, burst 5) and B (PID 2, size 5, arrival 2, burst 3). -/
def preemption_scenario : List PCB :=
  [mk_process 1 0 5 0 0 10, mk_process 2 2 3 0 0 5]

/-- The state of EP_RR on `preemption_scenario` when tick 2 begins: A is RUNNING, B is about to
arrive. -/
def preemption_scenario_tick2 : SimState :=
  EP_RR.tick grant_all (EP_RR.tick grant_all (init grant_all preemption_scenario))

/-- A workload with two processes of the same size: PID 1 (arrival 0, burst 150) and PID 2
(arrival 1, burst 10), no I/O. -/
def expiry_scenario : List PCB :=
  [mk_process 1 0 150 0 0 5, mk_process 2 1 10 0 0 5]

/-- The state after `n` iterations of a loop body `tick` (stopping at the safety check). -/
def after_ticks (tick : SimState → SimState) : Nat → SimState → SimState
  | 0, s => s
  | n + 1, s =>
    let s' := tick s
    if s'.current_time > 100000 then s' else after_ticks tick n s'

/-- The state of EP_RR on `expiry_scenario` when tick 100 begins. -/
def expiry_scenario_tick100 : SimState :=
  after_ticks (EP_RR.tick grant_all) 100 (init grant_all expiry_scenario)

/-- A workload in which the higher-priority process does I/O: PID 1 (size 1, burst 4, I/O every
2 ticks for 5 ticks) and PID 2 (size 5, burst 20, no I/O), both arriving at tick 0. -/
def io_return_scenario : List PCB :=
  [mk_process 1 0 4 2 5 1, mk_process 2 0 20 0 0 5]

/-- A workload of two processes of the same size in which the first to arrive needs more than
one quantum: PID 1 (arrival 0, burst 101) and PID 2 (arrival 1, burst 1), no I/O. -/
def rotation_scenario : List PCB :=
  [mk_process 1 0 101 0 0 1, mk_process 2 1 1 0 0 1]

/-! ## Auxiliary notions used in the statements -/

/-- The processes admitted by STEP 1 of RR and EP_RR in state `s`. -/
def Quantum.arrived (E : Env) (s : SimState) : List PCB :=
  admitted E Quantum.touch_new s.current_time 0 s.list_processes

/-- The processes whose I/O wait ends at STEP 2 of RR and EP_RR in state `s`. -/
def Quantum.io_done (s : SimState) : List PCB :=
  (s.wait_queue.filter
    (fun p => decide (usub s.current_time p.time_in_cpu ≥ p.io_duration))).map Quantum.touch_done

/-- The ready queue of RR and EP_RR after STEPS 1 and 2 in state `s`: the old queue, then the
new arrivals, then the processes back from I/O. -/
def Quantum.ready_after_arrivals (E : Env) (s : SimState) : List PCB :=
  s.ready_queue ++ Quantum.arrived E s ++ Quantum.io_done s

/-- The rows printed by STEPS 1 and 2 of RR and EP_RR in state `s`. -/
def Quantum.rows_of_arrivals (E : Env) (s : SimState) : List Event :=
  (Quantum.arrived E s).map (fun p => Event.mk s.current_time p.PID States.NEW States.READY) ++
  (Quantum.io_done s).map (fun p => Event.mk s.current_time p.PID States.WAITING States.READY)

/-- The condition under which the I/O check of STEP 3 sends the process `r` (already charged for
the current tick) to the wait queue. -/
def io_due (r : PCB) : Prop :=
  (r.io_freq > 0 ∧ r.remaining_time > 0) ∧
    (usub r.processing_time r.remaining_time > 0 ∧
      usub r.processing_time r.remaining_time % r.io_freq = 0)

/-- The running process of RR and EP_RR after the three statements that open STEP 3. -/
def Quantum.charged (r : PCB) : PCB :=
  { r with remaining_time := udec r.remaining_time, time_in_cpu := uinc r.time_in_cpu }

instance (r : PCB) : Decidable (io_due r) := by
  unfold io_due
  exact inferInstance

/-- The running process of EP after the statement that opens STEP 3. -/
def EP.charged (r : PCB) : PCB :=
  { r with remaining_time := udec r.remaining_time }

/-- The vector is in strictly sorted order for `comp`: every element has to come before every
later one. -/
def strictly_sorted (comp : PCB → PCB → Bool) : List PCB → Bool
  | [] => true
  | a :: l => l.all (fun b => comp a b) && strictly_sorted comp l

/-- Two states that differ at most in what the idle running slot holds. -/
def Agree (s s' : SimState) : Prop :=
  s.list_processes = s'.list_processes ∧ s.ready_queue = s'.ready_queue ∧
  s.wait_queue = s'.wait_queue ∧ s.job_list = s'.job_list ∧
  s.current_time = s'.current_time ∧ s.io_start_time = s'.io_start_time ∧
  s.quantum_remaining = s'.quantum_remaining ∧ s.execution_status = s'.execution_status ∧
  (s.running = s'.running ∨
    (s.running.state = States.NOT_ASSIGNED ∧ s'.running.state = States.NOT_ASSIGNED))

/-- The tick of EP in state `s` does not depend on the choices the environment `E` is free to
make: the running process does not start I/O (so the completion check is not evaluated on the
idle slot) and, if a dispatch takes place, the sorted ready queue is in strictly sorted order (so
every sorting function returns it). -/
def EP.tick_determined (E : Env) (s : SimState) : Bool :=
  let s2 := manage_wait_queue (fun _ => s.io_start_time) EP.touch_done (populate E EP.touch_new s)
  let s3 := EP.handle_running E s2
  decide (s2.running.state = States.RUNNING → ¬ io_due (EP.charged s2.running)) &&
  decide (s3.running.state = States.NOT_ASSIGNED ∧ s3.ready_queue ≠ [] →
    strictly_sorted external_priorities_cmp (external_priorities E s3.ready_queue) = true)

/-- Every tick of the run of EP from `s` is determined in the sense of `EP.tick_determined`. -/
def EP.run_determined (E : Env) : Nat → SimState → Bool
  | 0, _ => true
  | fuel + 1, s =>
    if loop_condition s = true then
      EP.tick_determined E s &&
        (if (EP.tick E s).current_time > 100000 then true
         else EP.run_determined E fuel (EP.tick E s))
    else true

/-- The rows a step `f` adds to the execution table of `s`. -/
def rows_added (f : SimState → SimState) (s : SimState) : List Event :=
  (f s).execution_status.drop s.execution_status.length

/-- The row is a preemption: RUNNING -> READY. -/
def Event.is_preemption (e : Event) : Prop :=
  e.old_state = States.RUNNING ∧ e.new_state = States.READY

/-! ## Invariants of the simulation -/

/-- The fields of a process that no simulator ever assigns: PID, priority (size), arrival time,
total burst, I/O frequency and I/O duration. -/
def PCB.static (p : PCB) : Int × Nat × Nat × Nat × Nat × Nat :=
  (p.PID, p.priority, p.arrival_time, p.processing_time, p.io_freq, p.io_duration)

/-- The PIDs of the processes of a vector. -/
def pids (l : List PCB) : List Int := l.map (fun p => p.PID)

/-- The process on the CPU, if any. -/
def on_cpu (s : SimState) : List PCB :=
  if s.running.state = States.RUNNING then [s.running] else []

/-- The processes that are in the ready queue, in the wait queue or on the CPU. -/
def live (s : SimState) : List PCB := s.ready_queue ++ s.wait_queue ++ on_cpu s

/-- The structural invariant of the three simulators at arrival bound `b` (the current tick at
the top of the loop body, the next tick once STEP 1 has run): the running slot holds a RUNNING
process or none; no PID occurs twice among the ready queue, the wait queue and the CPU; no PID
occurs twice in `list_processes`; every process in a queue or on the CPU is an entry of
`list_processes` (up to the fields the simulators assign) that arrived before `b`. -/
structure Inv (b : Nat) (s : SimState) : Prop where
  slot : s.running.state = States.RUNNING ∨ s.running.state = States.NOT_ASSIGNED
  nodup_live : (pids (live s)).Nodup
  nodup_list : (pids s.list_processes).Nodup
  arrived : ∀ p ∈ live s, p.static ∈ s.list_processes.map PCB.static ∧ p.arrival_time < b

/-- The `while` loop of `run_simulation`, which is the same text in the three files, over an
arbitrary loop body. -/
def run_loop (tick : SimState → SimState) : Nat → SimState → SimState × Bool
  | 0, s => (s, true)
  | fuel + 1, s =>
    if loop_condition s = true then
      let s' := tick s
      if s'.current_time > 100000 then (s', true) else run_loop tick fuel s'
    else (s, false)

/-! ## Reading the execution table -/

/-- The row is a dispatch: READY -> RUNNING. -/
def Event.is_dispatch (e : Event) : Prop :=
  e.old_state = States.READY ∧ e.new_state = States.RUNNING

instance (e : Event) : Decidable e.is_dispatch := by
  unfold Event.is_dispatch
  exact inferInstance

instance (e : Event) : Decidable e.is_preemption := by
  unfold Event.is_preemption
  exact inferInstance

/-- The row takes a process off the CPU because it blocks or ends: RUNNING -> WAITING or
RUNNING -> TERMINATED. -/
def Event.is_release (e : Event) : Prop :=
  e.old_state = States.RUNNING ∧
    (e.new_state = States.WAITING ∨ e.new_state = States.TERMINATED)

instance (e : Event) : Decidable e.is_release := by
  unfold Event.is_release
  exact inferInstance

/-- The PID of the process on the CPU, if any. -/
def cpu (s : SimState) : Option Int :=
  if s.running.state = States.RUNNING then some s.running.PID else none

/-- A reader of the execution table for the no-preemption discipline. Its state is the PID it
believes to be on the CPU; it gives up (`none`) on a preemption row, on a dispatch while the CPU
is taken, and on a row for the process on the CPU that is not a release. -/
def no_preempt_watch : Option (Option Int) → Event → Option (Option Int)
  | none, _ => none
  | some none, e =>
    if e.is_preemption then none
    else if e.is_dispatch then some (some e.PID) else some none
  | some (some p), e =>
    if e.is_preemption ∨ e.is_dispatch then none
    else if e.PID = p then (if e.is_release then some none else none)
    else some (some p)

/-- The job list has an entry for `pid` that is not TERMINATED. -/
def Tracked (job_list : List PCB) (pid : Int) : Prop :=
  ∃ j ∈ job_list, j.PID = pid ∧ j.state ≠ States.TERMINATED

/-- The registry invariant: every process in a queue or on the CPU has an entry in the job list
that is not TERMINATED (so the loop condition holds as long as such a process exists). -/
def JobInv (s : SimState) : Prop :=
  ∀ p ∈ live s, Tracked s.job_list p.PID

/-- The row takes a process off the CPU: RUNNING -> READY, RUNNING -> WAITING or
RUNNING -> TERMINATED. -/
def Event.is_exit (e : Event) : Prop :=
  e.old_state = States.RUNNING ∧
    (e.new_state = States.READY ∨ e.new_state = States.WAITING ∨
      e.new_state = States.TERMINATED)

instance (e : Event) : Decidable e.is_exit := by
  unfold Event.is_exit
  exact inferInstance

/-- The row `x` ends a RUNNING segment that began at tick `d` within the quantum: it takes the
process off the CPU at a tick not later than `d + 100`, and if it is a preemption it does so
exactly at tick `d + 100`. -/
def Event.ends_segment (x : Event) (d : Nat) : Prop :=
  x.is_exit ∧ x.time ≤ d + 100 ∧ (x.new_state = States.READY → x.time = d + 100)

instance (x : Event) (d : Nat) : Decidable (x.ends_segment d) := by
  unfold Event.ends_segment
  exact inferInstance

/-- A reader of the execution table for the quantum discipline. Its state is the PID it believes
to be on the CPU together with the tick of its dispatch; it gives up (`none`) on a dispatch while
the CPU is taken and on a row for the process on the CPU that does not end its segment within
the quantum. -/
def quantum_watch : Option (Option (Int × Nat)) → Event → Option (Option (Int × Nat))
  | none, _ => none
  | some none, e => if e.is_dispatch then some (some (e.PID, e.time)) else some none
  | some (some (p, d)), e =>
    if e.is_dispatch then none
    else if e.PID = p then (if e.ends_segment d then some none else none)
    else some (some (p, d))

/-- The reader `quantum_watch` is in step with the state `s`: if a process is RUNNING, the
reader has it on the CPU since a tick `d` with `d + 100 + k = current_time +
quantum_remaining`, and the quantum is not used up; otherwise the reader has the CPU idle.
`k` is 1 at the top of the loop body and 0 between STEP 3 and `current_time++`. -/
def QuantumInv (k : Nat) (s : SimState) : Prop :=
  if s.running.state = States.RUNNING then
    ∃ d, s.execution_status.foldl quantum_watch (some none) = some (some (s.running.PID, d)) ∧
      d + 100 + k = s.current_time + s.quantum_remaining ∧ 1 ≤ s.quantum_remaining
  else s.execution_status.foldl quantum_watch (some none) = some none

/-! ## CPU time according to the execution table -/

/-- Reading one row for the process `pid`: a READY -> RUNNING row opens a segment at its tick, a
later RUNNING -> x row of the process closes it and adds its length to the total. The state is
the tick at which the open segment began (if one is open) and the total so far. -/
def segment_step (pid : Int) (acc : Option Nat × Nat) (e : Event) : Option Nat × Nat :=
  if e.PID = pid then
    if e.is_dispatch then (some e.time, acc.2)
    else if e.old_state = States.RUNNING then
      match acc.1 with
      | some d => (none, acc.2 + (e.time - d))
      | none => (none, acc.2)
    else acc
  else acc

/-- The open segment and the total of the closed segments of `pid` in the table `rows`. -/
def account (pid : Int) (rows : List Event) : Option Nat × Nat :=
  rows.foldl (segment_step pid) (none, 0)

/-- The number of ticks `pid` spends RUNNING according to the table: the sum, over each
READY -> RUNNING row of `pid` at tick `d` and the following RUNNING -> x row of `pid` at tick `e`,
of `e - d`. -/
def running_ticks (pid : Int) (rows : List Event) : Nat :=
  (account pid rows).2

/-- The process was admitted: the table has a NEW -> READY row for `pid`. -/
def was_admitted (pid : Int) (rows : List Event) : Prop :=
  ∃ e ∈ rows, e.PID = pid ∧ e.old_state = States.NEW ∧ e.new_state = States.READY

/-- A process loaded with burst 0: until it first runs its remaining time is 0 (`m = 1` marks
the phases in which that is possible for the process on the CPU); once it has run, the decrement
has wrapped and the remaining time stays above `2^32 - 1 - current_time`. -/
def Doomed (k m c : Nat) (p : PCB) : Prop :=
  p.processing_time = 0 ∧
    ((m = 1 ∧ p.remaining_time = 0) ∨ 4294967295 + k ≤ p.remaining_time + c + 1)

/-- The books of a process in the ready queue or the wait queue: no segment is open, and the
ticks counted plus the remaining time make up the burst (or the process is `Doomed`). -/
def Parked (k c : Nat) (a : Option Nat × Nat) (p : PCB) : Prop :=
  a.1 = none ∧
    ((1 ≤ p.remaining_time ∧ a.2 + p.remaining_time = p.processing_time) ∨ Doomed k 1 c p)

/-- The books of the process on the CPU: a segment is open since a tick `d`, and the ticks
counted, the ticks of the open segment that have been executed and the remaining time make up
the burst (or the process is `Doomed`). `k` is 1 from `current_time++` to the execution of the
running process and 0 from there to `current_time++`; `m` is 0 between the decrement and the
completion check and 1 otherwise. -/
def OnCpu (k m c : Nat) (a : Option Nat × Nat) (p : PCB) : Prop :=
  ∃ d, a.1 = some d ∧ d + k ≤ c ∧
    ((m ≤ p.remaining_time ∧ a.2 + (c - k - d) + p.remaining_time = p.processing_time) ∨
      Doomed k m c p)

/-- The accounting invariant at arrival bound `b` in phase `(k, m)`. -/
structure AcctInv (b k m : Nat) (s : SimState) : Prop where
  parked : ∀ p ∈ s.ready_queue ++ s.wait_queue,
    Parked k s.current_time (account p.PID s.execution_status) p
  on_cpu : s.running.state = States.RUNNING →
    OnCpu k m s.current_time (account s.running.PID s.execution_status) s.running
  settled : ∀ q ∈ s.list_processes, (∃ e ∈ s.execution_status, e.PID = q.PID) →
    q.PID ∈ pids (live s) ∨ account q.PID s.execution_status = (none, q.processing_time)
  rows_arrived : ∀ e ∈ s.execution_status, ∀ q ∈ s.list_processes,
    q.PID = e.PID → q.arrival_time < b
  loaded : ∀ q ∈ s.list_processes, q.remaining_time = q.processing_time

/-- The loop over an arbitrary body with a check `ok` of the state at the top of every iteration
that is executed. -/
def run_checked (ok : SimState → Bool) (tick : SimState → SimState) : Nat → SimState → Bool
  | 0, _ => true
  | fuel + 1, s =>
    if loop_condition s = true then
      ok s && (if (tick s).current_time > 100000 then true
               else run_checked ok tick fuel (tick s))
    else true

/-- STEP 2.5 of EP_RR preempts in state `s`. -/
def EP_RR.preempts_on_arrival (E : Env) (s : SimState) : Bool :=
  (rows_added (EP_RR.arrivals E) s).any (fun e => decide e.is_preemption)

/-- A workload whose second process arrives long after the first has terminated: PID 1
(arrival 0, burst 5) and PID 2 (arrival 100, burst 5), no I/O. -/
def late_arrival_scenario : List PCB :=
  [mk_process 1 0 5 0 0 1, mk_process 2 100 5 0 0 1]

/-! ## Processes that arrive together with the same burst (RR) -/

/-- The row is a termination: RUNNING -> TERMINATED. -/
def Event.is_termination (e : Event) : Prop :=
  e.old_state = States.RUNNING ∧ e.new_state = States.TERMINATED

instance (e : Event) : Decidable e.is_termination := by
  unfold Event.is_termination
  exact inferInstance

/-- The NEW -> READY rows of tick `T` for the workload `l`, in the order of the input. -/
def admission_rows (T : Nat) (l : List PCB) : List Event :=
  l.map (fun p => Event.mk T p.PID States.NEW States.READY)

/-- Back-to-back RUNNING segments of length `b` from tick `t` on for the PIDs `order`: for each
PID in turn its READY -> RUNNING row and, `b` ticks later, its RUNNING -> TERMINATED row, at the
tick at which the next PID is dispatched. -/
def back_to_back (b : Nat) : Nat → List Int → List Event
  | _, [] => []
  | t, pid :: rest =>
    Event.mk t pid States.READY States.RUNNING ::
      Event.mk (t + b) pid States.RUNNING States.TERMINATED :: back_to_back b (t + b) rest

/-- A workload whose only process arrives at the last tick the loop executes: PID 1
(arrival 100000, burst 1), no I/O. -/
def last_tick_scenario : List PCB :=
  [mk_process 1 100000 1 0 0 1]

namespace Lockstep

/-- RR on a workload `l` whose processes all arrive at tick `T`: the state at the top of the loop
body up to tick `T`; nothing has happened yet. -/
def Before (l : List PCB) (T : Nat) (s : SimState) : Prop :=
  s.current_time ≤ T ∧ s.list_processes = l ∧ s.ready_queue = [] ∧ s.wait_queue = [] ∧
    s.job_list = [] ∧ s.running.state = States.NOT_ASSIGNED ∧ s.execution_status = []

/-- RR on a workload `l` whose processes all arrive at tick `T` with burst `b` and no I/O: the
state at the top of the loop body while a process is on the CPU. The processes with PIDs `done`
have run to completion one after the other, the running process was dispatched when the last of
them terminated and terminates when its remaining time is used up, before its quantum. -/
def Running (l : List PCB) (T b : Nat) (s : SimState) : Prop :=
  ∃ done : List Int,
    T < s.current_time ∧ s.wait_queue = [] ∧
    (∀ p ∈ s.list_processes, p.arrival_time = T) ∧
    s.running.state = States.RUNNING ∧ s.running.io_freq = 0 ∧
    1 ≤ s.running.remaining_time ∧ s.running.remaining_time ≤ s.quantum_remaining ∧
    s.current_time + s.running.remaining_time = T + (done.length + 1) * b + 1 ∧
    (∀ p ∈ s.ready_queue, p.remaining_time = b ∧ p.io_freq = 0) ∧
    (done ++ s.running.PID :: pids s.ready_queue).Perm (pids l) ∧
    s.execution_status = admission_rows T l ++ back_to_back b T done ++
      [Event.mk (T + done.length * b) s.running.PID States.READY States.RUNNING]

/-- RR on a workload `l` whose processes all arrive at tick `T` with burst `b` and no I/O: the
state at the top of the loop body once every process has run to completion. -/
def Finished (l : List PCB) (T b : Nat) (s : SimState) : Prop :=
  ∃ done : List Int,
    T + done.length * b < s.current_time ∧ s.ready_queue = [] ∧ s.wait_queue = [] ∧
    (∀ p ∈ s.list_processes, p.arrival_time = T) ∧
    s.running.state = States.NOT_ASSIGNED ∧ done.Perm (pids l) ∧
    s.execution_status = admission_rows T l ++ back_to_back b T done

/-- The invariant of the loop of RR on such a workload. -/
def Phase (l : List PCB) (T b : Nat) (s : SimState) : Prop :=
  s.current_time ≤ 100001 ∧ Inv s.current_time s ∧ JobInv s ∧
    (Before l T s ∨ Running l T b s ∨ Finished l T b s)

end Lockstep

/-- Three processes that arrive together at tick 3 with the same burst 2, no I/O. -/
def equal_bursts_scenario : List PCB :=
  [mk_process 1 3 2 0 0 1, mk_process 2 3 2 0 0 1, mk_process 3 3 2 0 0 1]

/-- A workload in which two processes wait for I/O at the same time: PID 1 (size 1, burst 6, I/O
every 2 ticks for 10 ticks) and PID 2 (size 2, burst 6, I/O every 3 ticks for 1 tick), both
arriving at tick 0. -/
def overlapping_io_scenario : List PCB :=
  [mk_process 1 0 6 2 10 1, mk_process 2 0 6 3 1 2]

/-- An environment whose allocator refuses the second entry of the input at tick 1 and grants
every other request (in particular that of the second entry at tick 2). -/
def refuse_once : Env :=
  { sort := insertion_sort
    assign_memory := fun t i => !(t == 1 && i == 1)
    idle_CPU := fun _ => idle_pcb }

/-- A workload whose second process arrives while the first is running: PID 1 (arrival 0,
burst 5) and PID 2 (arrival 1, burst 5), no I/O. -/
def retry_scenario : List PCB :=
  [mk_process 1 0 5 0 0 1, mk_process 2 1 5 0 0 1]

/-! ## Termination of the loop -/

/-- The state `s'` is reached from `s` within one tick: the clock has not moved and every row
that was printed carries the current tick. -/
def Within (s s' : SimState) : Prop :=
  s'.current_time = s.current_time ∧
    ∀ e ∈ s'.execution_status, e ∈ s.execution_status ∨ e.time = s.current_time

/-- The `while` loop `loop` started in `s0` stops within the safety ceiling: the result does not
depend on the fuel of the model once there is fuel for 100001 iterations; the loop is left
either through its condition, the registry being non-empty with all its processes TERMINATED, or
through the safety check, `current_time` then being 100001; at most the ticks 0 to 100000 are
simulated and every row of the execution table carries a tick of at most 100000. -/
def stops_within_ceiling (loop : Nat → SimState → SimState × Bool) (s0 : SimState) : Prop :=
  (∀ fuel, 100001 ≤ fuel → loop fuel s0 = loop 100001 s0) ∧
  ((loop 100001 s0).2 = false →
    (loop 100001 s0).1.job_list ≠ [] ∧
      all_process_terminated (loop 100001 s0).1.job_list = true) ∧
  ((loop 100001 s0).2 = true → (loop 100001 s0).1.current_time = 100001) ∧
  (loop 100001 s0).1.current_time ≤ 100001 ∧
  ∀ e ∈ (loop 100001 s0).1.execution_status, e.time ≤ 100000

/-! ## Conservation of admitted processes -/

/-- The registry is conserved in state `s`: an entry is TERMINATED only if the table has a
RUNNING -> TERMINATED row with its PID, and every PID with a NEW -> READY row has an entry. -/
def Conserved (s : SimState) : Prop :=
  (∀ j ∈ s.job_list, j.state = States.TERMINATED →
    ∃ e ∈ s.execution_status, e.PID = j.PID ∧ e.is_termination) ∧
  (∀ pid, was_admitted pid s.execution_status → pid ∈ pids s.job_list)

/-- The step from `s` to `s'` keeps the registry conserved: the table only grows, every new
NEW -> READY row is for a PID in the registry, no PID leaves the registry, and an entry that is
new or changed is either not TERMINATED or has its RUNNING -> TERMINATED row. -/
def Registers (s s' : SimState) : Prop :=
  (∃ rows, s'.execution_status = s.execution_status ++ rows ∧
    ∀ e ∈ rows, e.old_state = States.NEW → e.PID ∈ pids s'.job_list) ∧
  (∀ j ∈ s'.job_list, j ∈ s.job_list ∨ j.state ≠ States.TERMINATED ∨
    ∃ e ∈ s'.execution_status, e.PID = j.PID ∧ e.is_termination) ∧
  (∀ pid ∈ pids s.job_list, pid ∈ pids s'.job_list)

/-- The outcome of a run that was left through the loop condition is conservative: every PID
with a NEW -> READY row in the table also has a RUNNING -> TERMINATED row, has an entry in the
registry, and every entry of the registry is TERMINATED. -/
def all_admitted_terminated (s : SimState) : Prop :=
  ∀ pid, was_admitted pid s.execution_status →
    (∃ e ∈ s.execution_status, e.PID = pid ∧ e.is_termination) ∧
    (∃ j ∈ s.job_list, j.PID = pid) ∧
    ∀ j ∈ s.job_list, j.state = States.TERMINATED

/-! ## Disciplines: properties of the rows of each process

Most properties of the execution table concern the rows of one process at a time. A
`Discipline` says what has to hold of the rows of a process depending on where the process is
(ready queue, wait queue, CPU, or gone), and `Sound` lists what each kind of transition of the
simulators requires of it. -/

/-- The rows of `pid` in the table. -/
def rows_of (pid : Int) (rows : List Event) : List Event :=
  rows.filter (fun e => decide (e.PID = pid))

/-- The fields of a process that its progress depends on: the static fields, the remaining
time and the start time (not `state` and `time_in_cpu`). -/
def PCB.core (p : PCB) : (Int × Nat × Nat × Nat × Nat × Nat) × Nat × Int :=
  (p.static, p.remaining_time, p.start_time)

/-- The process `p` is `r` after `running.remaining_time--`. -/
def Charged (r p : PCB) : Prop :=
  p.static = r.static ∧ p.remaining_time = udec r.remaining_time ∧
    p.start_time = r.start_time

/-- A property of the rows of each process: `ready c h p` for a process `p` with rows `h` in the
ready queue at tick `c`, `waiting k c h p` for one in the wait queue (`k` is 1 from
`current_time++` to STEP 2 and 0 from STEP 2 to `current_time++`), `cpu c h p` for the process on
the CPU, `done h q` for a process that has terminated, and `load q` for what is assumed of a
process of the input. -/
structure Discipline where
  ready : Nat → List Event → PCB → Prop
  waiting : Nat → Nat → List Event → PCB → Prop
  cpu : Nat → List Event → PCB → Prop
  done : List Event → PCB → Prop
  load : PCB → Prop

/-- What the transitions of the simulators require of a discipline. With `stamp = true` the
simulator records the start of an I/O wait in `time_in_cpu` and releases a waiting process when
`current_time - time_in_cpu >= io_duration` (RR, EP_RR); with `stamp = false` nothing is known
about the moment of release (EP). -/
structure Sound (D : Discipline) (stamp : Bool) : Prop where
  arrive : ∀ c q p, D.load q → q.arrival_time = c → p.core = q.core →
    D.ready c [Event.mk c q.PID States.NEW States.READY] p
  release : ∀ c h w p, D.waiting 1 c h w →
    (stamp = true → usub c w.time_in_cpu ≥ w.io_duration) → p.core = w.core →
    D.ready c (h ++ [Event.mk c w.PID States.WAITING States.READY]) p
  hold : ∀ c h w, D.waiting 1 c h w →
    (stamp = true → ¬ usub c w.time_in_cpu ≥ w.io_duration) → D.waiting 0 c h w
  preempt : ∀ c h r p, D.cpu c h r → p.core = r.core →
    D.ready c (h ++ [Event.mk c r.PID States.RUNNING States.READY]) p
  run_on : ∀ c h r p, D.cpu c h r → Charged r p → ¬ io_due p → p.remaining_time ≠ 0 →
    D.cpu c h p
  block : ∀ c h r w, D.cpu c h r → Charged r w → io_due w →
    (stamp = true → w.time_in_cpu = c) →
    D.waiting 0 c (h ++ [Event.mk c r.PID States.RUNNING States.WAITING]) w
  expire : ∀ c h r p, D.cpu c h r → Charged r p → ¬ io_due p → p.remaining_time ≠ 0 →
    D.ready c (h ++ [Event.mk c r.PID States.RUNNING States.READY]) p
  finish : ∀ c h r q, D.cpu c h r → udec r.remaining_time = 0 → q.static = r.static →
    D.done (h ++ [Event.mk c r.PID States.RUNNING States.TERMINATED]) q
  dispatch : ∀ c h p r, D.ready c h p → r.static = p.static →
    r.remaining_time = p.remaining_time →
    r.start_time = (if p.start_time = -1 then (c : Int) else p.start_time) →
    D.cpu c (h ++ [Event.mk c p.PID States.READY States.RUNNING]) r
  tick_ready : ∀ c h p, D.ready c h p → D.ready (c + 1) h p
  tick_waiting : ∀ c h w, D.waiting 0 c h w → D.waiting 1 (c + 1) h w
  tick_cpu : ∀ c h r, D.cpu c h r → D.cpu (c + 1) h r

/-- The discipline `D` holds in state `s` at arrival bound `b` (see `Inv`) in phase `k`: of
every process in a queue or on the CPU with its rows so far; a process of the input that is
neither in a queue nor on the CPU has no row or is done; a process that has not arrived has no
row and is as loaded. -/
structure Holds (D : Discipline) (b k : Nat) (s : SimState) : Prop where
  ready : ∀ p ∈ s.ready_queue,
    D.ready s.current_time (rows_of p.PID s.execution_status) p
  waiting : ∀ p ∈ s.wait_queue,
    D.waiting k s.current_time (rows_of p.PID s.execution_status) p
  cpu : s.running.state = States.RUNNING →
    D.cpu s.current_time (rows_of s.running.PID s.execution_status) s.running
  out : ∀ q ∈ s.list_processes, q.PID ∉ pids (live s) →
    rows_of q.PID s.execution_status = [] ∨ D.done (rows_of q.PID s.execution_status) q
  fresh : ∀ q ∈ s.list_processes, b ≤ q.arrival_time →
    rows_of q.PID s.execution_status = [] ∧ D.load q

/-- The invariant of the loop for a discipline `D` on the workload `l`, at the top of the loop
body: the structural invariant, the registry invariant, the discipline, and the roster is the
workload up to the fields the simulators assign. -/
def Run (D : Discipline) (l : List PCB) (s : SimState) : Prop :=
  Inv s.current_time s ∧ JobInv s ∧ Holds D s.current_time 1 s ∧
    s.list_processes.map PCB.static = l.map PCB.static

/-! ## The lifecycle of a process -/

/-- The row is one of the six transitions of the lifecycle of a process. -/
def Event.is_transition (e : Event) : Prop :=
  (e.old_state = States.NEW ∧ e.new_state = States.READY) ∨
  (e.old_state = States.READY ∧ e.new_state = States.RUNNING) ∨
  (e.old_state = States.RUNNING ∧ e.new_state = States.WAITING) ∨
  (e.old_state = States.RUNNING ∧ e.new_state = States.READY) ∨
  (e.old_state = States.RUNNING ∧ e.new_state = States.TERMINATED) ∨
  (e.old_state = States.WAITING ∧ e.new_state = States.READY)

instance (e : Event) : Decidable e.is_transition := by
  unfold Event.is_transition
  exact inferInstance

/-- The rows `h` of one process that arrives at tick `arrival` follow the lifecycle: the first
row is NEW -> READY at the arrival time and no later row is an admission, the from-state of every
row is the to-state of the row before it, every row is one of the six transitions, and no row
follows a row into TERMINATED. -/
def follows_lifecycle (arrival : Nat) (h : List Event) : Prop :=
  (∀ e, h.head? = some e →
    e.old_state = States.NEW ∧ e.new_state = States.READY ∧ e.time = arrival) ∧
  (∀ pre e post, h = pre ++ e :: post → e.old_state = States.NEW → pre = []) ∧
  h.Chain' (fun e x => x.old_state = e.new_state) ∧
  (∀ e ∈ h, e.is_transition) ∧
  (∀ pre e post, h = pre ++ e :: post → e.new_state = States.TERMINATED → post = [])

/-- The rows `h` of one process that arrives at tick `arrival` begin with its admission at that
tick, are chained, are transitions of the lifecycle, and leave the process in state `st`. -/
def Stage (st : States) (arrival : Nat) (h : List Event) : Prop :=
  (∀ e, h.head? = some e →
    e.old_state = States.NEW ∧ e.new_state = States.READY ∧ e.time = arrival) ∧
  h.Chain' (fun e x => x.old_state = e.new_state) ∧
  (∀ e ∈ h, e.is_transition) ∧
  ∃ e, h.getLast? = some e ∧ e.new_state = st

/-- The discipline of the lifecycle: the rows of a process lead to the state of the place where
the process is. -/
def lifecycle : Discipline where
  ready _ h p := Stage States.READY p.arrival_time h
  waiting _ _ h p := Stage States.WAITING p.arrival_time h
  cpu _ h p := Stage States.RUNNING p.arrival_time h
  done h q := Stage States.TERMINATED q.arrival_time h
  load _ := True

/-! ## The start time of a process -/

/-- The tick of the first READY -> RUNNING row among the rows `h`, if there is one. -/
def first_dispatch (h : List Event) : Option Nat :=
  (h.find? (fun e => decide e.is_dispatch)).map Event.time

/-- The start time of `p` is what its rows `h` say: -1 as long as `h` has no dispatch, and
otherwise the tick of the first dispatch of `h`, which is not before the arrival of `p`. -/
def started_once (p : PCB) (h : List Event) : Prop :=
  match first_dispatch h with
  | none => p.start_time = -1
  | some d => p.start_time = (d : Int) ∧ p.arrival_time ≤ d

/-- The discipline of the start time: a process that has arrived carries the start time its rows
say, and the process on the CPU has been dispatched. Processes are loaded with start time -1. -/
def start_times : Discipline where
  ready c h p := p.arrival_time ≤ c ∧ started_once p h
  waiting _ c h p := p.arrival_time ≤ c ∧ started_once p h
  cpu c h p := p.arrival_time ≤ c ∧ started_once p h ∧ first_dispatch h ≠ none
  done _ _ := True
  load q := q.start_time = -1

/-- The start time is set once in the run of the loop body `tick` from `s0`: after any number
of iterations every process in a queue or on the CPU carries the start time its rows say, the
process on the CPU has a start time, and a start time that has been set is the start time of
the process at every later iteration. -/
def start_time_set_once (tick : SimState → SimState) (s0 : SimState) : Prop :=
  (∀ n, ∀ x ∈ live (after_ticks tick n s0),
    started_once x (rows_of x.PID (after_ticks tick n s0).execution_status)) ∧
  (∀ n, (after_ticks tick n s0).running.state = States.RUNNING →
    (after_ticks tick n s0).running.start_time ≠ -1) ∧
  (∀ n m, n ≤ m → ∀ x ∈ live (after_ticks tick n s0), ∀ y ∈ live (after_ticks tick m s0),
    y.PID = x.PID → x.start_time ≠ -1 → y.start_time = x.start_time)

/-! ## The number of I/O requests of a process -/

/-- The row is the start of an I/O: RUNNING -> WAITING. -/
def Event.is_io_start (e : Event) : Prop :=
  e.old_state = States.RUNNING ∧ e.new_state = States.WAITING

instance (e : Event) : Decidable e.is_io_start := by
  unfold Event.is_io_start
  exact inferInstance

/-- The number of RUNNING -> WAITING rows among the rows `h`. -/
def io_starts (h : List Event) : Nat :=
  h.countP (fun e => decide e.is_io_start)

/-- The process has a RUNNING -> TERMINATED row in the table. -/
def was_terminated (pid : Int) (rows : List Event) : Prop :=
  ∃ e ∈ rows, e.PID = pid ∧ e.is_termination

/-- The rows `h` of the process `p`, which is in a queue or on the CPU, account for its I/O:
there is no RUNNING -> TERMINATED row; without I/O frequency there is no RUNNING -> WAITING row;
and with a burst of at least 1 the remaining time is between 1 and the burst and, with an I/O
frequency `f > 0`, the number of RUNNING -> WAITING rows is the consumed time divided by `f`. -/
def Accounted (p : PCB) (h : List Event) : Prop :=
  (∀ e ∈ h, ¬ e.is_termination) ∧
  (p.io_freq = 0 → io_starts h = 0) ∧
  (1 ≤ p.processing_time →
    1 ≤ p.remaining_time ∧ p.remaining_time ≤ p.processing_time ∧
    (0 < p.io_freq →
      io_starts h = (p.processing_time - p.remaining_time) / p.io_freq))

/-- The rows `h` of the process `q`, which has left the queues and the CPU, account for its
I/O. -/
def Settled (q : PCB) (h : List Event) : Prop :=
  (q.io_freq = 0 → io_starts h = 0) ∧
  (1 ≤ q.processing_time → 0 < q.io_freq →
    io_starts h = (q.processing_time - 1) / q.io_freq)

/-- The discipline of the I/O requests. Processes are loaded with the remaining time equal to the
burst. -/
def io_account : Discipline where
  ready _ h p := Accounted p h
  waiting _ _ h p := Accounted p h
  cpu _ h p := Accounted p h
  done h q := Settled q h
  load q := q.remaining_time = q.processing_time

/-- The I/O trigger in the words of the specification: the consumed CPU time of `r` is a positive
multiple of its I/O frequency and strictly less than its burst. -/
def io_trigger (r : PCB) : Prop :=
  0 < r.io_freq ∧ 0 < r.processing_time - r.remaining_time ∧
    r.io_freq ∣ r.processing_time - r.remaining_time ∧
    r.processing_time - r.remaining_time < r.processing_time

/-- The rows of the table account for the I/O requests of the process `p`: without I/O frequency
`p` has no RUNNING -> WAITING row, and with an I/O frequency `f > 0` and a burst `B >= 1` a
process that has its RUNNING -> TERMINATED row has exactly `(B - 1) / f` RUNNING -> WAITING
rows. -/
def io_counted (p : PCB) (rows : List Event) : Prop :=
  (p.io_freq = 0 → io_starts (rows_of p.PID rows) = 0) ∧
  (0 < p.io_freq → 1 ≤ p.processing_time → was_terminated p.PID rows →
    io_starts (rows_of p.PID rows) = (p.processing_time - 1) / p.io_freq)

/-- The I/O check `io_check` of STEP 3, entered in state `s` after the decrement, sends the
process on the CPU to the wait queue exactly when the trigger of the specification holds: then it
prints the RUNNING -> WAITING row of the process and puts the process at the back of the wait
queue, and otherwise it changes nothing. -/
def blocks_on_trigger (io_check : SimState → SimState) (s : SimState) : Prop :=
  (io_trigger s.running →
    (io_check s).execution_status = s.execution_status ++
      [Event.mk s.current_time s.running.PID States.RUNNING States.WAITING] ∧
    ∃ w, (io_check s).wait_queue = s.wait_queue ++ [w] ∧ w.PID = s.running.PID) ∧
  (¬ io_trigger s.running → io_check s = s)

/-! ## The length of an I/O wait (RR and EP_RR) -/

/-- In the rows `h` of one process whose I/O lasts `d` ticks, the row after a RUNNING -> WAITING
row of tick `t` is the WAITING -> READY row of tick `t + max 1 d`. -/
def waits_exactly (d : Nat) (h : List Event) : Prop :=
  h.Chain' (fun e x => e.is_io_start →
    x.old_state = States.WAITING ∧ x.new_state = States.READY ∧ x.time = e.time + max 1 d)

/-- The discipline of the I/O wait of RR and EP_RR: the rows of a process show exact waits; the
last row of a process in the wait queue is its RUNNING -> WAITING row, of the tick kept in
`time_in_cpu`, and the wait is not over yet; the last row of any other process is no
RUNNING -> WAITING row. -/
def io_waits : Discipline where
  ready _ h p := waits_exactly p.io_duration h ∧ ∀ e, h.getLast? = some e → ¬ e.is_io_start
  waiting k c h w := waits_exactly w.io_duration h ∧
    ∃ e, h.getLast? = some e ∧ e.is_io_start ∧ e.time = w.time_in_cpu ∧
      (k = 1 → e.time < c ∧ c ≤ e.time + max 1 w.io_duration) ∧
      (k = 0 → e.time ≤ c ∧ c < e.time + max 1 w.io_duration)
  cpu _ h p := waits_exactly p.io_duration h ∧ ∀ e, h.getLast? = some e → ¬ e.is_io_start
  done h q := waits_exactly q.io_duration h ∧ ∀ e, h.getLast? = some e → ¬ e.is_io_start
  load _ := True

/-- The process `p` returns from every I/O after exactly `max 1 io_duration` ticks: if the table
has a RUNNING -> WAITING row of `p` at tick `t` and `t + max 1 io_duration` is within the
ceiling, then the next row of `p` is WAITING -> READY at tick `t + max 1 io_duration`. -/
def returns_from_io (p : PCB) (rows : List Event) : Prop :=
  ∀ pre e post, rows = pre ++ e :: post → e.PID = p.PID → e.is_io_start →
    e.time + max 1 p.io_duration ≤ 100000 →
    (rows_of p.PID post).head? =
      some (Event.mk (e.time + max 1 p.io_duration) p.PID States.WAITING States.READY)

/-! ## The remaining time of a process -/

/-- The remaining time of `p` is between 1 and its burst. -/
def Bounded (p : PCB) : Prop :=
  1 ≤ p.remaining_time ∧ p.remaining_time ≤ p.processing_time

/-- The discipline of the remaining time: in a queue and on the CPU the remaining time is
between 1 and the burst. Processes are loaded with a burst of at least 1 and the remaining time
equal to the burst. -/
def burst_bound : Discipline where
  ready _ _ p := Bounded p
  waiting _ _ _ p := Bounded p
  cpu _ _ p := Bounded p
  done _ _ := True
  load q := q.remaining_time = q.processing_time ∧ 1 ≤ q.processing_time

/-- The step from `s` to `s'` moves processes without touching their remaining time: every
process in a queue or on the CPU of `s'` was in a queue or on the CPU of `s` with the same
remaining time, and an entry of the registry that changed is a copy of a process in a queue or
on the CPU of `s'`, or has no remaining time. -/
def Moved (s s' : SimState) : Prop :=
  (∀ y ∈ live s', ∃ x ∈ live s, x.static = y.static ∧ x.remaining_time = y.remaining_time) ∧
  (∀ j ∈ s'.job_list, j ∈ s.job_list ∨ j ∈ live s' ∨ j.remaining_time = 0)

/-- The step from `s` to `s'` charges the process on the CPU of `s` and no other: a process in a
queue or on the CPU of `s'` either was there in `s` with the same remaining time, or is the
process that was RUNNING in `s` with its remaining time decremented. -/
def Charges (s s' : SimState) : Prop :=
  (∀ y ∈ live s',
    (∃ x ∈ live s, x.static = y.static ∧ x.remaining_time = y.remaining_time) ∨
    (s.running.state = States.RUNNING ∧ y.static = s.running.static ∧
      y.remaining_time = udec s.running.remaining_time)) ∧
  (∀ j ∈ s'.job_list, j ∈ s.job_list ∨ j ∈ live s' ∨ j.remaining_time = 0)

/-- The remaining times in state `s` are within bounds: between 1 and the burst for a process in
a queue or on the CPU, at most the burst for an entry of the registry. -/
def burst_bounded (s : SimState) : Prop :=
  (∀ x ∈ live s, 1 ≤ x.remaining_time ∧ x.remaining_time ≤ x.processing_time) ∧
  (∀ j ∈ s.job_list, j.remaining_time ≤ j.processing_time)

/-- From `s` to `s'` the remaining time changes only by the decrement of the process that is
RUNNING in `s`: a process in a queue or on the CPU of `s'` is either new there, with the
remaining time equal to its burst, or was there in `s` with the same remaining time, or is the
process that was RUNNING in `s` with a remaining time that is less by one. -/
def burst_steps (s s' : SimState) : Prop :=
  ∀ y ∈ live s',
    (y.PID ∉ pids (live s) ∧ y.remaining_time = y.processing_time) ∨
    ∃ x ∈ live s, x.PID = y.PID ∧
      (y.remaining_time = x.remaining_time ∨
        (s.running.state = States.RUNNING ∧ x = s.running ∧
          y.remaining_time + 1 = x.remaining_time))

/-- The remaining times are kept in the run of the loop body `tick` from `s0`: at the top of
every iteration they are within bounds, and over every iteration they change only by the
decrement of the process that is RUNNING. -/
def burst_kept (tick : SimState → SimState) (s0 : SimState) : Prop :=
  ∀ n, burst_bounded (after_ticks tick n s0) ∧
    burst_steps (after_ticks tick n s0) (tick (after_ticks tick n s0))

/-- A single process without burst. -/
def zero_burst_scenario : List PCB := [mk_process 1 0 0 0 0 1]

/-! ## Runs without admission -/

/-- No process of the workload `l` is ever admitted: whenever the process at position `i` of the
input arrives at a tick `t` within the ceiling, the allocator refuses it. The empty workload is
the case in which there is nothing to refuse. -/
def never_admitted (E : Env) (l : List PCB) : Prop :=
  ∀ t i p, t ≤ 100000 → l[i]? = some p → p.arrival_time = t → E.assign_memory t i = false

/-- An environment whose allocator refuses every request. -/
def refuse_all : Env :=
  { sort := insertion_sort
    assign_memory := fun _ _ => false
    idle_CPU := fun _ => idle_pcb }

/-- The run `run` of the loop body `tick` on the workload `l` idles up to the ceiling: it is ended
by the safety check in the initial state with the clock at 100001, and after every number `n` of
iterations the state is the initial state with the clock at `n`, so that the registry and the
queues are empty and the execution table has no row all along. -/
def idles_to_ceiling (E : Env) (l : List PCB) (tick : SimState → SimState)
    (run : SimState × Bool) : Prop :=
  run = ({ init E l with current_time := 100001 }, true) ∧
  ∀ n, n ≤ 100001 → after_ticks tick n (init E l) = { init E l with current_time := n }

/-! ## Work conservation -/

/-- The running slot holds a RUNNING process or none. -/
def Slot (s : SimState) : Prop :=
  s.running.state = States.RUNNING ∨ s.running.state = States.NOT_ASSIGNED

/-- The state is work-conserving: if the ready queue is not empty then a process is RUNNING. -/
def work_conserving (s : SimState) : Prop :=
  s.ready_queue ≠ [] → s.running.state = States.RUNNING

/-- The iteration from `s` to `s'` admits the process `a` and dispatches it at once: the rows of
the tick are its NEW -> READY row and its READY -> RUNNING row, afterwards it is in the running
slot and the ready queue is empty. -/
def dispatched_on_arrival (s s' : SimState) (a : PCB) : Prop :=
  s'.running = started_at s.current_time a ∧ s'.ready_queue = [] ∧
  s'.execution_status = s.execution_status ++
    [Event.mk s.current_time a.PID States.NEW States.READY,
     Event.mk s.current_time a.PID States.READY States.RUNNING]

/-! ## The exit of the loop -/

/-- The registry is not empty and all its processes are TERMINATED: the loop condition
`!all_process_terminated(job_list) || job_list.empty()` fails. -/
def registry_done (s : SimState) : Prop :=
  s.job_list ≠ [] ∧ all_process_terminated s.job_list = true

instance (s : SimState) : Decidable (registry_done s) := by
  unfold registry_done
  exact inferInstance

/-- The `n`-th iteration of the loop body `tick` from `s0` is the first to end with a registry
that is not empty and has all its processes TERMINATED. -/
def first_exit (tick : SimState → SimState) (s0 : SimState) (n : Nat) : Prop :=
  (∀ m, m < n → ¬ registry_done (after_ticks tick m s0)) ∧
    registry_done (after_ticks tick n s0)

/-- The run `run` of the loop body `tick` from `s0` is left through the loop condition after `n`
iterations, that is at the end of tick `n - 1`: the result is the state after `n` iterations, the
clock shows `n`, and the ceiling is not hit. -/
def exits_after (tick : SimState → SimState) (s0 : SimState) (run : SimState × Bool)
    (n : Nat) : Prop :=
  run = (after_ticks tick n s0, false) ∧ (after_ticks tick n s0).current_time = n

/-! ## One place for every admitted process -/

/-- The places are consistent in state `s`: the processes of the ready queue are READY, those of
the wait queue are WAITING, and an entry of the registry that is not TERMINATED belongs to a
process that is in a queue or on the CPU. -/
structure Placed (s : SimState) : Prop where
  q_ready : ∀ p ∈ s.ready_queue, p.state = States.READY
  q_waiting : ∀ p ∈ s.wait_queue, p.state = States.WAITING
  registry : ∀ j ∈ s.job_list, j.state = States.TERMINATED ∨ j.PID ∈ pids (live s)

/-- Every admitted process is in exactly one place in state `s`: no PID occurs twice among the
ready queue, the wait queue and the running slot; the ready queue holds READY processes and the
wait queue WAITING ones, so that the only process that can be RUNNING is the one in the running
slot; and a process that was admitted has an entry in the registry and either is in a queue or
on the CPU, with no TERMINATED entry, or is in none of them, with every entry TERMINATED. -/
def placed_once (s : SimState) : Prop :=
  (pids (s.ready_queue ++ s.wait_queue ++ on_cpu s)).Nodup ∧
  (∀ p ∈ s.ready_queue, p.state = States.READY) ∧
  (∀ p ∈ s.wait_queue, p.state = States.WAITING) ∧
  (∀ p ∈ live s, p.state = States.RUNNING → p = s.running) ∧
  (∀ pid, was_admitted pid s.execution_status →
    (∃ j ∈ s.job_list, j.PID = pid) ∧
    ((pid ∈ pids (live s) ∧ ∀ j ∈ s.job_list, j.PID = pid → j.state ≠ States.TERMINATED) ∨
      (pid ∉ pids (live s) ∧ ∀ j ∈ s.job_list, j.PID = pid → j.state = States.TERMINATED)))

/-! ## EP_RR on a workload that gives it no reason to preempt -/

/-- The process without the field `time_in_cpu`, which EP never writes and which RR and EP_RR use
as the CPU time of the current burst and as the stamp of the I/O start. -/
def PCB.bare (p : PCB) : PCB := { p with time_in_cpu := 0 }

/-- What the registry is read for: the PID and the state of an entry. -/
def PCB.tag (p : PCB) : Int × States := (p.PID, p.state)

/-- The state of EP on a workload without I/O and with pairwise distinct sizes, anywhere in an
iteration: the wait queue is empty, no process in the ready queue or on the CPU does I/O, their
sizes are pairwise distinct, and the process on the CPU has a smaller size than every process of
the ready queue. -/
structure Calm (s : SimState) : Prop where
  slot : Slot s
  wait : s.wait_queue = []
  no_io : ∀ p ∈ live s, p.io_freq = 0
  distinct : ((live s).map PCB.priority).Nodup
  lead : s.running.state = States.RUNNING →
    ∀ q ∈ s.ready_queue, s.running.priority < q.priority

/-- The roster of a workload whose processes all arrive at tick `T`, at the top of an
iteration: no process does I/O, the sizes are pairwise distinct, and up to tick `T` the ready
queue is empty and the CPU idle. -/
structure Roster (T : Nat) (s : SimState) : Prop where
  arrivals : ∀ p ∈ s.list_processes, p.arrival_time = T
  no_io : ∀ p ∈ s.list_processes, p.io_freq = 0
  distinct : (s.list_processes.map PCB.priority).Nodup
  early : s.current_time ≤ T → s.ready_queue = [] ∧ s.running.state = States.NOT_ASSIGNED

/-- The state `e` of EP_RR matches the state `s` of EP: same clock, same execution table, an
empty wait queue, the same processes in the ready queue up to their order and `time_in_cpu`, the
same process on the CPU up to `time_in_cpu` or none in both, and registries and rosters that
agree on what is read from them. -/
structure Twin (s e : SimState) : Prop where
  clock : e.current_time = s.current_time
  table : e.execution_status = s.execution_status
  wait : e.wait_queue = []
  ready : (e.ready_queue.map PCB.bare).Perm (s.ready_queue.map PCB.bare)
  slot : e.running.state = s.running.state ∧
    (s.running.state = States.RUNNING → e.running.bare = s.running.bare)
  registry : e.job_list.map PCB.tag = s.job_list.map PCB.tag
  roster : e.list_processes.map PCB.bare = s.list_processes.map PCB.bare

/-- The process on the CPU, if any, has a smaller size than every process of the ready queue. -/
def runs_smallest (s : SimState) : Prop :=
  s.running.state = States.RUNNING → ∀ q ∈ s.ready_queue, s.running.priority < q.priority

/-- Three processes that arrive together, without I/O and with distinct sizes; the burst of
PID 3 is longer than the quantum. -/
def same_arrival_scenario : List PCB :=
  [mk_process 1 0 5 0 0 3, mk_process 2 0 3 0 0 1, mk_process 3 0 150 0 0 2]

/-! ## Contracts of the environment -/

/-- The requirement of `std::sort` on its comparator (a strict weak ordering), in the form
"asymmetric and negatively transitive". -/
def StrictWeak (comp : PCB → PCB → Bool) : Prop :=
  (∀ a b, comp a b = true → comp b a = false) ∧
  (∀ a b c, comp a b = false → comp b c = false → comp a c = false)

/-- The guarantee of `std::sort`: the result is a rearrangement of the input in which no element
has to come before an earlier one. -/
def SortContract (E : Env) : Prop :=
  ∀ comp, StrictWeak comp → ∀ l,
    (E.sort comp l).Perm l ∧ (E.sort comp l).Pairwise (fun a b => comp b a = false)

/-- The guarantee of `idle_CPU`: afterwards the running slot holds no process. -/
def IdleContract (E : Env) : Prop :=
  ∀ r, (E.idle_CPU r).state = States.NOT_ASSIGNED

end Sched

/-! # Theorems -/

namespace Sched

theorem strictWeak_external_priorities_cmp : StrictWeak external_priorities_cmp := by
  refine ⟨fun a b h => ?_, fun a b c h1 h2 => ?_⟩
  · simp only [external_priorities_cmp] at h ⊢
    split_ifs at h ⊢ <;> simp at h ⊢ <;> omega
  · simp only [external_priorities_cmp] at h1 h2 ⊢
    split_ifs at h1 h2 ⊢ <;> simp at h1 h2 ⊢ <;> omega

theorem strictWeak_ep_rr_schedule_cmp : StrictWeak ep_rr_schedule_cmp := by
  refine ⟨fun a b h => ?_, fun a b c h1 h2 => ?_⟩
  · simp only [ep_rr_schedule_cmp] at h ⊢
    split_ifs at h ⊢ <;> simp at h ⊢ <;> omega
  · simp only [ep_rr_schedule_cmp] at h1 h2 ⊢
    split_ifs at h1 h2 ⊢ <;> simp at h1 h2 ⊢ <;> omega

theorem strictWeak_fcfs_rr_cmp : StrictWeak fcfs_rr_cmp := by
  refine ⟨fun a b h => ?_, fun a b c h1 h2 => ?_⟩
  · simp only [fcfs_rr_cmp] at h ⊢
    simp at h ⊢; omega
  · simp only [fcfs_rr_cmp] at h1 h2 ⊢
    simp at h1 h2 ⊢; omega

theorem perm_insert_sorted (comp : PCB → PCB → Bool) (a : PCB) (l : List PCB) :
    (insert_sorted comp a l).Perm (a :: l) := by
  induction l with
  | nil => simp [insert_sorted]
  | cons b l ih =>
    simp only [insert_sorted]
    split_ifs
    · exact (List.Perm.cons b ih).trans (List.Perm.swap a b l)
    · exact List.Perm.refl _

theorem perm_insertion_sort (comp : PCB → PCB → Bool) (l : List PCB) :
    (insertion_sort comp l).Perm l := by
  induction l with
  | nil => simp [insertion_sort]
  | cons a l ih =>
    simp only [insertion_sort]
    exact (perm_insert_sorted comp a _).trans (List.Perm.cons a ih)

theorem pairwise_insert_sorted {comp : PCB → PCB → Bool} (hc : StrictWeak comp) (a : PCB)
    (l : List PCB) (hl : l.Pairwise (fun x y => comp y x = false)) :
    (insert_sorted comp a l).Pairwise (fun x y => comp y x = false) := by
  induction l with
  | nil => simp [insert_sorted]
  | cons b l ih =>
    rw [List.pairwise_cons] at hl
    simp only [insert_sorted]
    split_ifs with h
    · rw [List.pairwise_cons]
      refine ⟨fun y hy => ?_, ih hl.2⟩
      have hy' := (perm_insert_sorted comp a l).mem_iff.1 hy
      rw [List.mem_cons] at hy'
      rcases hy' with rfl | hy'
      · exact hc.1 _ _ h
      · exact hl.1 y hy' 
    · rw [List.pairwise_cons]
      refine ⟨fun y hy => ?_, List.pairwise_cons.2 hl⟩
      have hba : comp b a = false := by simpa using h
      rw [List.mem_cons] at hy
      rcases hy with rfl | hy
      · exact hba
      · exact hc.2 _ _ _ (hl.1 y hy) hba

theorem pairwise_insertion_sort {comp : PCB → PCB → Bool} (hc : StrictWeak comp) (l : List PCB) :
    (insertion_sort comp l).Pairwise (fun x y => comp y x = false) := by
  induction l with
  | nil => simp [insertion_sort]
  | cons a l ih => exact pairwise_insert_sorted hc a _ ih

theorem sortContract_grant_all : SortContract grant_all :=
  fun comp hc l => ⟨perm_insertion_sort comp l, pairwise_insertion_sort hc l⟩

theorem idleContract_grant_all : IdleContract grant_all := fun _ => rfl

/-! ## Dispatch -/

theorem static_started_at (now : Nat) (back : PCB) :
    (started_at now back).static = back.static := by
  unfold started_at
  dsimp only
  split_ifs <;> rfl

theorem pid_started_at (now : Nat) (back : PCB) : (started_at now back).PID = back.PID :=
  congrArg (fun x => x.1) (static_started_at now back)

theorem state_started_at (now : Nat) (back : PCB) :
    (started_at now back).state = States.RUNNING := rfl

theorem remaining_started_at (now : Nat) (back : PCB) :
    (started_at now back).remaining_time = back.remaining_time := by
  unfold started_at
  dsimp only
  split_ifs <;> rfl

theorem getLast?_eq_some_of_ne_nil {α : Type} (l : List α) (h : l ≠ []) :
    ∃ x, l.getLast? = some x ∧ l = l.dropLast ++ [x] := by
  refine ⟨l.getLast h, List.getLast?_eq_getLast l h, ?_⟩
  exact (List.dropLast_append_getLast h).symm

/-- What STEP 4 does when the CPU is idle and the ready queue is not empty, for a sorting function
that rearranges its input: the last element `back` of the sorted vector is dispatched. -/
theorem dispatch_eq (schedule : List PCB → List PCB) (quantum : Nat → Nat) (s : SimState)
    (hperm : (schedule s.ready_queue).Perm s.ready_queue)
    (hidle : s.running.state = States.NOT_ASSIGNED) (hne : s.ready_queue ≠ []) :
    ∃ back, schedule s.ready_queue = (schedule s.ready_queue).dropLast ++ [back] ∧
      dispatch schedule quantum s =
        { s with
          ready_queue := (schedule s.ready_queue).dropLast
          running := started_at s.current_time back
          quantum_remaining := quantum s.quantum_remaining
          job_list := sync_queue s.job_list (started_at s.current_time back)
          execution_status := s.execution_status ++
            [Event.mk s.current_time back.PID States.READY States.RUNNING] } := by
  have hne' : schedule s.ready_queue ≠ [] := by
    intro h
    rw [h] at hperm
    exact hne (List.Perm.eq_nil hperm.symm)
  obtain ⟨back, hb, hl⟩ := getLast?_eq_some_of_ne_nil _ hne'
  refine ⟨back, hl, ?_⟩
  unfold dispatch
  rw [if_pos ⟨hidle, hne⟩]
  simp only [hb, pid_started_at]

theorem dispatch_of_busy (schedule : List PCB → List PCB) (quantum : Nat → Nat) (s : SimState)
    (h : s.running.state ≠ States.NOT_ASSIGNED) : dispatch schedule quantum s = s := by
  unfold dispatch
  rw [if_neg (fun hh => h hh.1)]

theorem dispatch_of_empty (schedule : List PCB → List PCB) (quantum : Nat → Nat) (s : SimState)
    (h : s.ready_queue = []) : dispatch schedule quantum s = s := by
  unfold dispatch
  rw [if_neg (fun hh => hh.2 h)]

/-- The last element of a vector sorted with the (priority, arrival) comparator of EP and EP_RR
has the least priority value and, among those, the least arrival time. -/
theorem back_is_best {comp : PCB → PCB → Bool}
    (hcomp : ∀ a b, comp b a = false →
      b.priority ≤ a.priority ∧ (b.priority = a.priority → b.arrival_time ≤ a.arrival_time))
    (front : List PCB) (back : PCB)
    (hs : (front ++ [back]).Pairwise (fun a b => comp b a = false)) :
    ∀ q ∈ front ++ [back], back.priority ≤ q.priority ∧
      (q.priority = back.priority → back.arrival_time ≤ q.arrival_time) := by
  intro q hq
  rw [List.mem_append] at hq
  rcases hq with hq | hq
  · rw [List.pairwise_append] at hs
    have h := hcomp q back (hs.2.2 q hq back (by simp))
    exact ⟨h.1, fun e => h.2 e.symm⟩
  · simp only [List.mem_singleton] at hq
    subst hq
    exact ⟨le_refl _, fun _ => le_refl _⟩

theorem external_priorities_cmp_false (a b : PCB) (h : external_priorities_cmp b a = false) :
    b.priority ≤ a.priority ∧ (b.priority = a.priority → b.arrival_time ≤ a.arrival_time) := by
  simp only [external_priorities_cmp] at h
  split_ifs at h with h1 <;> simp at h <;> omega

theorem ep_rr_schedule_cmp_false (a b : PCB) (h : ep_rr_schedule_cmp b a = false) :
    b.priority ≤ a.priority ∧ (b.priority = a.priority → b.arrival_time ≤ a.arrival_time) := by
  simp only [ep_rr_schedule_cmp] at h
  split_ifs at h with h1 <;> simp at h <;> omega

/-- The dispatch of a policy whose comparator orders by (priority, arrival). -/
theorem dispatch_best (E : Env) (hE : SortContract E) {comp : PCB → PCB → Bool}
    (hsw : StrictWeak comp)
    (hcomp : ∀ a b, comp b a = false →
      b.priority ≤ a.priority ∧ (b.priority = a.priority → b.arrival_time ≤ a.arrival_time))
    (quantum : Nat → Nat) (s : SimState)
    (hidle : s.running.state = States.NOT_ASSIGNED) (hne : s.ready_queue ≠ []) :
    ∃ p ∈ s.ready_queue,
      (∀ q ∈ s.ready_queue, p.priority ≤ q.priority ∧
        (q.priority = p.priority → p.arrival_time ≤ q.arrival_time)) ∧
      (dispatch (E.sort comp) quantum s).running =
        started_at s.current_time p ∧
      (p :: (dispatch (E.sort comp) quantum s).ready_queue).Perm s.ready_queue ∧
      (dispatch (E.sort comp) quantum s).execution_status =
        s.execution_status ++ [Event.mk s.current_time p.PID States.READY States.RUNNING] := by
  obtain ⟨hperm, hsorted⟩ := hE comp hsw s.ready_queue
  obtain ⟨back, hl, hd⟩ := dispatch_eq (E.sort comp) quantum s hperm hidle hne
  have hperm' : ((E.sort comp s.ready_queue).dropLast ++ [back]).Perm s.ready_queue := by
    rw [← hl]; exact hperm
  have hmem : ∀ q, q ∈ s.ready_queue ↔ q ∈ (E.sort comp s.ready_queue).dropLast ++ [back] :=
    fun q => (hperm'.mem_iff).symm
  rw [hl] at hsorted
  refine ⟨back, (hmem back).2 (by simp), ?_, ?_, ?_, ?_⟩
  · intro q hq
    exact back_is_best hcomp _ back hsorted q ((hmem q).1 hq)
  · rw [hd]
  · rw [hd]
    exact (List.perm_append_singleton back _).symm.trans hperm'
  · rw [hd]

/-- C1. In EP and in EP_RR, when STEP 4 runs with an idle CPU and a non-empty ready queue, the
process `p` it moves to RUNNING is one of the ready processes, no ready process has a smaller
priority value (size), no ready process of the same priority arrived earlier, the READY -> RUNNING
row is printed for it, and the ready queue afterwards is the old one with exactly `p` removed
(as a multiset: the vector has been sorted). -/
theorem dispatch_picks_highest_priority (E : Env) (hE : SortContract E) (s s' : SimState)
    (hidle : s.running.state = States.NOT_ASSIGNED) (hne : s.ready_queue ≠ [])
    (hs' : s' = EP.schedule E s ∨ s' = EP_RR.schedule E s) :
    ∃ p ∈ s.ready_queue,
      (∀ q ∈ s.ready_queue, p.priority ≤ q.priority ∧
        (q.priority = p.priority → p.arrival_time ≤ q.arrival_time)) ∧
      s'.running =
        started_at s.current_time p ∧
      (p :: s'.ready_queue).Perm s.ready_queue ∧
      s'.execution_status =
        s.execution_status ++ [Event.mk s.current_time p.PID States.READY States.RUNNING] := by
  rcases hs' with rfl | rfl
  · exact dispatch_best E hE strictWeak_external_priorities_cmp
      external_priorities_cmp_false _ s hidle hne
  · exact dispatch_best E hE strictWeak_ep_rr_schedule_cmp
      ep_rr_schedule_cmp_false _ s hidle hne

theorem dispatch_picks_highest_priority_witness :
    ∃ p ∈ scenario_before_dispatch.ready_queue,
      (∀ q ∈ scenario_before_dispatch.ready_queue, p.priority ≤ q.priority ∧
        (q.priority = p.priority → p.arrival_time ≤ q.arrival_time)) ∧
      (EP.schedule grant_all scenario_before_dispatch).running =
        started_at scenario_before_dispatch.current_time p ∧
      (p :: (EP.schedule grant_all scenario_before_dispatch).ready_queue).Perm
        scenario_before_dispatch.ready_queue ∧
      (EP.schedule grant_all scenario_before_dispatch).execution_status =
        scenario_before_dispatch.execution_status ++
          [Event.mk scenario_before_dispatch.current_time p.PID States.READY States.RUNNING] :=
  dispatch_picks_highest_priority grant_all sortContract_grant_all scenario_before_dispatch
    (EP.schedule grant_all scenario_before_dispatch) (by decide) (by decide) (Or.inl rfl)

/-! ## Preemption on arrival (EP_RR, STEP 2.5) -/

theorem should_preempt_iff {comp : PCB → PCB → Bool}
    (hcomp : ∀ a b, comp b a = false →
      b.priority ≤ a.priority ∧ (b.priority = a.priority → b.arrival_time ≤ a.arrival_time))
    (running : PCB) (hrun : running.state = States.RUNNING) (sorted ready : List PCB)
    (hperm : sorted.Perm ready) (hs : sorted.Pairwise (fun a b => comp b a = false)) :
    should_preempt running sorted = true ↔ ∃ q ∈ ready, q.priority < running.priority := by
  unfold should_preempt
  rcases List.eq_nil_or_concat sorted with h | ⟨front, back, h⟩
  · subst h
    have : ready = [] := List.Perm.eq_nil hperm.symm
    simp [this]
  · rw [List.concat_eq_append] at h
    subst h
    have hbest := back_is_best hcomp front back hs
    have hlast : (front ++ [back]).getLast? = some back := by simp
    simp only [hlast, hrun, ne_eq, not_true_eq_false, if_false, decide_eq_true_eq]
    constructor
    · intro hlt
      exact ⟨back, hperm.mem_iff.1 (by simp), hlt⟩
    · rintro ⟨q, hq, hlt⟩
      exact lt_of_le_of_lt (hbest q (hperm.mem_iff.2 hq)).1 hlt

theorem eprr_handle_running_of_not_running (E : Env) (s : SimState)
    (h : s.running.state ≠ States.RUNNING) : EP_RR.handle_running E s = s := by
  unfold EP_RR.handle_running
  rw [if_neg h]

theorem arrivals_eq (E : Env) (s : SimState) (hadm : Quantum.arrived E s ≠ []) :
    EP_RR.arrivals E s =
      if should_preempt s.running (ep_rr_schedule E (Quantum.ready_after_arrivals E s)) = true
      then
        { s with
          list_processes := marked E Quantum.touch_new s.current_time 0 s.list_processes
          wait_queue := s.wait_queue.filter
            (fun p => !decide (usub s.current_time p.time_in_cpu ≥ p.io_duration))
          ready_queue := { s.running with state := States.READY, time_in_cpu := 0 } ::
            ep_rr_schedule E (Quantum.ready_after_arrivals E s)
          job_list := sync_queue
            ((Quantum.io_done s).foldl sync_queue (s.job_list ++ Quantum.arrived E s))
            { s.running with state := States.READY, time_in_cpu := 0 }
          execution_status := s.execution_status ++ Quantum.rows_of_arrivals E s ++
            [Event.mk s.current_time s.running.PID States.RUNNING States.READY]
          running := E.idle_CPU { s.running with state := States.READY, time_in_cpu := 0 }
          quantum_remaining := TIME_QUANTUM }
      else
        { s with
          list_processes := marked E Quantum.touch_new s.current_time 0 s.list_processes
          wait_queue := s.wait_queue.filter
            (fun p => !decide (usub s.current_time p.time_in_cpu ≥ p.io_duration))
          ready_queue := ep_rr_schedule E (Quantum.ready_after_arrivals E s)
          job_list := (Quantum.io_done s).foldl sync_queue (s.job_list ++ Quantum.arrived E s)
          execution_status := s.execution_status ++ Quantum.rows_of_arrivals E s } := by
  have hne : (admitted E Quantum.touch_new s.current_time 0 s.list_processes).isEmpty = false := by
    cases h : admitted E Quantum.touch_new s.current_time 0 s.list_processes with
    | nil => exact absurd h hadm
    | cons a l => rfl
  unfold EP_RR.arrivals EP_RR.check_preemption
  simp only [hne, Bool.not_false, true_or, if_true]
  simp only [populate, manage_wait_queue, Quantum.ready_after_arrivals, Quantum.arrived,
    Quantum.io_done, Quantum.rows_of_arrivals, List.append_assoc]

/-! ### Rows printed by the steps of EP -/

theorem dispatch_rows (schedule : List PCB → List PCB) (quantum : Nat → Nat) (s : SimState) :
    ∃ rows, (dispatch schedule quantum s).execution_status = s.execution_status ++ rows ∧
      ∀ e ∈ rows, e.old_state = States.READY ∧ e.new_state = States.RUNNING := by
  unfold dispatch
  dsimp only
  split_ifs with h
  · cases hb : (schedule s.ready_queue).getLast? with
    | none => exact ⟨[], by simp, by simp⟩
    | some back =>
      refine ⟨[Event.mk s.current_time back.PID States.READY States.RUNNING], ?_, by simp⟩
      dsimp only
      rw [pid_started_at]
  · exact ⟨[], by simp, by simp⟩

theorem EP.io_check_rows (E : Env) (s : SimState) :
    ∃ rows, (EP.io_check E s).execution_status = s.execution_status ++ rows ∧
      ∀ e ∈ rows, e.old_state = States.RUNNING ∧ e.new_state = States.WAITING := by
  unfold EP.io_check
  dsimp only
  split_ifs
  · exact ⟨_, rfl, by simp⟩
  · exact ⟨[], by simp, by simp⟩
  · exact ⟨[], by simp, by simp⟩

theorem EP.completion_check_rows (E : Env) (s : SimState) :
    ∃ rows, (EP.completion_check E s).execution_status = s.execution_status ++ rows ∧
      ∀ e ∈ rows, e.old_state = States.RUNNING ∧ e.new_state = States.TERMINATED := by
  unfold EP.completion_check
  dsimp only
  split_ifs
  · exact ⟨_, rfl, by simp⟩
  · exact ⟨[], by simp, by simp⟩

theorem EP.handle_running_rows (E : Env) (s : SimState) :
    ∃ rows, (EP.handle_running E s).execution_status = s.execution_status ++ rows ∧
      ∀ e ∈ rows, e.old_state = States.RUNNING ∧
        (e.new_state = States.WAITING ∨ e.new_state = States.TERMINATED) := by
  unfold EP.handle_running
  split_ifs
  · obtain ⟨r1, h1, h1'⟩ := EP.io_check_rows E
      { s with running := { s.running with remaining_time := udec s.running.remaining_time } }
    obtain ⟨r2, h2, h2'⟩ := EP.completion_check_rows E (EP.io_check E
      { s with running := { s.running with remaining_time := udec s.running.remaining_time } })
    refine ⟨r1 ++ r2, ?_, ?_⟩
    · rw [h2, h1, List.append_assoc]
    · intro e he
      rw [List.mem_append] at he
      rcases he with he | he
      · exact ⟨(h1' e he).1, Or.inl (h1' e he).2⟩
      · exact ⟨(h2' e he).1, Or.inr (h2' e he).2⟩
  · exact ⟨[], by simp, by simp⟩

theorem populate_rows (E : Env) (touch : PCB → PCB) (s : SimState) :
    ∃ rows, (populate E touch s).execution_status = s.execution_status ++ rows ∧
      ∀ e ∈ rows, e.old_state = States.NEW ∧ e.new_state = States.READY := by
  refine ⟨_, rfl, ?_⟩
  intro e he
  simp only [List.mem_map] at he
  obtain ⟨p, _, rfl⟩ := he
  exact ⟨rfl, rfl⟩

theorem manage_wait_queue_rows (started : PCB → Nat) (touch : PCB → PCB) (s : SimState) :
    ∃ rows, (manage_wait_queue started touch s).execution_status = s.execution_status ++ rows ∧
      ∀ e ∈ rows, e.old_state = States.WAITING ∧ e.new_state = States.READY := by
  refine ⟨_, rfl, ?_⟩
  intro e he
  simp only [List.mem_map] at he
  obtain ⟨p, _, rfl⟩ := he
  exact ⟨rfl, rfl⟩

/-- No row printed by a tick of EP is a preemption. -/
theorem EP.tick_rows (E : Env) (s : SimState) :
    ∃ rows, (EP.tick E s).execution_status = s.execution_status ++ rows ∧
      ∀ e ∈ rows, ¬ e.is_preemption := by
  obtain ⟨r1, h1, h1'⟩ := populate_rows E EP.touch_new s
  obtain ⟨r2, h2, h2'⟩ := manage_wait_queue_rows
    (fun _ => (populate E EP.touch_new s).io_start_time) EP.touch_done (populate E EP.touch_new s)
  obtain ⟨r3, h3, h3'⟩ := EP.handle_running_rows E
    (manage_wait_queue (fun _ => (populate E EP.touch_new s).io_start_time) EP.touch_done
      (populate E EP.touch_new s))
  obtain ⟨r4, h4, h4'⟩ := dispatch_rows (external_priorities E) (fun q => q)
    (EP.handle_running E
      (manage_wait_queue (fun _ => (populate E EP.touch_new s).io_start_time) EP.touch_done
        (populate E EP.touch_new s)))
  refine ⟨r1 ++ r2 ++ r3 ++ r4, ?_, ?_⟩
  · show (EP.schedule E _).execution_status = _
    unfold EP.schedule
    rw [h4, h3, h2, h1]
    simp only [List.append_assoc]
  · intro e he
    simp only [List.mem_append] at he
    unfold Event.is_preemption
    rcases he with ((he | he) | he) | he
    · simp [(h1' e he).1]
    · simp [(h2' e he).1]
    · simp [(h3' e he).1, (h3' e he).2]
      rcases (h3' e he).2 with h | h <;> simp [h]
    · simp [(h4' e he).1]

theorem rows_added_eq (f : SimState → SimState) (s : SimState) (rows : List Event)
    (h : (f s).execution_status = s.execution_status ++ rows) : rows_added f s = rows := by
  unfold rows_added
  rw [h, List.drop_left]

/-- C3. EP_RR, a tick at which at least one process is admitted while `R = s.running` is RUNNING.
STEPS 1 to 2.5 print a RUNNING -> READY row if and only if some process of the ready queue (old
entries, new arrivals and processes back from I/O) has a strictly smaller priority value than `R`.
In that case the row is for `R` and follows the arrival rows, STEP 3 does nothing (no execution of
`R`), and STEP 4 of the same tick dispatches a best-priority ready process `b`, while `R` (made
READY) stays in the ready queue. Otherwise STEPS 1 to 2.5 print only the arrival rows and leave `R`
in the running slot. In EP, STEPS 1 and 2 leave `R` in the running slot and no row of the tick is
a RUNNING -> READY row. -/
theorem preemption_on_arrival (E : Env) (hE : SortContract E) (hI : IdleContract E)
    (s : SimState) (hrun : s.running.state = States.RUNNING)
    (hadm : Quantum.arrived E s ≠ []) :
    ((∃ e ∈ rows_added (EP_RR.arrivals E) s, e.is_preemption) ↔
      ∃ q ∈ Quantum.ready_after_arrivals E s, q.priority < s.running.priority) ∧
    ((∃ q ∈ Quantum.ready_after_arrivals E s, q.priority < s.running.priority) →
      rows_added (EP_RR.arrivals E) s = Quantum.rows_of_arrivals E s ++
        [Event.mk s.current_time s.running.PID States.RUNNING States.READY] ∧
      EP_RR.handle_running E (EP_RR.arrivals E s) = EP_RR.arrivals E s ∧
      ∃ b ∈ Quantum.ready_after_arrivals E s,
        (∀ q ∈ Quantum.ready_after_arrivals E s, b.priority ≤ q.priority ∧
          (q.priority = b.priority → b.arrival_time ≤ q.arrival_time)) ∧
        rows_added (EP_RR.tick E) s = Quantum.rows_of_arrivals E s ++
          [Event.mk s.current_time s.running.PID States.RUNNING States.READY,
           Event.mk s.current_time b.PID States.READY States.RUNNING] ∧
        (EP_RR.tick E s).running =
          started_at s.current_time b ∧
        { s.running with state := States.READY, time_in_cpu := 0 } ∈
          (EP_RR.tick E s).ready_queue) ∧
    (¬ (∃ q ∈ Quantum.ready_after_arrivals E s, q.priority < s.running.priority) →
      rows_added (EP_RR.arrivals E) s = Quantum.rows_of_arrivals E s ∧
      (EP_RR.arrivals E s).running = s.running) ∧
    ((manage_wait_queue (fun _ => (populate E EP.touch_new s).io_start_time) EP.touch_done
        (populate E EP.touch_new s)).running = s.running ∧
      ∀ e ∈ rows_added (EP.tick E) s, ¬ e.is_preemption) := by
  have hperm : (ep_rr_schedule E (Quantum.ready_after_arrivals E s)).Perm
      (Quantum.ready_after_arrivals E s) :=
    (hE _ strictWeak_ep_rr_schedule_cmp (Quantum.ready_after_arrivals E s)).1
  have hsorted : (ep_rr_schedule E (Quantum.ready_after_arrivals E s)).Pairwise
      (fun a b => ep_rr_schedule_cmp b a = false) :=
    (hE _ strictWeak_ep_rr_schedule_cmp (Quantum.ready_after_arrivals E s)).2
  have hiff := should_preempt_iff ep_rr_schedule_cmp_false s.running hrun _ _ hperm hsorted
  have hyes : (∃ q ∈ Quantum.ready_after_arrivals E s, q.priority < s.running.priority) →
      EP_RR.arrivals E s =
        { s with
          list_processes := marked E Quantum.touch_new s.current_time 0 s.list_processes
          wait_queue := s.wait_queue.filter
            (fun p => !decide (usub s.current_time p.time_in_cpu ≥ p.io_duration))
          ready_queue := { s.running with state := States.READY, time_in_cpu := 0 } ::
            ep_rr_schedule E (Quantum.ready_after_arrivals E s)
          job_list := sync_queue
            ((Quantum.io_done s).foldl sync_queue (s.job_list ++ Quantum.arrived E s))
            { s.running with state := States.READY, time_in_cpu := 0 }
          execution_status := s.execution_status ++ Quantum.rows_of_arrivals E s ++
            [Event.mk s.current_time s.running.PID States.RUNNING States.READY]
          running := E.idle_CPU { s.running with state := States.READY, time_in_cpu := 0 }
          quantum_remaining := TIME_QUANTUM } := by
    intro h
    rw [arrivals_eq E s hadm, if_pos (hiff.2 h)]
  have hno : ¬ (∃ q ∈ Quantum.ready_after_arrivals E s, q.priority < s.running.priority) →
      EP_RR.arrivals E s =
        { s with
          list_processes := marked E Quantum.touch_new s.current_time 0 s.list_processes
          wait_queue := s.wait_queue.filter
            (fun p => !decide (usub s.current_time p.time_in_cpu ≥ p.io_duration))
          ready_queue := ep_rr_schedule E (Quantum.ready_after_arrivals E s)
          job_list := (Quantum.io_done s).foldl sync_queue (s.job_list ++ Quantum.arrived E s)
          execution_status := s.execution_status ++ Quantum.rows_of_arrivals E s } := by
    intro h
    rw [arrivals_eq E s hadm, if_neg (fun hh => h (hiff.1 hh))]
  have hrows_no : ∀ e ∈ Quantum.rows_of_arrivals E s, ¬ e.is_preemption := by
    intro e he
    unfold Quantum.rows_of_arrivals at he
    simp only [List.mem_append, List.mem_map] at he
    unfold Event.is_preemption
    rcases he with ⟨p, _, rfl⟩ | ⟨p, _, rfl⟩ <;> simp
  refine ⟨⟨?_, ?_⟩, ?_, ?_, ?_⟩
  · rintro ⟨e, he, hpre⟩
    by_contra hcon
    rw [rows_added_eq _ s (Quantum.rows_of_arrivals E s) (by rw [hno hcon])] at he
    exact hrows_no e he hpre
  · intro h
    have hr : rows_added (EP_RR.arrivals E) s = Quantum.rows_of_arrivals E s ++
        [Event.mk s.current_time s.running.PID States.RUNNING States.READY] :=
      rows_added_eq _ s _ (by rw [hyes h, List.append_assoc])
    rw [hr]
    exact ⟨Event.mk s.current_time s.running.PID States.RUNNING States.READY, by simp, rfl, rfl⟩
  · intro h
    have hidle : (EP_RR.arrivals E s).running.state = States.NOT_ASSIGNED := by
      rw [hyes h]; exact hI _
    have hskip : EP_RR.handle_running E (EP_RR.arrivals E s) = EP_RR.arrivals E s :=
      eprr_handle_running_of_not_running E _ (by rw [hidle]; decide)
    have hyes' := hyes h
    refine ⟨rows_added_eq _ s _ (by rw [hyes h, List.append_assoc]), hskip, ?_⟩
    have hrq : (EP_RR.arrivals E s).ready_queue =
        { s.running with state := States.READY, time_in_cpu := 0 } ::
          ep_rr_schedule E (Quantum.ready_after_arrivals E s) := by rw [hyes h]
    obtain ⟨b, hb, hbest, hbrun, hbperm, hbrows⟩ :=
      dispatch_best E hE strictWeak_ep_rr_schedule_cmp ep_rr_schedule_cmp_false
        (fun _ => TIME_QUANTUM) (EP_RR.arrivals E s) hidle (by rw [hrq]; simp)
    obtain ⟨q, hq, hlt⟩ := h
    have hqs : q ∈ (EP_RR.arrivals E s).ready_queue := by
      rw [hrq]; exact List.mem_cons_of_mem _ (hperm.mem_iff.2 hq)
    have hblt : b.priority < s.running.priority := lt_of_le_of_lt (hbest q hqs).1 hlt
    have hbne : b ≠ { s.running with state := States.READY, time_in_cpu := 0 } := by
      intro hh
      rw [hh] at hblt
      exact lt_irrefl _ hblt
    have hb' : b ∈ Quantum.ready_after_arrivals E s := by
      rw [hrq, List.mem_cons] at hb
      rcases hb with hb | hb
      · exact absurd hb hbne
      · exact hperm.mem_iff.1 hb
    have htime : (EP_RR.arrivals E s).current_time = s.current_time := by rw [hyes']
    refine ⟨b, hb', ?_, ?_, ?_, ?_⟩
    · intro x hx
      exact hbest x (by rw [hrq]; exact List.mem_cons_of_mem _ (hperm.mem_iff.2 hx))
    · apply rows_added_eq
      show (EP_RR.schedule E (EP_RR.handle_running E (EP_RR.arrivals E s))).execution_status = _
      rw [hskip]
      unfold EP_RR.schedule ep_rr_schedule
      rw [hbrows, htime, hyes']
      simp only [List.append_assoc, List.singleton_append]
    · show (EP_RR.schedule E (EP_RR.handle_running E (EP_RR.arrivals E s))).running = _
      rw [hskip]
      unfold EP_RR.schedule ep_rr_schedule
      rw [hbrun, htime]
    · show _ ∈ (EP_RR.schedule E (EP_RR.handle_running E (EP_RR.arrivals E s))).ready_queue
      rw [hskip]
      have hmem : ({ s.running with state := States.READY, time_in_cpu := 0 } : PCB) ∈
          b :: (dispatch (E.sort ep_rr_schedule_cmp) (fun _ => TIME_QUANTUM)
            (EP_RR.arrivals E s)).ready_queue := by
        apply hbperm.mem_iff.2
        rw [hrq]
        exact List.mem_cons_self _ _
      rw [List.mem_cons] at hmem
      rcases hmem with hmem | hmem
      · exact absurd hmem.symm hbne
      · exact hmem
  · intro h
    refine ⟨rows_added_eq _ s _ (by rw [hno h]), ?_⟩
    rw [hno h]
  · refine ⟨rfl, ?_⟩
    obtain ⟨rows, hrows, hnone⟩ := EP.tick_rows E s
    rw [rows_added_eq _ s rows hrows]
    exact hnone

theorem preemption_on_arrival_witness :
    preemption_scenario_tick2.running.state = States.RUNNING ∧
    Quantum.arrived grant_all preemption_scenario_tick2 ≠ [] ∧
    ((∃ e ∈ rows_added (EP_RR.arrivals grant_all) preemption_scenario_tick2, e.is_preemption) ↔
      ∃ q ∈ Quantum.ready_after_arrivals grant_all preemption_scenario_tick2,
        q.priority < preemption_scenario_tick2.running.priority) :=
  ⟨by decide, by decide,
    (preemption_on_arrival grant_all sortContract_grant_all idleContract_grant_all
      preemption_scenario_tick2 (by decide) (by decide)).1⟩

/-! ## Quantum expiry (EP_RR, STEP 3) -/

theorem quantum_io_check_of_not_due (E : Env) (s : SimState) (h : ¬ io_due s.running) :
    Quantum.io_check E s = s := by
  unfold Quantum.io_check
  unfold io_due at h
  dsimp only
  split_ifs with h1 h2
  · exact absurd ⟨h1, h2⟩ h
  · rfl
  · rfl

theorem quantum_completion_check_of_pos (E : Env) (s : SimState)
    (h : s.running.remaining_time > 0) : Quantum.completion_check E s = s := by
  unfold Quantum.completion_check
  rw [if_neg]
  intro hh
  omega

theorem EP_RR.handle_running_at_expiry (E : Env) (s : SimState)
    (hrun : s.running.state = States.RUNNING) (hq : s.quantum_remaining = 1)
    (hrem : (Quantum.charged s.running).remaining_time > 0)
    (hio : ¬ io_due (Quantum.charged s.running)) :
    EP_RR.handle_running E s =
      if s.ready_queue.any (fun proc => decide (proc.priority = s.running.priority)) = true then
        { s with
          ready_queue :=
            { Quantum.charged s.running with state := States.READY, time_in_cpu := 0 } ::
              s.ready_queue
          job_list := sync_queue s.job_list
            { Quantum.charged s.running with state := States.READY, time_in_cpu := 0 }
          execution_status := s.execution_status ++
            [Event.mk s.current_time s.running.PID States.RUNNING States.READY]
          running := E.idle_CPU
            { Quantum.charged s.running with state := States.READY, time_in_cpu := 0 }
          quantum_remaining := 100 }
      else { s with running := Quantum.charged s.running, quantum_remaining := 100 } := by
  have hex : Quantum.execute s =
      { s with running := Quantum.charged s.running, quantum_remaining := 0 } := by
    unfold Quantum.execute Quantum.charged
    rw [hq]
    rfl
  unfold EP_RR.handle_running
  rw [if_pos hrun, hex, quantum_io_check_of_not_due E _ hio,
    quantum_completion_check_of_pos E _ hrem]
  unfold EP_RR.quantum_check
  have hst : (Quantum.charged s.running).state = States.RUNNING := hrun
  rw [if_pos ⟨rfl, hst, hrem⟩]
  rfl

/-- C5. EP_RR, STEP 3 of a tick on which the quantum counter of the running process `R` goes
from 1 to 0 (the 100th tick since it was last set to 100) while `R` neither terminates nor
starts I/O. A RUNNING -> READY row is printed if and only if some process of the ready queue has
exactly the priority value of `R`. In that case `R` (charged for the tick, made READY) is put at
the front of the ready queue, the CPU is idle and the quantum is 100 again. Otherwise no row is
printed, the quantum is 100 again and `R` (charged for the tick) is still RUNNING. -/
theorem quantum_expiry_needs_peer (E : Env) (s : SimState)
    (hrun : s.running.state = States.RUNNING) (hq : s.quantum_remaining = 1)
    (hrem : (Quantum.charged s.running).remaining_time > 0)
    (hio : ¬ io_due (Quantum.charged s.running)) :
    ((∃ e ∈ rows_added (EP_RR.handle_running E) s, e.is_preemption) ↔
      ∃ p ∈ s.ready_queue, p.priority = s.running.priority) ∧
    ((∃ p ∈ s.ready_queue, p.priority = s.running.priority) →
      rows_added (EP_RR.handle_running E) s =
        [Event.mk s.current_time s.running.PID States.RUNNING States.READY] ∧
      (EP_RR.handle_running E s).ready_queue =
        { Quantum.charged s.running with state := States.READY, time_in_cpu := 0 } ::
          s.ready_queue ∧
      (EP_RR.handle_running E s).running =
        E.idle_CPU { Quantum.charged s.running with state := States.READY, time_in_cpu := 0 } ∧
      (EP_RR.handle_running E s).quantum_remaining = 100) ∧
    (¬ (∃ p ∈ s.ready_queue, p.priority = s.running.priority) →
      rows_added (EP_RR.handle_running E) s = [] ∧
      (EP_RR.handle_running E s).ready_queue = s.ready_queue ∧
      (EP_RR.handle_running E s).running = Quantum.charged s.running ∧
      (EP_RR.handle_running E s).running.state = States.RUNNING ∧
      (EP_RR.handle_running E s).quantum_remaining = 100) := by
  have hany : s.ready_queue.any (fun proc => decide (proc.priority = s.running.priority)) = true ↔
      ∃ p ∈ s.ready_queue, p.priority = s.running.priority := by
    simp [List.any_eq_true]
  have heq := EP_RR.handle_running_at_expiry E s hrun hq hrem hio
  have hyes : (∃ p ∈ s.ready_queue, p.priority = s.running.priority) →
      rows_added (EP_RR.handle_running E) s =
        [Event.mk s.current_time s.running.PID States.RUNNING States.READY] := by
    intro h
    apply rows_added_eq
    rw [heq, if_pos (hany.2 h)]
  have hno : ¬ (∃ p ∈ s.ready_queue, p.priority = s.running.priority) →
      rows_added (EP_RR.handle_running E) s = [] := by
    intro h
    apply rows_added_eq
    rw [heq, if_neg (fun hh => h (hany.1 hh)), List.append_nil]
  refine ⟨⟨?_, ?_⟩, ?_, ?_⟩
  · rintro ⟨e, he, _⟩
    by_contra hcon
    rw [hno hcon] at he
    simp at he
  · intro h
    rw [hyes h]
    exact ⟨_, List.mem_singleton_self _, rfl, rfl⟩
  · intro h
    refine ⟨hyes h, ?_, ?_, ?_⟩ <;> rw [heq, if_pos (hany.2 h)]
  · intro h
    refine ⟨hno h, ?_, ?_, ?_, ?_⟩ <;> rw [heq, if_neg (fun hh => h (hany.1 hh))]
    exact hrun

set_option maxRecDepth 100000 in
theorem quantum_expiry_needs_peer_witness :
    expiry_scenario_tick100.running.state = States.RUNNING ∧
    expiry_scenario_tick100.quantum_remaining = 1 ∧
    ((∃ e ∈ rows_added (EP_RR.handle_running grant_all) expiry_scenario_tick100,
        e.is_preemption) ↔
      ∃ p ∈ expiry_scenario_tick100.ready_queue,
        p.priority = expiry_scenario_tick100.running.priority) :=
  ⟨by decide, by decide,
    (quantum_expiry_needs_peer grant_all expiry_scenario_tick100 (by decide) (by decide)
      (by decide) (by unfold io_due; decide)).1⟩

/-! ## Runs that do not depend on the environment -/

/-- A vector whose elements are already in strictly sorted order is the only sorted
rearrangement of itself. -/
theorem eq_of_perm_of_sorted_of_strict {comp : PCB → PCB → Bool} :
    ∀ (l₂ l₁ : List PCB), l₁.Perm l₂ → l₁.Pairwise (fun a b => comp b a = false) →
      l₂.Pairwise (fun a b => comp a b = true) → l₁ = l₂ := by
  intro l₂
  induction l₂ with
  | nil => intro l₁ hp _ _; exact List.Perm.eq_nil hp
  | cons a t ih =>
    intro l₁ hp h1 h2
    cases l₁ with
    | nil => exact absurd (List.Perm.eq_nil hp.symm) (by simp)
    | cons x t₁ =>
      rw [List.pairwise_cons] at h1 h2
      by_cases hxa : x = a
      · subst hxa
        rw [ih t₁ ((List.perm_cons x).1 hp) h1.2 h2.2]
      · exfalso
        have hx : x ∈ t := by
          have : x ∈ a :: t := hp.mem_iff.1 (List.mem_cons_self _ _)
          rw [List.mem_cons] at this
          exact this.resolve_left hxa
        have ha : a ∈ t₁ := by
          have : a ∈ x :: t₁ := hp.mem_iff.2 (List.mem_cons_self _ _)
          rw [List.mem_cons] at this
          exact this.resolve_left (fun h => hxa h.symm)
        have c1 := h1.1 a ha
        have c2 := h2.1 x hx
        rw [c1] at c2
        exact Bool.false_ne_true c2

theorem pairwise_of_strictly_sorted (comp : PCB → PCB → Bool) :
    ∀ l, strictly_sorted comp l = true → l.Pairwise (fun a b => comp a b = true) := by
  intro l
  induction l with
  | nil => intro _; exact List.Pairwise.nil
  | cons a t ih =>
    intro h
    simp only [strictly_sorted, Bool.and_eq_true, List.all_eq_true] at h
    exact List.pairwise_cons.2 ⟨h.1, ih h.2⟩

/-- Two sorting functions that meet the contract return the same vector when one of them returns
a strictly sorted one. -/
theorem sort_eq_of_strictly_sorted (E E' : Env) (hE : SortContract E) (hE' : SortContract E')
    {comp : PCB → PCB → Bool} (hsw : StrictWeak comp) (l : List PCB)
    (h : strictly_sorted comp (E'.sort comp l) = true) : E.sort comp l = E'.sort comp l :=
  eq_of_perm_of_sorted_of_strict _ _ ((hE comp hsw l).1.trans (hE' comp hsw l).1.symm)
    (hE comp hsw l).2 (pairwise_of_strictly_sorted comp _ h)

theorem admitted_congr (E E' : Env) (h : ∀ t i, E.assign_memory t i = E'.assign_memory t i)
    (touch : PCB → PCB) (now : Nat) :
    ∀ (l : List PCB) (i : Nat), admitted E touch now i l = admitted E' touch now i l := by
  intro l
  induction l with
  | nil => intro i; rfl
  | cons p ps ih => intro i; simp only [admitted, h, ih]

theorem marked_congr (E E' : Env) (h : ∀ t i, E.assign_memory t i = E'.assign_memory t i)
    (touch : PCB → PCB) (now : Nat) :
    ∀ (l : List PCB) (i : Nat), marked E touch now i l = marked E' touch now i l := by
  intro l
  induction l with
  | nil => intro i; rfl
  | cons p ps ih => intro i; simp only [marked, h, ih]

theorem Agree.agree_of_eq {s s' : SimState} (h : s = s') : Agree s s' := by
  subst h
  exact ⟨rfl, rfl, rfl, rfl, rfl, rfl, rfl, rfl, Or.inl rfl⟩

theorem Agree.agree_populate {E E' : Env} (h : ∀ t i, E.assign_memory t i = E'.assign_memory t i)
    (touch : PCB → PCB) {s s' : SimState} (ha : Agree s s') :
    Agree (populate E touch s) (populate E' touch s') := by
  obtain ⟨h1, h2, h3, h4, h5, h6, h7, h8, h9⟩ := ha
  unfold Agree Sched.populate
  simp only [admitted_congr E E' h, marked_congr E E' h, h1, h2, h3, h4, h5, h6, h7, h8]
  exact ⟨trivial, trivial, trivial, trivial, trivial, trivial, trivial, trivial, h9⟩

theorem Agree.agree_manage_wait_queue (started started' : PCB → Nat) (touch : PCB → PCB)
    {s s' : SimState} (hst : started = started') (ha : Agree s s') :
    Agree (manage_wait_queue started touch s) (manage_wait_queue started' touch s') := by
  obtain ⟨h1, h2, h3, h4, h5, h6, h7, h8, h9⟩ := ha
  unfold Agree Sched.manage_wait_queue
  simp only [h1, h2, h3, h4, h5, h6, h7, h8, hst]
  exact ⟨trivial, trivial, trivial, trivial, trivial, trivial, trivial, trivial, h9⟩

theorem ep_handle_running_of_not_running (E : Env) (s : SimState)
    (h : s.running.state ≠ States.RUNNING) : EP.handle_running E s = s := by
  unfold EP.handle_running
  rw [if_neg h]

theorem ep_io_check_of_not_due (E : Env) (s : SimState) (h : ¬ io_due s.running) :
    EP.io_check E s = s := by
  unfold EP.io_check
  unfold io_due at h
  dsimp only
  split_ifs with h1 h2
  · exact absurd ⟨h1, h2⟩ h
  · rfl
  · rfl

theorem ep_handle_running_of_not_due (E : Env) (s : SimState)
    (hrun : s.running.state = States.RUNNING) (h : ¬ io_due (EP.charged s.running)) :
    EP.handle_running E s =
      EP.completion_check E { s with running := EP.charged s.running } := by
  unfold EP.handle_running
  rw [if_pos hrun]
  exact congrArg _ (ep_io_check_of_not_due E { s with running := EP.charged s.running } h)

theorem Agree.agree_handle_running {E E' : Env} (hI : IdleContract E) (hI' : IdleContract E')
    {s s' : SimState} (ha : Agree s s')
    (hio : s'.running.state = States.RUNNING → ¬ io_due (EP.charged s'.running)) :
    Agree (EP.handle_running E s) (EP.handle_running E' s') := by
  obtain ⟨h1, h2, h3, h4, h5, h6, h7, h8, h9⟩ := ha
  rcases h9 with h9 | ⟨h9, h9'⟩
  · by_cases hrun : s'.running.state = States.RUNNING
    · rw [ep_handle_running_of_not_due E s (by rw [h9]; exact hrun) (by rw [h9]; exact hio hrun),
        ep_handle_running_of_not_due E' _ hrun (hio hrun)]
      unfold EP.completion_check Agree
      simp only [h1, h2, h3, h4, h5, h6, h7, h8, h9]
      split_ifs
      · exact ⟨rfl, rfl, rfl, rfl, rfl, rfl, rfl, rfl, Or.inr ⟨hI _, hI' _⟩⟩
      · exact ⟨rfl, rfl, rfl, rfl, rfl, rfl, rfl, rfl, Or.inl rfl⟩
    · rw [ep_handle_running_of_not_running E s (by rw [h9]; exact hrun),
        ep_handle_running_of_not_running E' _ hrun]
      exact ⟨h1, h2, h3, h4, h5, h6, h7, h8, Or.inl h9⟩
  · rw [ep_handle_running_of_not_running E s (by rw [h9]; decide),
      ep_handle_running_of_not_running E' _ (by rw [h9']; decide)]
    exact ⟨h1, h2, h3, h4, h5, h6, h7, h8, Or.inr ⟨h9, h9'⟩⟩

theorem Agree.agree_dispatch {E E' : Env} (hE : SortContract E) (hE' : SortContract E')
    {comp : PCB → PCB → Bool} (hsw : StrictWeak comp) (quantum : Nat → Nat)
    {s s' : SimState} (ha : Agree s s')
    (hsorted : s'.running.state = States.NOT_ASSIGNED ∧ s'.ready_queue ≠ [] →
      strictly_sorted comp (E'.sort comp s'.ready_queue) = true) :
    Agree (dispatch (E.sort comp) quantum s) (dispatch (E'.sort comp) quantum s') := by
  obtain ⟨h1, h2, h3, h4, h5, h6, h7, h8, h9⟩ := ha
  by_cases hd : s'.running.state = States.NOT_ASSIGNED ∧ s'.ready_queue ≠ []
  · have hs : s.running.state = States.NOT_ASSIGNED := by
      rcases h9 with h9 | h9
      · rw [h9]; exact hd.1
      · exact h9.1
    have hsort : E.sort comp s.ready_queue = E'.sort comp s'.ready_queue := by
      rw [h2]
      exact sort_eq_of_strictly_sorted E E' hE hE' hsw _ (hsorted hd)
    unfold Sched.dispatch
    rw [if_pos hd, if_pos ⟨hs, by rw [h2]; exact hd.2⟩]
    dsimp only
    rw [hsort]
    cases (E'.sort comp s'.ready_queue).getLast? with
    | none => exact ⟨h1, h2, h3, h4, h5, h6, h7, h8, h9⟩
    | some back =>
      dsimp only
      simp only [h1, h3, h4, h5, h6, h7, h8]
      exact ⟨rfl, rfl, rfl, rfl, rfl, rfl, rfl, rfl, Or.inl rfl⟩
  · have hd' : ¬ (s.running.state = States.NOT_ASSIGNED ∧ s.ready_queue ≠ []) := by
      intro hh
      apply hd
      refine ⟨?_, by rw [← h2]; exact hh.2⟩
      rcases h9 with h9 | h9
      · rw [← h9]; exact hh.1
      · exact h9.2
    unfold Sched.dispatch
    rw [if_neg hd, if_neg hd']
    exact ⟨h1, h2, h3, h4, h5, h6, h7, h8, h9⟩

theorem Agree.agree_tick {E E' : Env} (hE : SortContract E) (hE' : SortContract E')
    (hI : IdleContract E) (hI' : IdleContract E')
    (h : ∀ t i, E.assign_memory t i = E'.assign_memory t i) {s s' : SimState}
    (ha : Agree s s') (hdet : EP.tick_determined E' s' = true) :
    Agree (EP.tick E s) (EP.tick E' s') := by
  unfold EP.tick_determined at hdet
  simp only [Bool.and_eq_true, decide_eq_true_eq] at hdet
  have a1 := Agree.agree_populate h EP.touch_new ha
  have a2 := Agree.agree_manage_wait_queue (fun _ => (Sched.populate E EP.touch_new s).io_start_time)
    (fun _ => (Sched.populate E' EP.touch_new s').io_start_time) EP.touch_done
    (by funext _; exact a1.2.2.2.2.2.1) a1
  have a3 := Agree.agree_handle_running hI hI' a2 hdet.1
  have a4 := Agree.agree_dispatch hE hE' strictWeak_external_priorities_cmp (fun q => q) a3 hdet.2
  obtain ⟨h1, h2, h3, h4, h5, h6, h7, h8, h9⟩ := a4
  exact ⟨h1, h2, h3, h4, congrArg (· + 1) h5, h6, h7, h8, h9⟩

theorem Agree.agree_loop {E E' : Env} (hE : SortContract E) (hE' : SortContract E')
    (hI : IdleContract E) (hI' : IdleContract E')
    (h : ∀ t i, E.assign_memory t i = E'.assign_memory t i) :
    ∀ (fuel : Nat) (s s' : SimState), Agree s s' → EP.run_determined E' fuel s' = true →
      Agree (EP.loop E fuel s).1 (EP.loop E' fuel s').1 ∧
        (EP.loop E fuel s).2 = (EP.loop E' fuel s').2 := by
  intro fuel
  induction fuel with
  | zero => intro s s' ha _; exact ⟨ha, rfl⟩
  | succ n ih =>
    intro s s' ha hdet
    have hc : loop_condition s = loop_condition s' := by
      unfold loop_condition; rw [ha.2.2.2.1]
    unfold EP.run_determined at hdet
    unfold EP.loop
    rw [hc]
    by_cases hl : loop_condition s' = true
    · rw [if_pos hl] at hdet
      simp only [Bool.and_eq_true] at hdet
      have at1 := Agree.agree_tick hE hE' hI hI' h ha hdet.1
      have ht : (EP.tick E s).current_time = (EP.tick E' s').current_time := at1.2.2.2.2.1
      simp only [if_pos hl, ht]
      by_cases hto : (EP.tick E' s').current_time > 100000
      · simp only [if_pos hto]
        exact ⟨at1, trivial⟩
      · simp only [if_neg hto]
        have hd2 := hdet.2
        rw [if_neg hto] at hd2
        exact ih _ _ at1 hd2
    · simp only [if_neg hl]
      exact ⟨ha, trivial⟩

theorem Agree.agree_init (E E' : Env) (hI : IdleContract E) (hI' : IdleContract E') (l : List PCB) :
    Agree (init E l) (init E' l) :=
  ⟨rfl, rfl, rfl, rfl, rfl, rfl, rfl, rfl, Or.inr ⟨hI _, hI' _⟩⟩

/-- A run of EP that is determined under one environment has the same execution table, the same
final tick and the same time-out flag under every environment that gives the same allocator
answers. -/
theorem EP.run_simulation_eq_of_determined {E E' : Env} (hE : SortContract E)
    (hE' : SortContract E') (hI : IdleContract E) (hI' : IdleContract E')
    (h : ∀ t i, E.assign_memory t i = E'.assign_memory t i) (l : List PCB)
    (hdet : EP.run_determined E' 100001 (Sched.init E' l) = true) :
    (EP.run_simulation E l).1.execution_status = (EP.run_simulation E' l).1.execution_status ∧
    (EP.run_simulation E l).1.current_time = (EP.run_simulation E' l).1.current_time ∧
    (EP.run_simulation E l).2 = (EP.run_simulation E' l).2 := by
  have := Agree.agree_loop hE hE' hI hI' h 100001 _ _ (Agree.agree_init E E' hI hI' l) hdet
  exact ⟨this.1.2.2.2.2.2.2.2.1, this.1.2.2.2.2.1, this.2⟩

/-- C8. For the workload P1(arrival 0, burst 5, size 5), P2(arrival 0, burst 5, size 1),
P3(arrival 2, burst 3, size 3), none with I/O, and every admission granted, the execution table
of EP is exactly: t=0 P1 NEW->READY, t=0 P2 NEW->READY, t=0 P2 READY->RUNNING, t=2 P3 NEW->READY,
t=5 P2 RUNNING->TERMINATED, t=5 P3 READY->RUNNING, t=8 P3 RUNNING->TERMINATED,
t=8 P1 READY->RUNNING, t=13 P1 RUNNING->TERMINATED; the loop is left through its condition after
tick 13 (`current_time` is 14), not through the safety check. This holds whatever `std::sort`
and `idle_CPU` do within their contracts. -/
theorem scenario_trace (E : Env) (hE : SortContract E) (hI : IdleContract E)
    (hgrant : ∀ t i, E.assign_memory t i = true) :
    (EP.run_simulation E scenario).1.execution_status =
      [Event.mk 0 1 States.NEW States.READY,
       Event.mk 0 2 States.NEW States.READY,
       Event.mk 0 2 States.READY States.RUNNING,
       Event.mk 2 3 States.NEW States.READY,
       Event.mk 5 2 States.RUNNING States.TERMINATED,
       Event.mk 5 3 States.READY States.RUNNING,
       Event.mk 8 3 States.RUNNING States.TERMINATED,
       Event.mk 8 1 States.READY States.RUNNING,
       Event.mk 13 1 States.RUNNING States.TERMINATED] ∧
    (EP.run_simulation E scenario).1.current_time = 14 ∧
    (EP.run_simulation E scenario).2 = false := by
  have h := EP.run_simulation_eq_of_determined hE sortContract_grant_all hI
    idleContract_grant_all (fun t i => hgrant t i) scenario (by decide)
  rw [h.1, h.2.1, h.2.2]
  decide

theorem scenario_trace_witness :
    (EP.run_simulation grant_all scenario).1.current_time = 14 :=
  (scenario_trace grant_all sortContract_grant_all idleContract_grant_all (fun _ _ => rfl)).2.1

/-! ## Concrete runs -/

/-- STEP 2.5 of EP_RR does nothing on a tick without a new arrival, whatever STEP 2 did: its
second trigger compares the length of `still_waiting` with the length of the vector it has just
been copied to. -/
theorem EP_RR.check_preemption_without_arrival (E : Env) (s : SimState) :
    EP_RR.check_preemption E false s.wait_queue s = s := by
  unfold EP_RR.check_preemption
  rw [if_neg]
  simp

/-- C4 (what the code does). EP_RR on `io_return_scenario`, every admission granted: PID 1
(size 1) comes back from I/O at tick 7 while PID 2 (size 5) is RUNNING and nothing arrives; no
RUNNING -> READY row is printed, PID 2 keeps the CPU until it terminates at tick 22 and only then
is PID 1 dispatched. -/
theorem io_return_does_not_preempt :
    (EP_RR.run_simulation grant_all io_return_scenario).1.execution_status =
      [Event.mk 0 1 States.NEW States.READY,
       Event.mk 0 2 States.NEW States.READY,
       Event.mk 0 1 States.READY States.RUNNING,
       Event.mk 2 1 States.RUNNING States.WAITING,
       Event.mk 2 2 States.READY States.RUNNING,
       Event.mk 7 1 States.WAITING States.READY,
       Event.mk 22 2 States.RUNNING States.TERMINATED,
       Event.mk 22 1 States.READY States.RUNNING,
       Event.mk 24 1 States.RUNNING States.TERMINATED] := by
  decide

set_option maxRecDepth 100000 in
/-- C7 (what the code does). RR and EP_RR on `rotation_scenario`, every admission granted: at
tick 100 PID 1 is preempted at quantum expiry while PID 2 (same size) is in the ready queue, and
the process dispatched on that tick is PID 1 again; PID 2 first runs at tick 101, after PID 1 has
terminated. -/
theorem quantum_preemption_redispatches_preempted :
    (RR.run_simulation grant_all rotation_scenario).1.execution_status =
      [Event.mk 0 1 States.NEW States.READY,
       Event.mk 0 1 States.READY States.RUNNING,
       Event.mk 1 2 States.NEW States.READY,
       Event.mk 100 1 States.RUNNING States.READY,
       Event.mk 100 1 States.READY States.RUNNING,
       Event.mk 101 1 States.RUNNING States.TERMINATED,
       Event.mk 101 2 States.READY States.RUNNING,
       Event.mk 102 2 States.RUNNING States.TERMINATED] ∧
    (EP_RR.run_simulation grant_all rotation_scenario).1.execution_status =
      [Event.mk 0 1 States.NEW States.READY,
       Event.mk 0 1 States.READY States.RUNNING,
       Event.mk 1 2 States.NEW States.READY,
       Event.mk 100 1 States.RUNNING States.READY,
       Event.mk 100 1 States.READY States.RUNNING,
       Event.mk 101 1 States.RUNNING States.TERMINATED,
       Event.mk 101 2 States.READY States.RUNNING,
       Event.mk 102 2 States.RUNNING States.TERMINATED] := by
  constructor <;> decide

/-! ## The structural invariant -/

theorem pids_eq_map_static (l : List PCB) : pids l = (l.map PCB.static).map Prod.fst := by
  simp [pids, PCB.static, List.map_map, Function.comp_def]

theorem static_pid {p q : PCB} (h : p.static = q.static) : p.PID = q.PID :=
  congrArg (fun x => x.1) h

theorem static_arrival {p q : PCB} (h : p.static = q.static) :
    p.arrival_time = q.arrival_time :=
  congrArg (fun x => x.2.2.1) h

theorem static_processing {p q : PCB} (h : p.static = q.static) :
    p.processing_time = q.processing_time :=
  congrArg (fun x => x.2.2.2.1) h

/-- In a roster without repeated PIDs the PID determines the static fields. -/
theorem static_eq_of_pid_eq {l : List PCB} (hl : (pids l).Nodup) {p q : PCB}
    (hp : p.static ∈ l.map PCB.static) (hq : q.static ∈ l.map PCB.static)
    (h : p.PID = q.PID) : p.static = q.static := by
  rw [pids_eq_map_static] at hl
  exact List.inj_on_of_nodup_map hl hp hq h

theorem perm_of_coe_eq {α : Type} {l₁ l₂ : List α}
    (h : (l₁ : Multiset α) = (l₂ : Multiset α)) : l₁.Perm l₂ :=
  Multiset.coe_eq_coe.1 h

/-- A step that keeps the roster, leaves the slot well formed and keeps or removes (but does not
add) processes, up to the fields the simulators assign, preserves the invariant. -/
theorem Inv.transfer {b b' : Nat} {s s' : SimState} (h : Inv b s) (hb : b ≤ b')
    (hslot : s'.running.state = States.RUNNING ∨ s'.running.state = States.NOT_ASSIGNED)
    (hlist : s'.list_processes.map PCB.static = s.list_processes.map PCB.static)
    (hsub : ((live s').map PCB.static).Subperm ((live s).map PCB.static)) : Inv b' s' := by
  obtain ⟨l, hp, hs⟩ := hsub
  refine ⟨hslot, ?_, ?_, ?_⟩
  · rw [pids_eq_map_static]
    have h1 := h.nodup_live
    rw [pids_eq_map_static] at h1
    exact (hp.map Prod.fst).nodup_iff.1 ((hs.map Prod.fst).nodup h1)
  · rw [pids_eq_map_static, hlist, ← pids_eq_map_static]
    exact h.nodup_list
  · intro p hpm
    have h1 : p.static ∈ (live s).map PCB.static :=
      hs.subset (hp.mem_iff.2 (List.mem_map_of_mem _ hpm))
    obtain ⟨p0, hp0, he⟩ := List.mem_map.1 h1
    have := h.arrived p0 hp0
    rw [hlist, ← he]
    exact ⟨this.1, by rw [static_arrival he.symm] at *; omega⟩

theorem Inv.mono {b b' : Nat} {s : SimState} (h : Inv b s) (hb : b ≤ b') : Inv b' s :=
  h.transfer hb h.slot rfl (List.Subperm.refl _)

theorem map_static_marked (E : Env) (touch : PCB → PCB)
    (htouch : ∀ p, (touch p).static = p.static) (now : Nat) :
    ∀ (l : List PCB) (i : Nat), (marked E touch now i l).map PCB.static = l.map PCB.static := by
  intro l
  induction l with
  | nil => intro i; rfl
  | cons p ps ih =>
    intro i
    simp only [marked]
    split_ifs <;> simp [ih, htouch]

theorem sublist_map_static_admitted (E : Env) (touch : PCB → PCB)
    (htouch : ∀ p, (touch p).static = p.static) (now : Nat) :
    ∀ (l : List PCB) (i : Nat),
      ((admitted E touch now i l).map PCB.static).Sublist (l.map PCB.static) := by
  intro l
  induction l with
  | nil => intro i; exact List.Sublist.refl _
  | cons p ps ih =>
    intro i
    simp only [admitted]
    split_ifs
    · simp only [List.map_cons, htouch]
      exact (ih (i + 1)).cons₂ _
    · simp only [List.map_cons]
      exact (ih (i + 1)).cons _

theorem arrival_of_mem_admitted (E : Env) (touch : PCB → PCB)
    (htouch : ∀ p, (touch p).static = p.static) (now : Nat) :
    ∀ (l : List PCB) (i : Nat), ∀ a ∈ admitted E touch now i l, a.arrival_time = now := by
  intro l
  induction l with
  | nil => intro i a ha; simp [admitted] at ha
  | cons p ps ih =>
    intro i a ha
    simp only [admitted] at ha
    split_ifs at ha with h
    · rw [List.mem_cons] at ha
      rcases ha with rfl | ha
      · rw [static_arrival (htouch p)]; exact h.1
      · exact ih _ a ha
    · exact ih _ a ha

theorem live_populate (E : Env) (touch : PCB → PCB) (s : SimState) :
    (live (populate E touch s)).Perm
      (live s ++ admitted E touch s.current_time 0 s.list_processes) := by
  unfold live on_cpu populate
  apply perm_of_coe_eq
  simp only [← Multiset.coe_add]
  abel

/-- STEP 1 preserves the invariant (with the arrival bound moved past the current tick). -/
theorem Inv.populate (E : Env) (touch : PCB → PCB)
    (htouch : ∀ p, (touch p).static = p.static) {s : SimState} (h : Inv s.current_time s) :
    Inv (s.current_time + 1) (Sched.populate E touch s) := by
  have hroster : (Sched.populate E touch s).list_processes.map PCB.static =
      s.list_processes.map PCB.static := map_static_marked E touch htouch _ _ _
  have hadm := sublist_map_static_admitted E touch htouch s.current_time s.list_processes 0
  have hperm := live_populate E touch s
  have hnl : (pids s.list_processes).Nodup := h.nodup_list
  refine ⟨h.slot, ?_, ?_, ?_⟩
  · rw [pids_eq_map_static, (hperm.map PCB.static |>.map Prod.fst).nodup_iff,
      List.map_append, List.map_append, List.nodup_append]
    refine ⟨?_, ?_, ?_⟩
    · rw [← pids_eq_map_static]; exact h.nodup_live
    · rw [pids_eq_map_static] at hnl
      exact (hadm.map Prod.fst).nodup hnl
    · intro x hx1 hx2
      simp only [List.mem_map] at hx1 hx2
      obtain ⟨_, ⟨p, hp, rfl⟩, rfl⟩ := hx1
      obtain ⟨_, ⟨a, ha, rfl⟩, hpa⟩ := hx2
      have h1 := h.arrived p hp
      have h2 : a.static ∈ s.list_processes.map PCB.static :=
        hadm.subset (List.mem_map_of_mem _ ha)
      have h3 := static_eq_of_pid_eq hnl h2 h1.1 hpa
      have h4 := arrival_of_mem_admitted E touch htouch _ _ _ a ha
      have := static_arrival h3
      omega
  · rw [pids_eq_map_static, hroster, ← pids_eq_map_static]; exact hnl
  · intro p hp
    rw [hroster]
    have := hperm.mem_iff.1 hp
    rw [List.mem_append] at this
    rcases this with hp | hp
    · exact ⟨(h.arrived p hp).1, by have := (h.arrived p hp).2; omega⟩
    · exact ⟨hadm.subset (List.mem_map_of_mem _ hp),
        by rw [arrival_of_mem_admitted E touch htouch _ _ _ p hp]; omega⟩

theorem Inv.transfer_perm {b : Nat} {s s' : SimState} (h : Inv b s)
    (hslot : s'.running.state = States.RUNNING ∨ s'.running.state = States.NOT_ASSIGNED)
    (hlist : s'.list_processes = s.list_processes)
    (hperm : ((live s').map PCB.static).Perm ((live s).map PCB.static)) : Inv b s' :=
  h.transfer (le_refl b) hslot (by rw [hlist]) hperm.subperm

theorem on_cpu_of_running {s : SimState} (h : s.running.state = States.RUNNING) :
    on_cpu s = [s.running] := by
  unfold on_cpu
  rw [if_pos h]

theorem on_cpu_of_not_running {s : SimState} (h : s.running.state ≠ States.RUNNING) :
    on_cpu s = [] := by
  unfold on_cpu
  rw [if_neg h]

theorem on_cpu_of_idle {s : SimState} (h : s.running.state = States.NOT_ASSIGNED) :
    on_cpu s = [] :=
  on_cpu_of_not_running (by rw [h]; decide)

/-- STEP 2 preserves the invariant. -/
theorem Inv.manage_wait_queue (started : PCB → Nat) (touch : PCB → PCB)
    (htouch : ∀ p, (touch p).static = p.static) {b : Nat} {s : SimState} (h : Inv b s) :
    Inv b (Sched.manage_wait_queue started touch s) := by
  refine h.transfer_perm h.slot rfl ?_
  have hf := (List.filter_append_perm
    (fun p => decide (usub s.current_time (started p) ≥ p.io_duration)) s.wait_queue).map
    PCB.static
  have hm : ∀ l : List PCB, (l.map touch).map PCB.static = l.map PCB.static := by
    intro l
    rw [List.map_map]
    exact List.map_congr_left (fun p _ => htouch p)
  have hcpu : on_cpu (Sched.manage_wait_queue started touch s) = on_cpu s := rfl
  unfold live
  rw [hcpu]
  unfold Sched.manage_wait_queue
  simp only [List.map_append, hm] at hf ⊢
  apply perm_of_coe_eq
  have hf' := Multiset.coe_eq_coe.2 hf
  simp only [← Multiset.coe_add] at hf' ⊢
  rw [← hf']
  abel

/-- Replacing the ready queue by a rearrangement of it preserves the invariant. -/
theorem Inv.sort_ready {b : Nat} {s : SimState} (h : Inv b s) (rq : List PCB)
    (hperm : rq.Perm s.ready_queue) : Inv b { s with ready_queue := rq } := by
  refine h.transfer_perm h.slot rfl ?_
  have hcpu : on_cpu { s with ready_queue := rq } = on_cpu s := rfl
  unfold live
  rw [hcpu]
  exact ((hperm.append_right _).append_right _).map _

/-- Moving the RUNNING process to the front of the ready queue (both kinds of preemption)
preserves the invariant. -/
theorem Inv.requeue (E : Env) (hI : IdleContract E) {b : Nat} {s : SimState} (h : Inv b s)
    (hrun : s.running.state = States.RUNNING) (r : PCB) (hr : r.static = s.running.static)
    (jl : List PCB) (es : List Event) (q : Nat) :
    Inv b { s with
      ready_queue := r :: s.ready_queue
      job_list := jl
      execution_status := es
      running := E.idle_CPU r
      quantum_remaining := q } := by
  refine h.transfer_perm (Or.inr (hI _)) rfl ?_
  unfold live
  rw [on_cpu_of_running hrun, on_cpu_of_idle (hI r)]
  simp only [List.map_append, List.map_cons, List.map_nil, hr, List.append_nil]
  apply perm_of_coe_eq
  simp only [← Multiset.coe_add, ← Multiset.cons_coe, ← Multiset.singleton_add]
  abel

/-- Changing the process on the CPU in fields the simulators assign preserves the invariant. -/
theorem Inv.charge {b : Nat} {s : SimState} (h : Inv b s) (r : PCB)
    (hr : r.static = s.running.static) (hst : r.state = s.running.state) (q : Nat) :
    Inv b { s with running := r, quantum_remaining := q } := by
  refine h.transfer_perm (by show r.state = _ ∨ r.state = _; rw [hst]; exact h.slot) rfl ?_
  unfold live on_cpu
  show (List.map PCB.static (s.ready_queue ++ s.wait_queue ++
    if r.state = States.RUNNING then [r] else [])).Perm _
  rw [hst]
  split_ifs <;> simp [hr]

/-- Moving the RUNNING process to the back of the wait queue preserves the invariant. -/
theorem Inv.block (E : Env) (hI : IdleContract E) {b : Nat} {s : SimState} (h : Inv b s)
    (hrun : s.running.state = States.RUNNING) (w : PCB) (hw : w.static = s.running.static)
    (jl : List PCB) (es : List Event) (q io : Nat) :
    Inv b { s with
      io_start_time := io
      wait_queue := s.wait_queue ++ [w]
      job_list := jl
      execution_status := es
      running := E.idle_CPU w
      quantum_remaining := q } := by
  refine h.transfer_perm (Or.inr (hI _)) rfl ?_
  unfold live
  rw [on_cpu_of_running hrun, on_cpu_of_idle (hI w)]
  simp only [List.map_append, List.map_cons, List.map_nil, hw, List.append_nil,
    List.append_assoc]
  exact List.Perm.refl _

/-- Emptying the running slot preserves the invariant. -/
theorem Inv.vacate (E : Env) (hI : IdleContract E) {b : Nat} {s : SimState} (h : Inv b s)
    (r : PCB) (jl : List PCB) (es : List Event) (q : Nat) :
    Inv b { s with
      job_list := jl
      execution_status := es
      running := E.idle_CPU r
      quantum_remaining := q } := by
  refine h.transfer (le_refl b) (Or.inr (hI _)) rfl ?_
  unfold live
  rw [on_cpu_of_idle (hI r)]
  apply List.Sublist.subperm
  apply List.Sublist.map
  simp only [List.append_nil]
  exact List.sublist_append_left _ _

/-- STEP 4 preserves the invariant. -/
theorem Inv.dispatch (schedule : List PCB → List PCB) (quantum : Nat → Nat) {b : Nat}
    {s : SimState} (h : Inv b s) (hperm : (schedule s.ready_queue).Perm s.ready_queue) :
    Inv b (Sched.dispatch schedule quantum s) := by
  by_cases hd : s.running.state = States.NOT_ASSIGNED ∧ s.ready_queue ≠ []
  · obtain ⟨back, hl, heq⟩ := dispatch_eq schedule quantum s hperm hd.1 hd.2
    rw [heq]
    refine h.transfer_perm (Or.inl rfl) rfl ?_
    unfold live
    rw [on_cpu_of_idle hd.1, on_cpu_of_running rfl]
    have hp := hperm.map PCB.static
    rw [hl] at hp
    have hst : (started_at s.current_time back).static = back.static :=
      static_started_at _ _
    simp only [List.map_append, List.map_cons, List.map_nil, hst, List.append_nil] at hp ⊢
    apply perm_of_coe_eq
    have hp' := Multiset.coe_eq_coe.2 hp
    simp only [← Multiset.coe_add] at hp' ⊢
    rw [← hp']
    abel
  · unfold Sched.dispatch
    rw [if_neg hd]
    exact h

theorem Inv.ep_io_check (E : Env) (hI : IdleContract E) {b : Nat} {s : SimState} (h : Inv b s)
    (hrun : s.running.state = States.RUNNING) : Inv b (EP.io_check E s) := by
  unfold EP.io_check
  dsimp only
  split_ifs
  · exact h.block E hI hrun { s.running with state := States.WAITING } rfl _ _ _ _
  · exact h
  · exact h

theorem Inv.ep_completion_check (E : Env) (hI : IdleContract E) {b : Nat} {s : SimState}
    (h : Inv b s) : Inv b (EP.completion_check E s) := by
  unfold EP.completion_check
  dsimp only
  split_ifs
  · exact h.vacate E hI _ _ _ _
  · exact h

theorem ep_io_check_slot (E : Env) (hI : IdleContract E) (s : SimState)
    (hrun : s.running.state = States.RUNNING) :
    (EP.io_check E s).running.state = States.RUNNING ∨
      (EP.io_check E s).running.state = States.NOT_ASSIGNED := by
  unfold EP.io_check
  dsimp only
  split_ifs
  · exact Or.inr (hI _)
  · exact Or.inl hrun
  · exact Or.inl hrun

/-- STEP 3 of EP preserves the invariant. -/
theorem Inv.ep_handle_running (E : Env) (hI : IdleContract E) {b : Nat} {s : SimState}
    (h : Inv b s) : Inv b (EP.handle_running E s) := by
  unfold EP.handle_running
  split_ifs with hrun
  · exact Inv.ep_completion_check E hI (Inv.ep_io_check E hI (h.charge (EP.charged s.running) rfl rfl _) hrun)
  · exact h

theorem Inv.tick_end {b : Nat} {s : SimState} (h : Inv b s) :
    Inv b { s with current_time := s.current_time + 1 } :=
  h.transfer_perm h.slot rfl (List.Perm.refl _)

theorem static_ep_touch_new (p : PCB) : (EP.touch_new p).static = p.static := rfl

theorem static_ep_touch_done (p : PCB) : (EP.touch_done p).static = p.static := rfl

theorem static_quantum_touch_new (p : PCB) : (Quantum.touch_new p).static = p.static := rfl

theorem static_quantum_touch_done (p : PCB) : (Quantum.touch_done p).static = p.static := rfl

theorem populate_current_time (E : Env) (touch : PCB → PCB) (s : SimState) :
    (populate E touch s).current_time = s.current_time := rfl

theorem dispatch_current_time (schedule : List PCB → List PCB) (quantum : Nat → Nat)
    (s : SimState) : (dispatch schedule quantum s).current_time = s.current_time := by
  unfold dispatch
  dsimp only
  split_ifs
  · cases (schedule s.ready_queue).getLast? <;> rfl
  · rfl

theorem ep_schedule_current_time (E : Env) (s : SimState) :
    (EP.schedule E s).current_time = s.current_time :=
  dispatch_current_time _ _ s

theorem ep_handle_running_current_time (E : Env) (s : SimState) :
    (EP.handle_running E s).current_time = s.current_time := by
  unfold EP.handle_running EP.completion_check EP.io_check
  dsimp only
  split_ifs <;> rfl

/-- One iteration of the loop body of EP preserves the invariant. -/
theorem Inv.ep_tick (E : Env) (hE : SortContract E) (hI : IdleContract E) {s : SimState}
    (h : Inv s.current_time s) :
    Inv (EP.tick E s).current_time (EP.tick E s) ∧
      (EP.tick E s).current_time = s.current_time + 1 := by
  have h1 := Inv.populate E EP.touch_new static_ep_touch_new h
  have h2 := Inv.manage_wait_queue (fun _ => (Sched.populate E EP.touch_new s).io_start_time)
    EP.touch_done static_ep_touch_done h1
  have h3 := Inv.ep_handle_running E hI h2
  have h4 := Inv.dispatch (external_priorities E) (fun q => q) h3
    (hE _ strictWeak_external_priorities_cmp _).1
  have ht : (EP.tick E s).current_time = s.current_time + 1 := by
    show (EP.schedule E _).current_time + 1 = _
    rw [ep_schedule_current_time, ep_handle_running_current_time]
    rfl
  exact ⟨by rw [ht]; exact h4.tick_end, ht⟩

theorem ep_loop_eq (E : Env) : ∀ (fuel : Nat) (s : SimState),
    EP.loop E fuel s = run_loop (EP.tick E) fuel s := by
  intro fuel
  induction fuel with
  | zero => intro s; rfl
  | succ n ih => intro s; simp only [EP.loop, run_loop, ih]

theorem rr_loop_eq (E : Env) : ∀ (fuel : Nat) (s : SimState),
    RR.loop E fuel s = run_loop (RR.tick E) fuel s := by
  intro fuel
  induction fuel with
  | zero => intro s; rfl
  | succ n ih => intro s; simp only [RR.loop, run_loop, ih]

theorem ep_rr_loop_eq (E : Env) : ∀ (fuel : Nat) (s : SimState),
    EP_RR.loop E fuel s = run_loop (EP_RR.tick E) fuel s := by
  intro fuel
  induction fuel with
  | zero => intro s; rfl
  | succ n ih => intro s; simp only [EP_RR.loop, run_loop, ih]

/-- Induction over the loop: a property that holds on entry and is preserved by every iteration
that is actually executed holds on exit; the loop is left either because its condition is false
or, through the safety check, with `current_time = 100001`. The fuel `100001 - current_time` is
never exhausted. -/
theorem run_loop_induction (tick : SimState → SimState) (P : SimState → Prop)
    (htick : ∀ s, P s → loop_condition s = true → s.current_time ≤ 100000 →
      P (tick s) ∧ (tick s).current_time = s.current_time + 1) :
    ∀ (fuel : Nat) (s : SimState), fuel + s.current_time = 100001 → P s →
      P (run_loop tick fuel s).1 ∧
      ((run_loop tick fuel s).2 = false → loop_condition (run_loop tick fuel s).1 = false) ∧
      ((run_loop tick fuel s).2 = true → (run_loop tick fuel s).1.current_time = 100001) := by
  intro fuel
  induction fuel with
  | zero =>
    intro s hf hP
    refine ⟨hP, fun h => ?_, fun _ => ?_⟩
    · simp [run_loop] at h
    · simpa using hf
  | succ n ih =>
    intro s hf hP
    unfold run_loop
    by_cases hc : loop_condition s = true
    · rw [if_pos hc]
      obtain ⟨hP', ht⟩ := htick s hP hc (by omega)
      dsimp only
      by_cases hto : (tick s).current_time > 100000
      · rw [if_pos hto]
        exact ⟨hP', fun h => by simp at h, fun _ => by show (tick s).current_time = _; omega⟩
      · rw [if_neg hto]
        exact ih (tick s) (by omega) hP'
    · rw [if_neg hc]
      exact ⟨hP, fun _ => by simpa using hc, fun h => by simp at h⟩

theorem Inv.init (E : Env) (hI : IdleContract E) (l : List PCB) (hl : (pids l).Nodup) :
    Inv 0 (Sched.init E l) := by
  refine ⟨Or.inr (hI _), ?_, hl, ?_⟩
  · unfold live
    rw [on_cpu_of_idle (hI _)]
    exact List.nodup_nil
  · intro p hp
    unfold live at hp
    rw [on_cpu_of_idle (hI _)] at hp
    simp [Sched.init] at hp

/-! ### RR and EP_RR -/

theorem Inv.quantum_io_check (E : Env) (hI : IdleContract E) {b : Nat} {s : SimState}
    (h : Inv b s) (hrun : s.running.state = States.RUNNING) :
    Inv b (Quantum.io_check E s) := by
  unfold Quantum.io_check
  dsimp only
  split_ifs
  · exact h.block E hI hrun
      { s.running with state := States.WAITING, time_in_cpu := s.current_time } rfl _ _ _ _
  · exact h
  · exact h

theorem Inv.quantum_completion_check (E : Env) (hI : IdleContract E) {b : Nat}
    {s : SimState} (h : Inv b s) : Inv b (Quantum.completion_check E s) := by
  unfold Quantum.completion_check
  dsimp only
  split_ifs
  · exact h.vacate E hI _ _ _ _
  · exact h

theorem Inv.quantum_preempt (E : Env) (hI : IdleContract E) {b : Nat} {s : SimState}
    (h : Inv b s) (hrun : s.running.state = States.RUNNING) : Inv b (Quantum.preempt E s) :=
  h.requeue E hI hrun { s.running with state := States.READY, time_in_cpu := 0 } rfl _ _ _

theorem Inv.rr_quantum_check (E : Env) (hI : IdleContract E) {b : Nat} {s : SimState}
    (h : Inv b s) : Inv b (RR.quantum_check E s) := by
  unfold RR.quantum_check
  split_ifs with hc
  · exact h.quantum_preempt E hI hc.2.1
  · exact h

theorem Inv.ep_rr_quantum_check (E : Env) (hI : IdleContract E) {b : Nat} {s : SimState}
    (h : Inv b s) : Inv b (EP_RR.quantum_check E s) := by
  unfold EP_RR.quantum_check
  split_ifs with hc
  · exact h.quantum_preempt E hI hc.2.1
  · exact h.charge s.running rfl rfl _
  · exact h

/-- STEP 3 of RR preserves the invariant. -/
theorem Inv.rr_handle_running (E : Env) (hI : IdleContract E) {b : Nat} {s : SimState}
    (h : Inv b s) : Inv b (RR.handle_running E s) := by
  unfold RR.handle_running
  split_ifs with hrun
  · exact Inv.rr_quantum_check E hI (Inv.quantum_completion_check E hI
      (Inv.quantum_io_check E hI (h.charge (Quantum.charged s.running) rfl rfl _) hrun))
  · exact h

/-- STEP 3 of EP_RR preserves the invariant. -/
theorem Inv.ep_rr_handle_running (E : Env) (hI : IdleContract E) {b : Nat} {s : SimState}
    (h : Inv b s) : Inv b (EP_RR.handle_running E s) := by
  unfold EP_RR.handle_running
  split_ifs with hrun
  · exact Inv.ep_rr_quantum_check E hI (Inv.quantum_completion_check E hI
      (Inv.quantum_io_check E hI (h.charge (Quantum.charged s.running) rfl rfl _) hrun))
  · exact h

theorem running_of_should_preempt {running : PCB} {ready_queue : List PCB}
    (h : should_preempt running ready_queue = true) : running.state = States.RUNNING := by
  unfold should_preempt at h
  cases hb : ready_queue.getLast? with
  | none => simp [hb] at h
  | some back =>
    simp only [hb] at h
    by_contra hne
    simp [hne] at h

/-- STEP 2.5 of EP_RR preserves the invariant. -/
theorem Inv.check_preemption (E : Env) (hE : SortContract E) (hI : IdleContract E)
    (new_arrival : Bool) (still_waiting : List PCB) {b : Nat} {s : SimState} (h : Inv b s) :
    Inv b (EP_RR.check_preemption E new_arrival still_waiting s) := by
  unfold EP_RR.check_preemption
  dsimp only
  have hs := h.sort_ready (ep_rr_schedule E s.ready_queue)
    (hE _ strictWeak_ep_rr_schedule_cmp _).1
  split_ifs with h1 h2
  · exact hs.requeue E hI (running_of_should_preempt h2)
      { s.running with state := States.READY, time_in_cpu := 0 } rfl _ _ _
  · exact hs
  · exact h

theorem quantum_handle_current_time (E : Env) (s : SimState) :
    (RR.handle_running E s).current_time = s.current_time ∧
    (EP_RR.handle_running E s).current_time = s.current_time := by
  unfold RR.handle_running EP_RR.handle_running RR.quantum_check EP_RR.quantum_check
    Quantum.preempt Quantum.completion_check Quantum.io_check Quantum.execute
  dsimp only
  constructor <;> split_ifs <;> rfl

/-- One iteration of the loop body of RR preserves the invariant. -/
theorem Inv.rr_tick (E : Env) (hE : SortContract E) (hI : IdleContract E) {s : SimState}
    (h : Inv s.current_time s) :
    Inv (RR.tick E s).current_time (RR.tick E s) ∧
      (RR.tick E s).current_time = s.current_time + 1 := by
  have h1 := Inv.populate E Quantum.touch_new static_quantum_touch_new h
  have h2 := Inv.manage_wait_queue (fun p => p.time_in_cpu)
    Quantum.touch_done static_quantum_touch_done h1
  have h3 := Inv.rr_handle_running E hI h2
  have h4 := Inv.dispatch (fcfs_rr E) (fun _ => TIME_QUANTUM) h3
    (hE _ strictWeak_fcfs_rr_cmp _).1
  have ht : (RR.tick E s).current_time = s.current_time + 1 := by
    show (RR.schedule E _).current_time + 1 = _
    unfold RR.schedule
    rw [dispatch_current_time, (quantum_handle_current_time E _).1]
    rfl
  exact ⟨by rw [ht]; exact h4.tick_end, ht⟩

theorem ep_rr_arrivals_current_time (E : Env) (s : SimState) :
    (EP_RR.arrivals E s).current_time = s.current_time := by
  unfold EP_RR.arrivals EP_RR.check_preemption
  dsimp only
  split_ifs <;> rfl

/-- One iteration of the loop body of EP_RR preserves the invariant. -/
theorem Inv.ep_rr_tick (E : Env) (hE : SortContract E) (hI : IdleContract E) {s : SimState}
    (h : Inv s.current_time s) :
    Inv (EP_RR.tick E s).current_time (EP_RR.tick E s) ∧
      (EP_RR.tick E s).current_time = s.current_time + 1 := by
  have h1 := Inv.populate E Quantum.touch_new static_quantum_touch_new h
  have h2 := Inv.manage_wait_queue (fun p => p.time_in_cpu)
    Quantum.touch_done static_quantum_touch_done h1
  have h25 : Inv (s.current_time + 1) (EP_RR.arrivals E s) :=
    Inv.check_preemption E hE hI _ _ h2
  have h3 := Inv.ep_rr_handle_running E hI h25
  have h4 := Inv.dispatch (ep_rr_schedule E) (fun _ => TIME_QUANTUM) h3
    (hE _ strictWeak_ep_rr_schedule_cmp _).1
  have ht : (EP_RR.tick E s).current_time = s.current_time + 1 := by
    show (EP_RR.schedule E _).current_time + 1 = _
    unfold EP_RR.schedule
    rw [dispatch_current_time, (quantum_handle_current_time E _).2,
      ep_rr_arrivals_current_time]
  exact ⟨by rw [ht]; exact h4.tick_end, ht⟩

/-! ## EP never preempts -/

theorem foldl_no_preempt_watch_none (rows : List Event) :
    rows.foldl no_preempt_watch none = none := by
  induction rows with
  | nil => rfl
  | cons e es ih => simpa [List.foldl, no_preempt_watch] using ih

/-- Rows that are neither preemptions nor dispatches nor rows of the process on the CPU leave
the reader where it is. -/
theorem foldl_no_preempt_watch_skip (cur : Option Int) (rows : List Event)
    (h : ∀ e ∈ rows, ¬ e.is_preemption ∧ ¬ e.is_dispatch ∧ cur ≠ some e.PID) :
    rows.foldl no_preempt_watch (some cur) = some cur := by
  induction rows with
  | nil => rfl
  | cons e es ih =>
    have he := h e (List.mem_cons_self _ _)
    have hstep : no_preempt_watch (some cur) e = some cur := by
      cases cur with
      | none => simp [no_preempt_watch, he.1, he.2.1]
      | some p =>
        have : ¬ e.PID = p := fun hh => he.2.2 (by rw [hh])
        simp [no_preempt_watch, he.1, he.2.1, this]
    rw [List.foldl_cons, hstep]
    exact ih (fun e' he' => h e' (List.mem_cons_of_mem _ he'))

/-- A table the reader accepts has no preemption row. -/
theorem no_preemption_of_watch :
    ∀ (rows : List Event) (c c' : Option Int),
      rows.foldl no_preempt_watch (some c) = some c' → ∀ e ∈ rows, ¬ e.is_preemption := by
  intro rows
  induction rows with
  | nil => intro c c' _ e he; simp at he
  | cons x xs ih =>
    intro c c' h e he
    rw [List.foldl_cons] at h
    cases hx : no_preempt_watch (some c) x with
    | none => rw [hx, foldl_no_preempt_watch_none] at h; simp at h
    | some c1 =>
      rw [hx] at h
      rw [List.mem_cons] at he
      rcases he with rfl | he
      · intro hp
        cases c <;> simp [no_preempt_watch, hp] at hx
      · exact ih c1 c' h e he

/-- In a table the reader accepts while `p` is on the CPU, the first row that is a row of `p`
or a dispatch is a release of `p`. -/
theorem release_of_watch (p : Int) :
    ∀ (rows : List Event) (c' : Option Int),
      rows.foldl no_preempt_watch (some (some p)) = some c' →
      ∀ x, rows.find? (fun x => decide (x.PID = p ∨ x.is_dispatch)) = some x →
        x.PID = p ∧ x.is_release := by
  intro rows
  induction rows with
  | nil => intro c' _ x hx; simp at hx
  | cons y ys ih =>
    intro c' h x hx
    rw [List.foldl_cons] at h
    by_cases hbad : y.is_preemption ∨ y.is_dispatch
    · simp [no_preempt_watch, hbad, foldl_no_preempt_watch_none] at h
    · by_cases hy : y.PID = p
      · by_cases hr : y.is_release
        · simp only [List.find?_cons, hy, true_or, decide_True] at hx
          cases hx
          exact ⟨hy, hr⟩
        · simp [no_preempt_watch, hbad, hy, hr, foldl_no_preempt_watch_none] at h
      · have hstep : no_preempt_watch (some (some p)) y = some (some p) := by
          simp [no_preempt_watch, hbad, hy]
        rw [hstep] at h
        have hd : ¬ y.is_dispatch := fun hh => hbad (Or.inr hh)
        simp only [List.find?_cons, hy, hd, or_self, decide_False] at hx
        exact ih c' h x hx

/-- In a table the reader accepts, every dispatch row is followed, before any other row of the
same PID and before any other dispatch, by a release of the dispatched PID (if any such row
follows at all). -/
theorem dispatch_then_release_of_watch :
    ∀ (pre : List Event) (c c' : Option Int) (e : Event) (post : List Event),
      (pre ++ e :: post).foldl no_preempt_watch (some c) = some c' → e.is_dispatch →
      ∀ x, post.find? (fun x => decide (x.PID = e.PID ∨ x.is_dispatch)) = some x →
        x.PID = e.PID ∧ x.is_release := by
  intro pre c c' e post h he x hx
  rw [List.foldl_append, List.foldl_cons] at h
  cases h1 : pre.foldl no_preempt_watch (some c) with
  | none => rw [h1] at h; simp [no_preempt_watch, foldl_no_preempt_watch_none] at h
  | some c1 =>
    rw [h1] at h
    have hnp : ¬ e.is_preemption := by
      intro hp
      unfold Event.is_dispatch at he
      unfold Event.is_preemption at hp
      rw [he.1] at hp
      exact absurd hp.1 (by decide)
    cases c1 with
    | some q => simp [no_preempt_watch, he, foldl_no_preempt_watch_none] at h
    | none =>
      have hstep : no_preempt_watch (some none) e = some (some e.PID) := by
        simp [no_preempt_watch, he, hnp]
      rw [hstep] at h
      exact release_of_watch e.PID post c' h x hx

/-- A process admitted at the current tick has a PID that no process in a queue or on the CPU
has. -/
theorem admitted_fresh (E : Env) (touch : PCB → PCB)
    (htouch : ∀ p, (touch p).static = p.static) {s : SimState} (h : Inv s.current_time s) :
    ∀ a ∈ admitted E touch s.current_time 0 s.list_processes, ∀ p ∈ live s, p.PID ≠ a.PID := by
  intro a ha p hp hpa
  have hadm := sublist_map_static_admitted E touch htouch s.current_time s.list_processes 0
  have h1 := h.arrived p hp
  have h2 : a.static ∈ s.list_processes.map PCB.static :=
    hadm.subset (List.mem_map_of_mem _ ha)
  have h3 := static_eq_of_pid_eq h.nodup_list h1.1 h2 hpa
  have h4 := arrival_of_mem_admitted E touch htouch _ _ _ a ha
  have := static_arrival h3
  omega

theorem running_mem_live {s : SimState} (h : s.running.state = States.RUNNING) :
    s.running ∈ live s := by
  unfold live
  rw [on_cpu_of_running h]
  simp

/-- The PID of the RUNNING process is not the PID of a process in the wait queue. -/
theorem running_not_waiting {b : Nat} {s : SimState} (h : Inv b s)
    (hrun : s.running.state = States.RUNNING) : ∀ p ∈ s.wait_queue, p.PID ≠ s.running.PID := by
  intro p hp hpid
  have hn := h.nodup_live
  unfold live pids at hn
  rw [on_cpu_of_running hrun] at hn
  rw [List.map_append, List.nodup_append] at hn
  have h1 : p.PID ∈ List.map (fun p => p.PID) (s.ready_queue ++ s.wait_queue) :=
    List.mem_map_of_mem (fun p => p.PID) (List.mem_append_right _ hp)
  have h2 : p.PID ∈ List.map (fun p => p.PID) [s.running] := by simp [hpid]
  exact hn.2.2 h1 h2

theorem cpu_eq_some_iff {s : SimState} {p : Int} :
    cpu s = some p ↔ s.running.state = States.RUNNING ∧ s.running.PID = p := by
  unfold cpu
  split_ifs with h <;> simp [h]

theorem cpu_of_idle {s : SimState} (h : s.running.state = States.NOT_ASSIGNED) :
    cpu s = none := by
  unfold cpu
  rw [if_neg (by rw [h]; decide)]

/-- The reader follows STEP 1. -/
theorem watch_populate (E : Env) (touch : PCB → PCB)
    (htouch : ∀ p, (touch p).static = p.static) {s : SimState} (h : Inv s.current_time s)
    (hw : s.execution_status.foldl no_preempt_watch (some none) = some (cpu s)) :
    (populate E touch s).execution_status.foldl no_preempt_watch (some none) =
      some (cpu (populate E touch s)) := by
  have hcpu : cpu (populate E touch s) = cpu s := rfl
  rw [hcpu]
  show (s.execution_status ++ _).foldl no_preempt_watch (some none) = _
  rw [List.foldl_append, hw]
  apply foldl_no_preempt_watch_skip
  intro e he
  rw [List.mem_map] at he
  obtain ⟨a, ha, rfl⟩ := he
  refine ⟨by unfold Event.is_preemption; simp, by unfold Event.is_dispatch; simp, ?_⟩
  intro hc
  obtain ⟨hrun, hpid⟩ := cpu_eq_some_iff.1 hc
  exact admitted_fresh E touch htouch h a ha _ (running_mem_live hrun) hpid

/-- The reader follows STEP 2. -/
theorem watch_manage_wait_queue (started : PCB → Nat) (touch : PCB → PCB)
    (htouch : ∀ p, (touch p).static = p.static) {b : Nat} {s : SimState} (h : Inv b s)
    (hw : s.execution_status.foldl no_preempt_watch (some none) = some (cpu s)) :
    (manage_wait_queue started touch s).execution_status.foldl no_preempt_watch (some none) =
      some (cpu (manage_wait_queue started touch s)) := by
  have hcpu : cpu (manage_wait_queue started touch s) = cpu s := rfl
  rw [hcpu]
  show (s.execution_status ++ _).foldl no_preempt_watch (some none) = _
  rw [List.foldl_append, hw]
  apply foldl_no_preempt_watch_skip
  intro e he
  simp only [List.mem_map, List.mem_filter] at he
  obtain ⟨_, ⟨p, ⟨hp, _⟩, rfl⟩, rfl⟩ := he
  refine ⟨by unfold Event.is_preemption; simp, by unfold Event.is_dispatch; simp, ?_⟩
  intro hc
  obtain ⟨hrun, hpid⟩ := cpu_eq_some_iff.1 hc
  have : (touch p).PID = p.PID := static_pid (htouch p)
  exact running_not_waiting h hrun p hp (by rw [← this]; exact hpid.symm)

/-- What STEP 3 of EP prints for a RUNNING process: nothing, and the process stays on the CPU;
or a release of the process, possibly followed by RUNNING -> TERMINATED rows, and the CPU is
idle. -/
theorem ep_handle_running_cases (E : Env) (hI : IdleContract E) (s : SimState)
    (hrun : s.running.state = States.RUNNING) :
    ((EP.handle_running E s).execution_status = s.execution_status ∧
      cpu (EP.handle_running E s) = cpu s) ∨
    (∃ e rest, (EP.handle_running E s).execution_status = s.execution_status ++ e :: rest ∧
      e.PID = s.running.PID ∧ e.is_release ∧
      (∀ x ∈ rest, x.old_state = States.RUNNING ∧ x.new_state = States.TERMINATED) ∧
      (EP.handle_running E s).running.state = States.NOT_ASSIGNED) := by
  unfold EP.handle_running
  rw [if_pos hrun]
  by_cases hio : io_due (EP.charged s.running)
  · right
    have h1 : EP.io_check E
        { s with running := { s.running with remaining_time := udec s.running.remaining_time } } =
        { s with
          io_start_time := s.current_time
          wait_queue := s.wait_queue ++ [{ EP.charged s.running with state := States.WAITING }]
          job_list := sync_queue s.job_list { EP.charged s.running with state := States.WAITING }
          execution_status := s.execution_status ++
            [Event.mk s.current_time s.running.PID States.RUNNING States.WAITING]
          running := E.idle_CPU { EP.charged s.running with state := States.WAITING } } := by
      have hio' := hio
      dsimp only [io_due, EP.charged] at hio'
      unfold EP.io_check
      dsimp only
      rw [if_pos hio'.1, if_pos hio'.2]
      rfl
    rw [h1]
    unfold EP.completion_check
    dsimp only
    split_ifs
    · exact ⟨Event.mk s.current_time s.running.PID States.RUNNING States.WAITING, _,
        (List.append_assoc _ _ _), rfl, ⟨rfl, Or.inl rfl⟩, by simp, hI _⟩
    · exact ⟨_, [], rfl, rfl, ⟨rfl, Or.inl rfl⟩, by simp, hI _⟩
  · rw [ep_io_check_of_not_due E _ hio]
    unfold EP.completion_check
    dsimp only
    split_ifs
    · right
      exact ⟨_, [], rfl, rfl, ⟨rfl, Or.inr rfl⟩, by simp, hI _⟩
    · left
      refine ⟨rfl, ?_⟩
      unfold cpu
      rfl

theorem not_preemption_of_release {e : Event} (h : e.is_release) : ¬ e.is_preemption := by
  unfold Event.is_release at h
  unfold Event.is_preemption
  rintro ⟨_, h2⟩
  rcases h.2 with h3 | h3 <;> rw [h2] at h3 <;> exact absurd h3 (by decide)

theorem not_dispatch_of_release {e : Event} (h : e.is_release) : ¬ e.is_dispatch := by
  unfold Event.is_release at h
  unfold Event.is_dispatch
  rintro ⟨h1, _⟩
  rw [h.1] at h1
  exact absurd h1 (by decide)

/-- The reader follows STEP 3 of EP. -/
theorem watch_ep_handle_running (E : Env) (hI : IdleContract E) {s : SimState}
    (hw : s.execution_status.foldl no_preempt_watch (some none) = some (cpu s)) :
    (EP.handle_running E s).execution_status.foldl no_preempt_watch (some none) =
      some (cpu (EP.handle_running E s)) := by
  by_cases hrun : s.running.state = States.RUNNING
  · rcases ep_handle_running_cases E hI s hrun with ⟨h1, h2⟩ | ⟨e, rest, h1, h2, h3, h4, h5⟩
    · rw [h1, h2]; exact hw
    · rw [h1, List.foldl_append, hw, List.foldl_cons, cpu_of_idle h5]
      have hc : cpu s = some e.PID := cpu_eq_some_iff.2 ⟨hrun, h2.symm⟩
      have hstep : no_preempt_watch (some (cpu s)) e = some none := by
        rw [hc]
        simp [no_preempt_watch, not_preemption_of_release h3, not_dispatch_of_release h3, h3]
      rw [hstep]
      apply foldl_no_preempt_watch_skip
      intro x hx
      have := h4 x hx
      refine ⟨?_, ?_, by simp⟩
      · unfold Event.is_preemption; rw [this.2]; simp
      · unfold Event.is_dispatch; rw [this.1]; simp
  · rw [ep_handle_running_of_not_running E s hrun]
    exact hw

/-- The reader follows STEP 4. -/
theorem watch_dispatch (schedule : List PCB → List PCB) (quantum : Nat → Nat) {s : SimState}
    (hperm : (schedule s.ready_queue).Perm s.ready_queue)
    (hw : s.execution_status.foldl no_preempt_watch (some none) = some (cpu s)) :
    (dispatch schedule quantum s).execution_status.foldl no_preempt_watch (some none) =
      some (cpu (dispatch schedule quantum s)) := by
  by_cases hd : s.running.state = States.NOT_ASSIGNED ∧ s.ready_queue ≠ []
  · obtain ⟨back, _, heq⟩ := dispatch_eq schedule quantum s hperm hd.1 hd.2
    rw [heq]
    show (s.execution_status ++ _).foldl no_preempt_watch (some none) = _
    rw [List.foldl_append, hw, cpu_of_idle hd.1]
    have hc : cpu { s with
        ready_queue := (schedule s.ready_queue).dropLast
        running := started_at s.current_time back
        quantum_remaining := quantum s.quantum_remaining
        job_list := sync_queue s.job_list (started_at s.current_time back)
        execution_status := s.execution_status ++
          [Event.mk s.current_time back.PID States.READY States.RUNNING] } = some back.PID := by
      apply cpu_eq_some_iff.2
      exact ⟨rfl, pid_started_at _ _⟩
    rw [hc]
    simp [no_preempt_watch, Event.is_preemption, Event.is_dispatch]
  · unfold dispatch
    rw [if_neg hd]
    exact hw

/-- One iteration of the loop body of EP: the structural invariant holds again and the reader
is still in step with the CPU. -/
theorem watch_ep_tick (E : Env) (hE : SortContract E) (hI : IdleContract E) {s : SimState}
    (h : Inv s.current_time s)
    (hw : s.execution_status.foldl no_preempt_watch (some none) = some (cpu s)) :
    (EP.tick E s).execution_status.foldl no_preempt_watch (some none) =
      some (cpu (EP.tick E s)) := by
  have h1 := Inv.populate E EP.touch_new static_ep_touch_new h
  have w1 := watch_populate E EP.touch_new static_ep_touch_new h hw
  have w2 := watch_manage_wait_queue (fun _ => (populate E EP.touch_new s).io_start_time)
    EP.touch_done static_ep_touch_done h1 w1
  have w3 := watch_ep_handle_running E hI w2
  exact watch_dispatch (external_priorities E) (fun q => q)
    (hE _ strictWeak_external_priorities_cmp _).1 w3

/-- C2. In EP, for every workload without repeated PIDs and every allocator behaviour, the
execution table has no RUNNING -> READY row, and after every READY -> RUNNING row of a process
the first later row that is a row of that process or a dispatch (if there is one) is a row of
that process, RUNNING -> WAITING or RUNNING -> TERMINATED: the process leaves the CPU only by
blocking or terminating, and no process is dispatched in between, whatever arrives meanwhile. -/
theorem ep_never_preempts (E : Env) (hE : SortContract E) (hI : IdleContract E)
    (list_processes : List PCB) (hpids : (pids list_processes).Nodup) :
    (∀ e ∈ (EP.run_simulation E list_processes).1.execution_status, ¬ e.is_preemption) ∧
    (∀ pre e post, (EP.run_simulation E list_processes).1.execution_status = pre ++ e :: post →
      e.is_dispatch →
      ∀ x, post.find? (fun x => decide (x.PID = e.PID ∨ x.is_dispatch)) = some x →
        x.PID = e.PID ∧ x.is_release) := by
  have hloop := run_loop_induction (EP.tick E)
    (fun s => Inv s.current_time s ∧
      s.execution_status.foldl no_preempt_watch (some none) = some (cpu s))
    (fun s hP _ _ => ⟨⟨(Inv.ep_tick E hE hI hP.1).1, watch_ep_tick E hE hI hP.1 hP.2⟩,
      (Inv.ep_tick E hE hI hP.1).2⟩)
    100001 (init E list_processes) rfl
    ⟨Inv.init E hI list_processes hpids, by
      show ([] : List Event).foldl no_preempt_watch (some none) = _
      rw [cpu_of_idle (hI _)]; rfl⟩
  have hw := hloop.1.2
  rw [← ep_loop_eq] at hw
  refine ⟨?_, ?_⟩
  · exact no_preemption_of_watch _ _ _ hw
  · intro pre e post htr he x hx
    unfold EP.run_simulation at htr
    rw [htr] at hw
    exact dispatch_then_release_of_watch pre _ _ e post hw he x hx

theorem ep_never_preempts_witness :
    (pids scenario).Nodup ∧
    ∀ e ∈ (EP.run_simulation grant_all scenario).1.execution_status, ¬ e.is_preemption :=
  ⟨by decide,
    (ep_never_preempts grant_all sortContract_grant_all idleContract_grant_all scenario
      (by decide)).1⟩

/-! ## The registry invariant -/

theorem Tracked.sync {jl : List PCB} {pid : Int} (h : Tracked jl pid) (x : PCB)
    (hx : x.PID = pid → x.state ≠ States.TERMINATED) : Tracked (sync_queue jl x) pid := by
  obtain ⟨j, hj, hpid, hst⟩ := h
  unfold sync_queue
  by_cases hjx : j.PID = x.PID
  · refine ⟨x, ?_, by rw [← hjx, hpid], hx (by rw [← hjx, hpid])⟩
    rw [List.mem_map]
    exact ⟨j, hj, by rw [if_pos hjx]⟩
  · refine ⟨j, ?_, hpid, hst⟩
    rw [List.mem_map]
    exact ⟨j, hj, by rw [if_neg hjx]⟩

theorem Tracked.sync_all {pid : Int} (xs : List PCB)
    (hx : ∀ x ∈ xs, x.state ≠ States.TERMINATED) :
    ∀ {jl : List PCB}, Tracked jl pid → Tracked (xs.foldl sync_queue jl) pid := by
  induction xs with
  | nil => intro jl h; exact h
  | cons x xs ih =>
    intro jl h
    rw [List.foldl_cons]
    exact ih (fun y hy => hx y (List.mem_cons_of_mem _ hy))
      (h.sync x (fun _ => hx x (List.mem_cons_self _ _)))

theorem Tracked.append {jl : List PCB} {pid : Int} (h : Tracked jl pid) (xs : List PCB) :
    Tracked (jl ++ xs) pid := by
  obtain ⟨j, hj, hpid, hst⟩ := h
  exact ⟨j, List.mem_append_left _ hj, hpid, hst⟩

theorem mem_live_iff {s : SimState} {p : PCB} :
    p ∈ live s ↔ p ∈ s.ready_queue ∨ p ∈ s.wait_queue ∨
      (s.running.state = States.RUNNING ∧ p = s.running) := by
  unfold live on_cpu
  split_ifs with h <;> simp [h, or_assoc]

/-- STEP 1 preserves the registry invariant. -/
theorem JobInv.job_populate (E : Env) (touch : PCB → PCB)
    (htouch : ∀ p, (touch p).state = States.READY) {s : SimState} (h : JobInv s) :
    JobInv (Sched.populate E touch s) := by
  intro p hp
  have := (live_populate E touch s).mem_iff.1 hp
  rw [List.mem_append] at this
  rcases this with hp | hp
  · exact (h p hp).append _
  · refine ⟨p, List.mem_append_right _ hp, rfl, ?_⟩
    have : ∀ (l : List PCB) (i : Nat), ∀ a ∈ admitted E touch s.current_time i l,
        a.state = States.READY := by
      intro l
      induction l with
      | nil => intro i a ha; simp [admitted] at ha
      | cons q qs ih =>
        intro i a ha
        simp only [admitted] at ha
        split_ifs at ha
        · rw [List.mem_cons] at ha
          rcases ha with rfl | ha
          · exact htouch q
          · exact ih _ a ha
        · exact ih _ a ha
    rw [this _ _ p hp]
    decide

/-- STEP 2 preserves the registry invariant. -/
theorem JobInv.job_manage_wait_queue (started : PCB → Nat) (touch : PCB → PCB)
    (hst : ∀ p, (touch p).state = States.READY) (hpid : ∀ p, (touch p).PID = p.PID)
    {s : SimState} (h : JobInv s) : JobInv (Sched.manage_wait_queue started touch s) := by
  intro p hp
  have hdone : ∀ x ∈ (s.wait_queue.filter
      (fun p => decide (usub s.current_time (started p) ≥ p.io_duration))).map touch,
      x.state ≠ States.TERMINATED := by
    intro x hx
    rw [List.mem_map] at hx
    obtain ⟨y, _, rfl⟩ := hx
    rw [hst]; decide
  have hold : ∃ p0 ∈ live s, p0.PID = p.PID := by
    rw [mem_live_iff] at hp
    rcases hp with hp | hp | hp
    · have hp' : p ∈ s.ready_queue ++ _ := hp
      rw [List.mem_append] at hp'
      rcases hp' with hp' | hp'
      · exact ⟨p, mem_live_iff.2 (Or.inl hp'), rfl⟩
      · simp only [List.mem_map, List.mem_filter] at hp'
        obtain ⟨y, ⟨hy, _⟩, rfl⟩ := hp'
        exact ⟨y, mem_live_iff.2 (Or.inr (Or.inl hy)), (hpid y).symm⟩
    · have hp' : p ∈ s.wait_queue.filter _ := hp
      exact ⟨p, mem_live_iff.2 (Or.inr (Or.inl (List.mem_filter.1 hp').1)), rfl⟩
    · exact ⟨p, mem_live_iff.2 (Or.inr (Or.inr hp)), rfl⟩
  obtain ⟨p0, hp0, he⟩ := hold
  rw [← he]
  exact Tracked.sync_all _ hdone (h p0 hp0)

/-- Replacing the ready queue by a rearrangement of it preserves the registry invariant. -/
theorem JobInv.job_sort_ready {s : SimState} (h : JobInv s) (rq : List PCB)
    (hperm : rq.Perm s.ready_queue) : JobInv { s with ready_queue := rq } := by
  intro p hp
  rw [mem_live_iff] at hp
  apply h p
  rw [mem_live_iff]
  rcases hp with hp | hp | hp
  · exact Or.inl (hperm.mem_iff.1 hp)
  · exact Or.inr (Or.inl hp)
  · exact Or.inr (Or.inr hp)

/-- Preemption preserves the registry invariant. -/
theorem JobInv.job_requeue (E : Env) (hI : IdleContract E) {s : SimState} (h : JobInv s)
    (hrun : s.running.state = States.RUNNING) (r : PCB) (hr : r.PID = s.running.PID)
    (hst : r.state ≠ States.TERMINATED) (es : List Event) (q : Nat) :
    JobInv { s with
      ready_queue := r :: s.ready_queue
      job_list := sync_queue s.job_list r
      execution_status := es
      running := E.idle_CPU r
      quantum_remaining := q } := by
  intro p hp
  rw [mem_live_iff] at hp
  have hidle : (E.idle_CPU r).state ≠ States.RUNNING := by rw [hI]; decide
  rcases hp with hp | hp | hp
  · have hp' : p ∈ r :: s.ready_queue := hp
    rw [List.mem_cons] at hp'
    rcases hp' with rfl | hp'
    · rw [hr]
      exact (h _ (running_mem_live hrun)).sync _ (fun _ => hst)
    · exact (h p (mem_live_iff.2 (Or.inl hp'))).sync _ (fun _ => hst)
  · exact (h p (mem_live_iff.2 (Or.inr (Or.inl hp)))).sync _ (fun _ => hst)
  · exact absurd hp.1 hidle

/-- Charging the running process for a tick preserves the registry invariant. -/
theorem JobInv.job_charge {s : SimState} (h : JobInv s) (r : PCB) (hr : r.PID = s.running.PID)
    (hst : r.state = s.running.state) (q : Nat) :
    JobInv { s with running := r, quantum_remaining := q } := by
  intro p hp
  rw [mem_live_iff] at hp
  rcases hp with hp | hp | hp
  · exact h p (mem_live_iff.2 (Or.inl hp))
  · exact h p (mem_live_iff.2 (Or.inr (Or.inl hp)))
  · have h1 : r.state = States.RUNNING := hp.1
    have h2 : p = r := hp.2
    rw [h2, hr]
    exact h _ (running_mem_live (by rw [← hst]; exact h1))

/-- Blocking for I/O preserves the registry invariant. -/
theorem JobInv.job_block (E : Env) (hI : IdleContract E) {s : SimState} (h : JobInv s)
    (hrun : s.running.state = States.RUNNING) (w : PCB) (hw : w.PID = s.running.PID)
    (hst : w.state ≠ States.TERMINATED) (es : List Event) (q io : Nat) :
    JobInv { s with
      io_start_time := io
      wait_queue := s.wait_queue ++ [w]
      job_list := sync_queue s.job_list w
      execution_status := es
      running := E.idle_CPU w
      quantum_remaining := q } := by
  intro p hp
  rw [mem_live_iff] at hp
  have hidle : (E.idle_CPU w).state ≠ States.RUNNING := by rw [hI]; decide
  rcases hp with hp | hp | hp
  · exact (h p (mem_live_iff.2 (Or.inl hp))).sync _ (fun _ => hst)
  · have hp' : p ∈ s.wait_queue ++ [w] := hp
    rw [List.mem_append, List.mem_singleton] at hp'
    rcases hp' with hp' | rfl
    · exact (h p (mem_live_iff.2 (Or.inr (Or.inl hp')))).sync _ (fun _ => hst)
    · rw [hw]
      exact (h _ (running_mem_live hrun)).sync _ (fun _ => hst)
  · exact absurd hp.1 hidle

/-- Synchronising a process whose PID no process in a queue has, and emptying the running slot,
preserves the registry invariant (termination). -/
theorem JobInv.job_vacate (E : Env) (hI : IdleContract E) {s : SimState} (h : JobInv s)
    (r x : PCB) (hx : ∀ p ∈ s.ready_queue ++ s.wait_queue, p.PID ≠ x.PID)
    (es : List Event) (q : Nat) :
    JobInv { s with
      job_list := sync_queue s.job_list x
      execution_status := es
      running := E.idle_CPU r
      quantum_remaining := q } := by
  intro p hp
  rw [mem_live_iff] at hp
  have hidle : (E.idle_CPU r).state ≠ States.RUNNING := by rw [hI]; decide
  rcases hp with hp | hp | hp
  · exact (h p (mem_live_iff.2 (Or.inl hp))).sync _
      (fun hh => absurd hh.symm (hx p (List.mem_append_left _ hp)))
  · exact (h p (mem_live_iff.2 (Or.inr (Or.inl hp)))).sync _
      (fun hh => absurd hh.symm (hx p (List.mem_append_right _ hp)))
  · exact absurd hp.1 hidle

/-- STEP 4 preserves the registry invariant. -/
theorem JobInv.job_dispatch (schedule : List PCB → List PCB) (quantum : Nat → Nat)
    {s : SimState} (h : JobInv s) (hperm : (schedule s.ready_queue).Perm s.ready_queue) :
    JobInv (Sched.dispatch schedule quantum s) := by
  by_cases hd : s.running.state = States.NOT_ASSIGNED ∧ s.ready_queue ≠ []
  · obtain ⟨back, hl, heq⟩ := dispatch_eq schedule quantum s hperm hd.1 hd.2
    rw [heq]
    have hmem : ∀ p, p ∈ (schedule s.ready_queue).dropLast ∨ p = back → p ∈ s.ready_queue := by
      intro p hp
      apply hperm.mem_iff.1
      rw [hl, List.mem_append, List.mem_singleton]
      exact hp
    have hst : (started_at s.current_time back).state ≠ States.TERMINATED := by
      rw [state_started_at]; decide
    intro p hp
    rw [mem_live_iff] at hp
    rcases hp with hp | hp | hp
    · exact (h p (mem_live_iff.2 (Or.inl (hmem p (Or.inl hp))))).sync _ (fun _ => hst)
    · exact (h p (mem_live_iff.2 (Or.inr (Or.inl hp)))).sync _ (fun _ => hst)
    · have h2 : p = started_at s.current_time back := hp.2
      rw [h2, pid_started_at]
      exact (h back (mem_live_iff.2 (Or.inl (hmem back (Or.inr rfl))))).sync _ (fun _ => hst)
  · unfold Sched.dispatch
    rw [if_neg hd]
    exact h

/-- The PID of the RUNNING process is not the PID of a process in a queue. -/
theorem running_not_queued {b : Nat} {s : SimState} (h : Inv b s)
    (hrun : s.running.state = States.RUNNING) :
    ∀ p ∈ s.ready_queue ++ s.wait_queue, p.PID ≠ s.running.PID := by
  intro p hp hpid
  have hn := h.nodup_live
  unfold live pids at hn
  rw [on_cpu_of_running hrun] at hn
  rw [List.map_append, List.nodup_append] at hn
  have h1 : p.PID ∈ List.map (fun p => p.PID) (s.ready_queue ++ s.wait_queue) :=
    List.mem_map_of_mem (fun p => p.PID) hp
  have h2 : p.PID ∈ List.map (fun p => p.PID) [s.running] := by simp [hpid]
  exact hn.2.2 h1 h2

theorem pid_mem_pids_of_live {b : Nat} {s : SimState} (h : Inv b s) {p : PCB}
    (hp : p ∈ live s) : p.PID ∈ pids s.list_processes := by
  have := (h.arrived p hp).1
  rw [pids_eq_map_static]
  exact List.mem_map_of_mem Prod.fst this

theorem JobInv.job_quantum_io_check (E : Env) (hI : IdleContract E) {s : SimState}
    (h : JobInv s) (hrun : s.running.state = States.RUNNING) :
    JobInv (Quantum.io_check E s) := by
  unfold Quantum.io_check
  dsimp only
  split_ifs
  · exact h.job_block E hI hrun
      { s.running with state := States.WAITING, time_in_cpu := s.current_time } rfl
      (by simp) _ _ _
  · exact h
  · exact h

theorem JobInv.job_quantum_completion_check (E : Env) (hI : IdleContract E) {b : Nat}
    {s : SimState} (hinv : Inv b s) (h : JobInv s) : JobInv (Quantum.completion_check E s) := by
  unfold Quantum.completion_check
  dsimp only
  split_ifs with hc
  · exact h.job_vacate E hI _ (terminate_process s.running s.job_list).1
      (running_not_queued hinv hc.2) _ _
  · exact h

theorem JobInv.job_quantum_preempt (E : Env) (hI : IdleContract E) {s : SimState}
    (h : JobInv s) (hrun : s.running.state = States.RUNNING) : JobInv (Quantum.preempt E s) :=
  h.job_requeue E hI hrun { s.running with state := States.READY, time_in_cpu := 0 } rfl
    (by simp) _ _

theorem JobInv.job_rr_quantum_check (E : Env) (hI : IdleContract E) {s : SimState}
    (h : JobInv s) : JobInv (RR.quantum_check E s) := by
  unfold RR.quantum_check
  split_ifs with hc
  · exact h.job_quantum_preempt E hI hc.2.1
  · exact h

theorem JobInv.job_ep_rr_quantum_check (E : Env) (hI : IdleContract E) {s : SimState}
    (h : JobInv s) : JobInv (EP_RR.quantum_check E s) := by
  unfold EP_RR.quantum_check
  split_ifs with hc
  · exact h.job_quantum_preempt E hI hc.2.1
  · exact h.job_charge s.running rfl rfl _
  · exact h

theorem JobInv.job_rr_handle_running (E : Env) (hI : IdleContract E) {b : Nat} {s : SimState}
    (hinv : Inv b s) (h : JobInv s) : JobInv (RR.handle_running E s) := by
  unfold RR.handle_running
  split_ifs with hrun
  · have i1 : Inv b (Quantum.execute s) := hinv.charge (Quantum.charged s.running) rfl rfl _
    have j1 : JobInv (Quantum.execute s) := h.job_charge (Quantum.charged s.running) rfl rfl _
    exact JobInv.job_rr_quantum_check E hI (JobInv.job_quantum_completion_check E hI
      (Inv.quantum_io_check E hI i1 hrun) (JobInv.job_quantum_io_check E hI j1 hrun))
  · exact h

theorem JobInv.job_ep_rr_handle_running (E : Env) (hI : IdleContract E) {b : Nat} {s : SimState}
    (hinv : Inv b s) (h : JobInv s) : JobInv (EP_RR.handle_running E s) := by
  unfold EP_RR.handle_running
  split_ifs with hrun
  · have i1 : Inv b (Quantum.execute s) := hinv.charge (Quantum.charged s.running) rfl rfl _
    have j1 : JobInv (Quantum.execute s) := h.job_charge (Quantum.charged s.running) rfl rfl _
    exact JobInv.job_ep_rr_quantum_check E hI (JobInv.job_quantum_completion_check E hI
      (Inv.quantum_io_check E hI i1 hrun) (JobInv.job_quantum_io_check E hI j1 hrun))
  · exact h

theorem JobInv.job_check_preemption (E : Env) (hE : SortContract E) (hI : IdleContract E)
    (new_arrival : Bool) (still_waiting : List PCB) {s : SimState} (h : JobInv s) :
    JobInv (EP_RR.check_preemption E new_arrival still_waiting s) := by
  unfold EP_RR.check_preemption
  dsimp only
  have hs := h.job_sort_ready (ep_rr_schedule E s.ready_queue)
    (hE _ strictWeak_ep_rr_schedule_cmp _).1
  split_ifs with h1 h2
  · exact hs.job_requeue E hI (running_of_should_preempt h2)
      { s.running with state := States.READY, time_in_cpu := 0 } rfl (by simp) _ _
  · exact hs
  · exact h

theorem JobInv.job_tick_end {s : SimState} (h : JobInv s) :
    JobInv { s with current_time := s.current_time + 1 } := h

/-- One iteration of the loop body of RR preserves the registry invariant. -/
theorem JobInv.job_rr_tick (E : Env) (hE : SortContract E) (hI : IdleContract E) {s : SimState}
    (hinv : Inv s.current_time s) (h : JobInv s) : JobInv (RR.tick E s) := by
  have i1 := Inv.populate E Quantum.touch_new static_quantum_touch_new hinv
  have i2 := Inv.manage_wait_queue (fun p => p.time_in_cpu)
    Quantum.touch_done static_quantum_touch_done i1
  have j1 := JobInv.job_populate E Quantum.touch_new (fun _ => rfl) h
  have j2 := JobInv.job_manage_wait_queue (fun p => p.time_in_cpu) Quantum.touch_done
    (fun _ => rfl) (fun _ => rfl) j1
  have j3 := JobInv.job_rr_handle_running E hI i2 j2
  exact (JobInv.job_dispatch (fcfs_rr E) (fun _ => TIME_QUANTUM) j3
    (hE _ strictWeak_fcfs_rr_cmp _).1).job_tick_end

/-- One iteration of the loop body of EP_RR preserves the registry invariant. -/
theorem JobInv.job_ep_rr_tick (E : Env) (hE : SortContract E) (hI : IdleContract E)
    {s : SimState} (hinv : Inv s.current_time s) (h : JobInv s) : JobInv (EP_RR.tick E s) := by
  have i1 := Inv.populate E Quantum.touch_new static_quantum_touch_new hinv
  have i2 := Inv.manage_wait_queue (fun p => p.time_in_cpu)
    Quantum.touch_done static_quantum_touch_done i1
  have i25 : Inv (s.current_time + 1) (EP_RR.arrivals E s) :=
    Inv.check_preemption E hE hI _ _ i2
  have j1 := JobInv.job_populate E Quantum.touch_new (fun _ => rfl) h
  have j2 := JobInv.job_manage_wait_queue (fun p => p.time_in_cpu) Quantum.touch_done
    (fun _ => rfl) (fun _ => rfl) j1
  have j25 : JobInv (EP_RR.arrivals E s) := JobInv.job_check_preemption E hE hI _ _ j2
  have j3 := JobInv.job_ep_rr_handle_running E hI i25 j25
  exact (JobInv.job_dispatch (ep_rr_schedule E) (fun _ => TIME_QUANTUM) j3
    (hE _ strictWeak_ep_rr_schedule_cmp _).1).job_tick_end

theorem JobInv.job_init (E : Env) (hI : IdleContract E) (l : List PCB) :
    JobInv (Sched.init E l) := by
  intro p hp
  rw [mem_live_iff] at hp
  rcases hp with hp | hp | hp
  · simp [Sched.init] at hp
  · simp [Sched.init] at hp
  · have : (E.idle_CPU uninitialised).state = States.RUNNING := hp.1
    rw [hI] at this
    exact absurd this (by decide)

/-- While a process is in a queue or on the CPU the loop condition holds. -/
theorem loop_condition_of_live {s : SimState} (h : JobInv s) {p : PCB} (hp : p ∈ live s) :
    loop_condition s = true := by
  obtain ⟨j, hj, _, hst⟩ := h p hp
  unfold loop_condition all_process_terminated
  rw [Bool.or_eq_true, Bool.not_eq_true']
  left
  rw [List.all_eq_false]
  exact ⟨j, hj, by simpa using hst⟩

/-! ## RR: no RUNNING segment is longer than the quantum -/

theorem foldl_quantum_watch_none (rows : List Event) :
    rows.foldl quantum_watch none = none := by
  induction rows with
  | nil => rfl
  | cons e es ih => simpa [List.foldl, quantum_watch] using ih

/-- Rows that are not dispatches and not rows of the process on the CPU leave the reader where
it is. -/
theorem foldl_quantum_watch_skip (cur : Option (Int × Nat)) (rows : List Event)
    (h : ∀ e ∈ rows, ¬ e.is_dispatch ∧ ∀ d, cur ≠ some (e.PID, d)) :
    rows.foldl quantum_watch (some cur) = some cur := by
  induction rows with
  | nil => rfl
  | cons e es ih =>
    have he := h e (List.mem_cons_self _ _)
    have hstep : quantum_watch (some cur) e = some cur := by
      cases cur with
      | none => simp [quantum_watch, he.1]
      | some pd =>
        obtain ⟨p, d⟩ := pd
        have : ¬ e.PID = p := fun hh => he.2 d (by rw [hh])
        simp [quantum_watch, he.1, this]
    rw [List.foldl_cons, hstep]
    exact ih (fun e' he' => h e' (List.mem_cons_of_mem _ he'))

/-- In a table the reader accepts while `p` is on the CPU since tick `d`, either the first row
of `p` ends the segment within the quantum, or there is no row of `p` and the reader still has
`p` on the CPU at the end. -/
theorem segment_of_watch (p : Int) (d : Nat) :
    ∀ (rows : List Event) (c' : Option (Int × Nat)),
      rows.foldl quantum_watch (some (some (p, d))) = some c' →
      (∃ x, rows.find? (fun x => decide (x.PID = p)) = some x ∧ x.ends_segment d) ∨
        c' = some (p, d) := by
  intro rows
  induction rows with
  | nil => intro c' h; right; simpa using h.symm
  | cons y ys ih =>
    intro c' h
    rw [List.foldl_cons] at h
    by_cases hd : y.is_dispatch
    · simp [quantum_watch, hd, foldl_quantum_watch_none] at h
    · by_cases hy : y.PID = p
      · by_cases hr : y.ends_segment d
        · left
          exact ⟨y, by simp [List.find?_cons, hy], hr⟩
        · simp [quantum_watch, hd, hy, hr, foldl_quantum_watch_none] at h
      · have hstep : quantum_watch (some (some (p, d))) y = some (some (p, d)) := by
          simp [quantum_watch, hd, hy]
        rw [hstep] at h
        rcases ih c' h with ⟨x, hx, hxe⟩ | hc
        · left
          exact ⟨x, by simp [List.find?_cons, hy, hx], hxe⟩
        · right; exact hc

/-- In a table the reader accepts, after every dispatch row either the first later row of the
dispatched PID ends the segment within the quantum, or there is no later row of that PID and the
reader ends with that PID on the CPU. -/
theorem dispatch_then_segment_of_watch :
    ∀ (pre : List Event) (c c' : Option (Int × Nat)) (e : Event) (post : List Event),
      (pre ++ e :: post).foldl quantum_watch (some c) = some c' → e.is_dispatch →
      (∃ x, post.find? (fun x => decide (x.PID = e.PID)) = some x ∧ x.ends_segment e.time) ∨
        c' = some (e.PID, e.time) := by
  intro pre c c' e post h he
  rw [List.foldl_append, List.foldl_cons] at h
  cases h1 : pre.foldl quantum_watch (some c) with
  | none => rw [h1] at h; simp [quantum_watch, foldl_quantum_watch_none] at h
  | some c1 =>
    rw [h1] at h
    cases c1 with
    | some q =>
      obtain ⟨p, d⟩ := q
      simp [quantum_watch, he, foldl_quantum_watch_none] at h
    | none =>
      have hstep : quantum_watch (some none) e = some (some (e.PID, e.time)) := by
        simp [quantum_watch, he]
      rw [hstep] at h
      exact segment_of_watch e.PID e.time post c' h

theorem QuantumInv.q_of_idle {k : Nat} {s : SimState}
    (hidle : s.running.state = States.NOT_ASSIGNED)
    (h : s.execution_status.foldl quantum_watch (some none) = some none) :
    QuantumInv k s := by
  unfold QuantumInv
  rw [if_neg (by rw [hidle]; decide)]
  exact h

/-- The state of the reader, whatever the phase. -/
theorem QuantumInv.q_watch {k : Nat} {s : SimState} (h : QuantumInv k s) :
    ∃ c, s.execution_status.foldl quantum_watch (some none) = some c ∧
      ∀ p d, c = some (p, d) → s.running.state = States.RUNNING ∧ s.running.PID = p := by
  unfold QuantumInv at h
  split_ifs at h with hrun
  · obtain ⟨d, hd, _⟩ := h
    exact ⟨_, hd, fun p d' hc => by
      simp only [Option.some.injEq, Prod.mk.injEq] at hc
      exact ⟨hrun, hc.1⟩⟩
  · exact ⟨none, h, fun p d hc => by simp at hc⟩

/-- Rows that are not dispatches and not rows of the RUNNING process, printed by a step that
leaves the running slot, the clock and the quantum alone, keep the reader in step. -/
theorem QuantumInv.q_skip {k : Nat} {s s' : SimState} (h : QuantumInv k s) (rows : List Event)
    (hes : s'.execution_status = s.execution_status ++ rows)
    (hrun : s'.running = s.running) (ht : s'.current_time = s.current_time)
    (hq : s'.quantum_remaining = s.quantum_remaining)
    (hrows : ∀ e ∈ rows, ¬ e.is_dispatch ∧
      (s.running.state = States.RUNNING → e.PID ≠ s.running.PID)) : QuantumInv k s' := by
  unfold QuantumInv at h ⊢
  rw [hrun, ht, hq, hes, List.foldl_append]
  split_ifs at h ⊢ with hr
  · obtain ⟨d, hd, hrest⟩ := h
    refine ⟨d, ?_, hrest⟩
    rw [hd]
    apply foldl_quantum_watch_skip
    intro e he
    refine ⟨(hrows e he).1, fun d' hc => ?_⟩
    simp only [Option.some.injEq, Prod.mk.injEq] at hc
    exact (hrows e he).2 hr hc.1.symm
  · rw [h]
    apply foldl_quantum_watch_skip
    intro e he
    exact ⟨(hrows e he).1, fun d' hc => by simp at hc⟩

/-- The reader follows STEP 1. -/
theorem QuantumInv.q_populate (E : Env) (touch : PCB → PCB)
    (htouch : ∀ p, (touch p).static = p.static) {k : Nat} {s : SimState}
    (hinv : Inv s.current_time s) (h : QuantumInv k s) :
    QuantumInv k (Sched.populate E touch s) := by
  refine h.q_skip _ rfl rfl rfl rfl ?_
  intro e he
  rw [List.mem_map] at he
  obtain ⟨a, ha, rfl⟩ := he
  refine ⟨by unfold Event.is_dispatch; simp, fun hrun hpid => ?_⟩
  exact admitted_fresh E touch htouch hinv a ha _ (running_mem_live hrun) hpid.symm

/-- The reader follows STEP 2. -/
theorem QuantumInv.q_manage_wait_queue (started : PCB → Nat) (touch : PCB → PCB)
    (htouch : ∀ p, (touch p).static = p.static) {b k : Nat} {s : SimState} (hinv : Inv b s)
    (h : QuantumInv k s) : QuantumInv k (Sched.manage_wait_queue started touch s) := by
  refine h.q_skip _ rfl rfl rfl rfl ?_
  intro e he
  simp only [List.mem_map, List.mem_filter] at he
  obtain ⟨_, ⟨p, ⟨hp, _⟩, rfl⟩, rfl⟩ := he
  refine ⟨by unfold Event.is_dispatch; simp, fun hrun hpid => ?_⟩
  have : (touch p).PID = p.PID := static_pid (htouch p)
  exact running_not_waiting hinv hrun p hp (by rw [← this]; exact hpid)

/-- The reader follows STEP 4 (of RR and EP_RR, which reset the quantum). -/
theorem QuantumInv.q_dispatch (schedule : List PCB → List PCB) {s : SimState}
    (hperm : (schedule s.ready_queue).Perm s.ready_queue) (h : QuantumInv 0 s) :
    QuantumInv 0 (Sched.dispatch schedule (fun _ => TIME_QUANTUM) s) := by
  by_cases hd : s.running.state = States.NOT_ASSIGNED ∧ s.ready_queue ≠ []
  · obtain ⟨back, _, heq⟩ := dispatch_eq schedule (fun _ => TIME_QUANTUM) s hperm hd.1 hd.2
    rw [heq]
    unfold QuantumInv at h ⊢
    rw [if_neg (by rw [hd.1]; decide)] at h
    rw [if_pos (state_started_at _ _)]
    refine ⟨s.current_time, ?_, by simp [TIME_QUANTUM], by simp [TIME_QUANTUM]⟩
    show (s.execution_status ++ _).foldl quantum_watch (some none) = _
    rw [List.foldl_append, h, pid_started_at]
    simp [quantum_watch, Event.is_dispatch]
  · unfold Sched.dispatch
    rw [if_neg hd]
    exact h

theorem QuantumInv.q_tick_end {s : SimState} (h : QuantumInv 0 s) :
    QuantumInv 1 { s with current_time := s.current_time + 1 } := by
  unfold QuantumInv at h ⊢
  split_ifs at h ⊢ with hr
  · obtain ⟨d, hd, h1, h2⟩ := h
    exact ⟨d, hd, by show d + 100 + 1 = s.current_time + 1 + s.quantum_remaining; omega, h2⟩
  · exact h

theorem not_dispatch_of_exit {e : Event} (h : e.is_exit) : ¬ e.is_dispatch := by
  unfold Event.is_exit at h
  unfold Event.is_dispatch
  rintro ⟨h1, _⟩
  rw [h.1] at h1
  exact absurd h1 (by decide)

/-- A row that ends the segment of the process the reader has on the CPU, printed by a step that
leaves the CPU idle, keeps the reader in step. -/
theorem QuantumInv.q_exit {k : Nat} {s' : SimState} (es : List Event) (p : Int) (d : Nat)
    (e : Event) (hd : es.foldl quantum_watch (some none) = some (some (p, d)))
    (hes : s'.execution_status = es ++ [e]) (hp : e.PID = p) (he : e.ends_segment d)
    (hidle : s'.running.state = States.NOT_ASSIGNED) : QuantumInv k s' := by
  apply QuantumInv.q_of_idle hidle
  rw [hes, List.foldl_append, hd]
  simp [quantum_watch, not_dispatch_of_exit he.1, hp, he]

theorem udec_of_pos {x : Nat} (h : 1 ≤ x) : udec x = x - 1 := by
  unfold udec
  rw [if_neg (by omega)]

/-- The reader follows STEP 3 of RR. -/
theorem QuantumInv.q_rr_handle_running (E : Env) (hI : IdleContract E) {s : SimState}
    (h : QuantumInv 1 s) : QuantumInv 0 (RR.handle_running E s) := by
  by_cases hrun : s.running.state = States.RUNNING
  · unfold QuantumInv at h
    rw [if_pos hrun] at h
    obtain ⟨d, hd, h1, h2⟩ := h
    unfold RR.handle_running
    rw [if_pos hrun]
    by_cases hio : io_due (Quantum.charged s.running)
    · -- the process blocks for I/O
      have hio' := hio
      dsimp only [io_due, Quantum.charged] at hio'
      have e1 : Quantum.io_check E (Quantum.execute s) =
          { Quantum.execute s with
            wait_queue := s.wait_queue ++ [{ Quantum.charged s.running with
              state := States.WAITING, time_in_cpu := s.current_time }]
            job_list := sync_queue s.job_list { Quantum.charged s.running with
              state := States.WAITING, time_in_cpu := s.current_time }
            execution_status := s.execution_status ++
              [Event.mk s.current_time s.running.PID States.RUNNING States.WAITING]
            running := E.idle_CPU { Quantum.charged s.running with
              state := States.WAITING, time_in_cpu := s.current_time }
            quantum_remaining := TIME_QUANTUM } := by
        unfold Quantum.io_check Quantum.execute
        dsimp only
        rw [if_pos hio'.1, if_pos hio'.2]
        rfl
      have hidle : (Quantum.io_check E (Quantum.execute s)).running.state =
          States.NOT_ASSIGNED := by rw [e1]; exact hI _
      have e2 : Quantum.completion_check E (Quantum.io_check E (Quantum.execute s)) =
          Quantum.io_check E (Quantum.execute s) := by
        unfold Quantum.completion_check
        rw [if_neg (by rw [hidle]; simp)]
      have e3 : RR.quantum_check E (Quantum.io_check E (Quantum.execute s)) =
          Quantum.io_check E (Quantum.execute s) := by
        unfold RR.quantum_check
        rw [if_neg (by rw [hidle]; simp)]
      rw [e2, e3]
      refine QuantumInv.q_exit s.execution_status s.running.PID d
        (Event.mk s.current_time s.running.PID States.RUNNING States.WAITING) hd
        (by rw [e1]) rfl ?_ hidle
      refine ⟨⟨rfl, Or.inr (Or.inl rfl)⟩, ?_, by simp⟩
      show s.current_time ≤ d + 100
      omega
    · rw [quantum_io_check_of_not_due E (Quantum.execute s) hio]
      by_cases hrem : (Quantum.charged s.running).remaining_time = 0
      · -- the process terminates
        have e2 : Quantum.completion_check E (Quantum.execute s) =
            { Quantum.execute s with
              execution_status := s.execution_status ++
                [Event.mk s.current_time s.running.PID States.RUNNING States.TERMINATED]
              job_list := (terminate_process (Quantum.charged s.running) s.job_list).2
              running := E.idle_CPU (terminate_process (Quantum.charged s.running) s.job_list).1
              quantum_remaining := TIME_QUANTUM } := by
          unfold Quantum.completion_check
          rw [if_pos ⟨hrem, hrun⟩]
          rfl
        have hidle : (Quantum.completion_check E (Quantum.execute s)).running.state =
            States.NOT_ASSIGNED := by rw [e2]; exact hI _
        have e3 : RR.quantum_check E (Quantum.completion_check E (Quantum.execute s)) =
            Quantum.completion_check E (Quantum.execute s) := by
          unfold RR.quantum_check
          rw [if_neg (by rw [hidle]; simp)]
        rw [e3]
        refine QuantumInv.q_exit s.execution_status s.running.PID d
          (Event.mk s.current_time s.running.PID States.RUNNING States.TERMINATED) hd
          (by rw [e2]) rfl ?_ hidle
        refine ⟨⟨rfl, Or.inr (Or.inr rfl)⟩, ?_, by simp⟩
        show s.current_time ≤ d + 100
        omega
      · rw [quantum_completion_check_of_pos E (Quantum.execute s) (Nat.pos_of_ne_zero hrem)]
        have hq : (Quantum.execute s).quantum_remaining = s.quantum_remaining - 1 :=
          udec_of_pos h2
        by_cases hq0 : s.quantum_remaining = 1
        · -- the quantum is used up
          have e3 : RR.quantum_check E (Quantum.execute s) =
              Quantum.preempt E (Quantum.execute s) := by
            unfold RR.quantum_check
            rw [if_pos ⟨by rw [hq, hq0], hrun, Nat.pos_of_ne_zero hrem⟩]
          rw [e3]
          refine QuantumInv.q_exit s.execution_status s.running.PID d
            (Event.mk s.current_time s.running.PID States.RUNNING States.READY) hd
            rfl rfl ?_ (hI _)
          refine ⟨⟨rfl, Or.inl rfl⟩, ?_, fun _ => ?_⟩
          · show s.current_time ≤ d + 100
            omega
          · show s.current_time = d + 100
            omega
        · have e3 : RR.quantum_check E (Quantum.execute s) = Quantum.execute s := by
            unfold RR.quantum_check
            rw [if_neg (by rw [hq]; omega)]
          rw [e3]
          unfold QuantumInv
          rw [if_pos (show (Quantum.execute s).running.state = States.RUNNING from hrun)]
          refine ⟨d, hd, ?_, ?_⟩
          · rw [hq]
            show d + 100 + 0 = s.current_time + (s.quantum_remaining - 1)
            omega
          · rw [hq]; omega
  · rw [show RR.handle_running E s = s by unfold RR.handle_running; rw [if_neg hrun]]
    unfold QuantumInv at h ⊢
    rw [if_neg hrun] at h ⊢
    exact h

/-- One iteration of the loop body of RR keeps the reader in step. -/
theorem QuantumInv.q_rr_tick (E : Env) (hE : SortContract E) (hI : IdleContract E)
    {s : SimState} (hinv : Inv s.current_time s) (h : QuantumInv 1 s) :
    QuantumInv 1 (RR.tick E s) := by
  have i1 := Inv.populate E Quantum.touch_new static_quantum_touch_new hinv
  have q1 := QuantumInv.q_populate E Quantum.touch_new static_quantum_touch_new hinv h
  have q2 := QuantumInv.q_manage_wait_queue (fun p => p.time_in_cpu)
    Quantum.touch_done static_quantum_touch_done i1 q1
  have q3 := QuantumInv.q_rr_handle_running E hI q2
  exact (QuantumInv.q_dispatch (fcfs_rr E) (hE _ strictWeak_fcfs_rr_cmp _).1 q3).q_tick_end

/-- C6. In RR, for every workload without repeated PIDs and every allocator behaviour: after
every READY -> RUNNING row of a process at a tick `d` with `d + 100 <= 100000`, the execution
table has a later row of that process, and the first such row takes the process off the CPU
(RUNNING -> READY, RUNNING -> WAITING or RUNNING -> TERMINATED) at a tick not later than
`d + 100`; if that row is a preemption (the process has neither terminated nor started I/O) its
tick is exactly `d + 100`. Whether the ready queue is empty plays no role. -/
theorem rr_segment_within_quantum (E : Env) (hE : SortContract E) (hI : IdleContract E)
    (list_processes : List PCB) (hpids : (pids list_processes).Nodup) :
    ∀ pre e post, (RR.run_simulation E list_processes).1.execution_status = pre ++ e :: post →
      e.is_dispatch → e.time + 100 ≤ 100000 →
      ∃ x, post.find? (fun x => decide (x.PID = e.PID)) = some x ∧ x.ends_segment e.time := by
  have hloop := run_loop_induction (RR.tick E)
    (fun s => Inv s.current_time s ∧ JobInv s ∧ QuantumInv 1 s)
    (fun s hP _ _ => ⟨⟨(Inv.rr_tick E hE hI hP.1).1, JobInv.job_rr_tick E hE hI hP.1 hP.2.1,
      QuantumInv.q_rr_tick E hE hI hP.1 hP.2.2⟩, (Inv.rr_tick E hE hI hP.1).2⟩)
    100001 (init E list_processes) rfl
    ⟨Inv.init E hI list_processes hpids, JobInv.job_init E hI list_processes,
      QuantumInv.q_of_idle (hI _) rfl⟩
  rw [← rr_loop_eq] at hloop
  obtain ⟨⟨_, hjob, hq⟩, hcond, htime⟩ := hloop
  intro pre e post htr he hbound
  obtain ⟨c, hc, hcpu⟩ := hq.q_watch
  unfold RR.run_simulation at htr
  rw [htr] at hc
  rcases dispatch_then_segment_of_watch pre none c e post hc he with hx | hend
  · exact hx
  · exfalso
    obtain ⟨hrun, _⟩ := hcpu e.PID e.time hend
    unfold QuantumInv at hq
    rw [if_pos hrun] at hq
    obtain ⟨d, hd, h1, h2⟩ := hq
    rw [htr, hc, hend] at hd
    simp only [Option.some.injEq, Prod.mk.injEq] at hd
    cases hfin : (RR.loop E 100001 (init E list_processes)).2 with
    | false =>
      have := hcond hfin
      rw [loop_condition_of_live hjob (running_mem_live hrun)] at this
      exact absurd this (by simp)
    | true =>
      have := htime hfin
      omega

theorem rr_segment_within_quantum_witness :
    (pids rotation_scenario).Nodup ∧
    ∀ pre e post, (RR.run_simulation grant_all rotation_scenario).1.execution_status =
        pre ++ e :: post →
      e.is_dispatch → e.time + 100 ≤ 100000 →
      ∃ x, post.find? (fun x => decide (x.PID = e.PID)) = some x ∧ x.ends_segment e.time :=
  ⟨by decide,
    rr_segment_within_quantum grant_all sortContract_grant_all idleContract_grant_all
      rotation_scenario (by decide)⟩

/-! ## The accounting invariant -/

theorem account_append (pid : Int) (es rows : List Event) :
    account pid (es ++ rows) = rows.foldl (segment_step pid) (account pid es) := by
  unfold account
  rw [List.foldl_append]

/-- Rows of other processes, and rows that neither dispatch nor take off the CPU, do not change
the books of `pid`. -/
theorem foldl_segment_step_skip (pid : Int) (a : Option Nat × Nat) (rows : List Event)
    (h : ∀ e ∈ rows, e.PID ≠ pid ∨ (¬ e.is_dispatch ∧ e.old_state ≠ States.RUNNING)) :
    rows.foldl (segment_step pid) a = a := by
  induction rows with
  | nil => rfl
  | cons e es ih =>
    rw [List.foldl_cons]
    have hstep : segment_step pid a e = a := by
      unfold segment_step
      rcases h e (List.mem_cons_self _ _) with h1 | ⟨h1, h2⟩
      · rw [if_neg h1]
      · split_ifs <;> rfl
    rw [hstep]
    exact ih (fun e' he' => h e' (List.mem_cons_of_mem _ he'))

theorem account_of_no_row (pid : Int) (es : List Event) (h : ∀ e ∈ es, e.PID ≠ pid) :
    account pid es = (none, 0) :=
  foldl_segment_step_skip pid _ es (fun e he => Or.inl (h e he))

theorem account_skip (pid : Int) (es rows : List Event)
    (h : ∀ e ∈ rows, e.PID ≠ pid ∨ (¬ e.is_dispatch ∧ e.old_state ≠ States.RUNNING)) :
    account pid (es ++ rows) = account pid es := by
  rw [account_append, foldl_segment_step_skip pid _ rows h]

theorem account_other (pid : Int) (es : List Event) (e : Event) (h : e.PID ≠ pid) :
    account pid (es ++ [e]) = account pid es :=
  account_skip pid es [e] (fun x hx => by
    rw [List.mem_singleton] at hx; rw [hx]; exact Or.inl h)

/-- The books after a row that takes `pid` off the CPU. -/
theorem account_exit (pid : Int) (es : List Event) (t : Nat) (st : States) (d c : Nat)
    (h : account pid es = (some d, c)) :
    account pid (es ++ [Event.mk t pid States.RUNNING st]) = (none, c + (t - d)) := by
  rw [account_append, h]
  simp [segment_step, Event.is_dispatch]

/-- The books after a dispatch row of `pid`. -/
theorem account_dispatch (pid : Int) (es : List Event) (t : Nat) :
    account pid (es ++ [Event.mk t pid States.READY States.RUNNING]) =
      (some t, (account pid es).2) := by
  rw [account_append]
  simp [segment_step, Event.is_dispatch]

theorem Doomed.doomed_mono {k k' c c' : Nat} {p p' : PCB} (h : Doomed k 1 c p)
    (hk : k' + c ≤ k + c') (hp : p'.processing_time = p.processing_time)
    (hr : p'.remaining_time = p.remaining_time) : Doomed k' 1 c' p' := by
  unfold Doomed at h ⊢
  rw [hp, hr]
  refine ⟨h.1, ?_⟩
  rcases h.2 with h2 | h2
  · exact Or.inl h2
  · right; omega

/-- The books of a parked process stay valid when time passes, when the phase moves on and
when only fields other than the PID, the burst and the remaining time are assigned. -/
theorem Parked.parked_mono {k k' c c' : Nat} {a a' : Option Nat × Nat} {p p' : PCB}
    (h : Parked k c a p) (ha : a' = a) (hk : k' + c ≤ k + c')
    (hp : p'.processing_time = p.processing_time)
    (hr : p'.remaining_time = p.remaining_time) : Parked k' c' a' p' := by
  unfold Parked at h ⊢
  rw [ha, hp, hr]
  refine ⟨h.1, ?_⟩
  rcases h.2 with h2 | h2
  · exact Or.inl h2
  · exact Or.inr (h2.doomed_mono hk hp hr)

/-- A roster entry with the PID of a process in a queue or on the CPU has its static fields. -/
theorem static_of_live {b : Nat} {s : SimState} (h : Inv b s) {p q : PCB} (hp : p ∈ live s)
    (hq : q ∈ s.list_processes) (hpid : q.PID = p.PID) : q.static = p.static :=
  static_eq_of_pid_eq h.nodup_list (List.mem_map_of_mem _ hq) (h.arrived p hp).1 hpid

theorem mem_pids {l : List PCB} {pid : Int} : pid ∈ pids l ↔ ∃ p ∈ l, p.PID = pid := by
  unfold pids
  rw [List.mem_map]

/-- Rows for processes in a queue or on the CPU, and rows for PIDs that are not in the roster,
keep `rows_arrived`. -/
theorem rows_arrived_append {b : Nat} {s : SimState} (hinv : Inv b s)
    (h : ∀ e ∈ s.execution_status, ∀ q ∈ s.list_processes, q.PID = e.PID → q.arrival_time < b)
    (rows : List Event)
    (hrows : ∀ e ∈ rows, e.PID ∈ pids (live s) ∨ e.PID ∉ pids s.list_processes) :
    ∀ e ∈ s.execution_status ++ rows, ∀ q ∈ s.list_processes,
      q.PID = e.PID → q.arrival_time < b := by
  intro e he q hq hpid
  rw [List.mem_append] at he
  rcases he with he | he
  · exact h e he q hq hpid
  · rcases hrows e he with hl | hn
    · obtain ⟨p, hp, hpp⟩ := mem_pids.1 hl
      have := static_of_live hinv hp hq (by rw [hpid, hpp])
      rw [static_arrival this]
      exact (hinv.arrived p hp).2
    · exact absurd (mem_pids.2 ⟨q, hq, hpid⟩) hn

/-- A step that keeps every live PID live and prints rows only for live PIDs (or PIDs outside
the roster) keeps `settled`. -/
theorem settled_append (s s' : SimState)
    (h : ∀ q ∈ s.list_processes, (∃ e ∈ s.execution_status, e.PID = q.PID) →
      q.PID ∈ pids (live s) ∨ account q.PID s.execution_status = (none, q.processing_time))
    (rows : List Event) (hes : s'.execution_status = s.execution_status ++ rows)
    (hlist : ∀ q ∈ s'.list_processes, ∃ q0 ∈ s.list_processes,
      q0.PID = q.PID ∧ q0.processing_time = q.processing_time)
    (hlive : ∀ pid ∈ pids (live s), pid ∈ pids (live s'))
    (hrows : ∀ e ∈ rows, e.PID ∈ pids (live s') ∨ e.PID ∉ pids s.list_processes) :
    ∀ q ∈ s'.list_processes, (∃ e ∈ s'.execution_status, e.PID = q.PID) →
      q.PID ∈ pids (live s') ∨ account q.PID s'.execution_status = (none, q.processing_time) := by
  intro q hq hrow
  obtain ⟨q0, hq0, hpid0, hproc0⟩ := hlist q hq
  by_cases hl : q.PID ∈ pids (live s')
  · exact Or.inl hl
  · right
    have hno : ∀ e ∈ rows, e.PID ≠ q.PID := by
      intro e he hpid
      rcases hrows e he with h1 | h1
      · rw [hpid] at h1; exact hl h1
      · rw [hpid] at h1; exact h1 (mem_pids.2 ⟨q0, hq0, hpid0⟩)
    obtain ⟨e, he, hpid⟩ := hrow
    rw [hes, List.mem_append] at he
    rcases he with he | he
    · rcases h q0 hq0 ⟨e, he, by rw [hpid0]; exact hpid⟩ with h1 | h1
      · rw [hpid0] at h1
        exact absurd (hlive _ h1) hl
      · rw [hes, account_skip q.PID _ rows (fun x hx => Or.inl (hno x hx)), ← hpid0, ← hproc0]
        exact h1
    · exact absurd hpid (hno e he)

theorem list_same {s s' : SimState} (h : s'.list_processes = s.list_processes) :
    ∀ q ∈ s'.list_processes, ∃ q0 ∈ s.list_processes,
      q0.PID = q.PID ∧ q0.processing_time = q.processing_time := by
  intro q hq
  rw [h] at hq
  exact ⟨q, hq, rfl, rfl⟩

theorem mem_marked (E : Env) (touch : PCB → PCB) (now : Nat) :
    ∀ (l : List PCB) (i : Nat), ∀ q ∈ marked E touch now i l,
      q ∈ l ∨ ∃ q0 ∈ l, q = touch q0 := by
  intro l
  induction l with
  | nil => intro i q hq; simp [marked] at hq
  | cons p ps ih =>
    intro i q hq
    simp only [marked] at hq
    split_ifs at hq
    · rw [List.mem_cons] at hq
      rcases hq with rfl | hq
      · exact Or.inr ⟨p, List.mem_cons_self _ _, rfl⟩
      · rcases ih _ q hq with h | ⟨q0, h0, h1⟩
        · exact Or.inl (List.mem_cons_of_mem _ h)
        · exact Or.inr ⟨q0, List.mem_cons_of_mem _ h0, h1⟩
    · rw [List.mem_cons] at hq
      rcases hq with rfl | hq
      · exact Or.inl (List.mem_cons_self _ _)
      · rcases ih _ q hq with h | ⟨q0, h0, h1⟩
        · exact Or.inl (List.mem_cons_of_mem _ h)
        · exact Or.inr ⟨q0, List.mem_cons_of_mem _ h0, h1⟩

theorem mem_admitted (E : Env) (touch : PCB → PCB) (now : Nat) :
    ∀ (l : List PCB) (i : Nat), ∀ a ∈ admitted E touch now i l,
      ∃ q0 ∈ l, a = touch q0 ∧ q0.arrival_time = now := by
  intro l
  induction l with
  | nil => intro i a ha; simp [admitted] at ha
  | cons p ps ih =>
    intro i a ha
    simp only [admitted] at ha
    split_ifs at ha with h
    · rw [List.mem_cons] at ha
      rcases ha with rfl | ha
      · exact ⟨p, List.mem_cons_self _ _, rfl, h.1⟩
      · obtain ⟨q0, h0, h1⟩ := ih _ a ha
        exact ⟨q0, List.mem_cons_of_mem _ h0, h1⟩
    · obtain ⟨q0, h0, h1⟩ := ih _ a ha
      exact ⟨q0, List.mem_cons_of_mem _ h0, h1⟩

/-- A roster entry reached through `marked` has the static fields and the remaining time of an
entry of the old roster. -/
theorem marked_origin (E : Env) (touch : PCB → PCB)
    (htouch : ∀ p, (touch p).static = p.static)
    (hrem : ∀ p, (touch p).remaining_time = p.remaining_time) (now : Nat) (l : List PCB)
    (q : PCB) (hq : q ∈ marked E touch now 0 l) :
    ∃ q0 ∈ l, q0.static = q.static ∧ q0.remaining_time = q.remaining_time := by
  rcases mem_marked E touch now l 0 q hq with h | ⟨q0, h0, rfl⟩
  · exact ⟨q, h, rfl, rfl⟩
  · exact ⟨q0, h0, (htouch q0).symm, (hrem q0).symm⟩

/-- STEP 1 keeps the books. -/
theorem acct_populate (E : Env) (touch : PCB → PCB)
    (htouch : ∀ p, (touch p).static = p.static)
    (hrem : ∀ p, (touch p).remaining_time = p.remaining_time) {s : SimState}
    (hinv : Inv s.current_time s) (h : AcctInv s.current_time 1 1 s) :
    AcctInv (s.current_time + 1) 1 1 (populate E touch s) := by
  have hrows : ∀ e ∈ (admitted E touch s.current_time 0 s.list_processes).map
      (fun p => Event.mk s.current_time p.PID States.NEW States.READY),
      ¬ e.is_dispatch ∧ e.old_state ≠ States.RUNNING := by
    intro e he
    rw [List.mem_map] at he
    obtain ⟨a, _, rfl⟩ := he
    exact ⟨by unfold Event.is_dispatch; simp, by simp⟩
  have hacc : ∀ pid, account pid (populate E touch s).execution_status =
      account pid s.execution_status :=
    fun pid => account_skip pid _ _ (fun e he => Or.inr (hrows e he))
  have hlive := live_populate E touch s
  have hsub := sublist_map_static_admitted E touch htouch s.current_time s.list_processes 0
  refine ⟨?_, ?_, ?_, ?_, ?_⟩
  · intro p hp
    rw [hacc]
    have hp' : p ∈ (s.ready_queue ++ admitted E touch s.current_time 0 s.list_processes) ++
        s.wait_queue := hp
    simp only [List.mem_append] at hp'
    rcases hp' with (hp' | hp') | hp'
    · exact h.parked p (List.mem_append_left _ hp')
    · obtain ⟨q0, hq0, rfl, harr⟩ := mem_admitted E touch _ _ _ p hp'
      have hpid : (touch q0).PID = q0.PID := static_pid (htouch q0)
      have hno : ∀ e ∈ s.execution_status, e.PID ≠ (touch q0).PID := by
        intro e he hpe
        have := h.rows_arrived e he q0 hq0 (by rw [hpe, hpid])
        omega
      rw [account_of_no_row _ _ hno]
      unfold Parked Doomed
      have h1 : (touch q0).processing_time = q0.processing_time :=
        static_processing (htouch q0)
      have h2 := h.loaded q0 hq0
      rw [h1, hrem, h2]
      refine ⟨rfl, ?_⟩
      by_cases hz : q0.processing_time = 0
      · right; exact ⟨hz, Or.inl ⟨rfl, hz⟩⟩
      · left; exact ⟨by omega, by simp⟩
    · exact h.parked p (List.mem_append_right _ hp')
  · intro hrun
    rw [hacc]
    exact h.on_cpu hrun
  · apply settled_append s (populate E touch s) h.settled _ rfl
    · intro q hq
      obtain ⟨q0, hq0, hst, _⟩ := marked_origin E touch htouch hrem _ _ q hq
      exact ⟨q0, hq0, static_pid hst, static_processing hst⟩
    · intro pid hpid
      obtain ⟨p, hp, rfl⟩ := mem_pids.1 hpid
      exact mem_pids.2 ⟨p, hlive.mem_iff.2 (List.mem_append_left _ hp), rfl⟩
    · intro e he
      rw [List.mem_map] at he
      obtain ⟨a, ha, rfl⟩ := he
      exact Or.inl (mem_pids.2 ⟨a, hlive.mem_iff.2 (List.mem_append_right _ ha), rfl⟩)
  · intro e he q hq hpid
    obtain ⟨q0, hq0, hst, _⟩ := marked_origin E touch htouch hrem _ _ q hq
    rw [← static_arrival hst]
    have he' : e ∈ s.execution_status ++ _ := he
    rw [List.mem_append] at he'
    rcases he' with he' | he'
    · have := h.rows_arrived e he' q0 hq0 (by rw [static_pid hst]; exact hpid)
      omega
    · rw [List.mem_map] at he'
      obtain ⟨a, ha, rfl⟩ := he'
      have h1 : a.static ∈ s.list_processes.map PCB.static :=
        hsub.subset (List.mem_map_of_mem _ ha)
      have h2 := static_eq_of_pid_eq hinv.nodup_list (List.mem_map_of_mem _ hq0) h1
        (by rw [static_pid hst]; exact hpid)
      rw [static_arrival h2, arrival_of_mem_admitted E touch htouch _ _ _ a ha]
      exact Nat.lt_succ_self _
  · intro q hq
    obtain ⟨q0, hq0, hst, hr⟩ := marked_origin E touch htouch hrem _ _ q hq
    rw [← hr, ← static_processing hst]
    exact h.loaded q0 hq0

theorem pid_mem_live_of_ready {s : SimState} {p : PCB} (h : p ∈ s.ready_queue) :
    p.PID ∈ pids (live s) :=
  mem_pids.2 ⟨p, mem_live_iff.2 (Or.inl h), rfl⟩

theorem pid_mem_live_of_waiting {s : SimState} {p : PCB} (h : p ∈ s.wait_queue) :
    p.PID ∈ pids (live s) :=
  mem_pids.2 ⟨p, mem_live_iff.2 (Or.inr (Or.inl h)), rfl⟩

theorem pid_mem_live_of_running {s : SimState} (h : s.running.state = States.RUNNING) :
    s.running.PID ∈ pids (live s) :=
  mem_pids.2 ⟨s.running, running_mem_live h, rfl⟩

/-- STEP 2 keeps the books. -/
theorem acct_manage_wait_queue (started : PCB → Nat) (touch : PCB → PCB)
    (htouch : ∀ p, (touch p).static = p.static)
    (hrem : ∀ p, (touch p).remaining_time = p.remaining_time) {b k m : Nat} {s : SimState}
    (hinv : Inv b s) (h : AcctInv b k m s) :
    AcctInv b k m (manage_wait_queue started touch s) := by
  have hrows : ∀ e ∈ ((s.wait_queue.filter
      (fun p => decide (usub s.current_time (started p) ≥ p.io_duration))).map touch).map
      (fun p => Event.mk s.current_time p.PID States.WAITING States.READY),
      (¬ e.is_dispatch ∧ e.old_state ≠ States.RUNNING) ∧
        ∃ y ∈ s.wait_queue, e.PID = y.PID ∧
          touch y ∈ (manage_wait_queue started touch s).ready_queue := by
    intro e he
    simp only [List.mem_map] at he
    obtain ⟨_, ⟨y, hy, rfl⟩, rfl⟩ := he
    refine ⟨⟨by unfold Event.is_dispatch; simp, by simp⟩, y, (List.mem_filter.1 hy).1,
      static_pid (htouch y), ?_⟩
    exact List.mem_append_right _ (List.mem_map_of_mem _ hy)
  have hacc : ∀ pid, account pid (manage_wait_queue started touch s).execution_status =
      account pid s.execution_status :=
    fun pid => account_skip pid _ _ (fun e he => Or.inr (hrows e he).1)
  refine ⟨?_, ?_, ?_, ?_, h.loaded⟩
  · intro p hp
    rw [hacc]
    have hp' : p ∈ (s.ready_queue ++ (s.wait_queue.filter
      (fun p => decide (usub s.current_time (started p) ≥ p.io_duration))).map touch) ++
      s.wait_queue.filter (fun p =>
        !decide (usub s.current_time (started p) ≥ p.io_duration)) := hp
    simp only [List.mem_append, List.mem_map] at hp'
    rcases hp' with (hp' | ⟨y, hy, rfl⟩) | hp'
    · exact h.parked p (List.mem_append_left _ hp')
    · have := h.parked y (List.mem_append_right _ (List.mem_filter.1 hy).1)
      exact this.parked_mono (by rw [static_pid (htouch y)]) (le_refl _)
        (static_processing (htouch y)) (hrem y)
    · exact h.parked p (List.mem_append_right _ (List.mem_filter.1 hp').1)
  · intro hrun
    rw [hacc]
    exact h.on_cpu hrun
  · apply settled_append s (manage_wait_queue started touch s) h.settled _ rfl (list_same rfl)
    · intro pid hpid
      obtain ⟨p, hp, rfl⟩ := mem_pids.1 hpid
      rw [mem_live_iff] at hp
      rcases hp with hp | hp | hp
      · exact mem_pids.2 ⟨p, mem_live_iff.2 (Or.inl (List.mem_append_left _ hp)), rfl⟩
      · by_cases hov : decide (usub s.current_time (started p) ≥ p.io_duration) = true
        · refine mem_pids.2 ⟨touch p, mem_live_iff.2 (Or.inl ?_), static_pid (htouch p)⟩
          exact List.mem_append_right _
            (List.mem_map_of_mem _ (List.mem_filter.2 ⟨hp, hov⟩))
        · refine mem_pids.2 ⟨p, mem_live_iff.2 (Or.inr (Or.inl ?_)), rfl⟩
          exact List.mem_filter.2 ⟨hp, by simpa using hov⟩
      · exact mem_pids.2 ⟨p, mem_live_iff.2 (Or.inr (Or.inr hp)), rfl⟩
    · intro e he
      obtain ⟨_, y, _, hpid, hmem⟩ := hrows e he
      exact Or.inl (mem_pids.2 ⟨touch y, mem_live_iff.2 (Or.inl hmem),
        by rw [hpid]; exact static_pid (htouch y)⟩)
  · apply rows_arrived_append hinv h.rows_arrived
    intro e he
    obtain ⟨_, y, hy, hpid, _⟩ := hrows e he
    rw [hpid]
    exact Or.inl (pid_mem_live_of_waiting hy)

/-- Rearranging the ready queue keeps the books. -/
theorem acct_sort_ready {b k m : Nat} {s : SimState} (h : AcctInv b k m s) (rq : List PCB)
    (hperm : rq.Perm s.ready_queue) : AcctInv b k m { s with ready_queue := rq } := by
  have hlive : ∀ p, p ∈ live { s with ready_queue := rq } ↔ p ∈ live s := by
    intro p
    rw [mem_live_iff, mem_live_iff]
    exact or_congr_left hperm.mem_iff
  refine ⟨?_, h.on_cpu, ?_, h.rows_arrived, h.loaded⟩
  · intro p hp
    have hp' : p ∈ rq ++ s.wait_queue := hp
    rw [List.mem_append] at hp'
    rcases hp' with hp' | hp'
    · exact h.parked p (List.mem_append_left _ (hperm.mem_iff.1 hp'))
    · exact h.parked p (List.mem_append_right _ hp')
  · intro q hq hrow
    rcases h.settled q hq hrow with h1 | h1
    · left
      obtain ⟨p, hp, hpid⟩ := mem_pids.1 h1
      exact mem_pids.2 ⟨p, (hlive p).2 hp, hpid⟩
    · exact Or.inr h1

/-- Setting the quantum counter keeps the books. -/
theorem acct_set_quantum {b k m : Nat} {s : SimState} (h : AcctInv b k m s) (q : Nat) :
    AcctInv b k m { s with quantum_remaining := q } :=
  ⟨h.parked, h.on_cpu, h.settled, h.rows_arrived, h.loaded⟩

/-- When no process is RUNNING the phase of the books can be moved on. -/
theorem acct_phase_of_idle {b k m k' m' : Nat} {s : SimState} (h : AcctInv b k m s)
    (hk : k' ≤ k) (hidle : s.running.state ≠ States.RUNNING) : AcctInv b k' m' s := by
  refine ⟨?_, fun hrun => absurd hrun hidle, h.settled, h.rows_arrived, h.loaded⟩
  intro p hp
  exact (h.parked p hp).parked_mono rfl (by omega) rfl rfl

/-- After the completion check has let the running process pass, its remaining time is not 0. -/
theorem acct_after_completion {b : Nat} {s : SimState} (h : AcctInv b 0 0 s)
    (hrem : s.running.state = States.RUNNING → s.running.remaining_time ≠ 0) :
    AcctInv b 0 1 s := by
  refine ⟨h.parked, ?_, h.settled, h.rows_arrived, h.loaded⟩
  intro hrun
  obtain ⟨d, h1, h2, h3⟩ := h.on_cpu hrun
  refine ⟨d, h1, h2, ?_⟩
  rcases h3 with ⟨_, h4⟩ | ⟨h4, h5⟩
  · exact Or.inl ⟨Nat.pos_of_ne_zero (hrem hrun), h4⟩
  · right
    refine ⟨h4, ?_⟩
    rcases h5 with ⟨h6, _⟩ | h6
    · exact absurd h6 (by decide)
    · exact Or.inr h6

/-- The end of the loop body keeps the books. -/
theorem acct_tick_end {b : Nat} {s : SimState} (h : AcctInv b 0 1 s) :
    AcctInv b 1 1 { s with current_time := s.current_time + 1 } := by
  refine ⟨?_, ?_, h.settled, h.rows_arrived, h.loaded⟩
  · intro p hp
    exact (h.parked p hp).parked_mono rfl (by show 1 + s.current_time ≤ 0 + (s.current_time + 1); omega)
      rfl rfl
  · intro hrun
    obtain ⟨d, h1, h2, h3⟩ := h.on_cpu hrun
    refine ⟨d, h1, by show d + 1 ≤ s.current_time + 1; omega, ?_⟩
    show (1 ≤ s.running.remaining_time ∧ _ + (s.current_time + 1 - 1 - d) + _ = _) ∨
      Doomed 1 1 (s.current_time + 1) s.running
    rcases h3 with ⟨h4, h5⟩ | ⟨h4, h5⟩
    · left
      refine ⟨h4, ?_⟩
      have : s.current_time + 1 - 1 - d = s.current_time - 0 - d := by omega
      rw [this]
      exact h5
    · right
      refine ⟨h4, ?_⟩
      rcases h5 with h6 | h6
      · exact Or.inl h6
      · right; omega

/-- Charging the running process for the current tick keeps the books (the phase moves from
"before execution" to "between the decrement and the completion check"). -/
theorem acct_charge {b : Nat} {s : SimState} (h : AcctInv b 1 1 s)
    (ht : s.current_time ≤ 100000) (r : PCB) (hpid : r.PID = s.running.PID)
    (hproc : r.processing_time = s.running.processing_time)
    (hrem : r.remaining_time = udec s.running.remaining_time)
    (hst : r.state = s.running.state) (q : Nat) :
    AcctInv b 0 0 { s with running := r, quantum_remaining := q } := by
  have hlive : ∀ pid, pid ∈ pids (live { s with running := r, quantum_remaining := q }) ↔
      pid ∈ pids (live s) := by
    intro pid
    simp only [mem_pids, mem_live_iff]
    constructor
    · rintro ⟨p, hp | hp | ⟨h1, h2⟩, rfl⟩
      · exact ⟨p, Or.inl hp, rfl⟩
      · exact ⟨p, Or.inr (Or.inl hp), rfl⟩
      · have h1' : r.state = States.RUNNING := h1
        have h2' : p = r := h2
        exact ⟨s.running, Or.inr (Or.inr ⟨by rw [← hst]; exact h1', rfl⟩),
          by rw [h2', hpid]⟩
    · rintro ⟨p, hp | hp | ⟨h1, h2⟩, rfl⟩
      · exact ⟨p, Or.inl hp, rfl⟩
      · exact ⟨p, Or.inr (Or.inl hp), rfl⟩
      · exact ⟨r, Or.inr (Or.inr ⟨by show r.state = _; rw [hst]; exact h1, rfl⟩),
          by rw [h2, hpid]⟩
  refine ⟨?_, ?_, ?_, h.rows_arrived, h.loaded⟩
  · intro p hp
    exact (h.parked p hp).parked_mono rfl (show 0 + s.current_time ≤ 1 + s.current_time by omega)
      rfl rfl
  · intro hrun
    have hrun' : s.running.state = States.RUNNING := by rw [← hst]; exact hrun
    obtain ⟨d, h1, h2, h3⟩ := h.on_cpu hrun'
    show OnCpu 0 0 s.current_time (account r.PID s.execution_status) r
    rw [hpid]
    refine ⟨d, h1, by omega, ?_⟩
    unfold Doomed at h3 ⊢
    rw [hproc, hrem]
    rcases h3 with ⟨h4, h5⟩ | ⟨h4, h5⟩
    · left
      rw [udec_of_pos h4]
      exact ⟨Nat.zero_le _, by omega⟩
    · right
      refine ⟨h4, Or.inr ?_⟩
      rcases h5 with ⟨_, h6⟩ | h6
      · have h7 : udec 0 = 4294967295 := by decide
        rw [h6, h7]
        omega
      · rw [udec_of_pos (by omega)]
        omega
  · intro x hx hrow
    rcases h.settled x hx hrow with h1 | h1
    · exact Or.inl ((hlive _).2 h1)
    · exact Or.inr h1

/-- Taking the running process off the CPU into a queue (blocking for I/O, preemption at quantum
expiry) keeps the books: the row closes the open segment, whose length is the number of ticks
executed in it. -/
theorem acct_park {b m : Nat} {s : SimState} (s' : SimState)
    (hinv : Inv b s) (h : AcctInv b 0 m s) (hrun : s.running.state = States.RUNNING)
    (hpos : 1 ≤ s.running.remaining_time) (r : PCB) (hpid : r.PID = s.running.PID)
    (hproc : r.processing_time = s.running.processing_time)
    (hrem : r.remaining_time = s.running.remaining_time) (st : States)
    (hmem : ∀ p, p ∈ s'.ready_queue ++ s'.wait_queue ↔
      p ∈ s.ready_queue ++ s.wait_queue ∨ p = r)
    (hes : s'.execution_status = s.execution_status ++
      [Event.mk s.current_time s.running.PID States.RUNNING st])
    (hidle : s'.running.state ≠ States.RUNNING)
    (hlist : s'.list_processes = s.list_processes)
    (htime : s'.current_time = s.current_time) :
    AcctInv b 0 1 s' := by
  have hother : ∀ p ∈ s.ready_queue ++ s.wait_queue,
      account p.PID (s.execution_status ++
        [Event.mk s.current_time s.running.PID States.RUNNING st]) =
      account p.PID s.execution_status := by
    intro p hp
    exact account_other _ _ _ (fun hh => running_not_queued hinv hrun p hp hh.symm)
  obtain ⟨d, h1, h2, h3⟩ := h.on_cpu hrun
  have hacc := account_exit s.running.PID s.execution_status s.current_time st d
    (account s.running.PID s.execution_status).2 (by rw [← h1])
  have hlive : ∀ p, p ∈ live s' ↔ p ∈ s.ready_queue ++ s.wait_queue ∨ p = r := by
    intro p
    rw [mem_live_iff, ← hmem, List.mem_append]
    constructor
    · rintro (hp | hp | hp)
      · exact Or.inl hp
      · exact Or.inr hp
      · exact absurd hp.1 hidle
    · rintro (hp | hp)
      · exact Or.inl hp
      · exact Or.inr (Or.inl hp)
  refine ⟨?_, fun hr => absurd hr hidle, ?_, ?_, ?_⟩
  · intro p hp
    rw [hes, htime]
    rcases (hmem p).1 hp with hp' | rfl
    · rw [hother p hp']
      exact h.parked p hp'
    · rw [hpid, hacc]
      unfold Parked Doomed at *
      rw [hproc, hrem]
      refine ⟨rfl, ?_⟩
      rcases h3 with ⟨_, h5⟩ | ⟨h4, h5⟩
      · left
        exact ⟨hpos, by simp only at h5 ⊢; omega⟩
      · right
        refine ⟨h4, Or.inr ?_⟩
        rcases h5 with ⟨_, h6⟩ | h6
        · omega
        · omega
  · apply settled_append s s' h.settled _ hes (list_same hlist)
    · intro pid hpid'
      obtain ⟨p, hp, rfl⟩ := mem_pids.1 hpid'
      rw [mem_live_iff, ← or_assoc, ← List.mem_append] at hp
      rcases hp with hp | ⟨_, rfl⟩
      · exact mem_pids.2 ⟨p, (hlive p).2 (Or.inl hp), rfl⟩
      · exact mem_pids.2 ⟨r, (hlive r).2 (Or.inr rfl), hpid⟩
    · intro e he
      rw [List.mem_singleton] at he
      rw [he]
      exact Or.inl (mem_pids.2 ⟨r, (hlive r).2 (Or.inr rfl), hpid⟩)
  · rw [hes, hlist]
    apply rows_arrived_append hinv h.rows_arrived
    intro e he
    rw [List.mem_singleton] at he
    rw [he]
    exact Or.inl (pid_mem_live_of_running hrun)
  · rw [hlist]
    exact h.loaded

/-- Termination keeps the books: the row closes the last segment and the total is the burst. -/
theorem acct_terminate {b : Nat} {s : SimState} (s' : SimState)
    (hinv : Inv b s) (h : AcctInv b 0 0 s) (hrun : s.running.state = States.RUNNING)
    (hzero : s.running.remaining_time = 0) (ht : s.current_time ≤ 100000)
    (hrq : s'.ready_queue = s.ready_queue) (hwq : s'.wait_queue = s.wait_queue)
    (hes : s'.execution_status = s.execution_status ++
      [Event.mk s.current_time s.running.PID States.RUNNING States.TERMINATED])
    (hidle : s'.running.state ≠ States.RUNNING)
    (hlist : s'.list_processes = s.list_processes)
    (htime : s'.current_time = s.current_time) :
    AcctInv b 0 1 s' := by
  have hother : ∀ pid, pid ≠ s.running.PID →
      account pid (s.execution_status ++
        [Event.mk s.current_time s.running.PID States.RUNNING States.TERMINATED]) =
      account pid s.execution_status :=
    fun pid hp => account_other _ _ _ (fun hh => hp hh.symm)
  obtain ⟨d, h1, h2, h3⟩ := h.on_cpu hrun
  have hacc := account_exit s.running.PID s.execution_status s.current_time States.TERMINATED d
    (account s.running.PID s.execution_status).2 (by rw [← h1])
  refine ⟨?_, fun hr => absurd hr hidle, ?_, ?_, ?_⟩
  · intro p hp
    rw [hrq, hwq] at hp
    rw [hes, htime, hother _ (running_not_queued hinv hrun p hp)]
    exact h.parked p hp
  · intro x hx hrow
    rw [hlist] at hx
    rw [hes] at hrow ⊢
    by_cases hpx : x.PID = s.running.PID
    · right
      rw [hpx, hacc]
      have hst := static_of_live hinv (running_mem_live hrun) hx hpx
      rw [static_processing hst]
      unfold Doomed at h3
      rcases h3 with ⟨_, h5⟩ | ⟨_, h5⟩
      · rw [hzero] at h5
        rw [← h5]
        congr 1
      · rcases h5 with ⟨h6, _⟩ | h6
        · exact absurd h6 (by decide)
        · omega
    · have hrow' : ∃ e ∈ s.execution_status, e.PID = x.PID := by
        obtain ⟨e, he, hpe⟩ := hrow
        rw [List.mem_append, List.mem_singleton] at he
        rcases he with he | rfl
        · exact ⟨e, he, hpe⟩
        · exact absurd hpe.symm hpx
      rcases h.settled x hx hrow' with h4 | h4
      · left
        obtain ⟨p, hp, hpp⟩ := mem_pids.1 h4
        rw [mem_live_iff] at hp
        refine mem_pids.2 ⟨p, mem_live_iff.2 ?_, hpp⟩
        rcases hp with hp | hp | hp
        · exact Or.inl (by rw [hrq]; exact hp)
        · exact Or.inr (Or.inl (by rw [hwq]; exact hp))
        · rw [hp.2] at hpp
          exact absurd hpp.symm hpx
      · right
        rw [hother _ hpx]
        exact h4
  · rw [hes, hlist]
    apply rows_arrived_append hinv h.rows_arrived
    intro e he
    rw [List.mem_singleton] at he
    rw [he]
    exact Or.inl (pid_mem_live_of_running hrun)
  · rw [hlist]
    exact h.loaded

/-- A RUNNING -> TERMINATED row for a PID that is not in the roster, printed while no process is
on the CPU, keeps the books. -/
theorem acct_spurious {b m m' : Nat} {s : SimState} (s' : SimState)
    (hinv : Inv b s) (h : AcctInv b 0 m s) (hidle : s.running.state ≠ States.RUNNING)
    (pid : Int) (hfree : pid ∉ pids s.list_processes)
    (hrq : s'.ready_queue = s.ready_queue) (hwq : s'.wait_queue = s.wait_queue)
    (hes : s'.execution_status = s.execution_status ++
      [Event.mk s.current_time pid States.RUNNING States.TERMINATED])
    (hidle' : s'.running.state ≠ States.RUNNING)
    (hlist : s'.list_processes = s.list_processes)
    (htime : s'.current_time = s.current_time) :
    AcctInv b 0 m' s' := by
  have hlive : live s' = live s := by
    unfold live
    rw [hrq, hwq, on_cpu_of_not_running hidle, on_cpu_of_not_running hidle']
  refine ⟨?_, fun hr => absurd hr hidle', ?_, ?_, ?_⟩
  · intro p hp
    rw [hrq, hwq] at hp
    have hp' : p ∈ live s := by
      rw [mem_live_iff, ← or_assoc, ← List.mem_append]
      exact Or.inl hp
    have hne : pid ≠ p.PID := fun hh => hfree (hh ▸ pid_mem_pids_of_live hinv hp')
    rw [hes, htime, account_other _ _ _ hne]
    exact h.parked p hp
  · apply settled_append s s' h.settled _ hes (list_same hlist)
    · intro x hx
      rw [hlive]
      exact hx
    · intro e he
      rw [List.mem_singleton] at he
      rw [he]
      exact Or.inr hfree
  · rw [hes, hlist]
    apply rows_arrived_append hinv h.rows_arrived
    intro e he
    rw [List.mem_singleton] at he
    rw [he]
    exact Or.inr hfree
  · rw [hlist]
    exact h.loaded

/-- Putting a process of the ready queue on the CPU keeps the books: the dispatch row opens a
segment at the current tick. -/
theorem acct_open {b : Nat} {s : SimState} (s' : SimState) (hinv : Inv b s) (hinv' : Inv b s')
    (h : AcctInv b 0 1 s) (back : PCB) (hbm : back ∈ s.ready_queue)
    (hsub : ∀ p ∈ s'.ready_queue ++ s'.wait_queue, p ∈ s.ready_queue ++ s.wait_queue)
    (hcov : ∀ p ∈ s.ready_queue ++ s.wait_queue, p ∈ s'.ready_queue ++ s'.wait_queue ∨ p = back)
    (hrun : s'.running.state = States.RUNNING) (hpid : s'.running.PID = back.PID)
    (hproc : s'.running.processing_time = back.processing_time)
    (hrem : s'.running.remaining_time = back.remaining_time)
    (hidle : s.running.state ≠ States.RUNNING)
    (hes : s'.execution_status = s.execution_status ++
      [Event.mk s.current_time back.PID States.READY States.RUNNING])
    (hlist : s'.list_processes = s.list_processes)
    (htime : s'.current_time = s.current_time) :
    AcctInv b 0 1 s' := by
  have hpb := h.parked back (List.mem_append_left _ hbm)
  have hlive : ∀ pid ∈ pids (live s), pid ∈ pids (live s') := by
    intro pid hpid'
    obtain ⟨p, hp, rfl⟩ := mem_pids.1 hpid'
    rw [mem_live_iff, ← or_assoc, ← List.mem_append] at hp
    rcases hp with hp | hp
    · rcases hcov p hp with hp' | rfl
      · refine mem_pids.2 ⟨p, ?_, rfl⟩
        rw [mem_live_iff, ← or_assoc, ← List.mem_append]
        exact Or.inl hp'
      · exact mem_pids.2 ⟨_, running_mem_live hrun, hpid⟩
    · exact absurd hp.1 hidle
  refine ⟨?_, ?_, ?_, ?_, ?_⟩
  · intro p hp
    have hne : back.PID ≠ p.PID := by
      intro hh
      exact running_not_queued hinv' hrun p hp (by rw [hpid, hh])
    rw [hes, htime, account_other _ _ _ hne]
    exact h.parked p (hsub p hp)
  · intro _
    rw [hes, htime, hpid, account_dispatch]
    refine ⟨s.current_time, rfl, by omega, ?_⟩
    unfold Parked at hpb
    unfold Doomed at hpb ⊢
    rw [hproc, hrem]
    rcases hpb.2 with ⟨h4, h5⟩ | h4
    · left
      exact ⟨h4, by simp only; omega⟩
    · right
      exact h4
  · apply settled_append s s' h.settled _ hes (list_same hlist) hlive
    intro e he
    rw [List.mem_singleton] at he
    rw [he]
    exact Or.inl (mem_pids.2 ⟨_, running_mem_live hrun, hpid⟩)
  · rw [hes, hlist]
    apply rows_arrived_append hinv h.rows_arrived
    intro e he
    rw [List.mem_singleton] at he
    rw [he]
    exact Or.inl (pid_mem_live_of_ready hbm)
  · rw [hlist]
    exact h.loaded

/-- STEP 4 keeps the books. -/
theorem acct_dispatch (schedule : List PCB → List PCB) (quantum : Nat → Nat) {b : Nat}
    {s : SimState} (hinv : Inv b s) (h : AcctInv b 0 1 s)
    (hperm : (schedule s.ready_queue).Perm s.ready_queue) :
    AcctInv b 0 1 (dispatch schedule quantum s) := by
  by_cases hidle : s.running.state = States.NOT_ASSIGNED
  · by_cases hne : s.ready_queue = []
    · rw [dispatch_of_empty _ _ _ hne]
      exact h
    · have hinv' := Inv.dispatch schedule quantum hinv hperm
      obtain ⟨back, hback, heq⟩ := dispatch_eq schedule quantum s hperm hidle hne
      rw [heq] at hinv' ⊢
      have hbm : back ∈ s.ready_queue :=
        hperm.mem_iff.1 (by rw [hback]; exact List.mem_append_right _ (List.mem_singleton.2 rfl))
      refine acct_open _ hinv hinv' h back hbm ?_ ?_ rfl (pid_started_at _ _)
        (static_processing (static_started_at _ _)) (remaining_started_at _ _)
        (by rw [hidle]; decide) rfl rfl rfl
      · intro p hp
        rw [List.mem_append] at hp ⊢
        rcases hp with hp | hp
        · exact Or.inl (hperm.mem_iff.1 (List.mem_of_mem_dropLast hp))
        · exact Or.inr hp
      · intro p hp
        rw [List.mem_append] at hp
        rcases hp with hp | hp
        · have hp' := hperm.mem_iff.2 hp
          rw [hback, List.mem_append, List.mem_singleton] at hp'
          rcases hp' with hp' | rfl
          · exact Or.inl (List.mem_append_left _ hp')
          · exact Or.inr rfl
        · exact Or.inl (List.mem_append_right _ hp)
  · rw [dispatch_of_busy _ _ _ hidle]
    exact h

theorem acct_execute {b : Nat} {s : SimState} (h : AcctInv b 1 1 s)
    (ht : s.current_time ≤ 100000) : AcctInv b 0 0 (Quantum.execute s) :=
  acct_charge h ht (Quantum.charged s.running) rfl rfl rfl rfl _

theorem acct_quantum_io_check (E : Env) (hI : IdleContract E) {b : Nat} {s : SimState}
    (hinv : Inv b s) (h : AcctInv b 0 0 s) (hrun : s.running.state = States.RUNNING) :
    AcctInv b 0 0 (Quantum.io_check E s) := by
  unfold Quantum.io_check
  dsimp only
  split_ifs with h1 h2
  · have hidle : (E.idle_CPU
        { s.running with state := States.WAITING, time_in_cpu := s.current_time }).state ≠
        States.RUNNING := by rw [hI]; decide
    refine acct_phase_of_idle (acct_park _ hinv h hrun h1.2
      { s.running with state := States.WAITING, time_in_cpu := s.current_time } rfl rfl rfl
      States.WAITING ?_ rfl hidle rfl rfl) (le_refl _) hidle
    intro p
    simp only [List.mem_append, List.mem_singleton]
    tauto
  · exact h
  · exact h

theorem acct_quantum_completion_check (E : Env) (hI : IdleContract E) {b : Nat} {s : SimState}
    (hinv : Inv b s) (h : AcctInv b 0 0 s) (ht : s.current_time ≤ 100000) :
    AcctInv b 0 1 (Quantum.completion_check E s) := by
  unfold Quantum.completion_check
  dsimp only
  split_ifs with hc
  · exact acct_terminate _ hinv h hc.2 hc.1 ht rfl rfl rfl (by rw [hI]; decide) rfl rfl
  · exact acct_after_completion h (fun hrun hz => hc ⟨hz, hrun⟩)

theorem acct_quantum_preempt (E : Env) (hI : IdleContract E) {b : Nat} {s : SimState}
    (hinv : Inv b s) (h : AcctInv b 0 1 s) (hrun : s.running.state = States.RUNNING)
    (hpos : s.running.remaining_time > 0) : AcctInv b 0 1 (Quantum.preempt E s) := by
  unfold Quantum.preempt
  dsimp only
  refine acct_park _ hinv h hrun hpos
    { s.running with state := States.READY, time_in_cpu := 0 } rfl rfl rfl
    States.READY ?_ rfl (by rw [hI]; decide) rfl rfl
  intro p
  simp only [List.mem_append, List.mem_cons]
  tauto

theorem acct_rr_quantum_check (E : Env) (hI : IdleContract E) {b : Nat} {s : SimState}
    (hinv : Inv b s) (h : AcctInv b 0 1 s) : AcctInv b 0 1 (RR.quantum_check E s) := by
  unfold RR.quantum_check
  split_ifs with hc
  · exact acct_quantum_preempt E hI hinv h hc.2.1 hc.2.2
  · exact h

theorem acct_ep_rr_quantum_check (E : Env) (hI : IdleContract E) {b : Nat} {s : SimState}
    (hinv : Inv b s) (h : AcctInv b 0 1 s) : AcctInv b 0 1 (EP_RR.quantum_check E s) := by
  unfold EP_RR.quantum_check
  split_ifs with hc
  · exact acct_quantum_preempt E hI hinv h hc.2.1 hc.2.2
  · exact acct_set_quantum h _
  · exact h

/-- STEP 3 of RR keeps the books. -/
theorem acct_rr_handle_running (E : Env) (hI : IdleContract E) {b : Nat} {s : SimState}
    (hinv : Inv b s) (h : AcctInv b 1 1 s) (ht : s.current_time ≤ 100000) :
    AcctInv b 0 1 (RR.handle_running E s) := by
  unfold RR.handle_running
  split_ifs with hrun
  · have i1 : Inv b (Quantum.execute s) := hinv.charge (Quantum.charged s.running) rfl rfl _
    have i2 := Inv.quantum_io_check E hI i1 hrun
    have i3 := Inv.quantum_completion_check E hI i2
    have a2 := acct_quantum_io_check E hI i1 (acct_execute h ht) hrun
    have t2 : (Quantum.io_check E (Quantum.execute s)).current_time ≤ 100000 := by
      have : (Quantum.io_check E (Quantum.execute s)).current_time = s.current_time := by
        unfold Quantum.io_check Quantum.execute
        dsimp only
        split_ifs <;> rfl
      omega
    exact acct_rr_quantum_check E hI i3 (acct_quantum_completion_check E hI i2 a2 t2)
  · exact acct_phase_of_idle h (by omega) hrun

/-- STEP 3 of EP_RR keeps the books. -/
theorem acct_ep_rr_handle_running (E : Env) (hI : IdleContract E) {b : Nat} {s : SimState}
    (hinv : Inv b s) (h : AcctInv b 1 1 s) (ht : s.current_time ≤ 100000) :
    AcctInv b 0 1 (EP_RR.handle_running E s) := by
  unfold EP_RR.handle_running
  split_ifs with hrun
  · have i1 : Inv b (Quantum.execute s) := hinv.charge (Quantum.charged s.running) rfl rfl _
    have i2 := Inv.quantum_io_check E hI i1 hrun
    have i3 := Inv.quantum_completion_check E hI i2
    have a2 := acct_quantum_io_check E hI i1 (acct_execute h ht) hrun
    have t2 : (Quantum.io_check E (Quantum.execute s)).current_time ≤ 100000 := by
      have : (Quantum.io_check E (Quantum.execute s)).current_time = s.current_time := by
        unfold Quantum.io_check Quantum.execute
        dsimp only
        split_ifs <;> rfl
      omega
    exact acct_ep_rr_quantum_check E hI i3 (acct_quantum_completion_check E hI i2 a2 t2)
  · exact acct_phase_of_idle h (by omega) hrun

/-- One iteration of the loop body of RR keeps the books. -/
theorem acct_rr_tick (E : Env) (hE : SortContract E) (hI : IdleContract E) {s : SimState}
    (hinv : Inv s.current_time s) (h : AcctInv s.current_time 1 1 s)
    (ht : s.current_time ≤ 100000) :
    AcctInv (s.current_time + 1) 1 1 (RR.tick E s) := by
  have i1 := Inv.populate E Quantum.touch_new static_quantum_touch_new hinv
  have i2 := Inv.manage_wait_queue (fun p => p.time_in_cpu)
    Quantum.touch_done static_quantum_touch_done i1
  have i3 := Inv.rr_handle_running E hI i2
  have a1 := acct_populate E Quantum.touch_new static_quantum_touch_new (fun _ => rfl) hinv h
  have a2 := acct_manage_wait_queue (fun p => p.time_in_cpu) Quantum.touch_done
    static_quantum_touch_done (fun _ => rfl) i1 a1
  have a3 := acct_rr_handle_running E hI i2 a2 ht
  exact acct_tick_end (acct_dispatch (fcfs_rr E) (fun _ => TIME_QUANTUM) i3 a3
    (hE _ strictWeak_fcfs_rr_cmp _).1)

/-- When STEPS 1 to 2.5 of EP_RR print no RUNNING -> READY row, STEP 2.5 has at most sorted the
ready queue. -/
theorem arrivals_without_preemption (E : Env) (hE : SortContract E) (s : SimState)
    (hok : EP_RR.preempts_on_arrival E s = false) :
    ∃ rq, rq.Perm (manage_wait_queue (fun p => p.time_in_cpu) Quantum.touch_done
        (populate E Quantum.touch_new s)).ready_queue ∧
      EP_RR.arrivals E s =
        { manage_wait_queue (fun p => p.time_in_cpu) Quantum.touch_done
            (populate E Quantum.touch_new s) with ready_queue := rq } := by
  unfold EP_RR.arrivals EP_RR.check_preemption
  dsimp only
  split_ifs with h1 h2
  · exfalso
    have hrows : rows_added (EP_RR.arrivals E) s =
        ((admitted E Quantum.touch_new s.current_time 0 s.list_processes).map
          (fun p => Event.mk s.current_time p.PID States.NEW States.READY) ++
        (((populate E Quantum.touch_new s).wait_queue.filter
          (fun p => decide (usub s.current_time p.time_in_cpu ≥ p.io_duration))).map
            Quantum.touch_done).map
          (fun p => Event.mk s.current_time p.PID States.WAITING States.READY)) ++
        [Event.mk s.current_time s.running.PID States.RUNNING States.READY] := by
      apply rows_added_eq
      unfold EP_RR.arrivals EP_RR.check_preemption
      dsimp only
      rw [if_pos h1, if_pos h2]
      simp only [manage_wait_queue, populate, List.append_assoc]
    unfold EP_RR.preempts_on_arrival at hok
    rw [hrows] at hok
    simp [Event.is_preemption] at hok
  · exact ⟨_, (hE _ strictWeak_ep_rr_schedule_cmp _).1, rfl⟩
  · exact ⟨_, List.Perm.refl _, rfl⟩

/-- One iteration of the loop body of EP_RR in which STEP 2.5 does not preempt keeps the
books. -/
theorem acct_ep_rr_tick (E : Env) (hE : SortContract E) (hI : IdleContract E) {s : SimState}
    (hinv : Inv s.current_time s) (h : AcctInv s.current_time 1 1 s)
    (ht : s.current_time ≤ 100000) (hok : EP_RR.preempts_on_arrival E s = false) :
    AcctInv (s.current_time + 1) 1 1 (EP_RR.tick E s) := by
  have i1 := Inv.populate E Quantum.touch_new static_quantum_touch_new hinv
  have i2 := Inv.manage_wait_queue (fun p => p.time_in_cpu)
    Quantum.touch_done static_quantum_touch_done i1
  have i25 : Inv (s.current_time + 1) (EP_RR.arrivals E s) :=
    Inv.check_preemption E hE hI _ _ i2
  have i3 := Inv.ep_rr_handle_running E hI i25
  have a1 := acct_populate E Quantum.touch_new static_quantum_touch_new (fun _ => rfl) hinv h
  have a2 := acct_manage_wait_queue (fun p => p.time_in_cpu) Quantum.touch_done
    static_quantum_touch_done (fun _ => rfl) i1 a1
  obtain ⟨rq, hperm, heq⟩ := arrivals_without_preemption E hE s hok
  have a25 : AcctInv (s.current_time + 1) 1 1 (EP_RR.arrivals E s) := by
    rw [heq]
    exact acct_sort_ready a2 rq hperm
  have t25 : (EP_RR.arrivals E s).current_time ≤ 100000 := by
    rw [ep_rr_arrivals_current_time]
    exact ht
  have a3 := acct_ep_rr_handle_running E hI i25 a25 t25
  have a4 := acct_tick_end (acct_dispatch (ep_rr_schedule E) (fun _ => TIME_QUANTUM) i3 a3
    (hE _ strictWeak_ep_rr_schedule_cmp _).1)
  exact a4

/-! ### The books of EP -/

theorem acct_ep_io_check (E : Env) (hI : IdleContract E) {b : Nat} {s : SimState}
    (hinv : Inv b s) (h : AcctInv b 0 0 s) (hrun : s.running.state = States.RUNNING) :
    AcctInv b 0 0 (EP.io_check E s) := by
  unfold EP.io_check
  dsimp only
  split_ifs with h1 h2
  · have hidle : (E.idle_CPU { s.running with state := States.WAITING }).state ≠
        States.RUNNING := by rw [hI]; decide
    refine acct_phase_of_idle (acct_park _ hinv h hrun h1.2
      { s.running with state := States.WAITING } rfl rfl rfl
      States.WAITING ?_ rfl hidle rfl rfl) (le_refl _) hidle
    intro p
    simp only [List.mem_append, List.mem_singleton]
    tauto
  · exact h
  · exact h

/-- The completion check of EP keeps the books, provided the placeholder that `idle_CPU` leaves
in `running` does not carry the PID of a process of the workload. -/
theorem acct_ep_completion_check (E : Env) (hI : IdleContract E) {b : Nat} {s : SimState}
    (hinv : Inv b s) (h : AcctInv b 0 0 s) (ht : s.current_time ≤ 100000)
    (hfree : s.running.state ≠ States.RUNNING → s.running.PID ∉ pids s.list_processes) :
    AcctInv b 0 1 (EP.completion_check E s) := by
  unfold EP.completion_check
  dsimp only
  split_ifs with hc
  · by_cases hrun : s.running.state = States.RUNNING
    · exact acct_terminate _ hinv h hrun hc ht rfl rfl rfl (by rw [hI]; decide) rfl rfl
    · exact acct_spurious _ hinv h hrun s.running.PID (hfree hrun) rfl rfl rfl
        (by rw [hI]; decide) rfl rfl
  · exact acct_after_completion h (fun _ hz => hc hz)

theorem ep_io_check_running (E : Env) (s : SimState) :
    EP.io_check E s = s ∨ ∃ w, (EP.io_check E s).running = E.idle_CPU w := by
  unfold EP.io_check
  dsimp only
  split_ifs
  · exact Or.inr ⟨_, rfl⟩
  · exact Or.inl rfl
  · exact Or.inl rfl

theorem ep_io_check_fields (E : Env) (s : SimState) :
    (EP.io_check E s).current_time = s.current_time ∧
      (EP.io_check E s).list_processes = s.list_processes := by
  unfold EP.io_check
  dsimp only
  split_ifs <;> exact ⟨rfl, rfl⟩

/-- STEP 3 of EP keeps the books. -/
theorem acct_ep_handle_running (E : Env) (hI : IdleContract E) {b : Nat} {s : SimState}
    (hinv : Inv b s) (h : AcctInv b 1 1 s) (ht : s.current_time ≤ 100000)
    (hfree : ∀ r, (E.idle_CPU r).PID ∉ pids s.list_processes) :
    AcctInv b 0 1 (EP.handle_running E s) := by
  unfold EP.handle_running
  split_ifs with hrun
  · have i1 : Inv b { s with running := EP.charged s.running } :=
      hinv.charge (EP.charged s.running) rfl rfl _
    have a1 : AcctInv b 0 0 { s with running := EP.charged s.running } :=
      acct_charge h ht (EP.charged s.running) rfl rfl rfl rfl _
    have i2 := Inv.ep_io_check E hI i1 hrun
    have a2 := acct_ep_io_check E hI i1 a1 hrun
    have hf := ep_io_check_fields E { s with running := EP.charged s.running }
    show AcctInv b 0 1 (EP.completion_check E
      (EP.io_check E { s with running := EP.charged s.running }))
    refine acct_ep_completion_check E hI i2 a2 (by rw [hf.1]; exact ht) ?_
    intro hnr
    rcases ep_io_check_running E { s with running := EP.charged s.running } with heq | ⟨w, hw⟩
    · rw [heq] at hnr
      exact absurd hrun hnr
    · rw [hw, hf.2]
      exact hfree w
  · exact acct_phase_of_idle h (by omega) hrun

theorem pids_marked (E : Env) (touch : PCB → PCB)
    (htouch : ∀ p, (touch p).static = p.static) (now : Nat) (l : List PCB) :
    pids (marked E touch now 0 l) = pids l := by
  rw [pids_eq_map_static, pids_eq_map_static, map_static_marked E touch htouch]

/-- One iteration of the loop body of EP keeps the books. -/
theorem acct_ep_tick (E : Env) (hE : SortContract E) (hI : IdleContract E) {s : SimState}
    (hinv : Inv s.current_time s) (h : AcctInv s.current_time 1 1 s)
    (ht : s.current_time ≤ 100000)
    (hfree : ∀ r, (E.idle_CPU r).PID ∉ pids s.list_processes) :
    AcctInv (s.current_time + 1) 1 1 (EP.tick E s) := by
  have i1 := Inv.populate E EP.touch_new static_ep_touch_new hinv
  have i2 := Inv.manage_wait_queue (fun _ => (populate E EP.touch_new s).io_start_time)
    EP.touch_done static_ep_touch_done i1
  have i3 := Inv.ep_handle_running E hI i2
  have a1 := acct_populate E EP.touch_new static_ep_touch_new (fun _ => rfl) hinv h
  have a2 := acct_manage_wait_queue (fun _ => (populate E EP.touch_new s).io_start_time)
    EP.touch_done static_ep_touch_done (fun _ => rfl) i1 a1
  have a3 := acct_ep_handle_running E hI i2 a2 ht (fun r => by
    show (E.idle_CPU r).PID ∉ pids (marked E EP.touch_new s.current_time 0 s.list_processes)
    rw [pids_marked E EP.touch_new static_ep_touch_new]
    exact hfree r)
  exact acct_tick_end (acct_dispatch (external_priorities E) (fun q => q) i3 a3
    (hE _ strictWeak_external_priorities_cmp _).1)

/-! ### The registry and the roster of EP -/

theorem JobInv.job_ep_io_check (E : Env) (hI : IdleContract E) {s : SimState}
    (h : JobInv s) (hrun : s.running.state = States.RUNNING) : JobInv (EP.io_check E s) := by
  unfold EP.io_check
  dsimp only
  split_ifs
  · exact h.job_block E hI hrun { s.running with state := States.WAITING } rfl (by simp) _ _ _
  · exact h
  · exact h

theorem JobInv.job_ep_completion_check (E : Env) (hI : IdleContract E) {b : Nat}
    {s : SimState} (hinv : Inv b s) (h : JobInv s)
    (hfree : s.running.state ≠ States.RUNNING → s.running.PID ∉ pids s.list_processes) :
    JobInv (EP.completion_check E s) := by
  unfold EP.completion_check
  dsimp only
  split_ifs with hc
  · refine h.job_vacate E hI _ (terminate_process s.running s.job_list).1 ?_ _ _
    by_cases hrun : s.running.state = States.RUNNING
    · exact running_not_queued hinv hrun
    · intro p hp hpid
      apply hfree hrun
      have hp' : p ∈ live s := by
        rw [mem_live_iff, ← or_assoc, ← List.mem_append]
        exact Or.inl hp
      have := pid_mem_pids_of_live hinv hp'
      rw [hpid] at this
      exact this
  · exact h

/-- STEP 3 of EP preserves the registry invariant, provided the placeholder of `idle_CPU` does
not carry the PID of a process of the workload. -/
theorem JobInv.job_ep_handle_running (E : Env) (hI : IdleContract E) {b : Nat} {s : SimState}
    (hinv : Inv b s) (h : JobInv s)
    (hfree : ∀ r, (E.idle_CPU r).PID ∉ pids s.list_processes) :
    JobInv (EP.handle_running E s) := by
  unfold EP.handle_running
  split_ifs with hrun
  · have i1 : Inv b { s with running := EP.charged s.running } :=
      hinv.charge (EP.charged s.running) rfl rfl _
    have j1 : JobInv { s with running := EP.charged s.running } :=
      h.job_charge (EP.charged s.running) rfl rfl _
    have i2 := Inv.ep_io_check E hI i1 hrun
    have j2 := JobInv.job_ep_io_check E hI j1 hrun
    have hf := ep_io_check_fields E { s with running := EP.charged s.running }
    show JobInv (EP.completion_check E
      (EP.io_check E { s with running := EP.charged s.running }))
    refine JobInv.job_ep_completion_check E hI i2 j2 ?_
    intro hnr
    rcases ep_io_check_running E { s with running := EP.charged s.running } with heq | ⟨w, hw⟩
    · rw [heq] at hnr
      exact absurd hrun hnr
    · rw [hw, hf.2]
      exact hfree w
  · exact h

/-- One iteration of the loop body of EP preserves the registry invariant. -/
theorem JobInv.job_ep_tick (E : Env) (hE : SortContract E) (hI : IdleContract E) {s : SimState}
    (hinv : Inv s.current_time s) (h : JobInv s)
    (hfree : ∀ r, (E.idle_CPU r).PID ∉ pids s.list_processes) : JobInv (EP.tick E s) := by
  have i1 := Inv.populate E EP.touch_new static_ep_touch_new hinv
  have i2 := Inv.manage_wait_queue (fun _ => (populate E EP.touch_new s).io_start_time)
    EP.touch_done static_ep_touch_done i1
  have j1 := JobInv.job_populate E EP.touch_new (fun _ => rfl) h
  have j2 := JobInv.job_manage_wait_queue (fun _ => (populate E EP.touch_new s).io_start_time)
    EP.touch_done (fun _ => rfl) (fun _ => rfl) j1
  have j3 := JobInv.job_ep_handle_running E hI i2 j2 (fun r => by
    show (E.idle_CPU r).PID ∉ pids (marked E EP.touch_new s.current_time 0 s.list_processes)
    rw [pids_marked E EP.touch_new static_ep_touch_new]
    exact hfree r)
  exact (JobInv.job_dispatch (external_priorities E) (fun q => q) j3
    (hE _ strictWeak_external_priorities_cmp _).1).job_tick_end

theorem dispatch_list_processes (schedule : List PCB → List PCB) (quantum : Nat → Nat)
    (s : SimState) : (dispatch schedule quantum s).list_processes = s.list_processes := by
  unfold dispatch
  split_ifs
  · dsimp only
    split <;> rfl
  · rfl

theorem ep_handle_running_list_processes (E : Env) (s : SimState) :
    (EP.handle_running E s).list_processes = s.list_processes := by
  unfold EP.handle_running EP.completion_check EP.io_check
  dsimp only
  split_ifs <;> rfl

theorem quantum_handle_list_processes (E : Env) (s : SimState) :
    (RR.handle_running E s).list_processes = s.list_processes ∧
    (EP_RR.handle_running E s).list_processes = s.list_processes := by
  constructor
  · unfold RR.handle_running RR.quantum_check Quantum.preempt Quantum.completion_check
      Quantum.io_check Quantum.execute
    dsimp only
    split_ifs <;> rfl
  · unfold EP_RR.handle_running EP_RR.quantum_check Quantum.preempt Quantum.completion_check
      Quantum.io_check Quantum.execute
    dsimp only
    split_ifs <;> rfl

theorem check_preemption_list_processes (E : Env) (new_arrival : Bool)
    (still_waiting : List PCB) (s : SimState) :
    (EP_RR.check_preemption E new_arrival still_waiting s).list_processes =
      s.list_processes := by
  unfold EP_RR.check_preemption
  dsimp only
  split_ifs <;> rfl

/-- No simulator changes the static fields of the entries of `list_processes`. -/
theorem roster_tick (E : Env) (s : SimState) :
    (EP.tick E s).list_processes.map PCB.static = s.list_processes.map PCB.static ∧
    (RR.tick E s).list_processes.map PCB.static = s.list_processes.map PCB.static ∧
    (EP_RR.tick E s).list_processes.map PCB.static = s.list_processes.map PCB.static := by
  refine ⟨?_, ?_, ?_⟩
  · have : (EP.tick E s).list_processes =
        marked E EP.touch_new s.current_time 0 s.list_processes := by
      show (dispatch _ _ (EP.handle_running E _)).list_processes = _
      rw [dispatch_list_processes, ep_handle_running_list_processes]
      rfl
    rw [this, map_static_marked E EP.touch_new static_ep_touch_new]
  · have : (RR.tick E s).list_processes =
        marked E Quantum.touch_new s.current_time 0 s.list_processes := by
      show (dispatch _ _ (RR.handle_running E _)).list_processes = _
      rw [dispatch_list_processes, (quantum_handle_list_processes E _).1]
      rfl
    rw [this, map_static_marked E Quantum.touch_new static_quantum_touch_new]
  · have : (EP_RR.tick E s).list_processes =
        marked E Quantum.touch_new s.current_time 0 s.list_processes := by
      show (dispatch _ _ (EP_RR.handle_running E (EP_RR.check_preemption E _ _ _))).list_processes
        = _
      rw [dispatch_list_processes, (quantum_handle_list_processes E _).2,
        check_preemption_list_processes]
      rfl
    rw [this, map_static_marked E Quantum.touch_new static_quantum_touch_new]

/-- The books are in order before the first iteration. -/
theorem acct_init (E : Env) (hI : IdleContract E) (l : List PCB)
    (hload : ∀ p ∈ l, p.remaining_time = p.processing_time) :
    AcctInv 0 1 1 (init E l) := by
  refine ⟨?_, ?_, ?_, ?_, hload⟩
  · intro p hp
    simp [init] at hp
  · intro hrun
    have : (E.idle_CPU uninitialised).state = States.RUNNING := hrun
    rw [hI] at this
    exact absurd this (by decide)
  · intro q _ hrow
    obtain ⟨e, he, _⟩ := hrow
    simp [init] at he
  · intro e he
    simp [init] at he

/-- Induction over the iterations of the loop, for runs in which the check `ok` holds at the top
of every iteration that is executed. -/
theorem run_checked_induction (ok : SimState → Bool) (tick : SimState → SimState)
    (P : SimState → Prop)
    (htick : ∀ s, P s → loop_condition s = true → s.current_time ≤ 100000 → ok s = true →
      P (tick s) ∧ (tick s).current_time = s.current_time + 1) :
    ∀ (fuel : Nat) (s : SimState), fuel + s.current_time = 100001 → P s →
      run_checked ok tick fuel s = true →
      P (run_loop tick fuel s).1 ∧
      ((run_loop tick fuel s).2 = false → loop_condition (run_loop tick fuel s).1 = false) := by
  intro fuel
  induction fuel with
  | zero =>
    intro s _ hP _
    refine ⟨hP, fun h => ?_⟩
    simp [run_loop] at h
  | succ n ih =>
    intro s hf hP hchk
    unfold run_loop
    unfold run_checked at hchk
    by_cases hc : loop_condition s = true
    · rw [if_pos hc] at hchk ⊢
      rw [Bool.and_eq_true] at hchk
      obtain ⟨hP', ht⟩ := htick s hP hc (by omega) hchk.1
      dsimp only
      by_cases hto : (tick s).current_time > 100000
      · rw [if_pos hto]
        exact ⟨hP', fun h => by simp at h⟩
      · rw [if_neg hto]
        have h2 := hchk.2
        rw [if_neg hto] at h2
        exact ih (tick s) (by omega) hP' h2
    · rw [if_neg hc]
      exact ⟨hP, fun _ => by simpa using hc⟩

/-- When the loop is left through its condition, the table accounts for the whole burst of
every process of the workload that has a row in it. -/
theorem books_at_exit {b k m : Nat} {l : List PCB} {s : SimState} (hjob : JobInv s)
    (hacct : AcctInv b k m s)
    (hroster : s.list_processes.map PCB.static = l.map PCB.static)
    (hexit : loop_condition s = false) :
    ∀ p ∈ l, was_admitted p.PID s.execution_status →
      running_ticks p.PID s.execution_status = p.processing_time := by
  intro p hp hadm
  have hmem : p.static ∈ s.list_processes.map PCB.static := by
    rw [hroster]
    exact List.mem_map_of_mem _ hp
  obtain ⟨q, hq, hqs⟩ := List.mem_map.1 hmem
  obtain ⟨e, he, hpe, _⟩ := hadm
  rcases hacct.settled q hq ⟨e, he, by rw [hpe, static_pid hqs]⟩ with h1 | h1
  · obtain ⟨x, hx, _⟩ := mem_pids.1 h1
    have := loop_condition_of_live hjob hx
    rw [hexit] at this
    exact absurd this (by decide)
  · unfold running_ticks
    rw [← static_pid hqs, h1, static_processing hqs]

theorem run_checked_trivial (tick : SimState → SimState) :
    ∀ (fuel : Nat) (s : SimState), run_checked (fun _ => true) tick fuel s = true := by
  intro fuel
  induction fuel with
  | zero => intro s; rfl
  | succ n ih =>
    intro s
    unfold run_checked
    split_ifs
    · rfl
    · simpa using ih (tick s)
    · rfl

/-- The books of a whole run: if every iteration that passes the check `ok` preserves the
structural, the registry and the accounting invariant and the roster, then in a run in which
every executed iteration passes the check and which is left through the loop condition, the
table accounts for the whole burst of every process of the workload that has a row in it. -/
theorem books_of_run (E : Env) (hI : IdleContract E) (l : List PCB) (hl : (pids l).Nodup)
    (hload : ∀ p ∈ l, p.remaining_time = p.processing_time)
    (ok : SimState → Bool) (tick : SimState → SimState)
    (htick : ∀ s, Inv s.current_time s → JobInv s → AcctInv s.current_time 1 1 s →
      s.list_processes.map PCB.static = l.map PCB.static → s.current_time ≤ 100000 →
      ok s = true →
      (Inv (tick s).current_time (tick s) ∧ (tick s).current_time = s.current_time + 1) ∧
      JobInv (tick s) ∧ AcctInv (s.current_time + 1) 1 1 (tick s) ∧
      (tick s).list_processes.map PCB.static = s.list_processes.map PCB.static)
    (hchk : run_checked ok tick 100001 (init E l) = true)
    (hflag : (run_loop tick 100001 (init E l)).2 = false) :
    ∀ p ∈ l, was_admitted p.PID (run_loop tick 100001 (init E l)).1.execution_status →
      running_ticks p.PID (run_loop tick 100001 (init E l)).1.execution_status =
        p.processing_time := by
  have h := run_checked_induction ok tick
    (fun s => Inv s.current_time s ∧ JobInv s ∧ AcctInv s.current_time 1 1 s ∧
      s.list_processes.map PCB.static = l.map PCB.static)
    (fun s hP _ ht hok => by
      obtain ⟨⟨h1, h2⟩, h3, h4, h5⟩ := htick s hP.1 hP.2.1 hP.2.2.1 hP.2.2.2 ht hok
      refine ⟨⟨h1, h3, ?_, h5.trans hP.2.2.2⟩, h2⟩
      rw [h2]
      exact h4)
    100001 (init E l) rfl
    ⟨Inv.init E hI l hl, JobInv.job_init E hI l, acct_init E hI l hload, rfl⟩ hchk
  exact books_at_exit h.1.2.1 h.1.2.2.1 h.1.2.2.2 (h.2 hflag)

/-- C10 (amended). In each of the three policies, with `std::sort` and `idle_CPU` within their
contracts, for every workload with distinct PIDs whose processes are loaded with
`remaining_time = processing_time`, if the run is left through the loop condition (the
100000-tick ceiling is not hit), then for every process `p` of the workload that was admitted
(the table has a NEW -> READY row for it) the number of ticks `p` spends RUNNING according to the
table equals `p.processing_time`. For EP the placeholder left in `running` by `idle_CPU` must not
carry the PID of a process of the workload; for EP_RR the statement covers the runs in which
STEP 2.5 never preempts. -/
theorem running_time_equals_burst (E : Env) (hE : SortContract E) (hI : IdleContract E)
    (l : List PCB) (hl : (pids l).Nodup)
    (hload : ∀ p ∈ l, p.remaining_time = p.processing_time) :
    ((∀ r, (E.idle_CPU r).PID ∉ pids l) → (EP.run_simulation E l).2 = false →
      ∀ p ∈ l, was_admitted p.PID (EP.run_simulation E l).1.execution_status →
        running_ticks p.PID (EP.run_simulation E l).1.execution_status = p.processing_time) ∧
    ((RR.run_simulation E l).2 = false →
      ∀ p ∈ l, was_admitted p.PID (RR.run_simulation E l).1.execution_status →
        running_ticks p.PID (RR.run_simulation E l).1.execution_status = p.processing_time) ∧
    (run_checked (fun s => !EP_RR.preempts_on_arrival E s) (EP_RR.tick E) 100001 (init E l) =
        true →
      (EP_RR.run_simulation E l).2 = false →
      ∀ p ∈ l, was_admitted p.PID (EP_RR.run_simulation E l).1.execution_status →
        running_ticks p.PID (EP_RR.run_simulation E l).1.execution_status =
          p.processing_time) := by
  refine ⟨fun hfree hflag => ?_, fun hflag => ?_, fun hchk hflag => ?_⟩
  · unfold EP.run_simulation at hflag ⊢
    rw [ep_loop_eq] at hflag ⊢
    refine books_of_run E hI l hl hload (fun _ => true) (EP.tick E) ?_
      (run_checked_trivial _ _ _) hflag
    intro s h1 h2 h3 h4 ht _
    have hfree' : ∀ r, (E.idle_CPU r).PID ∉ pids s.list_processes := by
      intro r
      rw [pids_eq_map_static, h4, ← pids_eq_map_static]
      exact hfree r
    exact ⟨Inv.ep_tick E hE hI h1, JobInv.job_ep_tick E hE hI h1 h2 hfree',
      acct_ep_tick E hE hI h1 h3 ht hfree', (roster_tick E s).1⟩
  · unfold RR.run_simulation at hflag ⊢
    rw [rr_loop_eq] at hflag ⊢
    refine books_of_run E hI l hl hload (fun _ => true) (RR.tick E) ?_
      (run_checked_trivial _ _ _) hflag
    intro s h1 h2 h3 _ ht _
    exact ⟨Inv.rr_tick E hE hI h1, JobInv.job_rr_tick E hE hI h1 h2,
      acct_rr_tick E hE hI h1 h3 ht, (roster_tick E s).2.1⟩
  · unfold EP_RR.run_simulation at hflag ⊢
    rw [ep_rr_loop_eq] at hflag ⊢
    refine books_of_run E hI l hl hload (fun s => !EP_RR.preempts_on_arrival E s)
      (EP_RR.tick E) ?_ hchk hflag
    intro s h1 h2 h3 _ ht hok
    exact ⟨Inv.ep_rr_tick E hE hI h1, JobInv.job_ep_rr_tick E hE hI h1 h2,
      acct_ep_rr_tick E hE hI h1 h3 ht (by simpa using hok), (roster_tick E s).2.2⟩

theorem running_time_equals_burst_witness :
    running_ticks 1 (EP.run_simulation grant_all io_return_scenario).1.execution_status = 4 ∧
    running_ticks 2 (RR.run_simulation grant_all io_return_scenario).1.execution_status = 20 ∧
    running_ticks 1 (EP_RR.run_simulation grant_all io_return_scenario).1.execution_status =
      4 :=
  have h := running_time_equals_burst grant_all sortContract_grant_all idleContract_grant_all
    io_return_scenario (by decide) (by decide)
  ⟨h.1 (fun _ => by show idle_pcb.PID ∉ pids io_return_scenario; decide) (by decide)
      (mk_process 1 0 4 2 5 1) (by decide) (by unfold was_admitted; decide),
    h.2.1 (by decide) (mk_process 2 0 20 0 0 5) (by decide) (by unfold was_admitted; decide),
    h.2.2 (by decide) (by decide) (mk_process 1 0 4 2 5 1) (by decide)
      (by unfold was_admitted; decide)⟩

/-- C10 (counterexample). On `late_arrival_scenario`, every admission granted, each of the three
simulators leaves the loop through its condition after PID 1 has terminated at tick 5: PID 2,
which would arrive at tick 100, is never admitted, and the table gives it no RUNNING time
although its burst is 5. -/
theorem unadmitted_process_has_no_running_time :
    mk_process 2 100 5 0 0 1 ∈ late_arrival_scenario ∧
    (EP.run_simulation grant_all late_arrival_scenario).2 = false ∧
    running_ticks 2 (EP.run_simulation grant_all late_arrival_scenario).1.execution_status ≠
      (mk_process 2 100 5 0 0 1).processing_time ∧
    (RR.run_simulation grant_all late_arrival_scenario).2 = false ∧
    running_ticks 2 (RR.run_simulation grant_all late_arrival_scenario).1.execution_status ≠
      (mk_process 2 100 5 0 0 1).processing_time ∧
    (EP_RR.run_simulation grant_all late_arrival_scenario).2 = false ∧
    running_ticks 2 (EP_RR.run_simulation grant_all late_arrival_scenario).1.execution_status ≠
      (mk_process 2 100 5 0 0 1).processing_time := by
  decide

/-- What the amended C10 leaves out: in EP_RR a preemption at STEP 2.5 takes the process off the
CPU before STEP 3 has charged it for the tick, so the table counts one tick more than was
executed. On `preemption_scenario` PID 1 (burst 5) is RUNNING from 0 to 2 and from 5 to 9. -/
theorem arrival_preemption_counts_an_unexecuted_tick :
    (EP_RR.run_simulation grant_all preemption_scenario).2 = false ∧
    running_ticks 1 (EP_RR.run_simulation grant_all preemption_scenario).1.execution_status =
      6 := by
  decide

/-! ## RR on processes that arrive together with the same burst -/

theorem admitted_of_no_arrival (E : Env) (touch : PCB → PCB) (now : Nat) :
    ∀ (l : List PCB) (i : Nat), (∀ p ∈ l, p.arrival_time ≠ now) →
      admitted E touch now i l = [] ∧ marked E touch now i l = l := by
  intro l
  induction l with
  | nil => intro i _; exact ⟨rfl, rfl⟩
  | cons p ps ih =>
    intro i h
    have hp : ¬ (p.arrival_time = now ∧ E.assign_memory now i = true) :=
      fun hh => h p (List.mem_cons_self _ _) hh.1
    have := ih (i + 1) (fun q hq => h q (List.mem_cons_of_mem _ hq))
    simp only [admitted, marked, if_neg hp, this.1, this.2, and_self]

theorem admitted_of_all_granted (E : Env) (touch : PCB → PCB) (now : Nat) :
    ∀ (l : List PCB) (i : Nat), (∀ p ∈ l, p.arrival_time = now) →
      (∀ j, j < l.length → E.assign_memory now (i + j) = true) →
      admitted E touch now i l = l.map touch ∧ marked E touch now i l = l.map touch := by
  intro l
  induction l with
  | nil => intro i _ _; exact ⟨rfl, rfl⟩
  | cons p ps ih =>
    intro i h hg
    have hp : p.arrival_time = now ∧ E.assign_memory now i = true :=
      ⟨h p (List.mem_cons_self _ _), by simpa using hg 0 (by simp)⟩
    have := ih (i + 1) (fun q hq => h q (List.mem_cons_of_mem _ hq)) (fun j hj => by
      have := hg (j + 1) (by simpa using hj)
      rw [← this]
      congr 1
      omega)
    simp only [admitted, marked, if_pos hp, this.1, this.2, List.map_cons, and_self]

/-- STEP 1 does nothing at a tick at which no process arrives. -/
theorem populate_of_no_arrival (E : Env) (touch : PCB → PCB) (s : SimState)
    (h : ∀ p ∈ s.list_processes, p.arrival_time ≠ s.current_time) : populate E touch s = s := by
  have := admitted_of_no_arrival E touch s.current_time s.list_processes 0 h
  unfold populate
  simp only [this.1, this.2, List.map_nil, List.append_nil]

/-- STEP 2 does nothing when the wait queue is empty. -/
theorem manage_wait_queue_of_empty (started : PCB → Nat) (touch : PCB → PCB) (s : SimState)
    (h : s.wait_queue = []) : manage_wait_queue started touch s = s := by
  unfold manage_wait_queue
  simp only [h, List.filter_nil, List.map_nil, List.foldl_nil, List.append_nil]
  rw [← h]

/-- The loop body of RR at a tick at which no process arrives and none is waiting. -/
theorem rr_tick_quiet (E : Env) (s : SimState)
    (harr : ∀ p ∈ s.list_processes, p.arrival_time ≠ s.current_time)
    (hwq : s.wait_queue = []) :
    RR.tick E s =
      { RR.schedule E (RR.handle_running E s) with current_time := s.current_time + 1 } := by
  unfold RR.tick
  dsimp only
  rw [populate_of_no_arrival E _ s harr, manage_wait_queue_of_empty _ _ s hwq]
  have : (RR.schedule E (RR.handle_running E s)).current_time = s.current_time := by
    unfold RR.schedule
    rw [dispatch_current_time, (quantum_handle_current_time E s).1]
  rw [this]

/-- The loop body of RR when nothing can happen: no arrival, empty queues, idle CPU. -/
theorem rr_tick_idle (E : Env) (s : SimState)
    (harr : ∀ p ∈ s.list_processes, p.arrival_time ≠ s.current_time)
    (hrq : s.ready_queue = []) (hwq : s.wait_queue = [])
    (hidle : s.running.state = States.NOT_ASSIGNED) :
    RR.tick E s = { s with current_time := s.current_time + 1 } := by
  rw [rr_tick_quiet E s harr hwq]
  have h1 : RR.handle_running E s = s := by
    unfold RR.handle_running
    rw [if_neg (by rw [hidle]; decide)]
  rw [h1]
  unfold RR.schedule
  rw [dispatch_of_empty _ _ _ hrq]

/-- STEP 3 of RR for a process without I/O whose remaining time does not exceed what is left of
its quantum: the process is charged, and it terminates if that was its last tick; the quantum
check does nothing. -/
theorem rr_handle_running_plain (E : Env) (hI : IdleContract E) (s : SimState)
    (hrun : s.running.state = States.RUNNING) (hio : s.running.io_freq = 0)
    (h1 : 1 ≤ s.running.remaining_time)
    (hq : s.running.remaining_time ≤ s.quantum_remaining) :
    RR.handle_running E s = Quantum.completion_check E (Quantum.execute s) := by
  unfold RR.handle_running
  rw [if_pos hrun]
  have hnd : Quantum.io_check E (Quantum.execute s) = Quantum.execute s := by
    apply quantum_io_check_of_not_due
    intro h
    have : (Quantum.execute s).running.io_freq > 0 := h.1.1
    have h0 : (Quantum.execute s).running.io_freq = 0 := hio
    omega
  rw [hnd]
  unfold RR.quantum_check Quantum.completion_check
  dsimp only
  split_ifs with h2 h3 h4
  · exfalso
    have : (E.idle_CPU (terminate_process (Quantum.execute s).running
      (Quantum.execute s).job_list).1).state = States.RUNNING := h3.2.1
    rw [hI] at this
    exact absurd this (by decide)
  · rfl
  · exfalso
    have hq0 : udec s.quantum_remaining = 0 := h4.1
    have hr0 : udec s.running.remaining_time > 0 := h4.2.2
    rw [udec_of_pos h1] at hr0
    rw [udec_of_pos (by omega)] at hq0
    omega
  · rfl

theorem back_to_back_append (b : Nat) (order : List Int) (pid : Int) :
    ∀ (t : Nat), back_to_back b t (order ++ [pid]) =
      back_to_back b t order ++
        [Event.mk (t + order.length * b) pid States.READY States.RUNNING,
         Event.mk (t + (order.length + 1) * b) pid States.RUNNING States.TERMINATED] := by
  induction order with
  | nil =>
    intro t
    simp [back_to_back]
  | cons x xs ih =>
    intro t
    have e1 : t + b + xs.length * b = t + (xs.length + 1) * b := by ring
    have e2 : t + b + (xs.length + 1) * b = t + (xs.length + 1 + 1) * b := by ring
    show Event.mk t x States.READY States.RUNNING ::
      Event.mk (t + b) x States.RUNNING States.TERMINATED ::
        back_to_back b (t + b) (xs ++ [pid]) = _
    rw [ih (t + b), e1, e2]
    rfl

theorem pids_map_touch_new (l : List PCB) : pids (l.map Quantum.touch_new) = pids l := by
  unfold pids
  rw [List.map_map]
  rfl

theorem io_freq_started_at (now : Nat) (back : PCB) :
    (started_at now back).io_freq = back.io_freq := by
  have := static_started_at now back
  simp only [PCB.static, Prod.mk.injEq] at this
  exact this.2.2.2.2.1

/-- STEP 4 and `current_time++` at a tick at which the CPU is free after the processes `done`
have run to completion: the next process is dispatched, or nothing is left to run. -/
theorem Lockstep.next_dispatch (E : Env) (hE : SortContract E) (l : List PCB) (T b : Nat)
    (h1 : 1 ≤ b) (h100 : b ≤ 100) (s : SimState) (done : List Int)
    (hct : s.current_time = T + done.length * b) (hwq : s.wait_queue = [])
    (harr : ∀ p ∈ s.list_processes, p.arrival_time = T)
    (hidle : s.running.state = States.NOT_ASSIGNED)
    (hready : ∀ p ∈ s.ready_queue, p.remaining_time = b ∧ p.io_freq = 0)
    (hperm : (done ++ pids s.ready_queue).Perm (pids l))
    (hes : s.execution_status = admission_rows T l ++ back_to_back b T done) :
    (s.ready_queue ≠ [] →
      Lockstep.Running l T b { RR.schedule E s with current_time := s.current_time + 1 }) ∧
    (s.ready_queue = [] →
      Lockstep.Finished l T b { RR.schedule E s with current_time := s.current_time + 1 }) := by
  constructor
  · intro hne
    have hsp : (fcfs_rr E s.ready_queue).Perm s.ready_queue :=
      (hE _ strictWeak_fcfs_rr_cmp s.ready_queue).1
    obtain ⟨back, hback, heq⟩ := dispatch_eq (fcfs_rr E) (fun _ => TIME_QUANTUM) s hsp hidle hne
    unfold RR.schedule
    rw [heq]
    have hmem : ∀ p ∈ fcfs_rr E s.ready_queue, p.remaining_time = b ∧ p.io_freq = 0 :=
      fun p hp => hready p (hsp.mem_iff.1 hp)
    have hbm : back ∈ fcfs_rr E s.ready_queue := by
      rw [hback]
      exact List.mem_append_right _ (List.mem_singleton.2 rfl)
    refine ⟨done, ?_, hwq, harr, rfl, ?_, ?_, ?_, ?_, ?_, ?_, ?_⟩
    · show T < s.current_time + 1
      omega
    · show (started_at _ back).io_freq = 0
      rw [io_freq_started_at]
      exact (hmem back hbm).2
    · show 1 ≤ (started_at _ back).remaining_time
      rw [remaining_started_at, (hmem back hbm).1]
      exact h1
    · show (started_at _ back).remaining_time ≤ TIME_QUANTUM
      rw [remaining_started_at, (hmem back hbm).1]
      exact h100
    · show s.current_time + 1 + (started_at _ back).remaining_time = _
      rw [remaining_started_at, (hmem back hbm).1, hct]
      ring
    · intro p hp
      exact hmem p (List.mem_of_mem_dropLast hp)
    · show (done ++ (started_at _ back).PID ::
        pids (fcfs_rr E s.ready_queue).dropLast).Perm (pids l)
      rw [pid_started_at]
      refine List.Perm.trans ?_ hperm
      refine List.Perm.append_left _ ?_
      have h3 := hsp.map (fun p => p.PID)
      rw [hback, List.map_append] at h3
      refine List.Perm.trans ?_ h3
      exact (@List.perm_append_comm _ [back.PID] _).trans (by simp [pids])
    · have hp : (started_at s.current_time back).PID = back.PID := pid_started_at _ _
      show s.execution_status ++
          [Event.mk s.current_time back.PID States.READY States.RUNNING] =
        admission_rows T l ++ back_to_back b T done ++
          [Event.mk (T + done.length * b) (started_at s.current_time back).PID
            States.READY States.RUNNING]
      rw [hp, hes, hct]
  · intro hempty
    unfold RR.schedule
    rw [dispatch_of_empty _ _ _ hempty]
    refine ⟨done, ?_, hempty, hwq, harr, hidle, ?_, hes⟩
    · show T + done.length * b < s.current_time + 1
      omega
    · rw [hempty] at hperm
      simpa [pids] using hperm

/-- The tick at which the whole workload arrives: every process is admitted and one of them is
dispatched. -/
theorem Lockstep.admission_tick (E : Env) (hE : SortContract E)
    (l : List PCB) (T b : Nat) (hne : l ≠ []) (harr : ∀ p ∈ l, p.arrival_time = T)
    (hio : ∀ p ∈ l, p.io_freq = 0) (hb : ∀ p ∈ l, p.remaining_time = b) (h1 : 1 ≤ b)
    (h100 : b ≤ 100) (hadm : ∀ i, i < l.length → E.assign_memory T i = true) {s : SimState}
    (h : Lockstep.Before l T s) (hT : s.current_time = T) :
    Lockstep.Running l T b (RR.tick E s) := by
  obtain ⟨_, hlist, hrq, hwq, hjl, hidle, hes⟩ := h
  have ha := admitted_of_all_granted E Quantum.touch_new T l 0 harr
    (fun j hj => by simpa using hadm j hj)
  have f1 : (populate E Quantum.touch_new s).ready_queue = l.map Quantum.touch_new := by
    unfold populate
    dsimp only
    rw [hrq, hT, hlist, ha.1]
    rfl
  have f2 : (populate E Quantum.touch_new s).list_processes = l.map Quantum.touch_new := by
    unfold populate
    dsimp only
    rw [hT, hlist, ha.2]
  have f4 : (populate E Quantum.touch_new s).execution_status = admission_rows T l := by
    unfold populate
    dsimp only
    rw [hes, hT, hlist, ha.1, List.map_map]
    rfl
  have hmw := manage_wait_queue_of_empty (fun p => p.time_in_cpu) Quantum.touch_done
    (populate E Quantum.touch_new s) hwq
  have hhr : RR.handle_running E (populate E Quantum.touch_new s) =
      populate E Quantum.touch_new s := by
    unfold RR.handle_running
    rw [if_neg]
    show ¬ s.running.state = States.RUNNING
    rw [hidle]
    decide
  have htick : RR.tick E s =
      { RR.schedule E (populate E Quantum.touch_new s) with
        current_time := (populate E Quantum.touch_new s).current_time + 1 } := by
    unfold RR.tick
    dsimp only
    rw [hmw, hhr]
    have : (RR.schedule E (populate E Quantum.touch_new s)).current_time =
        (populate E Quantum.touch_new s).current_time := dispatch_current_time _ _ _
    rw [this]
  rw [htick]
  refine (Lockstep.next_dispatch E hE l T b h1 h100 (populate E Quantum.touch_new s) []
    (by show s.current_time = _; simp [hT]) hwq ?_ hidle ?_ ?_ (by rw [f4]; simp [back_to_back])).1
    (by rw [f1]; simpa using hne)
  · intro p hp
    rw [f2, List.mem_map] at hp
    obtain ⟨q, hq, rfl⟩ := hp
    exact harr q hq
  · intro p hp
    rw [f1, List.mem_map] at hp
    obtain ⟨q, hq, rfl⟩ := hp
    exact ⟨hb q hq, hio q hq⟩
  · rw [f1, pids_map_touch_new]
    exact List.Perm.refl _

/-- A tick with a process on the CPU: it is charged; if that was its last tick it terminates and
the next process, if there is one, is dispatched. -/
theorem Lockstep.running_tick (E : Env) (hE : SortContract E) (hI : IdleContract E)
    (l : List PCB) (T b : Nat) (h1 : 1 ≤ b) (h100 : b ≤ 100) {s : SimState}
    (h : Lockstep.Running l T b s) :
    Lockstep.Running l T b (RR.tick E s) ∨ Lockstep.Finished l T b (RR.tick E s) := by
  obtain ⟨done, hT, hwq, harr, hrun, hio, hr1, hrq, heqn, hready, hperm, hes⟩ := h
  rw [rr_tick_quiet E s (fun p hp => by rw [harr p hp]; omega) hwq,
    rr_handle_running_plain E hI s hrun hio hr1 hrq]
  by_cases hlast : s.running.remaining_time = 1
  · have hc : Quantum.completion_check E (Quantum.execute s) =
        { Quantum.execute s with
          execution_status := s.execution_status ++
            [Event.mk s.current_time s.running.PID States.RUNNING States.TERMINATED]
          job_list := (terminate_process (Quantum.execute s).running s.job_list).2
          running := E.idle_CPU (terminate_process (Quantum.execute s).running s.job_list).1
          quantum_remaining := TIME_QUANTUM } := by
      unfold Quantum.completion_check
      rw [if_pos ⟨by show udec s.running.remaining_time = 0; rw [hlast]; rfl, hrun⟩]
      rfl
    have hct : s.current_time = T + (done.length + 1) * b := by omega
    have hes' : s.execution_status ++
        [Event.mk s.current_time s.running.PID States.RUNNING States.TERMINATED] =
        admission_rows T l ++ back_to_back b T (done ++ [s.running.PID]) := by
      rw [hes, back_to_back_append, hct]
      simp
    rw [hc]
    have hnext := Lockstep.next_dispatch E hE l T b h1 h100
      { Quantum.execute s with
          execution_status := s.execution_status ++
            [Event.mk s.current_time s.running.PID States.RUNNING States.TERMINATED]
          job_list := (terminate_process (Quantum.execute s).running s.job_list).2
          running := E.idle_CPU (terminate_process (Quantum.execute s).running s.job_list).1
          quantum_remaining := TIME_QUANTUM }
      (done ++ [s.running.PID])
      (by rw [List.length_append, List.length_singleton]; exact hct) hwq harr (hI _) hready
      (by rw [List.append_assoc]; exact hperm) hes'
    by_cases hempty : s.ready_queue = []
    · exact Or.inr (hnext.2 hempty)
    · exact Or.inl (hnext.1 hempty)
  · have hpos : (Quantum.execute s).running.remaining_time > 0 := by
      show udec s.running.remaining_time > 0
      rw [udec_of_pos hr1]
      omega
    rw [quantum_completion_check_of_pos E _ hpos]
    unfold RR.schedule
    rw [dispatch_of_busy _ _ _ (by
      show s.running.state ≠ States.NOT_ASSIGNED
      rw [hrun]
      decide)]
    left
    refine ⟨done, ?_, hwq, harr, hrun, hio, ?_, ?_, ?_, hready, hperm, hes⟩
    · show T < s.current_time + 1
      omega
    · show 1 ≤ udec s.running.remaining_time
      rw [udec_of_pos hr1]
      omega
    · show udec s.running.remaining_time ≤ udec s.quantum_remaining
      rw [udec_of_pos hr1, udec_of_pos (by omega)]
      omega
    · show s.current_time + 1 + udec s.running.remaining_time = _
      rw [udec_of_pos hr1]
      omega

/-- One iteration of the loop body of RR on a workload whose processes arrive together at `T`
with the same burst `b` of at most one quantum, without I/O and all admitted. -/
theorem Lockstep.phase_tick (E : Env) (hE : SortContract E) (hI : IdleContract E)
    (l : List PCB) (T b : Nat) (hne : l ≠ []) (harr : ∀ p ∈ l, p.arrival_time = T)
    (hio : ∀ p ∈ l, p.io_freq = 0) (hb : ∀ p ∈ l, p.remaining_time = b) (h1 : 1 ≤ b)
    (h100 : b ≤ 100) (hadm : ∀ i, i < l.length → E.assign_memory T i = true) (s : SimState)
    (h : Lockstep.Phase l T b s) (ht : s.current_time ≤ 100000) :
    Lockstep.Phase l T b (RR.tick E s) ∧ (RR.tick E s).current_time = s.current_time + 1 := by
  obtain ⟨_, hinv, hjob, hph⟩ := h
  obtain ⟨hinv', hct'⟩ := Inv.rr_tick E hE hI hinv
  have hjob' := JobInv.job_rr_tick E hE hI hinv hjob
  refine ⟨⟨by omega, hinv', hjob', ?_⟩, hct'⟩
  rcases hph with hbe | hr | hf
  · by_cases hlt : s.current_time < T
    · left
      obtain ⟨_, hlist, hrq, hwq, hjl, hidle, hes⟩ := hbe
      rw [rr_tick_idle E s (fun p hp => by rw [hlist] at hp; rw [harr p hp]; omega) hrq hwq
        hidle]
      exact ⟨by show s.current_time + 1 ≤ T; omega, hlist, hrq, hwq, hjl, hidle, hes⟩
    · right; left
      exact Lockstep.admission_tick E hE l T b hne harr hio hb h1 h100 hadm hbe
        (by have := hbe.1; omega)
  · right
    exact Lockstep.running_tick E hE hI l T b h1 h100 hr
  · right; right
    obtain ⟨done, hT, hrq, hwq, hlist, hidle, hperm, hes⟩ := hf
    rw [rr_tick_idle E s (fun p hp => by rw [hlist p hp]; omega) hrq hwq hidle]
    exact ⟨done, by show _ < s.current_time + 1; omega, hrq, hwq, hlist, hidle, hperm, hes⟩

/-- The phase in which the loop of RR leaves such a workload. -/
theorem Lockstep.phase_at_exit (E : Env) (hE : SortContract E) (hI : IdleContract E)
    (l : List PCB) (T b : Nat) (hne : l ≠ []) (hl : (pids l).Nodup)
    (harr : ∀ p ∈ l, p.arrival_time = T)
    (hio : ∀ p ∈ l, p.io_freq = 0) (hb : ∀ p ∈ l, p.remaining_time = b) (h1 : 1 ≤ b)
    (h100 : b ≤ 100) (hadm : ∀ i, i < l.length → E.assign_memory T i = true) :
    Lockstep.Phase l T b (RR.run_simulation E l).1 ∧
    ((RR.run_simulation E l).2 = false → loop_condition (RR.run_simulation E l).1 = false) ∧
    ((RR.run_simulation E l).2 = true → (RR.run_simulation E l).1.current_time = 100001) := by
  unfold RR.run_simulation
  rw [rr_loop_eq]
  refine run_loop_induction (RR.tick E) (Lockstep.Phase l T b)
    (fun s hP _ ht => Lockstep.phase_tick E hE hI l T b hne harr hio hb h1 h100 hadm s hP ht)
    100001 (init E l) rfl ⟨?_, Inv.init E hI l hl, JobInv.job_init E hI l, Or.inl ?_⟩
  · show 0 ≤ 100001
    omega
  · exact ⟨Nat.zero_le _, rfl, rfl, rfl, rfl, hI _, rfl⟩

theorem loop_condition_of_empty {s : SimState} (h : s.job_list = []) :
    loop_condition s = true := by
  unfold loop_condition
  rw [h]
  rfl

/-- The table of RR on such a workload when the last termination comes before the ceiling. -/
theorem Lockstep.trace_of_run (E : Env) (hE : SortContract E) (hI : IdleContract E)
    (l : List PCB) (T b : Nat) (hne : l ≠ []) (hl : (pids l).Nodup)
    (harr : ∀ p ∈ l, p.arrival_time = T)
    (hio : ∀ p ∈ l, p.io_freq = 0) (hb : ∀ p ∈ l, p.remaining_time = b) (h1 : 1 ≤ b)
    (h100 : b ≤ 100) (hadm : ∀ i, i < l.length → E.assign_memory T i = true)
    (hceil : T + l.length * b ≤ 100000) :
    ∃ order : List Int, order.Perm (pids l) ∧
      (RR.run_simulation E l).1.execution_status =
        admission_rows T l ++ back_to_back b T order := by
  obtain ⟨⟨_, _, hjob, hph⟩, hfalse, htrue⟩ :=
    Lockstep.phase_at_exit E hE hI l T b hne hl harr hio hb h1 h100 hadm
  rcases hph with hbe | hr | hf
  · exfalso
    obtain ⟨hle, _, _, _, hjl, _, _⟩ := hbe
    cases hflag : (RR.run_simulation E l).2
    · have := hfalse hflag
      rw [loop_condition_of_empty hjl] at this
      exact absurd this (by decide)
    · have := htrue hflag
      have : l.length * b ≥ 0 := Nat.zero_le _
      omega
  · exfalso
    obtain ⟨done, _, _, _, hrun, _, hr1, _, heqn, _, hperm, _⟩ := hr
    cases hflag : (RR.run_simulation E l).2
    · have := hfalse hflag
      rw [loop_condition_of_live hjob (running_mem_live hrun)] at this
      exact absurd this (by decide)
    · have hct := htrue hflag
      have hlen := hperm.length_eq
      simp only [List.length_append, List.length_cons, pids, List.length_map] at hlen
      have : (done.length + 1) * b ≤ l.length * b := Nat.mul_le_mul_right _ (by omega)
      omega
  · obtain ⟨done, _, _, _, _, _, hperm, hes⟩ := hf
    exact ⟨done, hperm, hes⟩

theorem countP_admission_rows (T : Nat) (l : List PCB) (f : Event → Bool)
    (hf : ∀ e, e.old_state = States.NEW → f e = false) :
    (admission_rows T l).countP f = 0 := by
  rw [List.countP_eq_zero]
  intro e he
  unfold admission_rows at he
  rw [List.mem_map] at he
  obtain ⟨p, _, rfl⟩ := he
  rw [hf _ rfl]
  decide

theorem countP_back_to_back (b : Nat) (pid : Int) :
    ∀ (order : List Int) (t : Nat),
      (back_to_back b t order).countP (fun e => decide (e.PID = pid ∧ e.is_dispatch)) =
        order.count pid ∧
      (back_to_back b t order).countP (fun e => decide (e.PID = pid ∧ e.is_termination)) =
        order.count pid := by
  intro order
  induction order with
  | nil => intro t; exact ⟨rfl, rfl⟩
  | cons x xs ih =>
    intro t
    have := ih (t + b)
    by_cases hx : x = pid
    · simpa [back_to_back, List.countP_cons, Event.is_dispatch, Event.is_termination, hx]
        using this
    · simpa [back_to_back, List.countP_cons, Event.is_dispatch, Event.is_termination, hx,
        List.count_cons] using this

theorem back_to_back_segment (b : Nat) :
    ∀ (order : List Int) (t k : Nat) (pid : Int), order[k]? = some pid →
      (back_to_back b t order)[2 * k]? =
        some (Event.mk (t + k * b) pid States.READY States.RUNNING) ∧
      (back_to_back b t order)[2 * k + 1]? =
        some (Event.mk (t + (k + 1) * b) pid States.RUNNING States.TERMINATED) := by
  intro order
  induction order with
  | nil => intro t k pid h; simp at h
  | cons x xs ih =>
    intro t k pid h
    cases k with
    | zero =>
      simp at h
      subst h
      simp [back_to_back]
    | succ k =>
      rw [List.getElem?_cons_succ] at h
      have := ih (t + b) k pid h
      have e1 : 2 * (k + 1) = 2 * k + 1 + 1 := by ring
      have e2 : t + b + k * b = t + (k + 1) * b := by ring
      have e3 : t + b + (k + 1) * b = t + (k + 1 + 1) * b := by ring
      rw [e2, e3] at this
      simp only [back_to_back, e1, List.getElem?_cons_succ]
      exact this

theorem not_preemption_of_lockstep (b : Nat) :
    ∀ (order : List Int) (t : Nat), ∀ e ∈ back_to_back b t order, ¬ e.is_preemption := by
  intro order
  induction order with
  | nil => intro t e he; simp [back_to_back] at he
  | cons x xs ih =>
    intro t e he
    simp only [back_to_back, List.mem_cons] at he
    rcases he with rfl | rfl | he
    · unfold Event.is_preemption; simp
    · unfold Event.is_preemption; simp
    · exact ih _ e he

/-- C9 (amended). RR, with `std::sort` and `idle_CPU` within their contracts. For every workload
`l` of N >= 1 processes with distinct PIDs that all arrive at the same tick `T`, have no I/O and
the same burst `b` with 1 <= b <= 100 (loaded as remaining time), all admitted, and whose last
termination is due by the ceiling (`T + N*b <= 100000`): there is an order of the PIDs (the order
in which `std::sort` makes STEP 4 pick among equal arrival times) such that the table is exactly
the N NEW -> READY rows of tick `T` followed, for each PID of the order in turn, by its
READY -> RUNNING row and its RUNNING -> TERMINATED row `b` ticks later; hence the table has no
RUNNING -> READY row, exactly one READY -> RUNNING row and one RUNNING -> TERMINATED row per
process, and the process dispatched in position `k` (counting from 0) runs from tick `T + k*b`
to tick `T + (k+1)*b`. -/
theorem rr_equal_bursts_run_back_to_back (E : Env) (hE : SortContract E) (hI : IdleContract E)
    (l : List PCB) (T b : Nat) (hne : l ≠ []) (hl : (pids l).Nodup)
    (harr : ∀ p ∈ l, p.arrival_time = T) (hio : ∀ p ∈ l, p.io_freq = 0)
    (hb : ∀ p ∈ l, p.processing_time = b ∧ p.remaining_time = b) (h1 : 1 ≤ b) (h100 : b ≤ 100)
    (hadm : ∀ i, i < l.length → E.assign_memory T i = true)
    (hceil : T + l.length * b ≤ 100000) :
    ∃ order : List Int, order.Perm (pids l) ∧
      (RR.run_simulation E l).1.execution_status =
        admission_rows T l ++ back_to_back b T order ∧
      (∀ e ∈ (RR.run_simulation E l).1.execution_status, ¬ e.is_preemption) ∧
      (∀ p ∈ l,
        (RR.run_simulation E l).1.execution_status.countP
          (fun e => decide (e.PID = p.PID ∧ e.is_dispatch)) = 1 ∧
        (RR.run_simulation E l).1.execution_status.countP
          (fun e => decide (e.PID = p.PID ∧ e.is_termination)) = 1) ∧
      (∀ k pid, order[k]? = some pid →
        (RR.run_simulation E l).1.execution_status[l.length + 2 * k]? =
          some (Event.mk (T + k * b) pid States.READY States.RUNNING) ∧
        (RR.run_simulation E l).1.execution_status[l.length + 2 * k + 1]? =
          some (Event.mk (T + (k + 1) * b) pid States.RUNNING States.TERMINATED)) := by
  obtain ⟨order, hperm, hes⟩ := Lockstep.trace_of_run E hE hI l T b hne hl harr hio
    (fun p hp => (hb p hp).2) h1 h100 hadm hceil
  refine ⟨order, hperm, hes, ?_, ?_, ?_⟩
  · intro e he
    rw [hes, List.mem_append] at he
    rcases he with he | he
    · unfold admission_rows at he
      rw [List.mem_map] at he
      obtain ⟨p, _, rfl⟩ := he
      unfold Event.is_preemption
      simp
    · exact not_preemption_of_lockstep b order T e he
  · intro p hp
    have hcount : order.count p.PID = 1 := by
      rw [hperm.count_eq]
      exact List.count_eq_one_of_mem hl (List.mem_map_of_mem _ hp)
    rw [hes, List.countP_append, List.countP_append,
      countP_admission_rows T l _ (fun e he => by simp [Event.is_dispatch, he]),
      countP_admission_rows T l _ (fun e he => by simp [Event.is_termination, he]),
      (countP_back_to_back b p.PID order T).1, (countP_back_to_back b p.PID order T).2, hcount]
    exact ⟨rfl, rfl⟩
  · intro k pid hk
    have hlen : (admission_rows T l).length = l.length := by
      unfold admission_rows
      rw [List.length_map]
    have hseg := back_to_back_segment b order T k pid hk
    rw [hes, List.getElem?_append_right (by rw [hlen]; omega),
      List.getElem?_append_right (by rw [hlen]; omega), hlen]
    have e1 : l.length + 2 * k - l.length = 2 * k := by omega
    have e2 : l.length + 2 * k + 1 - l.length = 2 * k + 1 := by omega
    rw [e1, e2]
    exact hseg

theorem rr_equal_bursts_run_back_to_back_witness :
    ∃ order : List Int, order.Perm [1, 2, 3] ∧
      (RR.run_simulation grant_all equal_bursts_scenario).1.execution_status =
        admission_rows 3 equal_bursts_scenario ++ back_to_back 2 3 order :=
  have h := rr_equal_bursts_run_back_to_back grant_all sortContract_grant_all
    idleContract_grant_all equal_bursts_scenario 3 2 (by decide) (by decide) (by decide)
    (by decide) (by decide) (by decide) (by decide) (fun _ _ => rfl) (by decide)
  h.imp (fun _ ho => ⟨ho.1, ho.2.1⟩)

/-- A single process that arrives at tick 100000, the last tick the loop executes, is admitted
and dispatched at that tick and never terminates: the loop is left through the safety check. -/
theorem Lockstep.cut_at_ceiling (E : Env) (hE : SortContract E) (hI : IdleContract E) (p : PCB)
    (b : Nat) (hp : p.arrival_time = 100000) (hio : p.io_freq = 0) (hb : p.remaining_time = b)
    (h1 : 1 ≤ b) (h100 : b ≤ 100) (hadm : E.assign_memory 100000 0 = true) :
    (RR.run_simulation E [p]).1.execution_status =
      [Event.mk 100000 p.PID States.NEW States.READY,
       Event.mk 100000 p.PID States.READY States.RUNNING] ∧
    (RR.run_simulation E [p]).2 = true := by
  obtain ⟨⟨hle, _, hjob, hph⟩, hfalse, htrue⟩ :=
    Lockstep.phase_at_exit E hE hI [p] 100000 b (by simp) (by simp [pids])
      (by simpa using hp) (by simpa using hio) (by simpa using hb) h1 h100
      (fun i hi => by
        have : i = 0 := by simpa using hi
        rw [this]
        exact hadm)
  rcases hph with hbe | hr | hf
  · exfalso
    obtain ⟨hle', _, _, _, hjl, _, _⟩ := hbe
    cases hflag : (RR.run_simulation E [p]).2
    · have := hfalse hflag
      rw [loop_condition_of_empty hjl] at this
      exact absurd this (by decide)
    · have := htrue hflag
      omega
  · obtain ⟨done, _, _, _, hrun, _, _, _, _, _, hperm, hes⟩ := hr
    have hlen := hperm.length_eq
    have hpl : pids [p] = [p.PID] := rfl
    rw [hpl] at hperm hlen
    simp only [List.length_append, List.length_cons, List.length_nil] at hlen
    have hd : done = [] := List.eq_nil_of_length_eq_zero (by omega)
    have hq : (pids (RR.run_simulation E [p]).1.ready_queue) = [] :=
      List.eq_nil_of_length_eq_zero (by omega)
    rw [hd, hq, List.nil_append, List.perm_singleton] at hperm
    have hpid : (RR.run_simulation E [p]).1.running.PID = p.PID := by
      simpa using hperm
    constructor
    · rw [hes, hd, hpid]
      simp [admission_rows, back_to_back]
    · cases hflag : (RR.run_simulation E [p]).2
      · have := hfalse hflag
        rw [loop_condition_of_live hjob (running_mem_live hrun)] at this
        exact absurd this (by decide)
      · rfl
  · exfalso
    obtain ⟨done, hT, _, _, _, _, hperm, _⟩ := hf
    have hlen := hperm.length_eq
    have hpl : pids [p] = [p.PID] := rfl
    rw [hpl] at hlen
    simp only [List.length_cons, List.length_nil] at hlen
    rw [hlen] at hT
    omega

/-- C9 (counterexample). RR on `last_tick_scenario` (one process, arrival 100000, burst 1, no
I/O), every admission granted: the process is admitted and dispatched at tick 100000, the loop is
then left through the safety check, and the table has no RUNNING -> TERMINATED row. -/
theorem ceiling_cuts_the_last_segment :
    (RR.run_simulation grant_all last_tick_scenario).1.execution_status =
      [Event.mk 100000 1 States.NEW States.READY,
       Event.mk 100000 1 States.READY States.RUNNING] ∧
    (RR.run_simulation grant_all last_tick_scenario).2 = true := by
  have hp : (mk_process 1 100000 1 0 0 1).arrival_time = 100000 := rfl
  have hio : (mk_process 1 100000 1 0 0 1).io_freq = 0 := rfl
  have hb : (mk_process 1 100000 1 0 0 1).remaining_time = 1 := rfl
  have hadm : grant_all.assign_memory 100000 0 = true := rfl
  have h := Lockstep.cut_at_ceiling grant_all sortContract_grant_all idleContract_grant_all
    (mk_process 1 100000 1 0 0 1) 1 hp hio hb (le_refl 1) (by omega) hadm
  have hpid : (mk_process 1 100000 1 0 0 1).PID = 1 := rfl
  rw [hpid] at h
  unfold last_tick_scenario
  exact h

/-! ## Concrete runs: I/O waits in EP, refused admissions, the completion check of EP -/

/-- C13 (what the code does). EP on `overlapping_io_scenario`, every admission granted: PID 1
starts a 10-tick I/O wait at tick 2; PID 2 starts an I/O wait at tick 5, which overwrites the
single `io_start_time`; PID 1 is back in the ready queue at tick 15 = 5 + 10, not at tick
12 = 2 + 10, although the CPU is idle from tick 9 on. -/
theorem ep_wait_is_measured_from_latest_io_start :
    (EP.run_simulation grant_all overlapping_io_scenario).1.execution_status =
      [Event.mk 0 1 States.NEW States.READY,
       Event.mk 0 2 States.NEW States.READY,
       Event.mk 0 1 States.READY States.RUNNING,
       Event.mk 2 1 States.RUNNING States.WAITING,
       Event.mk 2 (-1) States.RUNNING States.TERMINATED,
       Event.mk 2 2 States.READY States.RUNNING,
       Event.mk 5 2 States.RUNNING States.WAITING,
       Event.mk 5 (-1) States.RUNNING States.TERMINATED,
       Event.mk 6 2 States.WAITING States.READY,
       Event.mk 6 2 States.READY States.RUNNING,
       Event.mk 9 2 States.RUNNING States.TERMINATED,
       Event.mk 15 1 States.WAITING States.READY,
       Event.mk 15 1 States.READY States.RUNNING,
       Event.mk 17 1 States.RUNNING States.WAITING,
       Event.mk 17 (-1) States.RUNNING States.TERMINATED,
       Event.mk 27 1 States.WAITING States.READY,
       Event.mk 27 1 States.READY States.RUNNING,
       Event.mk 29 1 States.RUNNING States.TERMINATED] := by
  decide

/-- C15 (what the code does). On `retry_scenario` with the allocator `refuse_once`: PID 2 is
refused at its arrival tick 1 and would be granted at tick 2, while PID 1 is still running; in
each of the three simulators it is never offered to the allocator again, the table has no row
for it, and the run ends when PID 1 terminates at tick 5. -/
theorem refused_process_is_never_offered_again :
    refuse_once.assign_memory 1 1 = false ∧ refuse_once.assign_memory 2 1 = true ∧
    (EP.run_simulation refuse_once retry_scenario).1.execution_status =
      [Event.mk 0 1 States.NEW States.READY,
       Event.mk 0 1 States.READY States.RUNNING,
       Event.mk 5 1 States.RUNNING States.TERMINATED] ∧
    (RR.run_simulation refuse_once retry_scenario).1.execution_status =
      [Event.mk 0 1 States.NEW States.READY,
       Event.mk 0 1 States.READY States.RUNNING,
       Event.mk 5 1 States.RUNNING States.TERMINATED] ∧
    (EP_RR.run_simulation refuse_once retry_scenario).1.execution_status =
      [Event.mk 0 1 States.NEW States.READY,
       Event.mk 0 1 States.READY States.RUNNING,
       Event.mk 5 1 States.RUNNING States.TERMINATED] := by
  decide

/-- C17 (what the code does). EP on `io_return_scenario`, every admission granted, the
placeholder of `idle_CPU` having PID -1 and no remaining time: at tick 2 PID 1 starts I/O
(RUNNING -> WAITING), and on the same tick the completion check, which does not test
`running.state`, finds `remaining_time == 0` in the placeholder, prints a
RUNNING -> TERMINATED row for PID -1 and calls `terminate_process` on it. -/
theorem ep_completion_check_fires_on_placeholder :
    (EP.run_simulation grant_all io_return_scenario).1.execution_status =
      [Event.mk 0 1 States.NEW States.READY,
       Event.mk 0 2 States.NEW States.READY,
       Event.mk 0 1 States.READY States.RUNNING,
       Event.mk 2 1 States.RUNNING States.WAITING,
       Event.mk 2 (-1) States.RUNNING States.TERMINATED,
       Event.mk 2 2 States.READY States.RUNNING,
       Event.mk 7 1 States.WAITING States.READY,
       Event.mk 22 2 States.RUNNING States.TERMINATED,
       Event.mk 22 1 States.READY States.RUNNING,
       Event.mk 24 1 States.RUNNING States.TERMINATED] := by
  decide

/-! ## Termination of the loop (no assumption on the environment) -/

theorem Within.within_refl (s : SimState) : Within s s :=
  ⟨rfl, fun _ he => Or.inl he⟩

theorem Within.within_trans {s s1 s2 : SimState} (h1 : Within s s1) (h2 : Within s1 s2) :
    Within s s2 := by
  refine ⟨h2.1.trans h1.1, fun e he => ?_⟩
  rcases h2.2 e he with h | h
  · exact h1.2 e h
  · exact Or.inr (h.trans h1.1)

/-- A step that appends rows carrying the current tick stays within the tick. -/
theorem Within.within_of_rows {s s' : SimState} (rows : List Event)
    (ht : s'.current_time = s.current_time)
    (hes : s'.execution_status = s.execution_status ++ rows)
    (hrows : ∀ e ∈ rows, e.time = s.current_time) : Within s s' := by
  refine ⟨ht, fun e he => ?_⟩
  rw [hes, List.mem_append] at he
  rcases he with h | h
  · exact Or.inl h
  · exact Or.inr (hrows e h)

theorem within_populate (E : Env) (touch : PCB → PCB) (s : SimState) :
    Within s (populate E touch s) := by
  refine Within.within_of_rows _ rfl rfl ?_
  intro e he
  rw [List.mem_map] at he
  obtain ⟨p, _, rfl⟩ := he
  rfl

theorem within_manage_wait_queue (started : PCB → Nat) (touch : PCB → PCB) (s : SimState) :
    Within s (manage_wait_queue started touch s) := by
  refine Within.within_of_rows _ rfl rfl ?_
  intro e he
  rw [List.mem_map] at he
  obtain ⟨p, _, rfl⟩ := he
  rfl

theorem within_dispatch (schedule : List PCB → List PCB) (quantum : Nat → Nat) (s : SimState) :
    Within s (dispatch schedule quantum s) := by
  unfold dispatch
  split_ifs with h
  · dsimp only
    cases hb : (schedule s.ready_queue).getLast? with
    | none => exact Within.within_refl s
    | some back =>
      refine Within.within_of_rows [_] rfl rfl ?_
      intro e he
      rw [List.mem_singleton] at he
      rw [he]
  · exact Within.within_refl s

theorem within_one_row {s s' : SimState} (x : Event)
    (ht : s'.current_time = s.current_time)
    (hes : s'.execution_status = s.execution_status ++ [x])
    (hx : x.time = s.current_time) : Within s s' :=
  Within.within_of_rows [x] ht hes (fun e he => by
    rw [List.mem_singleton] at he
    rw [he]
    exact hx)

theorem within_ep_io_check (E : Env) (s : SimState) : Within s (EP.io_check E s) := by
  unfold EP.io_check
  dsimp only
  split_ifs
  · exact within_one_row _ rfl rfl rfl
  · exact Within.within_refl s
  · exact Within.within_refl s

theorem within_ep_completion_check (E : Env) (s : SimState) :
    Within s (EP.completion_check E s) := by
  unfold EP.completion_check
  dsimp only
  split_ifs
  · exact within_one_row _ rfl rfl rfl
  · exact Within.within_refl s

theorem within_ep_handle_running (E : Env) (s : SimState) :
    Within s (EP.handle_running E s) := by
  unfold EP.handle_running
  split_ifs
  · have h0 : Within s { s with running := EP.charged s.running } :=
      ⟨rfl, fun _ he => Or.inl he⟩
    exact (h0.within_trans (within_ep_io_check E _)).within_trans
      (within_ep_completion_check E _)
  · exact Within.within_refl s

theorem within_quantum_io_check (E : Env) (s : SimState) :
    Within s (Quantum.io_check E s) := by
  unfold Quantum.io_check
  dsimp only
  split_ifs
  · exact within_one_row _ rfl rfl rfl
  · exact Within.within_refl s
  · exact Within.within_refl s

theorem within_quantum_completion_check (E : Env) (s : SimState) :
    Within s (Quantum.completion_check E s) := by
  unfold Quantum.completion_check
  dsimp only
  split_ifs
  · exact within_one_row _ rfl rfl rfl
  · exact Within.within_refl s

theorem within_quantum_preempt (E : Env) (s : SimState) : Within s (Quantum.preempt E s) :=
  within_one_row _ rfl rfl rfl

theorem within_quantum_handle_running (E : Env) (s : SimState) :
    Within s (RR.handle_running E s) ∧ Within s (EP_RR.handle_running E s) := by
  have h0 : Within s (Quantum.execute s) := ⟨rfl, fun _ he => Or.inl he⟩
  have h2 := (h0.within_trans (within_quantum_io_check E _)).within_trans
    (within_quantum_completion_check E _)
  constructor
  · unfold RR.handle_running
    split_ifs
    · refine h2.within_trans ?_
      unfold RR.quantum_check
      split_ifs
      · exact within_quantum_preempt E _
      · exact Within.within_refl _
    · exact Within.within_refl s
  · unfold EP_RR.handle_running
    split_ifs
    · refine h2.within_trans ?_
      unfold EP_RR.quantum_check
      split_ifs
      · exact within_quantum_preempt E _
      · exact ⟨rfl, fun _ he => Or.inl he⟩
      · exact Within.within_refl _
    · exact Within.within_refl s

theorem within_check_preemption (E : Env) (new_arrival : Bool) (still_waiting : List PCB)
    (s : SimState) : Within s (EP_RR.check_preemption E new_arrival still_waiting s) := by
  unfold EP_RR.check_preemption
  dsimp only
  split_ifs
  · exact Within.within_of_rows [_] rfl rfl (fun e he => by
      rw [List.mem_singleton] at he; rw [he])
  · exact ⟨rfl, fun _ he => Or.inl he⟩
  · exact Within.within_refl s

/-- One iteration of the loop body, in each simulator and for any environment: the clock
advances by one and every new row carries the tick of the iteration. -/
theorem tick_within (E : Env) (s : SimState) :
    ((EP.tick E s).current_time = s.current_time + 1 ∧
      ∀ e ∈ (EP.tick E s).execution_status,
        e ∈ s.execution_status ∨ e.time = s.current_time) ∧
    ((RR.tick E s).current_time = s.current_time + 1 ∧
      ∀ e ∈ (RR.tick E s).execution_status,
        e ∈ s.execution_status ∨ e.time = s.current_time) ∧
    ((EP_RR.tick E s).current_time = s.current_time + 1 ∧
      ∀ e ∈ (EP_RR.tick E s).execution_status,
        e ∈ s.execution_status ∨ e.time = s.current_time) := by
  have hep : Within s (EP.schedule E (EP.handle_running E (manage_wait_queue
      (fun _ => (populate E EP.touch_new s).io_start_time) EP.touch_done
      (populate E EP.touch_new s)))) :=
    (((within_populate E _ s).within_trans (within_manage_wait_queue _ _ _)).within_trans
      (within_ep_handle_running E _)).within_trans (within_dispatch _ _ _)
  have hrr : Within s (RR.schedule E (RR.handle_running E (manage_wait_queue
      (fun p => p.time_in_cpu) Quantum.touch_done (populate E Quantum.touch_new s)))) :=
    (((within_populate E _ s).within_trans (within_manage_wait_queue _ _ _)).within_trans
      (within_quantum_handle_running E _).1).within_trans (within_dispatch _ _ _)
  have heprr : Within s (EP_RR.schedule E (EP_RR.handle_running E (EP_RR.arrivals E s))) :=
    ((((within_populate E _ s).within_trans (within_manage_wait_queue _ _ _)).within_trans
      (within_check_preemption E _ _ _)).within_trans
      (within_quantum_handle_running E _).2).within_trans (within_dispatch _ _ _)
  refine ⟨⟨?_, hep.2⟩, ⟨?_, hrr.2⟩, ⟨?_, heprr.2⟩⟩
  · show (EP.schedule E _).current_time + 1 = _
    rw [hep.1]
  · show (RR.schedule E _).current_time + 1 = _
    rw [hrr.1]
  · show (EP_RR.schedule E _).current_time + 1 = _
    rw [heprr.1]

/-- Once there is fuel for the iterations that remain up to the ceiling, more fuel does not
change the result of the loop. -/
theorem run_loop_fuel (tick : SimState → SimState)
    (hct : ∀ s, (tick s).current_time = s.current_time + 1) :
    ∀ (n fuel : Nat) (s : SimState), s.current_time + (n + 1) = 100001 → n + 1 ≤ fuel →
      run_loop tick fuel s = run_loop tick (n + 1) s := by
  intro n
  induction n with
  | zero =>
    intro fuel s hs hf
    obtain ⟨f, rfl⟩ : ∃ f, fuel = f + 1 := ⟨fuel - 1, by omega⟩
    have hgt : (tick s).current_time > 100000 := by rw [hct]; omega
    unfold run_loop
    dsimp only
    rw [if_pos hgt, if_pos hgt]
  | succ n ih =>
    intro fuel s hs hf
    obtain ⟨f, rfl⟩ : ∃ f, fuel = f + 1 := ⟨fuel - 1, by omega⟩
    have hle : ¬ (tick s).current_time > 100000 := by rw [hct]; omega
    have := ih f (tick s) (by rw [hct]; omega) (by omega)
    conv_lhs => unfold run_loop
    conv_rhs => unfold run_loop
    dsimp only
    rw [if_neg hle, if_neg hle, this]

/-- A loop whose body advances the clock by one and stamps every new row with the current tick
stops within the ceiling. -/
theorem stops_of_tick_within (tick : SimState → SimState) (s0 : SimState)
    (h0 : s0.current_time = 0) (hes : s0.execution_status = [])
    (htick : ∀ s, (tick s).current_time = s.current_time + 1 ∧
      ∀ e ∈ (tick s).execution_status, e ∈ s.execution_status ∨ e.time = s.current_time) :
    stops_within_ceiling (run_loop tick) s0 := by
  have hind := run_loop_induction tick
    (fun s => s.current_time ≤ 100001 ∧ ∀ e ∈ s.execution_status, e.time + 1 ≤ s.current_time)
    (fun s hP _ ht => by
      refine ⟨⟨by rw [(htick s).1]; omega, fun e he => ?_⟩, (htick s).1⟩
      rw [(htick s).1]
      rcases (htick s).2 e he with h | h
      · have := hP.2 e h
        omega
      · omega)
    100001 s0 (by rw [h0]) ⟨by rw [h0]; omega, by rw [hes]; simp⟩
  obtain ⟨⟨hle, hrows⟩, hfalse, htrue⟩ := hind
  refine ⟨fun fuel hf => ?_, fun hflag => ?_, htrue, hle, fun e he => ?_⟩
  · exact run_loop_fuel tick (fun s => (htick s).1) 100000 fuel s0 (by rw [h0]) hf
  · have hc := hfalse hflag
    unfold loop_condition at hc
    rw [Bool.or_eq_false_iff, Bool.not_eq_false'] at hc
    refine ⟨fun hnil => ?_, hc.1⟩
    rw [hnil] at hc
    simp at hc
  · have := hrows e he
    omega

/-- C16. For every workload and every environment (any `std::sort`, any allocator, any
`idle_CPU`), `run_simulation` of each of the three simulators stops within the safety ceiling:
the loop is left either through its condition, with a non-empty registry all of whose processes
are TERMINATED, or through the safety check with `current_time = 100001`; the ticks simulated are
at most the ticks 0 to 100000, every row of the execution table carries a tick of at most
100000, and more than 100001 units of fuel do not change the result of the model. -/
theorem run_simulation_stops_within_ceiling (E : Env) (list_processes : List PCB) :
    stops_within_ceiling (EP.loop E) (init E list_processes) ∧
    stops_within_ceiling (RR.loop E) (init E list_processes) ∧
    stops_within_ceiling (EP_RR.loop E) (init E list_processes) := by
  have h1 : EP.loop E = run_loop (EP.tick E) := by
    funext fuel s
    exact ep_loop_eq E fuel s
  have h2 : RR.loop E = run_loop (RR.tick E) := by
    funext fuel s
    exact rr_loop_eq E fuel s
  have h3 : EP_RR.loop E = run_loop (EP_RR.tick E) := by
    funext fuel s
    exact ep_rr_loop_eq E fuel s
  rw [h1, h2, h3]
  exact ⟨stops_of_tick_within _ _ rfl rfl (fun s => (tick_within E s).1),
    stops_of_tick_within _ _ rfl rfl (fun s => (tick_within E s).2.1),
    stops_of_tick_within _ _ rfl rfl (fun s => (tick_within E s).2.2)⟩

/-! ## Conservation of admitted processes (no assumption on the environment) -/

theorem mem_sync_queue {jl : List PCB} {x j : PCB} (h : j ∈ sync_queue jl x) :
    j ∈ jl ∨ j = x := by
  unfold sync_queue at h
  rw [List.mem_map] at h
  obtain ⟨q, hq, rfl⟩ := h
  split_ifs
  · exact Or.inr rfl
  · exact Or.inl hq

theorem pids_sync_queue (jl : List PCB) (x : PCB) : pids (sync_queue jl x) = pids jl := by
  unfold pids sync_queue
  rw [List.map_map]
  apply List.map_congr_left
  intro q _
  show (if q.PID = x.PID then x else q).PID = q.PID
  split_ifs with h
  · exact h.symm
  · rfl

theorem Registers.reg_refl (s : SimState) : Registers s s :=
  ⟨⟨[], by simp, by simp⟩, fun _ hj => Or.inl hj, fun _ h => h⟩

theorem Registers.reg_trans {s s1 s2 : SimState} (h1 : Registers s s1)
    (h2 : Registers s1 s2) : Registers s s2 := by
  obtain ⟨⟨r1, he1, hn1⟩, hj1, hp1⟩ := h1
  obtain ⟨⟨r2, he2, hn2⟩, hj2, hp2⟩ := h2
  refine ⟨⟨r1 ++ r2, by rw [he2, he1, List.append_assoc], fun e he hnew => ?_⟩,
    fun j hj => ?_, fun pid hp => hp2 pid (hp1 pid hp)⟩
  · rw [List.mem_append] at he
    rcases he with he | he
    · exact hp2 _ (hn1 e he hnew)
    · exact hn2 e he hnew
  · rcases hj2 j hj with h | h | h
    · rcases hj1 j h with h' | h' | ⟨e, he, hpe⟩
      · exact Or.inl h'
      · exact Or.inr (Or.inl h')
      · refine Or.inr (Or.inr ⟨e, ?_, hpe⟩)
        rw [he2]
        exact List.mem_append_left _ he
    · exact Or.inr (Or.inl h)
    · exact Or.inr (Or.inr h)

theorem Conserved.step {s s' : SimState} (h : Conserved s) (hr : Registers s s') :
    Conserved s' := by
  obtain ⟨⟨rows, hes, hnew⟩, hjl, hpids⟩ := hr
  refine ⟨fun j hj hst => ?_, fun pid hadm => ?_⟩
  · rcases hjl j hj with h1 | h1 | h1
    · obtain ⟨e, he, hpe⟩ := h.1 j h1 hst
      exact ⟨e, by rw [hes]; exact List.mem_append_left _ he, hpe⟩
    · exact absurd hst h1
    · exact h1
  · obtain ⟨e, he, hpe, hold, _⟩ := hadm
    rw [hes, List.mem_append] at he
    rcases he with he | he
    · exact hpids _ (h.2 pid ⟨e, he, hpe, hold, by assumption⟩)
    · rw [← hpe]
      exact hnew e he hold

/-- A step that leaves the registry alone and prints no NEW -> READY row. -/
theorem Registers.of_rows {s s' : SimState} (rows : List Event)
    (hes : s'.execution_status = s.execution_status ++ rows)
    (hrows : ∀ e ∈ rows, e.old_state ≠ States.NEW)
    (hjl : s'.job_list = s.job_list) : Registers s s' :=
  ⟨⟨rows, hes, fun e he hn => absurd hn (hrows e he)⟩,
    fun j hj => Or.inl (by rw [← hjl]; exact hj), fun pid hp => by rw [hjl]; exact hp⟩

/-- A step that synchronises a process that is not TERMINATED into the registry and prints
rows that are not NEW -> READY. -/
theorem Registers.of_sync {s s' : SimState} (x : PCB) (rows : List Event)
    (hes : s'.execution_status = s.execution_status ++ rows)
    (hrows : ∀ e ∈ rows, e.old_state ≠ States.NEW)
    (hjl : s'.job_list = sync_queue s.job_list x)
    (hx : x.state ≠ States.TERMINATED) : Registers s s' := by
  refine ⟨⟨rows, hes, fun e he hn => absurd hn (hrows e he)⟩, fun j hj => ?_, fun pid hp => ?_⟩
  · rw [hjl] at hj
    rcases mem_sync_queue hj with h | rfl
    · exact Or.inl h
    · exact Or.inr (Or.inl hx)
  · rw [hjl, pids_sync_queue]
    exact hp

/-- A step that terminates `r`: the RUNNING -> TERMINATED row is printed and
`terminate_process` is called. -/
theorem Registers.of_terminate {s s' : SimState} (r : PCB) (t : Nat)
    (hes : s'.execution_status = s.execution_status ++
      [Event.mk t r.PID States.RUNNING States.TERMINATED])
    (hjl : s'.job_list = (terminate_process r s.job_list).2) : Registers s s' := by
  refine ⟨⟨_, hes, fun e he hn => ?_⟩, fun j hj => ?_, fun pid hp => ?_⟩
  · rw [List.mem_singleton] at he
    rw [he] at hn
    exact absurd hn (by simp)
  · rw [hjl] at hj
    unfold terminate_process at hj
    rcases mem_sync_queue hj with h | rfl
    · exact Or.inl h
    · refine Or.inr (Or.inr ⟨Event.mk t r.PID States.RUNNING States.TERMINATED, ?_, rfl,
        rfl, rfl⟩)
      rw [hes]
      exact List.mem_append_right _ (List.mem_singleton.2 rfl)
  · rw [hjl]
    unfold terminate_process
    dsimp only
    rw [pids_sync_queue]
    exact hp

theorem Registers.of_same {s s' : SimState} (hes : s'.execution_status = s.execution_status)
    (hjl : s'.job_list = s.job_list) : Registers s s' :=
  Registers.of_rows [] (by rw [hes, List.append_nil]) (by simp) hjl

theorem reg_populate (E : Env) (touch : PCB → PCB)
    (htouch : ∀ p, (touch p).state = States.READY) (s : SimState) :
    Registers s (populate E touch s) := by
  refine ⟨⟨_, rfl, fun e he _ => ?_⟩, fun j hj => ?_, fun pid hp => ?_⟩
  · rw [List.mem_map] at he
    obtain ⟨p, hp, rfl⟩ := he
    exact mem_pids.2 ⟨p, List.mem_append_right _ hp, rfl⟩
  · have hj' : j ∈ s.job_list ++ admitted E touch s.current_time 0 s.list_processes := hj
    rw [List.mem_append] at hj'
    rcases hj' with h | h
    · exact Or.inl h
    · obtain ⟨q, _, rfl, _⟩ := mem_admitted E touch _ _ _ j h
      refine Or.inr (Or.inl ?_)
      rw [htouch]
      decide
  · obtain ⟨p, hp', rfl⟩ := mem_pids.1 hp
    exact mem_pids.2 ⟨p, List.mem_append_left _ hp', rfl⟩

theorem foldl_sync_queue (xs : List PCB) :
    ∀ (jl : List PCB), (∀ j ∈ xs.foldl sync_queue jl, j ∈ jl ∨ j ∈ xs) ∧
      pids (xs.foldl sync_queue jl) = pids jl := by
  induction xs with
  | nil => intro jl; exact ⟨fun j hj => Or.inl hj, rfl⟩
  | cons x xs ih =>
    intro jl
    obtain ⟨h1, h2⟩ := ih (sync_queue jl x)
    refine ⟨fun j hj => ?_, ?_⟩
    · rcases h1 j hj with h | h
      · rcases mem_sync_queue h with h' | rfl
        · exact Or.inl h'
        · exact Or.inr (List.mem_cons_self _ _)
      · exact Or.inr (List.mem_cons_of_mem _ h)
    · rw [List.foldl_cons, h2, pids_sync_queue]

theorem reg_manage_wait_queue (started : PCB → Nat) (touch : PCB → PCB)
    (htouch : ∀ p, (touch p).state = States.READY) (s : SimState) :
    Registers s (manage_wait_queue started touch s) := by
  refine ⟨⟨_, rfl, fun e he hn => ?_⟩, fun j hj => ?_, fun pid hp => ?_⟩
  · rw [List.mem_map] at he
    obtain ⟨p, _, rfl⟩ := he
    exact absurd hn (by simp)
  · rcases (foldl_sync_queue _ s.job_list).1 j hj with h | h
    · exact Or.inl h
    · rw [List.mem_map] at h
      obtain ⟨q, _, rfl⟩ := h
      refine Or.inr (Or.inl ?_)
      rw [htouch]
      decide
  · show pid ∈ pids (List.foldl sync_queue s.job_list _)
    rw [(foldl_sync_queue _ s.job_list).2]
    exact hp

theorem reg_dispatch (schedule : List PCB → List PCB) (quantum : Nat → Nat) (s : SimState) :
    Registers s (dispatch schedule quantum s) := by
  unfold dispatch
  split_ifs with h
  · dsimp only
    cases hb : (schedule s.ready_queue).getLast? with
    | none => exact Registers.reg_refl s
    | some back =>
      exact Registers.of_sync (started_at s.current_time back) [_] rfl (by simp) rfl
        (by rw [state_started_at]; decide)
  · exact Registers.reg_refl s

theorem reg_ep_io_check (E : Env) (s : SimState) : Registers s (EP.io_check E s) := by
  unfold EP.io_check
  dsimp only
  split_ifs
  · exact Registers.of_sync { s.running with state := States.WAITING } [_] rfl (by simp) rfl
      (by simp)
  · exact Registers.reg_refl s
  · exact Registers.reg_refl s

theorem reg_ep_completion_check (E : Env) (s : SimState) :
    Registers s (EP.completion_check E s) := by
  unfold EP.completion_check
  dsimp only
  split_ifs
  · exact Registers.of_terminate s.running s.current_time rfl rfl
  · exact Registers.reg_refl s

theorem reg_ep_handle_running (E : Env) (s : SimState) :
    Registers s (EP.handle_running E s) := by
  unfold EP.handle_running
  split_ifs
  · have h0 : Registers s { s with running := EP.charged s.running } :=
      Registers.of_same rfl rfl
    exact (h0.reg_trans (reg_ep_io_check E _)).reg_trans (reg_ep_completion_check E _)
  · exact Registers.reg_refl s

theorem reg_quantum_io_check (E : Env) (s : SimState) :
    Registers s (Quantum.io_check E s) := by
  unfold Quantum.io_check
  dsimp only
  split_ifs
  · exact Registers.of_sync
      { s.running with state := States.WAITING, time_in_cpu := s.current_time } [_] rfl
      (by simp) rfl (by simp)
  · exact Registers.reg_refl s
  · exact Registers.reg_refl s

theorem reg_quantum_completion_check (E : Env) (s : SimState) :
    Registers s (Quantum.completion_check E s) := by
  unfold Quantum.completion_check
  dsimp only
  split_ifs
  · exact Registers.of_terminate s.running s.current_time rfl rfl
  · exact Registers.reg_refl s

theorem reg_quantum_preempt (E : Env) (s : SimState) : Registers s (Quantum.preempt E s) :=
  Registers.of_sync { s.running with state := States.READY, time_in_cpu := 0 } [_] rfl
    (by simp) rfl (by simp)

theorem reg_quantum_handle_running (E : Env) (s : SimState) :
    Registers s (RR.handle_running E s) ∧ Registers s (EP_RR.handle_running E s) := by
  have h0 : Registers s (Quantum.execute s) := Registers.of_same rfl rfl
  have h2 := (h0.reg_trans (reg_quantum_io_check E _)).reg_trans
    (reg_quantum_completion_check E _)
  constructor
  · unfold RR.handle_running
    split_ifs
    · refine h2.reg_trans ?_
      unfold RR.quantum_check
      split_ifs
      · exact reg_quantum_preempt E _
      · exact Registers.reg_refl _
    · exact Registers.reg_refl s
  · unfold EP_RR.handle_running
    split_ifs
    · refine h2.reg_trans ?_
      unfold EP_RR.quantum_check
      split_ifs
      · exact reg_quantum_preempt E _
      · exact Registers.of_same rfl rfl
      · exact Registers.reg_refl _
    · exact Registers.reg_refl s

theorem reg_check_preemption (E : Env) (new_arrival : Bool) (still_waiting : List PCB)
    (s : SimState) : Registers s (EP_RR.check_preemption E new_arrival still_waiting s) := by
  unfold EP_RR.check_preemption
  dsimp only
  split_ifs
  · exact Registers.of_sync { s.running with state := States.READY, time_in_cpu := 0 } [_] rfl
      (by simp) rfl (by simp)
  · exact Registers.of_same rfl rfl
  · exact Registers.reg_refl s

/-- One iteration of the loop body keeps the registry conserved, in each simulator and for any
environment. -/
theorem reg_tick (E : Env) (s : SimState) :
    Registers s (EP.tick E s) ∧ Registers s (RR.tick E s) ∧ Registers s (EP_RR.tick E s) := by
  refine ⟨?_, ?_, ?_⟩
  · have h := (((reg_populate E EP.touch_new (fun _ => rfl) s).reg_trans
      (reg_manage_wait_queue (fun _ => (populate E EP.touch_new s).io_start_time) EP.touch_done
        (fun _ => rfl) _)).reg_trans (reg_ep_handle_running E _)).reg_trans
      (reg_dispatch (external_priorities E) (fun q => q) _)
    exact h.reg_trans (Registers.of_same rfl rfl)
  · have h := (((reg_populate E Quantum.touch_new (fun _ => rfl) s).reg_trans
      (reg_manage_wait_queue (fun p => p.time_in_cpu) Quantum.touch_done
        (fun _ => rfl) _)).reg_trans (reg_quantum_handle_running E _).1).reg_trans
      (reg_dispatch (fcfs_rr E) (fun _ => TIME_QUANTUM) _)
    exact h.reg_trans (Registers.of_same rfl rfl)
  · have h25 : Registers s (EP_RR.arrivals E s) :=
      ((reg_populate E Quantum.touch_new (fun _ => rfl) s).reg_trans
        (reg_manage_wait_queue (fun p => p.time_in_cpu) Quantum.touch_done
          (fun _ => rfl) _)).reg_trans (reg_check_preemption E _ _ _)
    have h := (h25.reg_trans (reg_quantum_handle_running E _).2).reg_trans
      (reg_dispatch (ep_rr_schedule E) (fun _ => TIME_QUANTUM) _)
    exact h.reg_trans (Registers.of_same rfl rfl)

/-- C11. In each of the three simulators, for every workload and every environment: if the run
is left through the loop condition (the 100000-tick ceiling is not hit), then every PID for
which a NEW -> READY row was printed also has a RUNNING -> TERMINATED row in the table, has an
entry in the job registry, and every entry of the registry is TERMINATED. -/
theorem admitted_processes_terminate (E : Env) (list_processes : List PCB) :
    ((EP.run_simulation E list_processes).2 = false →
      all_admitted_terminated (EP.run_simulation E list_processes).1) ∧
    ((RR.run_simulation E list_processes).2 = false →
      all_admitted_terminated (RR.run_simulation E list_processes).1) ∧
    ((EP_RR.run_simulation E list_processes).2 = false →
      all_admitted_terminated (EP_RR.run_simulation E list_processes).1) := by
  have key : ∀ tick : SimState → SimState,
      (∀ s, Registers s (tick s) ∧ (tick s).current_time = s.current_time + 1) →
      (run_loop tick 100001 (init E list_processes)).2 = false →
      all_admitted_terminated (run_loop tick 100001 (init E list_processes)).1 := by
    intro tick htick hflag
    have hind := run_loop_induction tick Conserved
      (fun s hP _ _ => ⟨hP.step (htick s).1, (htick s).2⟩) 100001 (init E list_processes) rfl
      ⟨fun j hj => by simp [init] at hj, fun pid hadm => by
        obtain ⟨e, he, _⟩ := hadm
        simp [init] at he⟩
    obtain ⟨hcons, hfalse, _⟩ := hind
    have hc := hfalse hflag
    unfold loop_condition at hc
    rw [Bool.or_eq_false_iff, Bool.not_eq_false'] at hc
    have hall : ∀ j ∈ (run_loop tick 100001 (init E list_processes)).1.job_list,
        j.state = States.TERMINATED := by
      intro j hj
      have := hc.1
      unfold all_process_terminated at this
      rw [List.all_eq_true] at this
      simpa using this j hj
    intro pid hadm
    obtain ⟨j, hj, hpj⟩ := mem_pids.1 (hcons.2 pid hadm)
    obtain ⟨e, he, hpe, hterm⟩ := hcons.1 j hj (hall j hj)
    exact ⟨⟨e, he, hpe.trans hpj, hterm⟩, ⟨j, hj, hpj⟩, hall⟩
  refine ⟨?_, ?_, ?_⟩
  · unfold EP.run_simulation
    rw [ep_loop_eq]
    exact key _ (fun s => ⟨(reg_tick E s).1, (tick_within E s).1.1⟩)
  · unfold RR.run_simulation
    rw [rr_loop_eq]
    exact key _ (fun s => ⟨(reg_tick E s).2.1, (tick_within E s).2.1.1⟩)
  · unfold EP_RR.run_simulation
    rw [ep_rr_loop_eq]
    exact key _ (fun s => ⟨(reg_tick E s).2.2, (tick_within E s).2.2.1⟩)

theorem admitted_processes_terminate_witness :
    all_admitted_terminated (EP.run_simulation grant_all io_return_scenario).1 ∧
    all_admitted_terminated (RR.run_simulation grant_all io_return_scenario).1 ∧
    all_admitted_terminated (EP_RR.run_simulation grant_all io_return_scenario).1 :=
  have h := admitted_processes_terminate grant_all io_return_scenario
  ⟨h.1 (by decide), h.2.1 (by decide), h.2.2 (by decide)⟩

/-! ## Disciplines: the rows of a process -/

theorem rows_of_append (pid : Int) (es rows : List Event) :
    rows_of pid (es ++ rows) = rows_of pid es ++ rows_of pid rows := by
  unfold rows_of
  rw [List.filter_append]

theorem rows_of_none (pid : Int) (rows : List Event) (h : ∀ e ∈ rows, e.PID ≠ pid) :
    rows_of pid rows = [] := by
  unfold rows_of
  rw [List.filter_eq_nil_iff]
  intro e he
  simpa using h e he

/-- Rows of other processes do not change the rows of `pid`. -/
theorem rows_of_skip (pid : Int) (es rows : List Event) (h : ∀ e ∈ rows, e.PID ≠ pid) :
    rows_of pid (es ++ rows) = rows_of pid es := by
  rw [rows_of_append, rows_of_none pid rows h, List.append_nil]

theorem rows_of_other (pid : Int) (es : List Event) (e : Event) (h : e.PID ≠ pid) :
    rows_of pid (es ++ [e]) = rows_of pid es :=
  rows_of_skip pid es [e] (fun x hx => by rw [List.mem_singleton] at hx; rw [hx]; exact h)

theorem rows_of_self (es : List Event) (e : Event) :
    rows_of e.PID (es ++ [e]) = rows_of e.PID es ++ [e] := by
  rw [rows_of_append]
  congr 1
  unfold rows_of
  simp

/-- Among the rows printed for a batch of processes with distinct PIDs, the rows of one of them
are its own row. -/
theorem rows_of_batch (f : PCB → Event) (hf : ∀ x, (f x).PID = x.PID) :
    ∀ (xs : List PCB), (pids xs).Nodup → ∀ x ∈ xs, rows_of x.PID (xs.map f) = [f x] := by
  intro xs
  induction xs with
  | nil => intro _ x hx; simp at hx
  | cons y ys ih =>
    intro hnd x hx
    unfold pids at hnd
    rw [List.map_cons, List.nodup_cons] at hnd
    rw [List.mem_cons] at hx
    rw [List.map_cons]
    have hsplit : rows_of x.PID (f y :: ys.map f) =
        rows_of x.PID [f y] ++ rows_of x.PID (ys.map f) := by
      rw [← rows_of_append]
      rfl
    rw [hsplit]
    rcases hx with rfl | hx
    · have h1 : rows_of x.PID [f x] = [f x] := by
        unfold rows_of
        simp [hf]
      have h2 : rows_of x.PID (ys.map f) = [] := by
        apply rows_of_none
        intro e he
        rw [List.mem_map] at he
        obtain ⟨z, hz, rfl⟩ := he
        rw [hf]
        intro hzx
        exact hnd.1 (by rw [← hzx]; exact List.mem_map_of_mem _ hz)
      rw [h1, h2]
      rfl
    · have h1 : rows_of x.PID [f y] = [] := by
        apply rows_of_none
        intro e he
        rw [List.mem_singleton] at he
        rw [he, hf]
        intro hyx
        exact hnd.1 (by rw [hyx]; exact List.mem_map_of_mem _ hx)
      rw [h1, ih hnd.2 x hx]
      rfl

theorem rows_of_batch_append (f : PCB → Event) (hf : ∀ x, (f x).PID = x.PID)
    (es : List Event) (xs : List PCB) (hnd : (pids xs).Nodup) (x : PCB) (hx : x ∈ xs) :
    rows_of x.PID (es ++ xs.map f) = rows_of x.PID es ++ [f x] := by
  rw [rows_of_append, rows_of_batch f hf xs hnd x hx]

theorem rows_of_batch_skip (f : PCB → Event) (hf : ∀ x, (f x).PID = x.PID)
    (es : List Event) (xs : List PCB) (pid : Int) (h : pid ∉ pids xs) :
    rows_of pid (es ++ xs.map f) = rows_of pid es := by
  apply rows_of_skip
  intro e he
  rw [List.mem_map] at he
  obtain ⟨z, hz, rfl⟩ := he
  rw [hf]
  intro hzp
  exact h (mem_pids.2 ⟨z, hz, hzp⟩)

theorem core_pid {p q : PCB} (h : p.core = q.core) : p.PID = q.PID := by
  simp only [PCB.core, PCB.static, Prod.mk.injEq] at h
  exact h.1.1

theorem core_static {p q : PCB} (h : p.core = q.core) : p.static = q.static := by
  simp only [PCB.core, Prod.mk.injEq] at h
  exact h.1

theorem mem_marked_admitted (E : Env) (touch : PCB → PCB) (now : Nat) :
    ∀ (l : List PCB) (i : Nat), ∀ q ∈ marked E touch now i l,
      q ∈ l ∨ q ∈ admitted E touch now i l := by
  intro l
  induction l with
  | nil => intro i q hq; simp [marked] at hq
  | cons p ps ih =>
    intro i q hq
    simp only [marked, admitted] at hq ⊢
    split_ifs at hq ⊢ with h
    · rw [List.mem_cons] at hq
      rcases hq with rfl | hq
      · exact Or.inr (List.mem_cons_self _ _)
      · rcases ih (i + 1) q hq with h' | h'
        · exact Or.inl (List.mem_cons_of_mem _ h')
        · exact Or.inr (List.mem_cons_of_mem _ h')
    · rw [List.mem_cons] at hq
      rcases hq with rfl | hq
      · exact Or.inl (List.mem_cons_self _ _)
      · rcases ih (i + 1) q hq with h' | h'
        · exact Or.inl (List.mem_cons_of_mem _ h')
        · exact Or.inr h'

/-! ## Disciplines: preservation by the steps of a tick -/

theorem nodup_pids_admitted (E : Env) (touch : PCB → PCB)
    (htouch : ∀ p, (touch p).static = p.static) (now : Nat) (l : List PCB)
    (hl : (pids l).Nodup) : (pids (admitted E touch now 0 l)).Nodup := by
  rw [pids_eq_map_static] at hl ⊢
  exact ((sublist_map_static_admitted E touch htouch now l 0).map _).nodup hl

/-- STEP 1 preserves a sound discipline. -/
theorem holds_populate (D : Discipline) (stamp : Bool) (hS : Sound D stamp) (E : Env)
    (touch : PCB → PCB) (htouch : ∀ p, (touch p).core = p.core) {s : SimState}
    (hinv : Inv s.current_time s) (h : Holds D s.current_time 1 s) :
    Holds D (s.current_time + 1) 1 (populate E touch s) := by
  have hst : ∀ p, (touch p).static = p.static := fun p => core_static (htouch p)
  have hnd := nodup_pids_admitted E touch hst s.current_time s.list_processes hinv.nodup_list
  have hfr := admitted_fresh E touch hst hinv
  have hlive := live_populate E touch s
  have hf : ∀ x : PCB, (Event.mk s.current_time x.PID States.NEW States.READY).PID = x.PID :=
    fun _ => rfl
  have hskip : ∀ pid, pid ∈ pids (live s) →
      rows_of pid (populate E touch s).execution_status = rows_of pid s.execution_status := by
    intro pid hp
    apply rows_of_batch_skip _ hf
    intro hmem
    obtain ⟨a, ha, hpa⟩ := mem_pids.1 hmem
    obtain ⟨p, hp', hpp⟩ := mem_pids.1 hp
    exact hfr a ha p hp' (hpp.trans hpa.symm)
  refine ⟨?_, ?_, ?_, ?_, ?_⟩
  · intro p hp
    have hp' : p ∈ s.ready_queue ++ admitted E touch s.current_time 0 s.list_processes := hp
    rw [List.mem_append] at hp'
    rcases hp' with hp' | hp'
    · rw [hskip _ (pid_mem_live_of_ready hp')]
      exact h.ready p hp'
    · obtain ⟨q0, hq0, rfl, harr⟩ := mem_admitted E touch _ _ _ p hp'
      have hrows : rows_of (touch q0).PID (populate E touch s).execution_status =
          rows_of (touch q0).PID s.execution_status ++
            [Event.mk s.current_time (touch q0).PID States.NEW States.READY] :=
        rows_of_batch_append _ hf _ _ hnd _ hp'
      have hpid : (touch q0).PID = q0.PID := static_pid (hst q0)
      have hfresh := h.fresh q0 hq0 (by omega)
      rw [hrows, hpid, hfresh.1]
      exact hS.arrive _ q0 (touch q0) hfresh.2 harr (htouch q0)
  · intro p hp
    have hp' : p ∈ s.wait_queue := hp
    rw [hskip _ (pid_mem_live_of_waiting hp')]
    exact h.waiting p hp'
  · intro hrun
    have hrun' : s.running.state = States.RUNNING := hrun
    show D.cpu s.current_time (rows_of s.running.PID (populate E touch s).execution_status)
      s.running
    rw [hskip _ (pid_mem_live_of_running hrun')]
    exact h.cpu hrun'
  · intro q hq hout
    have hq' : q ∈ marked E touch s.current_time 0 s.list_processes := hq
    have hnot : q.PID ∉ pids (admitted E touch s.current_time 0 s.list_processes) := by
      intro hmem
      obtain ⟨a, ha, hpa⟩ := mem_pids.1 hmem
      exact hout (mem_pids.2 ⟨a, hlive.mem_iff.2 (List.mem_append_right _ ha), hpa⟩)
    rcases mem_marked_admitted E touch _ _ _ q hq' with hq0 | hq0
    · have hrows : rows_of q.PID (populate E touch s).execution_status =
          rows_of q.PID s.execution_status := rows_of_batch_skip _ hf _ _ _ hnot
      rw [hrows]
      apply h.out q hq0
      intro hmem
      obtain ⟨p, hp, hpp⟩ := mem_pids.1 hmem
      exact hout (mem_pids.2 ⟨p, hlive.mem_iff.2 (List.mem_append_left _ hp), hpp⟩)
    · exact absurd (mem_pids.2 ⟨q, hq0, rfl⟩) hnot
  · intro q hq harr
    have hq' : q ∈ marked E touch s.current_time 0 s.list_processes := hq
    rcases mem_marked_admitted E touch _ _ _ q hq' with hq0 | hq0
    · have hnot : q.PID ∉ pids (admitted E touch s.current_time 0 s.list_processes) := by
        intro hmem
        obtain ⟨a, ha, hpa⟩ := mem_pids.1 hmem
        have h1 : a.static ∈ s.list_processes.map PCB.static :=
          (sublist_map_static_admitted E touch hst _ _ 0).subset (List.mem_map_of_mem _ ha)
        have h2 := static_eq_of_pid_eq hinv.nodup_list (List.mem_map_of_mem _ hq0) h1
          hpa.symm
        have h3 := arrival_of_mem_admitted E touch hst _ _ _ a ha
        rw [← static_arrival h2] at h3
        omega
      have hrows : rows_of q.PID (populate E touch s).execution_status =
          rows_of q.PID s.execution_status := rows_of_batch_skip _ hf _ _ _ hnot
      rw [hrows]
      exact h.fresh q hq0 (by omega)
    · have := arrival_of_mem_admitted E touch hst _ _ _ q hq0
      omega

/-- A process that has not arrived is not in a queue or on the CPU. -/
theorem not_fresh_of_live {b : Nat} {s : SimState} (hinv : Inv b s) {p q : PCB}
    (hp : p ∈ live s) (hq : q ∈ s.list_processes) (harr : b ≤ q.arrival_time) :
    q.PID ≠ p.PID := by
  intro hpid
  have h1 := static_of_live hinv hp hq hpid
  have h2 := (hinv.arrived p hp).2
  rw [← static_arrival h1] at h2
  omega

/-- Rows for processes in a queue or on the CPU, and rows for PIDs that are not in the roster,
leave the processes that are gone as they are. -/
theorem out_append (D : Discipline) (s s' : SimState)
    (h : ∀ q ∈ s.list_processes, q.PID ∉ pids (live s) →
      rows_of q.PID s.execution_status = [] ∨ D.done (rows_of q.PID s.execution_status) q)
    (rows : List Event) (hes : s'.execution_status = s.execution_status ++ rows)
    (hlist : s'.list_processes = s.list_processes)
    (hlive : ∀ pid ∈ pids (live s), pid ∈ pids (live s'))
    (hrows : ∀ e ∈ rows, e.PID ∈ pids (live s') ∨ e.PID ∉ pids s.list_processes) :
    ∀ q ∈ s'.list_processes, q.PID ∉ pids (live s') →
      rows_of q.PID s'.execution_status = [] ∨ D.done (rows_of q.PID s'.execution_status) q := by
  intro q hq hout
  rw [hlist] at hq
  have hskip : rows_of q.PID s'.execution_status = rows_of q.PID s.execution_status := by
    rw [hes]
    apply rows_of_skip
    intro e he hpe
    rcases hrows e he with h1 | h1
    · exact hout (hpe ▸ h1)
    · exact h1 (hpe ▸ mem_pids.2 ⟨q, hq, rfl⟩)
  rw [hskip]
  exact h q hq (fun hmem => hout (hlive _ hmem))

/-- Rows for processes in a queue or on the CPU, and rows for PIDs that are not in the roster,
leave the processes that have not arrived without rows. -/
theorem fresh_append (D : Discipline) {b : Nat} (s s' : SimState) (hinv : Inv b s)
    (h : ∀ q ∈ s.list_processes, b ≤ q.arrival_time →
      rows_of q.PID s.execution_status = [] ∧ D.load q)
    (rows : List Event) (hes : s'.execution_status = s.execution_status ++ rows)
    (hlist : s'.list_processes = s.list_processes)
    (hrows : ∀ e ∈ rows, e.PID ∈ pids (live s) ∨ e.PID ∉ pids s.list_processes) :
    ∀ q ∈ s'.list_processes, b ≤ q.arrival_time →
      rows_of q.PID s'.execution_status = [] ∧ D.load q := by
  intro q hq harr
  rw [hlist] at hq
  have hskip : rows_of q.PID s'.execution_status = rows_of q.PID s.execution_status := by
    rw [hes]
    apply rows_of_skip
    intro e he hpe
    rcases hrows e he with h1 | h1
    · obtain ⟨p, hp, hpp⟩ := mem_pids.1 h1
      exact not_fresh_of_live hinv hp hq harr (hpe.symm.trans hpp.symm)
    · exact h1 (hpe ▸ mem_pids.2 ⟨q, hq, rfl⟩)
  rw [hskip]
  exact h q hq harr

theorem nodup_pids_wait_queue {b : Nat} {s : SimState} (hinv : Inv b s) :
    (pids s.wait_queue).Nodup := by
  have := hinv.nodup_live
  unfold live pids at this
  rw [List.map_append, List.map_append] at this
  exact (List.nodup_append.1 (List.nodup_append.1 this).1).2.1

theorem ready_not_waiting {b : Nat} {s : SimState} (hinv : Inv b s) {p w : PCB}
    (hp : p ∈ s.ready_queue) (hw : w ∈ s.wait_queue) : p.PID ≠ w.PID := by
  intro hpid
  have := hinv.nodup_live
  unfold live pids at this
  rw [List.map_append, List.map_append] at this
  have h1 := (List.nodup_append.1 (List.nodup_append.1 this).1).2.2
  exact h1 (List.mem_map_of_mem _ hp) (hpid ▸ List.mem_map_of_mem _ hw)

/-- Two processes of the wait queue with the same PID are the same. -/
theorem eq_of_pid_eq_of_waiting {b : Nat} {s : SimState} (hinv : Inv b s) {x y : PCB}
    (hx : x ∈ s.wait_queue) (hy : y ∈ s.wait_queue) (h : x.PID = y.PID) : x = y :=
  List.inj_on_of_nodup_map (nodup_pids_wait_queue hinv) hx hy h

/-- STEP 2 preserves a sound discipline: the processes whose wait is over are released, the
others are held. -/
theorem holds_manage_wait_queue (D : Discipline) (stamp : Bool) (hS : Sound D stamp)
    (started : PCB → Nat) (touch : PCB → PCB) (htouch : ∀ p, (touch p).core = p.core)
    (hstamp : stamp = true → ∀ p, started p = p.time_in_cpu) {b : Nat} {s : SimState}
    (hinv : Inv b s) (h : Holds D b 1 s) :
    Holds D b 0 (manage_wait_queue started touch s) := by
  have hpid : ∀ p, (touch p).PID = p.PID := fun p => core_pid (htouch p)
  have hes : (manage_wait_queue started touch s).execution_status = s.execution_status ++
      (s.wait_queue.filter
        (fun p => decide (usub s.current_time (started p) ≥ p.io_duration))).map
        (fun w => Event.mk s.current_time (touch w).PID States.WAITING States.READY) := by
    unfold manage_wait_queue
    dsimp only
    rw [List.map_map]
    rfl
  have hf : ∀ x : PCB,
      (Event.mk s.current_time (touch x).PID States.WAITING States.READY).PID = x.PID :=
    fun x => hpid x
  have hnd : (pids (s.wait_queue.filter
      (fun p => decide (usub s.current_time (started p) ≥ p.io_duration)))).Nodup := by
    unfold pids
    exact ((List.filter_sublist _).map _).nodup (nodup_pids_wait_queue hinv)
  have hskip : ∀ pid, (∀ w ∈ s.wait_queue,
      decide (usub s.current_time (started w) ≥ w.io_duration) = true → w.PID ≠ pid) →
      rows_of pid (manage_wait_queue started touch s).execution_status =
        rows_of pid s.execution_status := by
    intro pid hne
    rw [hes]
    apply rows_of_batch_skip _ hf
    intro hmem
    obtain ⟨w, hw, hpw⟩ := mem_pids.1 hmem
    rw [List.mem_filter] at hw
    exact hne w hw.1 hw.2 hpw
  have hlive : ∀ pid ∈ pids (live s), pid ∈ pids (live (manage_wait_queue started touch s)) := by
    intro pid hpid'
    obtain ⟨p, hp, rfl⟩ := mem_pids.1 hpid'
    rw [mem_live_iff] at hp
    rcases hp with hp | hp | hp
    · exact mem_pids.2 ⟨p, mem_live_iff.2 (Or.inl (List.mem_append_left _ hp)), rfl⟩
    · by_cases hov : decide (usub s.current_time (started p) ≥ p.io_duration) = true
      · refine mem_pids.2 ⟨touch p, mem_live_iff.2 (Or.inl ?_), hpid p⟩
        exact List.mem_append_right _
          (List.mem_map_of_mem _ (List.mem_filter.2 ⟨hp, hov⟩))
      · refine mem_pids.2 ⟨p, mem_live_iff.2 (Or.inr (Or.inl ?_)), rfl⟩
        exact List.mem_filter.2 ⟨hp, by simpa using hov⟩
    · exact mem_pids.2 ⟨p, mem_live_iff.2 (Or.inr (Or.inr hp)), rfl⟩
  have hrows : ∀ e ∈ (s.wait_queue.filter
      (fun p => decide (usub s.current_time (started p) ≥ p.io_duration))).map
      (fun w => Event.mk s.current_time (touch w).PID States.WAITING States.READY),
      e.PID ∈ pids (live s) := by
    intro e he
    rw [List.mem_map] at he
    obtain ⟨w, hw, rfl⟩ := he
    show (touch w).PID ∈ _
    rw [hpid]
    exact pid_mem_live_of_waiting (List.mem_filter.1 hw).1
  refine ⟨?_, ?_, ?_, ?_, ?_⟩
  · intro p hp
    have hp' : p ∈ s.ready_queue ++ (s.wait_queue.filter
      (fun p => decide (usub s.current_time (started p) ≥ p.io_duration))).map touch := hp
    rw [List.mem_append] at hp'
    rcases hp' with hp' | hp'
    · rw [hskip p.PID (fun w hw _ hpw => ready_not_waiting hinv hp' hw hpw.symm)]
      exact h.ready p hp'
    · rw [List.mem_map] at hp'
      obtain ⟨w, hw, rfl⟩ := hp'
      have hw' := List.mem_filter.1 hw
      have hr : rows_of (touch w).PID (manage_wait_queue started touch s).execution_status =
          rows_of w.PID s.execution_status ++
            [Event.mk s.current_time w.PID States.WAITING States.READY] := by
        rw [hes, hpid]
        have := rows_of_batch_append _ hf s.execution_status _ hnd w hw
        rw [this, hpid]
      rw [hr]
      refine hS.release _ _ w (touch w) (h.waiting w hw'.1) (fun hst => ?_) (htouch w)
      have := hw'.2
      rw [hstamp hst] at this
      simpa using this
  · intro w hw
    have hw' : w ∈ s.wait_queue.filter
      (fun p => !decide (usub s.current_time (started p) ≥ p.io_duration)) := hw
    rw [List.mem_filter] at hw'
    have hno : ¬ usub s.current_time (started w) ≥ w.io_duration := by simpa using hw'.2
    rw [hskip w.PID (fun x hx hov hpx => by
      have := eq_of_pid_eq_of_waiting hinv hx hw'.1 hpx
      rw [this] at hov
      exact hno (by simpa using hov))]
    refine hS.hold _ _ w (h.waiting w hw'.1) (fun hst => ?_)
    rw [← hstamp hst]
    exact hno
  · intro hrun
    have hrun' : s.running.state = States.RUNNING := hrun
    show D.cpu s.current_time
      (rows_of s.running.PID (manage_wait_queue started touch s).execution_status) s.running
    rw [hskip s.running.PID (fun w hw _ hpw =>
      running_not_queued hinv hrun' w (List.mem_append_right _ hw) hpw)]
    exact h.cpu hrun'
  · exact out_append D s _ h.out _ hes rfl hlive (fun e he => Or.inl (hlive _ (hrows e he)))
  · exact fresh_append D s _ hinv h.fresh _ hes rfl (fun e he => Or.inl (hrows e he))

/-- A discipline only reads the queues (as sets), the CPU, the table, the roster and the
clock. -/
theorem holds_of_fields (D : Discipline) {b k : Nat} {s : SimState} (s' : SimState)
    (h : Holds D b k s) (hrq : s'.ready_queue.Perm s.ready_queue)
    (hwq : s'.wait_queue = s.wait_queue) (hrun : s'.running = s.running)
    (hes : s'.execution_status = s.execution_status)
    (hlist : s'.list_processes = s.list_processes)
    (htime : s'.current_time = s.current_time) : Holds D b k s' := by
  have hlive : ∀ p, p ∈ live s' ↔ p ∈ live s := by
    intro p
    rw [mem_live_iff, mem_live_iff, hwq, hrun]
    exact or_congr_left hrq.mem_iff
  refine ⟨?_, ?_, ?_, ?_, ?_⟩
  · intro p hp
    rw [hes, htime]
    exact h.ready p (hrq.mem_iff.1 hp)
  · intro p hp
    rw [hes, htime]
    rw [hwq] at hp
    exact h.waiting p hp
  · intro hr
    rw [hes, htime, hrun]
    rw [hrun] at hr
    exact h.cpu hr
  · intro q hq hout
    rw [hes]
    rw [hlist] at hq
    apply h.out q hq
    intro hmem
    obtain ⟨p, hp, hpp⟩ := mem_pids.1 hmem
    exact hout (mem_pids.2 ⟨p, (hlive p).2 hp, hpp⟩)
  · intro q hq harr
    rw [hes]
    rw [hlist] at hq
    exact h.fresh q hq harr

/-- Rearranging the ready queue preserves a discipline. -/
theorem holds_sort_ready (D : Discipline) {b k : Nat} {s : SimState} (h : Holds D b k s)
    (rq : List PCB) (hperm : rq.Perm s.ready_queue) :
    Holds D b k { s with ready_queue := rq } :=
  holds_of_fields D _ h hperm rfl rfl rfl rfl rfl

/-- A transition that prints one row `e` for a process that is in a queue or on the CPU and
moves that process (and no other) preserves a discipline, provided the discipline holds of the
moved process in its new place with `e` added to its rows. -/
theorem holds_move (D : Discipline) {b k : Nat} {s : SimState} (s' : SimState)
    (hinv : Inv b s) (h : Holds D b k s) (e : Event)
    (hes : s'.execution_status = s.execution_status ++ [e])
    (hlist : s'.list_processes = s.list_processes)
    (htime : s'.current_time = s.current_time)
    (hpe : e.PID ∈ pids (live s))
    (hrq : ∀ p ∈ s'.ready_queue, (p ∈ s.ready_queue ∧ p.PID ≠ e.PID) ∨
      (p.PID = e.PID ∧ D.ready s.current_time (rows_of e.PID s.execution_status ++ [e]) p))
    (hwq : ∀ p ∈ s'.wait_queue, (p ∈ s.wait_queue ∧ p.PID ≠ e.PID) ∨
      (p.PID = e.PID ∧ D.waiting k s.current_time (rows_of e.PID s.execution_status ++ [e]) p))
    (hcpu : s'.running.state = States.RUNNING →
      (s.running.state = States.RUNNING ∧ s'.running = s.running ∧ s.running.PID ≠ e.PID) ∨
      (s'.running.PID = e.PID ∧
        D.cpu s.current_time (rows_of e.PID s.execution_status ++ [e]) s'.running))
    (hout : ∀ q ∈ s.list_processes, q.PID = e.PID → q.PID ∉ pids (live s') →
      D.done (rows_of e.PID s.execution_status ++ [e]) q)
    (hlive : ∀ pid ∈ pids (live s), pid ≠ e.PID → pid ∈ pids (live s')) :
    Holds D b k s' := by
  have hself : rows_of e.PID s'.execution_status = rows_of e.PID s.execution_status ++ [e] := by
    rw [hes, rows_of_self]
  have hother : ∀ pid, pid ≠ e.PID →
      rows_of pid s'.execution_status = rows_of pid s.execution_status := by
    intro pid hne
    rw [hes]
    exact rows_of_other _ _ _ (fun hh => hne hh.symm)
  refine ⟨?_, ?_, ?_, ?_, ?_⟩
  · intro p hp
    rw [htime]
    rcases hrq p hp with ⟨h1, h2⟩ | ⟨h1, h2⟩
    · rw [hother _ h2]
      exact h.ready p h1
    · rw [h1, hself]
      exact h2
  · intro p hp
    rw [htime]
    rcases hwq p hp with ⟨h1, h2⟩ | ⟨h1, h2⟩
    · rw [hother _ h2]
      exact h.waiting p h1
    · rw [h1, hself]
      exact h2
  · intro hr
    rw [htime]
    rcases hcpu hr with ⟨h1, h2, h3⟩ | ⟨h1, h2⟩
    · rw [h2, hother _ h3]
      exact h.cpu h1
    · rw [h1, hself]
      exact h2
  · intro q hq hnot
    rw [hlist] at hq
    by_cases hqe : q.PID = e.PID
    · right
      rw [hqe, hself]
      exact hout q hq hqe hnot
    · rw [hother _ hqe]
      exact h.out q hq (fun hmem => hnot (hlive _ hmem hqe))
  · exact fresh_append D s s' hinv h.fresh [e] hes hlist (fun x hx => by
      rw [List.mem_singleton] at hx
      rw [hx]
      exact Or.inl hpe)

/-- A row for a PID that is not in the roster, printed while the same processes stay where they
are, preserves a discipline. -/
theorem holds_noise (D : Discipline) {b k : Nat} {s : SimState} (s' : SimState)
    (hinv : Inv b s) (h : Holds D b k s) (e : Event)
    (hes : s'.execution_status = s.execution_status ++ [e])
    (hlist : s'.list_processes = s.list_processes)
    (htime : s'.current_time = s.current_time)
    (hfree : e.PID ∉ pids s.list_processes)
    (hrq : s'.ready_queue = s.ready_queue) (hwq : s'.wait_queue = s.wait_queue)
    (hidle : s.running.state ≠ States.RUNNING) (hidle' : s'.running.state ≠ States.RUNNING) :
    Holds D b k s' := by
  have hlive : live s' = live s := by
    unfold live
    rw [hrq, hwq, on_cpu_of_not_running hidle, on_cpu_of_not_running hidle']
  have hskip : ∀ pid, pid ∈ pids s.list_processes →
      rows_of pid s'.execution_status = rows_of pid s.execution_status := by
    intro pid hp
    rw [hes]
    exact rows_of_other _ _ _ (fun hh => hfree (hh ▸ hp))
  refine ⟨?_, ?_, fun hr => absurd hr hidle', ?_, ?_⟩
  · intro p hp
    rw [hrq] at hp
    rw [htime, hskip _ (pid_mem_pids_of_live hinv (mem_live_iff.2 (Or.inl hp)))]
    exact h.ready p hp
  · intro p hp
    rw [hwq] at hp
    rw [htime, hskip _ (pid_mem_pids_of_live hinv (mem_live_iff.2 (Or.inr (Or.inl hp))))]
    exact h.waiting p hp
  · intro q hq hnot
    rw [hlist] at hq
    rw [hskip _ (mem_pids.2 ⟨q, hq, rfl⟩)]
    rw [hlive] at hnot
    exact h.out q hq hnot
  · exact fresh_append D s s' hinv h.fresh [e] hes hlist (fun x hx => by
      rw [List.mem_singleton] at hx
      rw [hx]
      exact Or.inr hfree)

/-- Charging the running process, when it neither blocks nor terminates nor is preempted,
preserves a sound discipline. -/
theorem holds_run_on (D : Discipline) (stamp : Bool) (hS : Sound D stamp) {b k : Nat}
    {s : SimState} (s' : SimState) (h : Holds D b k s)
    (hrun : s.running.state = States.RUNNING) (hch : Charged s.running s'.running)
    (hst : s'.running.state = States.RUNNING)
    (hdue : ¬ io_due s'.running) (hrem : s'.running.remaining_time ≠ 0)
    (hrq : s'.ready_queue = s.ready_queue) (hwq : s'.wait_queue = s.wait_queue)
    (hes : s'.execution_status = s.execution_status)
    (hlist : s'.list_processes = s.list_processes)
    (htime : s'.current_time = s.current_time) : Holds D b k s' := by
  have hpid : s'.running.PID = s.running.PID := static_pid hch.1
  have hlive : ∀ pid, pid ∈ pids (live s') ↔ pid ∈ pids (live s) := by
    intro pid
    simp only [mem_pids, mem_live_iff, hrq, hwq]
    constructor
    · rintro ⟨p, hp | hp | ⟨_, rfl⟩, rfl⟩
      · exact ⟨p, Or.inl hp, rfl⟩
      · exact ⟨p, Or.inr (Or.inl hp), rfl⟩
      · exact ⟨s.running, Or.inr (Or.inr ⟨hrun, rfl⟩), hpid.symm⟩
    · rintro ⟨p, hp | hp | ⟨_, rfl⟩, rfl⟩
      · exact ⟨p, Or.inl hp, rfl⟩
      · exact ⟨p, Or.inr (Or.inl hp), rfl⟩
      · exact ⟨s'.running, Or.inr (Or.inr ⟨hst, rfl⟩), hpid⟩
  refine ⟨?_, ?_, ?_, ?_, ?_⟩
  · intro p hp
    rw [hes, htime]
    rw [hrq] at hp
    exact h.ready p hp
  · intro p hp
    rw [hes, htime]
    rw [hwq] at hp
    exact h.waiting p hp
  · intro _
    rw [hes, htime, hpid]
    exact hS.run_on _ _ s.running s'.running (h.cpu hrun) hch hdue hrem
  · intro q hq hout
    rw [hes]
    rw [hlist] at hq
    exact h.out q hq (fun hmem => hout ((hlive _).2 hmem))
  · intro q hq harr
    rw [hes]
    rw [hlist] at hq
    exact h.fresh q hq harr

/-- `current_time++` preserves a sound discipline. -/
theorem holds_tick_end (D : Discipline) (stamp : Bool) (hS : Sound D stamp) {b : Nat}
    {s : SimState} (h : Holds D b 0 s) :
    Holds D b 1 { s with current_time := s.current_time + 1 } :=
  ⟨fun p hp => hS.tick_ready _ _ _ (h.ready p hp),
    fun p hp => hS.tick_waiting _ _ _ (h.waiting p hp),
    fun hr => hS.tick_cpu _ _ _ (h.cpu hr),
    fun q hq hout => h.out q hq hout,
    fun q hq harr => h.fresh q hq harr⟩

theorem live_pid_cases {s : SimState} {pid : Int} (h : pid ∈ pids (live s)) :
    (∃ p ∈ s.ready_queue, p.PID = pid) ∨ (∃ p ∈ s.wait_queue, p.PID = pid) ∨
      (s.running.state = States.RUNNING ∧ s.running.PID = pid) := by
  obtain ⟨p, hp, hpp⟩ := mem_pids.1 h
  rw [mem_live_iff] at hp
  rcases hp with hp | hp | ⟨h1, h2⟩
  · exact Or.inl ⟨p, hp, hpp⟩
  · exact Or.inr (Or.inl ⟨p, hp, hpp⟩)
  · exact Or.inr (Or.inr ⟨h1, by rw [← h2]; exact hpp⟩)

/-- Taking the running process off the CPU into the ready queue (arrival preemption, quantum
expiry) preserves a discipline that holds of the process in the ready queue with the
RUNNING -> READY row added. -/
theorem holds_requeue (D : Discipline) {b k : Nat} {s : SimState} (s' : SimState)
    (hinv : Inv b s) (h : Holds D b k s) (hrun : s.running.state = States.RUNNING)
    (p : PCB) (hpid : p.PID = s.running.PID)
    (hready : D.ready s.current_time (rows_of s.running.PID s.execution_status ++
      [Event.mk s.current_time s.running.PID States.RUNNING States.READY]) p)
    (hrq : ∀ x, x ∈ s'.ready_queue ↔ x = p ∨ x ∈ s.ready_queue)
    (hwq : s'.wait_queue = s.wait_queue)
    (hidle : s'.running.state ≠ States.RUNNING)
    (hes : s'.execution_status = s.execution_status ++
      [Event.mk s.current_time s.running.PID States.RUNNING States.READY])
    (hlist : s'.list_processes = s.list_processes)
    (htime : s'.current_time = s.current_time) : Holds D b k s' := by
  refine holds_move D s' hinv h _ hes hlist htime (pid_mem_live_of_running hrun) ?_ ?_
    (fun hr => absurd hr hidle) ?_ ?_
  · intro x hx
    rcases (hrq x).1 hx with rfl | hx'
    · exact Or.inr ⟨hpid, hready⟩
    · exact Or.inl ⟨hx', running_not_queued hinv hrun x (List.mem_append_left _ hx')⟩
  · intro x hx
    rw [hwq] at hx
    exact Or.inl ⟨hx, running_not_queued hinv hrun x (List.mem_append_right _ hx)⟩
  · intro q _ hq hout
    exact absurd (mem_pids.2 ⟨p, mem_live_iff.2 (Or.inl ((hrq p).2 (Or.inl rfl))),
      hpid.trans hq.symm⟩) hout
  · intro pid hp hne
    rcases live_pid_cases hp with ⟨x, hx, rfl⟩ | ⟨x, hx, rfl⟩ | ⟨_, h2⟩
    · exact mem_pids.2 ⟨x, mem_live_iff.2 (Or.inl ((hrq x).2 (Or.inr hx))), rfl⟩
    · exact mem_pids.2 ⟨x, mem_live_iff.2 (Or.inr (Or.inl (by rw [hwq]; exact hx))), rfl⟩
    · exact absurd h2.symm hne

/-- Blocking the running process for I/O preserves a discipline that holds of the process in
the wait queue with the RUNNING -> WAITING row added. -/
theorem holds_block (D : Discipline) {b k : Nat} {s : SimState} (s' : SimState)
    (hinv : Inv b s) (h : Holds D b k s) (hrun : s.running.state = States.RUNNING)
    (w : PCB) (hpid : w.PID = s.running.PID)
    (hwait : D.waiting k s.current_time (rows_of s.running.PID s.execution_status ++
      [Event.mk s.current_time s.running.PID States.RUNNING States.WAITING]) w)
    (hrq : s'.ready_queue = s.ready_queue)
    (hwq : s'.wait_queue = s.wait_queue ++ [w])
    (hidle : s'.running.state ≠ States.RUNNING)
    (hes : s'.execution_status = s.execution_status ++
      [Event.mk s.current_time s.running.PID States.RUNNING States.WAITING])
    (hlist : s'.list_processes = s.list_processes)
    (htime : s'.current_time = s.current_time) : Holds D b k s' := by
  refine holds_move D s' hinv h _ hes hlist htime (pid_mem_live_of_running hrun) ?_ ?_
    (fun hr => absurd hr hidle) ?_ ?_
  · intro x hx
    rw [hrq] at hx
    exact Or.inl ⟨hx, running_not_queued hinv hrun x (List.mem_append_left _ hx)⟩
  · intro x hx
    rw [hwq, List.mem_append, List.mem_singleton] at hx
    rcases hx with hx | rfl
    · exact Or.inl ⟨hx, running_not_queued hinv hrun x (List.mem_append_right _ hx)⟩
    · exact Or.inr ⟨hpid, hwait⟩
  · intro q _ hq hout
    refine absurd (mem_pids.2 ⟨w, mem_live_iff.2 (Or.inr (Or.inl ?_)), hpid.trans hq.symm⟩) hout
    rw [hwq]
    exact List.mem_append_right _ (List.mem_singleton.2 rfl)
  · intro pid hp hne
    rcases live_pid_cases hp with ⟨x, hx, rfl⟩ | ⟨x, hx, rfl⟩ | ⟨_, h2⟩
    · exact mem_pids.2 ⟨x, mem_live_iff.2 (Or.inl (by rw [hrq]; exact hx)), rfl⟩
    · refine mem_pids.2 ⟨x, mem_live_iff.2 (Or.inr (Or.inl ?_)), rfl⟩
      rw [hwq]
      exact List.mem_append_left _ hx
    · exact absurd h2.symm hne

/-- Termination of the running process preserves a sound discipline. -/
theorem holds_finish (D : Discipline) (stamp : Bool) (hS : Sound D stamp) {b k : Nat}
    {s : SimState} (s' : SimState) (hinv : Inv b s) (h : Holds D b k s)
    (hrun : s.running.state = States.RUNNING) (hzero : udec s.running.remaining_time = 0)
    (hrq : s'.ready_queue = s.ready_queue) (hwq : s'.wait_queue = s.wait_queue)
    (hidle : s'.running.state ≠ States.RUNNING)
    (hes : s'.execution_status = s.execution_status ++
      [Event.mk s.current_time s.running.PID States.RUNNING States.TERMINATED])
    (hlist : s'.list_processes = s.list_processes)
    (htime : s'.current_time = s.current_time) : Holds D b k s' := by
  refine holds_move D s' hinv h _ hes hlist htime (pid_mem_live_of_running hrun) ?_ ?_
    (fun hr => absurd hr hidle) ?_ ?_
  · intro x hx
    rw [hrq] at hx
    exact Or.inl ⟨hx, running_not_queued hinv hrun x (List.mem_append_left _ hx)⟩
  · intro x hx
    rw [hwq] at hx
    exact Or.inl ⟨hx, running_not_queued hinv hrun x (List.mem_append_right _ hx)⟩
  · intro q hq hpq _
    exact hS.finish _ _ s.running q (h.cpu hrun) hzero
      (static_of_live hinv (running_mem_live hrun) hq hpq)
  · intro pid hp hne
    rcases live_pid_cases hp with ⟨x, hx, rfl⟩ | ⟨x, hx, rfl⟩ | ⟨_, h2⟩
    · exact mem_pids.2 ⟨x, mem_live_iff.2 (Or.inl (by rw [hrq]; exact hx)), rfl⟩
    · exact mem_pids.2 ⟨x, mem_live_iff.2 (Or.inr (Or.inl (by rw [hwq]; exact hx))), rfl⟩
    · exact absurd h2.symm hne

/-- STEP 4 preserves a sound discipline. -/
theorem holds_dispatch (D : Discipline) (stamp : Bool) (hS : Sound D stamp)
    (schedule : List PCB → List PCB) (quantum : Nat → Nat) {b k : Nat} {s : SimState}
    (hinv : Inv b s) (h : Holds D b k s)
    (hperm : (schedule s.ready_queue).Perm s.ready_queue) :
    Holds D b k (dispatch schedule quantum s) := by
  by_cases hidle : s.running.state = States.NOT_ASSIGNED
  · by_cases hne : s.ready_queue = []
    · rw [dispatch_of_empty _ _ _ hne]
      exact h
    · have hinv' := Inv.dispatch schedule quantum hinv hperm
      obtain ⟨back, hback, heq⟩ := dispatch_eq schedule quantum s hperm hidle hne
      rw [heq] at hinv' ⊢
      have hbm : back ∈ s.ready_queue :=
        hperm.mem_iff.1 (by rw [hback]; exact List.mem_append_right _ (List.mem_singleton.2 rfl))
      have hnr : s.running.state ≠ States.RUNNING := by rw [hidle]; decide
      refine holds_move D _ hinv h _ rfl rfl rfl (pid_mem_live_of_ready hbm) ?_ ?_ ?_ ?_ ?_
      · intro x hx
        have hx' : x ∈ (schedule s.ready_queue).dropLast := hx
        refine Or.inl ⟨hperm.mem_iff.1 (List.mem_of_mem_dropLast hx'), ?_⟩
        have := running_not_queued hinv' rfl x (List.mem_append_left _ hx)
        intro hh
        apply this
        show x.PID = (started_at s.current_time back).PID
        rw [pid_started_at]
        exact hh
      · intro x hx
        have hx' : x ∈ s.wait_queue := hx
        exact Or.inl ⟨hx', fun hh => ready_not_waiting hinv hbm hx' hh.symm⟩
      · intro _
        right
        refine ⟨pid_started_at _ _, ?_⟩
        exact hS.dispatch _ _ back _ (h.ready back hbm) (static_started_at _ _)
          (remaining_started_at _ _) (by
            show (started_at s.current_time back).start_time = _
            unfold started_at
            dsimp only
            split_ifs <;> rfl)
      · intro q _ hq hout
        exact absurd (mem_pids.2 ⟨_, mem_live_iff.2 (Or.inr (Or.inr ⟨rfl, rfl⟩)),
          (pid_started_at _ _).trans hq.symm⟩) hout
      · intro pid hp hne'
        rcases live_pid_cases hp with ⟨x, hx, rfl⟩ | ⟨x, hx, rfl⟩ | ⟨h1, _⟩
        · have hx' := hperm.mem_iff.2 hx
          rw [hback, List.mem_append, List.mem_singleton] at hx'
          rcases hx' with hx' | rfl
          · exact mem_pids.2 ⟨x, mem_live_iff.2 (Or.inl hx'), rfl⟩
          · exact absurd rfl hne'
        · exact mem_pids.2 ⟨x, mem_live_iff.2 (Or.inr (Or.inl hx)), rfl⟩
        · exact absurd h1 hnr
  · rw [dispatch_of_busy _ _ _ hidle]
    exact h

/-! ## Disciplines: STEP 3 of each simulator -/

theorem quantum_io_check_of_due (E : Env) (s : SimState) (h : io_due s.running) :
    Quantum.io_check E s =
      { s with
        wait_queue := s.wait_queue ++
          [{ s.running with state := States.WAITING, time_in_cpu := s.current_time }]
        job_list := sync_queue s.job_list
          { s.running with state := States.WAITING, time_in_cpu := s.current_time }
        execution_status := s.execution_status ++
          [Event.mk s.current_time s.running.PID States.RUNNING States.WAITING]
        running := E.idle_CPU
          { s.running with state := States.WAITING, time_in_cpu := s.current_time }
        quantum_remaining := TIME_QUANTUM } := by
  unfold Quantum.io_check
  unfold io_due at h
  dsimp only
  rw [if_pos h.1, if_pos h.2]

theorem ep_io_check_of_due (E : Env) (s : SimState) (h : io_due s.running) :
    EP.io_check E s =
      { s with
        io_start_time := s.current_time
        wait_queue := s.wait_queue ++ [{ s.running with state := States.WAITING }]
        job_list := sync_queue s.job_list { s.running with state := States.WAITING }
        execution_status := s.execution_status ++
          [Event.mk s.current_time s.running.PID States.RUNNING States.WAITING]
        running := E.idle_CPU { s.running with state := States.WAITING } } := by
  unfold EP.io_check
  unfold io_due at h
  dsimp only
  rw [if_pos h.1, if_pos h.2]

theorem quantum_checks_of_idle (E : Env) (s : SimState)
    (h : s.running.state ≠ States.RUNNING) :
    Quantum.completion_check E s = s ∧ RR.quantum_check E s = s ∧
      EP_RR.quantum_check E s = s := by
  refine ⟨?_, ?_, ?_⟩
  · unfold Quantum.completion_check
    rw [if_neg (fun hh => h hh.2)]
  · unfold RR.quantum_check
    rw [if_neg (fun hh => h hh.2.1)]
  · unfold EP_RR.quantum_check
    rw [if_neg (fun hh => h hh.2.1)]

theorem not_io_due_of_zero {r : PCB} (h : r.remaining_time = 0) : ¬ io_due r := by
  intro hd
  have := hd.1.2
  omega

/-- The parts of STEP 3 that RR and EP_RR share (execution, I/O check, completion check)
preserve a sound discipline, and afterwards the CPU is idle or holds the charged process,
which is not done. -/
theorem holds_quantum_checks (D : Discipline) (hS : Sound D true) (E : Env)
    (hI : IdleContract E) {b : Nat} {s : SimState} (hinv : Inv b s) (h : Holds D b 0 s)
    (hrun : s.running.state = States.RUNNING) :
    (Holds D b 0 (Quantum.completion_check E (Quantum.io_check E (Quantum.execute s))) ∧
      (Quantum.completion_check E (Quantum.io_check E (Quantum.execute s))).running.state ≠
        States.RUNNING) ∨
    (Quantum.completion_check E (Quantum.io_check E (Quantum.execute s)) = Quantum.execute s ∧
      ¬ io_due (Quantum.charged s.running) ∧
      (Quantum.charged s.running).remaining_time ≠ 0) := by
  have hch : Charged s.running (Quantum.charged s.running) := ⟨rfl, rfl, rfl⟩
  by_cases hdue : io_due (Quantum.charged s.running)
  · left
    have hidle : (E.idle_CPU { Quantum.charged s.running with
        state := States.WAITING, time_in_cpu := s.current_time }).state ≠ States.RUNNING := by
      rw [hI]; decide
    rw [quantum_io_check_of_due E (Quantum.execute s) hdue,
      (quantum_checks_of_idle E _ hidle).1]
    refine ⟨holds_block D _ hinv h hrun
      { Quantum.charged s.running with state := States.WAITING, time_in_cpu := s.current_time }
      rfl ?_ rfl rfl hidle rfl rfl rfl, hidle⟩
    exact hS.block _ _ s.running _ (h.cpu hrun) ⟨rfl, rfl, rfl⟩ hdue (fun _ => rfl)
  · rw [quantum_io_check_of_not_due E (Quantum.execute s) hdue]
    by_cases hz : (Quantum.charged s.running).remaining_time = 0
    · left
      have hidle : (E.idle_CPU (terminate_process (Quantum.execute s).running
          (Quantum.execute s).job_list).1).state ≠ States.RUNNING := by
        rw [hI]; decide
      have heq : Quantum.completion_check E (Quantum.execute s) =
          { Quantum.execute s with
            execution_status := s.execution_status ++
              [Event.mk s.current_time s.running.PID States.RUNNING States.TERMINATED]
            job_list := (terminate_process (Quantum.execute s).running
              (Quantum.execute s).job_list).2
            running := E.idle_CPU (terminate_process (Quantum.execute s).running
              (Quantum.execute s).job_list).1
            quantum_remaining := TIME_QUANTUM } := by
        unfold Quantum.completion_check
        rw [if_pos ⟨hz, hrun⟩]
        rfl
      rw [heq]
      exact ⟨holds_finish D true hS _ hinv h hrun hz rfl rfl hidle rfl rfl rfl, hidle⟩
    · right
      exact ⟨quantum_completion_check_of_pos E _ (Nat.pos_of_ne_zero hz), hdue, hz⟩

/-- STEP 3 of RR preserves a sound discipline. -/
theorem holds_rr_handle_running (D : Discipline) (hS : Sound D true) (E : Env)
    (hI : IdleContract E) {b : Nat} {s : SimState} (hinv : Inv b s) (h : Holds D b 0 s) :
    Holds D b 0 (RR.handle_running E s) := by
  unfold RR.handle_running
  split_ifs with hrun
  · rcases holds_quantum_checks D hS E hI hinv h hrun with ⟨h1, h2⟩ | ⟨h1, h2, h3⟩
    · rw [(quantum_checks_of_idle E _ h2).2.1]
      exact h1
    · rw [h1]
      unfold RR.quantum_check
      split_ifs with hq
      · have hidle : (E.idle_CPU { Quantum.charged s.running with
            state := States.READY, time_in_cpu := 0 }).state ≠ States.RUNNING := by
          rw [hI]; decide
        refine holds_requeue D (Quantum.preempt E (Quantum.execute s)) hinv h hrun
          { Quantum.charged s.running with state := States.READY, time_in_cpu := 0 }
          rfl ?_ (fun x => List.mem_cons) rfl hidle rfl rfl rfl
        exact hS.expire _ _ s.running _ (h.cpu hrun) ⟨rfl, rfl, rfl⟩ h2 h3
      · exact holds_run_on D true hS (Quantum.execute s) h hrun ⟨rfl, rfl, rfl⟩ hrun h2 h3
          rfl rfl rfl rfl rfl
  · exact h

/-- STEP 3 of EP_RR preserves a sound discipline. -/
theorem holds_ep_rr_handle_running (D : Discipline) (hS : Sound D true) (E : Env)
    (hI : IdleContract E) {b : Nat} {s : SimState} (hinv : Inv b s) (h : Holds D b 0 s) :
    Holds D b 0 (EP_RR.handle_running E s) := by
  unfold EP_RR.handle_running
  split_ifs with hrun
  · rcases holds_quantum_checks D hS E hI hinv h hrun with ⟨h1, h2⟩ | ⟨h1, h2, h3⟩
    · rw [(quantum_checks_of_idle E _ h2).2.2]
      exact h1
    · rw [h1]
      unfold EP_RR.quantum_check
      split_ifs with hq hpeer
      · have hidle : (E.idle_CPU { Quantum.charged s.running with
            state := States.READY, time_in_cpu := 0 }).state ≠ States.RUNNING := by
          rw [hI]; decide
        refine holds_requeue D (Quantum.preempt E (Quantum.execute s)) hinv h hrun
          { Quantum.charged s.running with state := States.READY, time_in_cpu := 0 }
          rfl ?_ (fun x => List.mem_cons) rfl hidle rfl rfl rfl
        exact hS.expire _ _ s.running _ (h.cpu hrun) ⟨rfl, rfl, rfl⟩ h2 h3
      · exact holds_run_on D true hS _ h hrun ⟨rfl, rfl, rfl⟩ hrun h2 h3
          rfl rfl rfl rfl rfl
      · exact holds_run_on D true hS (Quantum.execute s) h hrun ⟨rfl, rfl, rfl⟩ hrun h2 h3
          rfl rfl rfl rfl rfl
  · exact h

/-- STEP 3 of EP preserves a sound discipline, provided the placeholder of `idle_CPU` does not
carry the PID of a process of the workload. -/
theorem holds_ep_handle_running (D : Discipline) (hS : Sound D false) (E : Env)
    (hI : IdleContract E) {b : Nat} {s : SimState} (hinv : Inv b s) (h : Holds D b 0 s)
    (hfree : ∀ r, (E.idle_CPU r).PID ∉ pids s.list_processes) :
    Holds D b 0 (EP.handle_running E s) := by
  unfold EP.handle_running
  split_ifs with hrun
  · show Holds D b 0 (EP.completion_check E
      (EP.io_check E { s with running := EP.charged s.running }))
    by_cases hdue : io_due (EP.charged s.running)
    · have hidle : (E.idle_CPU { EP.charged s.running with
          state := States.WAITING }).state ≠ States.RUNNING := by
        rw [hI]; decide
      rw [ep_io_check_of_due E { s with running := EP.charged s.running } hdue]
      have hB := holds_block D
        { s with
          io_start_time := s.current_time
          wait_queue := s.wait_queue ++ [{ EP.charged s.running with state := States.WAITING }]
          job_list := sync_queue s.job_list
            { EP.charged s.running with state := States.WAITING }
          execution_status := s.execution_status ++
            [Event.mk s.current_time s.running.PID States.RUNNING States.WAITING]
          running := E.idle_CPU { EP.charged s.running with state := States.WAITING } }
        hinv h hrun { EP.charged s.running with state := States.WAITING } rfl
        (hS.block _ _ s.running _ (h.cpu hrun) ⟨rfl, rfl, rfl⟩ hdue
          (fun hh => absurd hh (by decide)))
        rfl rfl hidle rfl rfl rfl
      have iB := hinv.block E hI hrun { EP.charged s.running with state := States.WAITING }
        rfl (sync_queue s.job_list { EP.charged s.running with state := States.WAITING })
        (s.execution_status ++
          [Event.mk s.current_time s.running.PID States.RUNNING States.WAITING])
        s.quantum_remaining s.current_time
      unfold EP.completion_check
      dsimp only
      split_ifs with hz
      · exact holds_noise D _ iB hB _ rfl rfl rfl (hfree _) rfl rfl hidle
          (by rw [hI]; decide)
      · exact hB
    · rw [ep_io_check_of_not_due E { s with running := EP.charged s.running } hdue]
      unfold EP.completion_check
      dsimp only
      split_ifs with hz
      · exact holds_finish D false hS _ hinv h hrun hz rfl rfl (by rw [hI]; decide) rfl rfl rfl
      · exact holds_run_on D false hS { s with running := EP.charged s.running } h hrun
          ⟨rfl, rfl, rfl⟩ hrun hdue hz rfl rfl rfl rfl rfl
  · exact h

/-! ## Disciplines: the loop -/

/-- STEP 2.5 of EP_RR preserves a sound discipline. -/
theorem holds_check_preemption (D : Discipline) (hS : Sound D true) (E : Env)
    (hE : SortContract E) (hI : IdleContract E) (new_arrival : Bool)
    (still_waiting : List PCB) {b k : Nat} {s : SimState} (hinv : Inv b s)
    (h : Holds D b k s) :
    Holds D b k (EP_RR.check_preemption E new_arrival still_waiting s) := by
  unfold EP_RR.check_preemption
  dsimp only
  have hperm : (ep_rr_schedule E s.ready_queue).Perm s.ready_queue :=
    (hE _ strictWeak_ep_rr_schedule_cmp _).1
  split_ifs with h1 h2
  · have hrun := running_of_should_preempt h2
    refine holds_requeue D _ hinv h hrun
      { s.running with state := States.READY, time_in_cpu := 0 } rfl ?_ ?_ rfl
      (by rw [hI]; decide) rfl rfl rfl
    · exact hS.preempt _ _ s.running _ (h.cpu hrun) rfl
    · intro x
      show x ∈ _ :: ep_rr_schedule E s.ready_queue ↔ _
      rw [List.mem_cons, hperm.mem_iff]
  · exact holds_sort_ready D h _ hperm
  · exact h

/-- One iteration of the loop body of RR preserves a sound discipline. -/
theorem holds_rr_tick (D : Discipline) (hS : Sound D true) (E : Env) (hE : SortContract E)
    (hI : IdleContract E) {s : SimState} (hinv : Inv s.current_time s)
    (h : Holds D s.current_time 1 s) : Holds D (s.current_time + 1) 1 (RR.tick E s) := by
  have i1 := Inv.populate E Quantum.touch_new static_quantum_touch_new hinv
  have i2 := Inv.manage_wait_queue (fun p => p.time_in_cpu)
    Quantum.touch_done static_quantum_touch_done i1
  have i3 := Inv.rr_handle_running E hI i2
  have h1 := holds_populate D true hS E Quantum.touch_new (fun _ => rfl) hinv h
  have h2 := holds_manage_wait_queue D true hS (fun p => p.time_in_cpu) Quantum.touch_done
    (fun _ => rfl) (fun _ _ => rfl) i1 h1
  have h3 := holds_rr_handle_running D hS E hI i2 h2
  exact holds_tick_end D true hS (holds_dispatch D true hS (fcfs_rr E)
    (fun _ => TIME_QUANTUM) i3 h3 (hE _ strictWeak_fcfs_rr_cmp _).1)

/-- One iteration of the loop body of EP_RR preserves a sound discipline. -/
theorem holds_ep_rr_tick (D : Discipline) (hS : Sound D true) (E : Env) (hE : SortContract E)
    (hI : IdleContract E) {s : SimState} (hinv : Inv s.current_time s)
    (h : Holds D s.current_time 1 s) : Holds D (s.current_time + 1) 1 (EP_RR.tick E s) := by
  have i1 := Inv.populate E Quantum.touch_new static_quantum_touch_new hinv
  have i2 := Inv.manage_wait_queue (fun p => p.time_in_cpu)
    Quantum.touch_done static_quantum_touch_done i1
  have i25 : Inv (s.current_time + 1) (EP_RR.arrivals E s) :=
    Inv.check_preemption E hE hI _ _ i2
  have i3 := Inv.ep_rr_handle_running E hI i25
  have h1 := holds_populate D true hS E Quantum.touch_new (fun _ => rfl) hinv h
  have h2 := holds_manage_wait_queue D true hS (fun p => p.time_in_cpu) Quantum.touch_done
    (fun _ => rfl) (fun _ _ => rfl) i1 h1
  have h25 : Holds D (s.current_time + 1) 0 (EP_RR.arrivals E s) :=
    holds_check_preemption D hS E hE hI _ _ i2 h2
  have h3 := holds_ep_rr_handle_running D hS E hI i25 h25
  exact holds_tick_end D true hS (holds_dispatch D true hS (ep_rr_schedule E)
    (fun _ => TIME_QUANTUM) i3 h3 (hE _ strictWeak_ep_rr_schedule_cmp _).1)

/-- One iteration of the loop body of EP preserves a sound discipline, provided the placeholder
of `idle_CPU` does not carry the PID of a process of the workload. -/
theorem holds_ep_tick (D : Discipline) (hS : Sound D false) (E : Env) (hE : SortContract E)
    (hI : IdleContract E) {s : SimState} (hinv : Inv s.current_time s)
    (h : Holds D s.current_time 1 s)
    (hfree : ∀ r, (E.idle_CPU r).PID ∉ pids s.list_processes) :
    Holds D (s.current_time + 1) 1 (EP.tick E s) := by
  have i1 := Inv.populate E EP.touch_new static_ep_touch_new hinv
  have i2 := Inv.manage_wait_queue (fun _ => (populate E EP.touch_new s).io_start_time)
    EP.touch_done static_ep_touch_done i1
  have i3 := Inv.ep_handle_running E hI i2
  have h1 := holds_populate D false hS E EP.touch_new (fun _ => rfl) hinv h
  have h2 := holds_manage_wait_queue D false hS
    (fun _ => (populate E EP.touch_new s).io_start_time) EP.touch_done
    (fun _ => rfl) (fun hh => absurd hh (by decide)) i1 h1
  have h3 := holds_ep_handle_running D hS E hI i2 h2 (fun r => by
    show (E.idle_CPU r).PID ∉ pids (marked E EP.touch_new s.current_time 0 s.list_processes)
    rw [pids_marked E EP.touch_new static_ep_touch_new]
    exact hfree r)
  exact holds_tick_end D false hS (holds_dispatch D false hS (external_priorities E)
    (fun q => q) i3 h3 (hE _ strictWeak_external_priorities_cmp _).1)

/-- A discipline holds before the first iteration if every process of the workload is as the
discipline assumes. -/
theorem holds_init (D : Discipline) (E : Env) (hI : IdleContract E) (l : List PCB)
    (hload : ∀ q ∈ l, D.load q) : Holds D 0 1 (init E l) := by
  refine ⟨?_, ?_, ?_, ?_, ?_⟩
  · intro p hp
    simp [init] at hp
  · intro p hp
    simp [init] at hp
  · intro hrun
    have : (E.idle_CPU uninitialised).state = States.RUNNING := hrun
    rw [hI] at this
    exact absurd this (by decide)
  · intro q _ _
    exact Or.inl rfl
  · intro q hq _
    exact ⟨rfl, hload q hq⟩

/-- The loop invariant of a sound discipline is preserved by one iteration of each
simulator. -/
theorem run_tick (D : Discipline) (E : Env) (hE : SortContract E) (hI : IdleContract E)
    (l : List PCB) (s : SimState) (h : Run D l s) :
    (Sound D false → (∀ r, (E.idle_CPU r).PID ∉ pids l) → Run D l (EP.tick E s)) ∧
    (Sound D true → Run D l (RR.tick E s)) ∧
    (Sound D true → Run D l (EP_RR.tick E s)) := by
  obtain ⟨hinv, hjob, hd, hroster⟩ := h
  refine ⟨fun hS hfree => ?_, fun hS => ?_, fun hS => ?_⟩
  · have hfree' : ∀ r, (E.idle_CPU r).PID ∉ pids s.list_processes := by
      intro r
      rw [pids_eq_map_static, hroster, ← pids_eq_map_static]
      exact hfree r
    have ht := Inv.ep_tick E hE hI hinv
    refine ⟨ht.1, JobInv.job_ep_tick E hE hI hinv hjob hfree', ?_,
      ((roster_tick E s).1).trans hroster⟩
    rw [ht.2]
    exact holds_ep_tick D hS E hE hI hinv hd hfree'
  · have ht := Inv.rr_tick E hE hI hinv
    refine ⟨ht.1, JobInv.job_rr_tick E hE hI hinv hjob, ?_,
      ((roster_tick E s).2.1).trans hroster⟩
    rw [ht.2]
    exact holds_rr_tick D hS E hE hI hinv hd
  · have ht := Inv.ep_rr_tick E hE hI hinv
    refine ⟨ht.1, JobInv.job_ep_rr_tick E hE hI hinv hjob, ?_,
      ((roster_tick E s).2.2).trans hroster⟩
    rw [ht.2]
    exact holds_ep_rr_tick D hS E hE hI hinv hd

theorem run_init (D : Discipline) (E : Env) (hI : IdleContract E) (l : List PCB)
    (hl : (pids l).Nodup) (hload : ∀ q ∈ l, D.load q) : Run D l (init E l) :=
  ⟨Inv.init E hI l hl, JobInv.job_init E hI l, holds_init D E hI l hload, rfl⟩

/-- The loop invariant holds after any number of iterations. -/
theorem run_after_ticks (D : Discipline) (l : List PCB) (tick : SimState → SimState)
    (htick : ∀ s, Run D l s → Run D l (tick s)) :
    ∀ (n : Nat) (s : SimState), Run D l s → Run D l (after_ticks tick n s) := by
  intro n
  induction n with
  | zero => intro s h; exact h
  | succ n ih =>
    intro s h
    unfold after_ticks
    dsimp only
    split_ifs
    · exact htick s h
    · exact ih _ (htick s h)

/-- The state in which the loop ends is the state after some number of iterations. -/
theorem run_loop_eq_after_ticks (tick : SimState → SimState) :
    ∀ (fuel : Nat) (s : SimState), ∃ n, (run_loop tick fuel s).1 = after_ticks tick n s := by
  intro fuel
  induction fuel with
  | zero => intro s; exact ⟨0, rfl⟩
  | succ f ih =>
    intro s
    by_cases hc : loop_condition s = true
    · by_cases hgt : (tick s).current_time > 100000
      · refine ⟨1, ?_⟩
        show (if loop_condition s = true then
          (if (tick s).current_time > 100000 then (tick s, true) else run_loop tick f (tick s))
          else (s, false)).1 =
          (if (tick s).current_time > 100000 then tick s else tick s)
        rw [if_pos hc, if_pos hgt, if_pos hgt]
      · obtain ⟨n, hn⟩ := ih (tick s)
        refine ⟨n + 1, ?_⟩
        show (if loop_condition s = true then
          (if (tick s).current_time > 100000 then (tick s, true) else run_loop tick f (tick s))
          else (s, false)).1 =
          (if (tick s).current_time > 100000 then tick s else after_ticks tick n (tick s))
        rw [if_pos hc, if_neg hgt, if_neg hgt, hn]
    · refine ⟨0, ?_⟩
      show (if loop_condition s = true then
        (if (tick s).current_time > 100000 then (tick s, true) else run_loop tick f (tick s))
        else (s, false)).1 = s
      rw [if_neg hc]

/-- Where a process of the workload is, and what the discipline says of its rows there. -/
theorem run_cases (D : Discipline) {l : List PCB} {s : SimState} (h : Run D l s) (p : PCB)
    (hp : p ∈ l) :
    (∃ x ∈ s.ready_queue, x.static = p.static ∧
      D.ready s.current_time (rows_of p.PID s.execution_status) x) ∨
    (∃ x ∈ s.wait_queue, x.static = p.static ∧
      D.waiting 1 s.current_time (rows_of p.PID s.execution_status) x) ∨
    (s.running.state = States.RUNNING ∧ s.running.static = p.static ∧
      D.cpu s.current_time (rows_of p.PID s.execution_status) s.running) ∨
    rows_of p.PID s.execution_status = [] ∨
    (∃ q, q.static = p.static ∧ D.done (rows_of p.PID s.execution_status) q) := by
  obtain ⟨hinv, _, hd, hroster⟩ := h
  have hmem : p.static ∈ s.list_processes.map PCB.static := by
    rw [hroster]
    exact List.mem_map_of_mem _ hp
  obtain ⟨q, hq, hqs⟩ := List.mem_map.1 hmem
  have hpid : q.PID = p.PID := static_pid hqs
  by_cases hlive : q.PID ∈ pids (live s)
  · rcases live_pid_cases hlive with ⟨x, hx, hxp⟩ | ⟨x, hx, hxp⟩ | ⟨h1, h2⟩
    · left
      refine ⟨x, hx, ?_, ?_⟩
      · rw [← hqs]
        exact (static_of_live hinv (mem_live_iff.2 (Or.inl hx)) hq hxp.symm).symm
      · rw [← hpid, ← hxp]
        exact hd.ready x hx
    · right; left
      refine ⟨x, hx, ?_, ?_⟩
      · rw [← hqs]
        exact (static_of_live hinv (mem_live_iff.2 (Or.inr (Or.inl hx))) hq hxp.symm).symm
      · rw [← hpid, ← hxp]
        exact hd.waiting x hx
    · right; right; left
      refine ⟨h1, ?_, ?_⟩
      · rw [← hqs]
        exact (static_of_live hinv (running_mem_live h1) hq h2.symm).symm
      · rw [← hpid, ← h2]
        exact hd.cpu h1
  · rcases hd.out q hq hlive with h1 | h1
    · right; right; right; left
      rw [← hpid]
      exact h1
    · right; right; right; right
      exact ⟨q, hqs, by rw [← hpid]; exact h1⟩

/-- The loop invariant of a discipline holds in the state in which the loop ends; the loop is
left through its condition or with the clock at 100001. -/
theorem run_at_exit (D : Discipline) (E : Env) (hI : IdleContract E) (l : List PCB)
    (hl : (pids l).Nodup) (hload : ∀ q ∈ l, D.load q) (tick : SimState → SimState)
    (htick : ∀ s, Run D l s → Run D l (tick s))
    (hct : ∀ s, (tick s).current_time = s.current_time + 1) :
    Run D l (run_loop tick 100001 (init E l)).1 ∧
    ((run_loop tick 100001 (init E l)).2 = false →
      loop_condition (run_loop tick 100001 (init E l)).1 = false) ∧
    ((run_loop tick 100001 (init E l)).2 = true →
      (run_loop tick 100001 (init E l)).1.current_time = 100001) :=
  run_loop_induction tick (Run D l) (fun s h _ _ => ⟨htick s h, hct s⟩) 100001 (init E l) rfl
    (run_init D E hI l hl hload)

theorem ep_run_at_exit (D : Discipline) (hS : Sound D false) (E : Env) (hE : SortContract E)
    (hI : IdleContract E) (l : List PCB) (hl : (pids l).Nodup) (hload : ∀ q ∈ l, D.load q)
    (hfree : ∀ r, (E.idle_CPU r).PID ∉ pids l) :
    Run D l (EP.run_simulation E l).1 ∧
    ((EP.run_simulation E l).2 = false → loop_condition (EP.run_simulation E l).1 = false) ∧
    ((EP.run_simulation E l).2 = true → (EP.run_simulation E l).1.current_time = 100001) := by
  unfold EP.run_simulation
  rw [ep_loop_eq]
  exact run_at_exit D E hI l hl hload _ (fun s h => (run_tick D E hE hI l s h).1 hS hfree)
    (fun s => (tick_within E s).1.1)

theorem rr_run_at_exit (D : Discipline) (hS : Sound D true) (E : Env) (hE : SortContract E)
    (hI : IdleContract E) (l : List PCB) (hl : (pids l).Nodup) (hload : ∀ q ∈ l, D.load q) :
    Run D l (RR.run_simulation E l).1 ∧
    ((RR.run_simulation E l).2 = false → loop_condition (RR.run_simulation E l).1 = false) ∧
    ((RR.run_simulation E l).2 = true → (RR.run_simulation E l).1.current_time = 100001) := by
  unfold RR.run_simulation
  rw [rr_loop_eq]
  exact run_at_exit D E hI l hl hload _ (fun s h => (run_tick D E hE hI l s h).2.1 hS)
    (fun s => (tick_within E s).2.1.1)

theorem ep_rr_run_at_exit (D : Discipline) (hS : Sound D true) (E : Env) (hE : SortContract E)
    (hI : IdleContract E) (l : List PCB) (hl : (pids l).Nodup) (hload : ∀ q ∈ l, D.load q) :
    Run D l (EP_RR.run_simulation E l).1 ∧
    ((EP_RR.run_simulation E l).2 = false →
      loop_condition (EP_RR.run_simulation E l).1 = false) ∧
    ((EP_RR.run_simulation E l).2 = true →
      (EP_RR.run_simulation E l).1.current_time = 100001) := by
  unfold EP_RR.run_simulation
  rw [ep_rr_loop_eq]
  exact run_at_exit D E hI l hl hload _ (fun s h => (run_tick D E hE hI l s h).2.2 hS)
    (fun s => (tick_within E s).2.2.1)

/-! ## The lifecycle of a process -/

theorem core_arrival {p q : PCB} (h : p.core = q.core) : p.arrival_time = q.arrival_time :=
  static_arrival (core_static h)

theorem Stage.first (c : Nat) (pid : Int) :
    Stage States.READY c [Event.mk c pid States.NEW States.READY] := by
  refine ⟨?_, List.chain'_singleton _, ?_, _, rfl, rfl⟩
  · intro e he
    simp only [List.head?_cons, Option.some.injEq] at he
    subst he
    exact ⟨rfl, rfl, rfl⟩
  · intro e he
    rw [List.mem_singleton] at he
    subst he
    exact Or.inl ⟨rfl, rfl⟩

theorem Stage.extend {st : States} {a : Nat} {h : List Event} (hs : Stage st a h) (e : Event)
    (hold : e.old_state = st) (ht : e.is_transition) : Stage e.new_state a (h ++ [e]) := by
  obtain ⟨h1, h2, h3, x, hx, hxs⟩ := hs
  refine ⟨?_, ?_, ?_, e, List.getLast?_concat _, rfl⟩
  · intro y hy
    cases h with
    | nil => simp at hx
    | cons z t => exact h1 y hy
  · refine h2.append (List.chain'_singleton _) ?_
    intro u hu v hv
    rw [hx] at hu
    simp only [Option.mem_def, Option.some.injEq] at hu
    simp only [List.head?_cons, Option.mem_def, Option.some.injEq] at hv
    subst hu hv
    rw [hold, hxs]
  · intro y hy
    rcases List.mem_append.1 hy with hy | hy
    · exact h3 y hy
    · rw [List.mem_singleton] at hy
      subst hy
      exact ht

theorem Stage.of_static {st : States} {a a' : Nat} {h : List Event} (hs : Stage st a h)
    (ha : a = a') : Stage st a' h := ha ▸ hs

/-- The discipline of the lifecycle is sound for the three simulators. -/
theorem sound_lifecycle (stamp : Bool) : Sound lifecycle stamp where
  arrive := by
    intro c q p _ hq hp
    show Stage States.READY p.arrival_time _
    rw [core_arrival hp, hq]
    exact Stage.first c q.PID
  release := by
    intro c h w p hw _ hp
    show Stage States.READY p.arrival_time _
    rw [core_arrival hp]
    exact Stage.extend hw (Event.mk c w.PID States.WAITING States.READY) rfl
      (Or.inr (Or.inr (Or.inr (Or.inr (Or.inr ⟨rfl, rfl⟩)))))
  hold := fun _ _ _ hw _ => hw
  preempt := by
    intro c h r p hr hp
    show Stage States.READY p.arrival_time _
    rw [core_arrival hp]
    exact Stage.extend hr (Event.mk c r.PID States.RUNNING States.READY) rfl
      (Or.inr (Or.inr (Or.inr (Or.inl ⟨rfl, rfl⟩))))
  run_on := by
    intro c h r p hr hp _ _
    show Stage States.RUNNING p.arrival_time _
    rw [static_arrival hp.1]
    exact hr
  block := by
    intro c h r w hr hw _ _
    show Stage States.WAITING w.arrival_time _
    rw [static_arrival hw.1]
    exact Stage.extend hr (Event.mk c r.PID States.RUNNING States.WAITING) rfl
      (Or.inr (Or.inr (Or.inl ⟨rfl, rfl⟩)))
  expire := by
    intro c h r p hr hp _ _
    show Stage States.READY p.arrival_time _
    rw [static_arrival hp.1]
    exact Stage.extend hr (Event.mk c r.PID States.RUNNING States.READY) rfl
      (Or.inr (Or.inr (Or.inr (Or.inl ⟨rfl, rfl⟩))))
  finish := by
    intro c h r q hr _ hq
    show Stage States.TERMINATED q.arrival_time _
    rw [static_arrival hq]
    exact Stage.extend hr (Event.mk c r.PID States.RUNNING States.TERMINATED) rfl
      (Or.inr (Or.inr (Or.inr (Or.inr (Or.inl ⟨rfl, rfl⟩)))))
  dispatch := by
    intro c h p r hp hr _ _
    show Stage States.RUNNING r.arrival_time _
    rw [static_arrival hr]
    exact Stage.extend hp (Event.mk c p.PID States.READY States.RUNNING) rfl
      (Or.inr (Or.inl ⟨rfl, rfl⟩))
  tick_ready := fun _ _ _ h => h
  tick_waiting := fun _ _ _ h => h
  tick_cpu := fun _ _ _ h => h

theorem follows_lifecycle_nil (a : Nat) : follows_lifecycle a [] := by
  refine ⟨?_, ?_, List.chain'_nil, ?_, ?_⟩
  · intro e he
    simp at he
  · intro pre e post h
    simp at h
  · intro e he
    simp at he
  · intro pre e post h
    simp at h

/-- No transition of the lifecycle leads to NEW or leaves TERMINATED. -/
theorem Event.is_transition.sound {e : Event} (h : e.is_transition) :
    e.new_state ≠ States.NEW ∧ e.old_state ≠ States.TERMINATED := by
  rcases h with h | h | h | h | h | h <;> rw [h.1, h.2] <;> exact ⟨by decide, by decide⟩

theorem Stage.follows {st : States} {a : Nat} {h : List Event} (hs : Stage st a h) :
    follows_lifecycle a h := by
  obtain ⟨h1, h2, h3, _⟩ := hs
  refine ⟨h1, ?_, h2, h3, ?_⟩
  · intro pre e post he hnew
    rcases List.eq_nil_or_concat pre with hpre | ⟨pre', x, hpre⟩
    · exact hpre
    · exfalso
      rw [he, hpre, List.concat_eq_append, List.append_assoc] at h2
      have hc : List.Chain' (fun e x => x.old_state = e.new_state) (x :: e :: post) :=
        (List.chain'_split.1 h2).2
      have hxe : e.old_state = x.new_state := (List.chain'_cons.1 hc).1
      have hx : x ∈ h := by
        rw [he, hpre]
        simp
      exact (h3 x hx).sound.1 (hxe ▸ hnew)
  · intro pre e post he hterm
    cases post with
    | nil => rfl
    | cons y rest =>
      exfalso
      rw [he] at h2
      have hc := (List.chain'_split.1 h2).2
      have hye : y.old_state = e.new_state := (List.chain'_cons.1 hc).1
      have hy : y ∈ h := by
        rw [he]
        simp
      exact (h3 y hy).sound.2 (hye.trans hterm)

/-- In a state of the loop of a simulator, the rows of every process of the workload follow the
lifecycle. -/
theorem follows_lifecycle_of_run {l : List PCB} {s : SimState} (h : Run lifecycle l s)
    (p : PCB) (hp : p ∈ l) :
    follows_lifecycle p.arrival_time (rows_of p.PID s.execution_status) := by
  rcases run_cases lifecycle h p hp with ⟨x, _, hx, hs⟩ | ⟨x, _, hx, hs⟩ | ⟨_, hx, hs⟩ | hs |
    ⟨q, hx, hs⟩
  · exact (Stage.of_static hs (static_arrival hx)).follows
  · exact (Stage.of_static hs (static_arrival hx)).follows
  · exact (Stage.of_static hs (static_arrival hx)).follows
  · rw [hs]
    exact follows_lifecycle_nil _
  · exact (Stage.of_static hs (static_arrival hx)).follows

/-- C20. For every workload with pairwise distinct PIDs, every allocator and every `std::sort`
and `idle_CPU` within their contracts, the rows of each process in the table returned by RR and
by EP_RR, and by EP when the placeholder of the idle CPU does not carry the PID of a process,
follow the lifecycle: the first row is NEW -> READY at the arrival time (and no later row is an
admission), each row starts in the state the row before it led to, every row is one of the six
transitions, and no row follows RUNNING -> TERMINATED. -/
theorem events_follow_lifecycle (E : Env) (hE : SortContract E) (hI : IdleContract E)
    (l : List PCB) (hl : (pids l).Nodup) (p : PCB) (hp : p ∈ l) :
    ((∀ r, (E.idle_CPU r).PID ∉ pids l) →
      follows_lifecycle p.arrival_time
        (rows_of p.PID (EP.run_simulation E l).1.execution_status)) ∧
    follows_lifecycle p.arrival_time
      (rows_of p.PID (RR.run_simulation E l).1.execution_status) ∧
    follows_lifecycle p.arrival_time
      (rows_of p.PID (EP_RR.run_simulation E l).1.execution_status) :=
  ⟨fun hfree => follows_lifecycle_of_run
      (ep_run_at_exit lifecycle (sound_lifecycle false) E hE hI l hl (fun _ _ => trivial)
        hfree).1 p hp,
    follows_lifecycle_of_run
      (rr_run_at_exit lifecycle (sound_lifecycle true) E hE hI l hl (fun _ _ => trivial)).1 p hp,
    follows_lifecycle_of_run
      (ep_rr_run_at_exit lifecycle (sound_lifecycle true) E hE hI l hl
        (fun _ _ => trivial)).1 p hp⟩

theorem events_follow_lifecycle_witness :
    follows_lifecycle 0
      (rows_of 1 (EP.run_simulation grant_all io_return_scenario).1.execution_status) ∧
    follows_lifecycle 0
      (rows_of 1 (RR.run_simulation grant_all io_return_scenario).1.execution_status) ∧
    follows_lifecycle 0
      (rows_of 1 (EP_RR.run_simulation grant_all io_return_scenario).1.execution_status) :=
  have h := events_follow_lifecycle grant_all sortContract_grant_all idleContract_grant_all
    io_return_scenario (by decide) (mk_process 1 0 4 2 5 1) (by decide)
  ⟨h.1 (fun _ => by show idle_pcb.PID ∉ pids io_return_scenario; decide), h.2.1, h.2.2⟩

/-! ## The start time of a process -/

theorem first_dispatch_append (h rows : List Event) :
    first_dispatch (h ++ rows) = (first_dispatch h).or (first_dispatch rows) := by
  unfold first_dispatch
  rw [List.find?_append]
  cases List.find? (fun e => decide e.is_dispatch) h <;> rfl

theorem first_dispatch_skip (h : List Event) (e : Event) (he : ¬ e.is_dispatch) :
    first_dispatch (h ++ [e]) = first_dispatch h := by
  rw [first_dispatch_append]
  have : first_dispatch [e] = none := by
    unfold first_dispatch
    rw [List.find?_cons_of_neg _ (by simpa using he)]
    rfl
  rw [this]
  cases first_dispatch h <;> rfl

theorem started_once.start_skip {p q : PCB} {h : List Event} (hq : started_once q h)
    (hs : p.start_time = q.start_time) (ha : p.arrival_time = q.arrival_time) (e : Event)
    (he : ¬ e.is_dispatch) : started_once p (h ++ [e]) := by
  unfold started_once at hq ⊢
  rw [first_dispatch_skip h e he, hs, ha]
  exact hq

theorem started_once.start_same {p q : PCB} {h : List Event} (hq : started_once q h)
    (hs : p.start_time = q.start_time) (ha : p.arrival_time = q.arrival_time) :
    started_once p h := by
  unfold started_once at hq ⊢
  rw [hs, ha]
  exact hq

theorem core_start {p q : PCB} (h : p.core = q.core) : p.start_time = q.start_time := by
  simp only [PCB.core, Prod.mk.injEq] at h
  exact h.2.2

/-- The discipline of the start time is sound for the three simulators. -/
theorem sound_start_times (stamp : Bool) : Sound start_times stamp where
  arrive := by
    intro c q p hq hc hp
    refine ⟨by rw [core_arrival hp, hc], ?_⟩
    show started_once p [Event.mk c q.PID States.NEW States.READY]
    unfold started_once
    have : first_dispatch [Event.mk c q.PID States.NEW States.READY] = none := by
      simp [first_dispatch, Event.is_dispatch]
    rw [this]
    show p.start_time = -1
    rw [core_start hp]
    exact hq
  release := by
    intro c h w p hw _ hp
    exact ⟨by rw [core_arrival hp]; exact hw.1,
      hw.2.start_skip (core_start hp) (core_arrival hp) _ (by simp [Event.is_dispatch])⟩
  hold := fun _ _ _ hw _ => hw
  preempt := by
    intro c h r p hr hp
    exact ⟨by rw [core_arrival hp]; exact hr.1,
      hr.2.1.start_skip (core_start hp) (core_arrival hp) _ (by simp [Event.is_dispatch])⟩
  run_on := by
    intro c h r p hr hp _ _
    exact ⟨by rw [static_arrival hp.1]; exact hr.1,
      hr.2.1.start_same hp.2.2 (static_arrival hp.1), hr.2.2⟩
  block := by
    intro c h r w hr hw _ _
    exact ⟨by rw [static_arrival hw.1]; exact hr.1,
      hr.2.1.start_skip hw.2.2 (static_arrival hw.1) _ (by simp [Event.is_dispatch])⟩
  expire := by
    intro c h r p hr hp _ _
    exact ⟨by rw [static_arrival hp.1]; exact hr.1,
      hr.2.1.start_skip hp.2.2 (static_arrival hp.1) _ (by simp [Event.is_dispatch])⟩
  finish := fun _ _ _ _ _ _ _ => trivial
  dispatch := by
    intro c h p r hp hr _ hstart
    have ha : r.arrival_time = p.arrival_time := static_arrival hr
    obtain ⟨hp1, hp2⟩ := hp
    have hd : first_dispatch [Event.mk c p.PID States.READY States.RUNNING] = some c := by
      simp [first_dispatch, Event.is_dispatch]
    refine ⟨by rw [ha]; exact hp1, ?_, ?_⟩
    · show started_once r (h ++ [Event.mk c p.PID States.READY States.RUNNING])
      unfold started_once at hp2 ⊢
      rw [first_dispatch_append, hd]
      cases hf : first_dispatch h with
      | none =>
        rw [hf] at hp2
        have hp3 : p.start_time = -1 := hp2
        rw [hp3] at hstart
        show r.start_time = (c : Int) ∧ r.arrival_time ≤ c
        exact ⟨by simpa using hstart, by rw [ha]; exact hp1⟩
      | some d =>
        rw [hf] at hp2
        have hp3 : p.start_time = (d : Int) ∧ p.arrival_time ≤ d := hp2
        show r.start_time = (d : Int) ∧ r.arrival_time ≤ d
        refine ⟨?_, by rw [ha]; exact hp3.2⟩
        rw [hstart, if_neg (by rw [hp3.1]; omega), hp3.1]
    · show first_dispatch (h ++ [Event.mk c p.PID States.READY States.RUNNING]) ≠ none
      rw [first_dispatch_append, hd]
      cases first_dispatch h <;> simp
  tick_ready := fun _ _ _ h => ⟨Nat.le_succ_of_le h.1, h.2⟩
  tick_waiting := fun _ _ _ h => ⟨Nat.le_succ_of_le h.1, h.2⟩
  tick_cpu := fun _ _ _ h => ⟨Nat.le_succ_of_le h.1, h.2⟩

/-- The table after more iterations extends the table after fewer. -/
theorem after_ticks_rows (tick : SimState → SimState)
    (htick : ∀ s, ∃ rows, (tick s).execution_status = s.execution_status ++ rows) :
    ∀ (n m : Nat), n ≤ m → ∀ s, ∃ rows, (after_ticks tick m s).execution_status =
      (after_ticks tick n s).execution_status ++ rows := by
  have hstep : ∀ (n : Nat) (s : SimState), ∃ rows,
      (after_ticks tick (n + 1) s).execution_status =
        (after_ticks tick n s).execution_status ++ rows := by
    intro n
    induction n with
    | zero =>
      intro s
      have : after_ticks tick 1 s = tick s := by
        show (if (tick s).current_time > 100000 then tick s else tick s) = tick s
        split_ifs <;> rfl
      rw [this]
      exact htick s
    | succ n ih =>
      intro s
      by_cases hgt : (tick s).current_time > 100000
      · refine ⟨[], ?_⟩
        have h1 : after_ticks tick (n + 1 + 1) s = tick s := by
          show (if (tick s).current_time > 100000 then tick s else _) = tick s
          rw [if_pos hgt]
        have h2 : after_ticks tick (n + 1) s = tick s := by
          show (if (tick s).current_time > 100000 then tick s else _) = tick s
          rw [if_pos hgt]
        rw [h1, h2, List.append_nil]
      · have h1 : after_ticks tick (n + 1 + 1) s = after_ticks tick (n + 1) (tick s) := by
          show (if (tick s).current_time > 100000 then tick s else _) = _
          rw [if_neg hgt]
        have h2 : after_ticks tick (n + 1) s = after_ticks tick n (tick s) := by
          show (if (tick s).current_time > 100000 then tick s else _) = _
          rw [if_neg hgt]
        rw [h1, h2]
        exact ih (tick s)
  intro n m hnm
  induction m with
  | zero =>
    intro s
    have : n = 0 := by omega
    subst this
    exact ⟨[], (List.append_nil _).symm⟩
  | succ m ih =>
    intro s
    rcases Nat.lt_or_ge n (m + 1) with hlt | hge
    · obtain ⟨r1, hr1⟩ := ih (by omega) s
      obtain ⟨r2, hr2⟩ := hstep m s
      exact ⟨r1 ++ r2, by rw [hr2, hr1, List.append_assoc]⟩
    · have : n = m + 1 := by omega
      subst this
      exact ⟨[], (List.append_nil _).symm⟩

/-- The start time is set once in every run of a loop body that keeps the discipline of the
start time. -/
theorem start_time_set_once_of_run (E : Env) (hI : IdleContract E) (l : List PCB)
    (hl : (pids l).Nodup) (hload : ∀ q ∈ l, q.start_time = -1) (tick : SimState → SimState)
    (htick : ∀ s, Run start_times l s → Run start_times l (tick s))
    (hrows : ∀ s, ∃ rows, (tick s).execution_status = s.execution_status ++ rows) :
    start_time_set_once tick (init E l) := by
  have hrun : ∀ n, Run start_times l (after_ticks tick n (init E l)) := fun n =>
    run_after_ticks start_times l tick htick n _ (run_init start_times E hI l hl hload)
  have ha : ∀ n, ∀ x ∈ live (after_ticks tick n (init E l)),
      started_once x (rows_of x.PID (after_ticks tick n (init E l)).execution_status) := by
    intro n x hx
    obtain ⟨_, _, hd, _⟩ := hrun n
    rcases mem_live_iff.1 hx with h | h | ⟨h1, h2⟩
    · exact (hd.ready x h).2
    · exact (hd.waiting x h).2
    · rw [h2]
      exact (hd.cpu h1).2.1
  refine ⟨ha, ?_, ?_⟩
  · intro n hr
    obtain ⟨_, _, hd, _⟩ := hrun n
    have h := hd.cpu hr
    have h1 : started_once _ _ := h.2.1
    have h2 : first_dispatch _ ≠ none := h.2.2
    unfold started_once at h1
    cases hf : first_dispatch (rows_of (after_ticks tick n (init E l)).running.PID
      (after_ticks tick n (init E l)).execution_status) with
    | none => exact absurd hf h2
    | some d =>
      rw [hf] at h1
      have h3 : (after_ticks tick n (init E l)).running.start_time = (d : Int) := h1.1
      rw [h3]
      omega
  · intro n m hnm x hx y hy hpid hset
    have hx1 := ha n x hx
    have hy1 := ha m y hy
    obtain ⟨rows, hrows⟩ := after_ticks_rows tick hrows n m hnm (init E l)
    rw [hpid, hrows, rows_of_append] at hy1
    unfold started_once at hx1 hy1
    rw [first_dispatch_append] at hy1
    cases hf : first_dispatch (rows_of x.PID (after_ticks tick n (init E l)).execution_status)
      with
    | none =>
      rw [hf] at hx1
      exact absurd hx1 hset
    | some d =>
      rw [hf] at hx1 hy1
      have h3 : x.start_time = (d : Int) := hx1.1
      have h4 : y.start_time = (d : Int) := hy1.1
      rw [h3, h4]

/-- C12. For every workload with pairwise distinct PIDs whose processes are loaded with start
time -1, every allocator and every `std::sort` and `idle_CPU` within their contracts, in RR and
EP_RR, and in EP when the placeholder of the idle CPU does not carry the PID of a process: after
any number of iterations of the loop, the start time of a process in a queue or on the CPU is -1
if the table has no READY -> RUNNING row for it, and otherwise the tick of its first
READY -> RUNNING row, which is not before its arrival time; the process on the CPU has a start
time; and a start time that has been set is the same at every later iteration, whatever
dispatches, preemptions and I/O round trips lie between. The state in which `run_simulation` ends
is one of these states. -/
theorem start_time_is_first_dispatch (E : Env) (hE : SortContract E) (hI : IdleContract E)
    (l : List PCB) (hl : (pids l).Nodup) (hload : ∀ q ∈ l, q.start_time = -1) :
    ((∀ r, (E.idle_CPU r).PID ∉ pids l) →
      start_time_set_once (EP.tick E) (init E l) ∧
      ∃ n, (EP.run_simulation E l).1 = after_ticks (EP.tick E) n (init E l)) ∧
    (start_time_set_once (RR.tick E) (init E l) ∧
      ∃ n, (RR.run_simulation E l).1 = after_ticks (RR.tick E) n (init E l)) ∧
    (start_time_set_once (EP_RR.tick E) (init E l) ∧
      ∃ n, (EP_RR.run_simulation E l).1 = after_ticks (EP_RR.tick E) n (init E l)) := by
  refine ⟨fun hfree => ⟨?_, ?_⟩, ⟨?_, ?_⟩, ⟨?_, ?_⟩⟩
  · exact start_time_set_once_of_run E hI l hl hload _
      (fun s h => (run_tick start_times E hE hI l s h).1 (sound_start_times false) hfree)
      (fun s => (reg_tick E s).1.1.imp fun _ h => h.1)
  · unfold EP.run_simulation
    rw [ep_loop_eq]
    exact run_loop_eq_after_ticks _ _ _
  · exact start_time_set_once_of_run E hI l hl hload _
      (fun s h => (run_tick start_times E hE hI l s h).2.1 (sound_start_times true))
      (fun s => (reg_tick E s).2.1.1.imp fun _ h => h.1)
  · unfold RR.run_simulation
    rw [rr_loop_eq]
    exact run_loop_eq_after_ticks _ _ _
  · exact start_time_set_once_of_run E hI l hl hload _
      (fun s h => (run_tick start_times E hE hI l s h).2.2 (sound_start_times true))
      (fun s => (reg_tick E s).2.2.1.imp fun _ h => h.1)
  · unfold EP_RR.run_simulation
    rw [ep_rr_loop_eq]
    exact run_loop_eq_after_ticks _ _ _

theorem start_time_is_first_dispatch_witness :
    start_time_set_once (EP.tick grant_all) (init grant_all io_return_scenario) ∧
    start_time_set_once (RR.tick grant_all) (init grant_all io_return_scenario) ∧
    start_time_set_once (EP_RR.tick grant_all) (init grant_all io_return_scenario) :=
  have h := start_time_is_first_dispatch grant_all sortContract_grant_all idleContract_grant_all
    io_return_scenario (by decide) (by decide)
  ⟨(h.1 (fun _ => by show idle_pcb.PID ∉ pids io_return_scenario; decide)).1, h.2.1.1,
    h.2.2.1⟩

/-! ## The number of I/O requests of a process -/

theorem static_io_freq {p q : PCB} (h : p.static = q.static) : p.io_freq = q.io_freq :=
  congrArg (fun x => x.2.2.2.2.1) h

theorem static_io_duration {p q : PCB} (h : p.static = q.static) :
    p.io_duration = q.io_duration :=
  congrArg (fun x => x.2.2.2.2.2) h

theorem core_remaining {p q : PCB} (h : p.core = q.core) :
    p.remaining_time = q.remaining_time := by
  simp only [PCB.core, Prod.mk.injEq] at h
  exact h.2.1

theorem io_starts_skip (h : List Event) (e : Event) (he : ¬ e.is_io_start) :
    io_starts (h ++ [e]) = io_starts h := by
  unfold io_starts
  rw [List.countP_append, List.countP_cons_of_neg _ _ (by simpa using he)]
  rfl

theorem io_starts_count (h : List Event) (e : Event) (he : e.is_io_start) :
    io_starts (h ++ [e]) = io_starts h + 1 := by
  unfold io_starts
  rw [List.countP_append, List.countP_cons_of_pos _ _ (by simpa using he)]
  rfl

/-- Two records with the same static fields and remaining time are accounted for alike. -/
theorem Accounted.acc_same {p q : PCB} {h : List Event} (hq : Accounted q h)
    (hs : p.static = q.static) (hr : p.remaining_time = q.remaining_time) : Accounted p h := by
  unfold Accounted at hq ⊢
  rw [static_io_freq hs, static_processing hs, hr]
  exact hq

/-- A row that is neither an I/O start nor a termination leaves the account as it is. -/
theorem Accounted.acc_skip {p : PCB} {h : List Event} (hp : Accounted p h) (e : Event)
    (h1 : ¬ e.is_io_start) (h2 : ¬ e.is_termination) : Accounted p (h ++ [e]) := by
  unfold Accounted at hp ⊢
  rw [io_starts_skip h e h1]
  refine ⟨?_, hp.2⟩
  intro x hx
  rcases List.mem_append.1 hx with hx | hx
  · exact hp.1 x hx
  · rw [List.mem_singleton] at hx
    subst hx
    exact h2

/-- A tick on the CPU that does not start an I/O and leaves burst: the account stands. -/
theorem Accounted.acc_charge {r p : PCB} {h : List Event} (hr : Accounted r h) (hc : Charged r p)
    (hio : ¬ io_due p) (hpos : p.remaining_time ≠ 0) : Accounted p h := by
  obtain ⟨hs, hrem, _⟩ := hc
  unfold Accounted at hr ⊢
  rw [static_io_freq hs, static_processing hs]
  refine ⟨hr.1, hr.2.1, fun hB => ?_⟩
  obtain ⟨h1, h2, h3⟩ := hr.2.2 hB
  rw [udec_of_pos h1] at hrem
  refine ⟨by omega, by omega, fun hf => ?_⟩
  rw [h3 hf]
  have hnd : ¬ (usub p.processing_time p.remaining_time > 0 ∧
      usub p.processing_time p.remaining_time % p.io_freq = 0) := by
    intro hh
    exact hio ⟨⟨by rw [static_io_freq hs]; exact hf, by omega⟩, hh⟩
  rw [static_processing hs, static_io_freq hs] at hnd
  have hu : usub r.processing_time p.remaining_time =
      r.processing_time - r.remaining_time + 1 := by
    unfold usub
    rw [if_pos (by omega)]
    omega
  rw [hu] at hnd
  have hmod : (r.processing_time - r.remaining_time + 1) % r.io_freq ≠ 0 := by
    intro hh
    exact hnd ⟨by omega, hh⟩
  have hsub : r.processing_time - p.remaining_time =
      r.processing_time - r.remaining_time + 1 := by omega
  rw [hsub, Nat.succ_div, if_neg (fun hd => hmod (Nat.mod_eq_zero_of_dvd hd))]
  rfl

/-- A tick on the CPU that starts an I/O: one more RUNNING -> WAITING row, one more multiple of the
I/O frequency consumed. -/
theorem Accounted.acc_block {r w : PCB} {h : List Event} (hr : Accounted r h) (hc : Charged r w)
    (hio : io_due w) (e : Event) (he : e.is_io_start) : Accounted w (h ++ [e]) := by
  obtain ⟨hs, hrem, _⟩ := hc
  have hf : 0 < r.io_freq := by
    rw [← static_io_freq hs]
    exact hio.1.1
  unfold Accounted at hr ⊢
  rw [static_io_freq hs, static_processing hs, io_starts_count h e he]
  refine ⟨?_, fun h0 => absurd hf (by omega), fun hB => ?_⟩
  · intro x hx
    rcases List.mem_append.1 hx with hx | hx
    · exact hr.1 x hx
    · rw [List.mem_singleton] at hx
      subst hx
      intro ht
      have h1 := he.2
      rw [ht.2] at h1
      exact absurd h1 (by decide)
  · obtain ⟨h1, h2, h3⟩ := hr.2.2 hB
    rw [udec_of_pos h1] at hrem
    have hw : w.remaining_time > 0 := hio.1.2
    refine ⟨by omega, by omega, fun _ => ?_⟩
    rw [h3 hf]
    have hmod := hio.2.2
    rw [static_processing hs, static_io_freq hs] at hmod
    have hu : usub r.processing_time w.remaining_time =
        r.processing_time - r.remaining_time + 1 := by
      unfold usub
      rw [if_pos (by omega)]
      omega
    rw [hu] at hmod
    have hsub : r.processing_time - w.remaining_time =
        r.processing_time - r.remaining_time + 1 := by omega
    rw [hsub, Nat.succ_div, if_pos (Nat.dvd_of_mod_eq_zero hmod)]

/-- The last tick on the CPU settles the account. -/
theorem Accounted.acc_finish {r q : PCB} {h : List Event} (hr : Accounted r h)
    (hz : udec r.remaining_time = 0) (hs : q.static = r.static) (e : Event)
    (he : ¬ e.is_io_start) : Settled q (h ++ [e]) := by
  unfold Accounted at hr
  unfold Settled
  rw [static_io_freq hs, static_processing hs, io_starts_skip h e he]
  refine ⟨hr.2.1, fun hB hf => ?_⟩
  obtain ⟨h1, h2, h3⟩ := hr.2.2 hB
  rw [udec_of_pos h1] at hz
  have : r.remaining_time = 1 := by omega
  rw [h3 hf, this]

/-- The discipline of the I/O requests is sound for the three simulators. -/
theorem sound_io_account (stamp : Bool) : Sound io_account stamp where
  arrive := by
    intro c q p hq _ hp
    show Accounted p [Event.mk c q.PID States.NEW States.READY]
    have hr : p.remaining_time = p.processing_time := by
      rw [core_remaining hp, static_processing (core_static hp)]
      exact hq
    refine ⟨?_, fun _ => by simp [io_starts, Event.is_io_start], fun hB => ?_⟩
    · intro e he
      rw [List.mem_singleton] at he
      subst he
      simp [Event.is_termination]
    · refine ⟨by omega, by omega, fun _ => ?_⟩
      rw [hr, Nat.sub_self, Nat.zero_div]
      simp [io_starts, Event.is_io_start]
  release := by
    intro c h w p hw _ hp
    exact (Accounted.acc_same hw (core_static hp) (core_remaining hp)).acc_skip _
      (by simp [Event.is_io_start]) (by simp [Event.is_termination])
  hold := fun _ _ _ hw _ => hw
  preempt := by
    intro c h r p hr hp
    exact (Accounted.acc_same hr (core_static hp) (core_remaining hp)).acc_skip _
      (by simp [Event.is_io_start]) (by simp [Event.is_termination])
  run_on := fun _ _ _ _ hr hc hio hpos => Accounted.acc_charge hr hc hio hpos
  block := fun _ _ _ _ hr hc hio _ => Accounted.acc_block hr hc hio _ ⟨rfl, rfl⟩
  expire := fun _ _ _ _ hr hc hio hpos => (Accounted.acc_charge hr hc hio hpos).acc_skip _
    (by simp [Event.is_io_start]) (by simp [Event.is_termination])
  finish := fun _ _ _ _ hr hz hs => Accounted.acc_finish hr hz hs _ (by simp [Event.is_io_start])
  dispatch := by
    intro c h p r hp hs hr _
    exact (Accounted.acc_same hp hs hr).acc_skip _
      (by simp [Event.is_io_start]) (by simp [Event.is_termination])
  tick_ready := fun _ _ _ h => h
  tick_waiting := fun _ _ _ h => h
  tick_cpu := fun _ _ _ h => h

theorem mem_rows_of {pid : Int} {rows : List Event} {e : Event} :
    e ∈ rows_of pid rows ↔ e ∈ rows ∧ e.PID = pid := by
  unfold rows_of
  rw [List.mem_filter]
  simp

theorem Accounted.counted {x p : PCB} {rows : List Event}
    (h : Accounted x (rows_of p.PID rows)) (hs : x.static = p.static) : io_counted p rows := by
  refine ⟨fun hf => h.2.1 (by rw [static_io_freq hs]; exact hf), fun _ _ ht => ?_⟩
  obtain ⟨e, he, hpid, hterm⟩ := ht
  exact absurd hterm (h.1 e (mem_rows_of.2 ⟨he, hpid⟩))

/-- In a state of the loop of a simulator, the table accounts for the I/O requests of every
process of the workload. -/
theorem io_counted_of_run {l : List PCB} {s : SimState} (h : Run io_account l s)
    (p : PCB) (hp : p ∈ l) : io_counted p s.execution_status := by
  rcases run_cases io_account h p hp with ⟨x, _, hx, hs⟩ | ⟨x, _, hx, hs⟩ | ⟨_, hx, hs⟩ | hs |
    ⟨q, hx, hs⟩
  · exact Accounted.counted hs hx
  · exact Accounted.counted hs hx
  · exact Accounted.counted hs hx
  · refine ⟨fun _ => by rw [hs]; rfl, fun _ _ ht => ?_⟩
    obtain ⟨e, he, hpid, _⟩ := ht
    have := mem_rows_of.2 ⟨he, hpid⟩
    rw [hs] at this
    simp at this
  · have hs' : Settled q (rows_of p.PID s.execution_status) := hs
    unfold Settled at hs'
    rw [static_io_freq hx, static_processing hx] at hs'
    exact ⟨hs'.1, fun hf hB _ => hs'.2 hB hf⟩

/-- The condition of the I/O check in the code is the trigger of the specification, as long as
the remaining time has not wrapped. -/
theorem io_due_iff_io_trigger (r : PCB) (h : r.remaining_time ≤ r.processing_time) :
    io_due r ↔ io_trigger r := by
  unfold io_due io_trigger usub
  rw [if_pos h]
  constructor
  · rintro ⟨⟨h1, h2⟩, h3, h4⟩
    exact ⟨h1, h3, Nat.dvd_of_mod_eq_zero h4, by omega⟩
  · rintro ⟨h1, h2, h3, h4⟩
    exact ⟨⟨h1, by omega⟩, h2, Nat.mod_eq_zero_of_dvd h3⟩

theorem blocks_on_trigger_io_check (E : Env) (hI : IdleContract E) (s : SimState)
    (h : s.running.remaining_time ≤ s.running.processing_time) :
    blocks_on_trigger (EP.io_check E) s ∧ blocks_on_trigger (Quantum.io_check E) s := by
  refine ⟨⟨fun ht => ?_, fun ht => ?_⟩, ⟨fun ht => ?_, fun ht => ?_⟩⟩
  · rw [ep_io_check_of_due E s ((io_due_iff_io_trigger _ h).2 ht)]
    exact ⟨rfl, _, rfl, rfl⟩
  · exact ep_io_check_of_not_due E s (fun hd => ht ((io_due_iff_io_trigger _ h).1 hd))
  · rw [quantum_io_check_of_due E s ((io_due_iff_io_trigger _ h).2 ht)]
    exact ⟨rfl, _, rfl, rfl⟩
  · exact quantum_io_check_of_not_due E s (fun hd => ht ((io_due_iff_io_trigger _ h).1 hd))

/-- C18. For every workload with pairwise distinct PIDs whose processes are loaded with the
remaining time equal to the burst, every allocator and every `std::sort` and `idle_CPU` within
their contracts, in RR and EP_RR, and in EP when the placeholder of the idle CPU does not carry
the PID of a process: a process with I/O frequency `f > 0` and burst `B >= 1` that has its
RUNNING -> TERMINATED row has exactly `(B - 1) / f` RUNNING -> WAITING rows in the returned
table, and a process with I/O frequency 0 has none. The I/O check of STEP 3, entered after the
decrement with a remaining time that is at most the burst, sends the process on the CPU to the
wait queue exactly when its consumed time `B - remaining` is a positive multiple of `f` below
`B`. -/
theorem io_requests_are_counted (E : Env) (hE : SortContract E) (hI : IdleContract E)
    (l : List PCB) (hl : (pids l).Nodup)
    (hload : ∀ q ∈ l, q.remaining_time = q.processing_time) (p : PCB) (hp : p ∈ l) :
    ((∀ r, (E.idle_CPU r).PID ∉ pids l) →
      io_counted p (EP.run_simulation E l).1.execution_status) ∧
    io_counted p (RR.run_simulation E l).1.execution_status ∧
    io_counted p (EP_RR.run_simulation E l).1.execution_status ∧
    ∀ s : SimState, s.running.remaining_time ≤ s.running.processing_time →
      blocks_on_trigger (EP.io_check E) s ∧ blocks_on_trigger (Quantum.io_check E) s :=
  ⟨fun hfree => io_counted_of_run
      (ep_run_at_exit io_account (sound_io_account false) E hE hI l hl hload hfree).1 p hp,
    io_counted_of_run
      (rr_run_at_exit io_account (sound_io_account true) E hE hI l hl hload).1 p hp,
    io_counted_of_run
      (ep_rr_run_at_exit io_account (sound_io_account true) E hE hI l hl hload).1 p hp,
    fun s h => blocks_on_trigger_io_check E hI s h⟩

theorem io_requests_are_counted_witness :
    io_starts (rows_of 1 (EP.run_simulation grant_all io_return_scenario).1.execution_status) =
      1 ∧
    io_starts (rows_of 1 (RR.run_simulation grant_all io_return_scenario).1.execution_status) =
      1 ∧
    io_starts (rows_of 2 (EP_RR.run_simulation grant_all io_return_scenario).1.execution_status)
      = 0 :=
  have h1 := io_requests_are_counted grant_all sortContract_grant_all idleContract_grant_all
    io_return_scenario (by decide) (by decide) (mk_process 1 0 4 2 5 1) (by decide)
  have h2 := io_requests_are_counted grant_all sortContract_grant_all idleContract_grant_all
    io_return_scenario (by decide) (by decide) (mk_process 2 0 20 0 0 5) (by decide)
  ⟨(h1.1 (fun _ => by show idle_pcb.PID ∉ pids io_return_scenario; decide)).2 (by decide)
      (by decide) (by unfold was_terminated; decide),
    h1.2.1.2 (by decide) (by decide) (by unfold was_terminated; decide),
    h2.2.2.1.1 (by decide)⟩

/-! ## The length of an I/O wait (RR and EP_RR) -/

theorem core_io_duration {p q : PCB} (h : p.core = q.core) : p.io_duration = q.io_duration :=
  static_io_duration (core_static h)

/-- A row after a row that is no I/O start keeps the waits exact. -/
theorem waits_exactly.wait_skip {d : Nat} {h : List Event} (hw : waits_exactly d h)
    (hlast : ∀ e, h.getLast? = some e → ¬ e.is_io_start) (x : Event) :
    waits_exactly d (h ++ [x]) := by
  refine List.Chain'.append hw (List.chain'_singleton _) ?_
  intro u hu v _ hio
  exact absurd hio (hlast u hu)

theorem getLast?_concat_not {h : List Event} {x : Event} (hx : ¬ x.is_io_start) :
    ∀ e, (h ++ [x]).getLast? = some e → ¬ e.is_io_start := by
  intro e he
  rw [List.getLast?_concat, Option.some.injEq] at he
  rw [← he]
  exact hx

/-- The discipline of the I/O wait is sound for RR and EP_RR. -/
theorem sound_io_waits : Sound io_waits true where
  arrive := by
    intro c q p _ _ _
    refine ⟨List.chain'_singleton _, ?_⟩
    intro e he
    simp only [List.getLast?_singleton, Option.some.injEq] at he
    rw [← he]
    simp [Event.is_io_start]
  release := by
    intro c h w p hw hover hp
    obtain ⟨h1, e, he, hio, ht, hk1, _⟩ := hw
    have hover' := hover rfl
    obtain ⟨hlt, hle⟩ := hk1 rfl
    refine ⟨?_, getLast?_concat_not (by simp [Event.is_io_start])⟩
    show waits_exactly p.io_duration _
    rw [core_io_duration hp]
    refine List.Chain'.append h1 (List.chain'_singleton _) ?_
    intro u hu v hv _
    rw [he] at hu
    simp only [Option.mem_def, Option.some.injEq] at hu
    simp only [List.head?_cons, Option.mem_def, Option.some.injEq] at hv
    subst hu hv
    refine ⟨rfl, rfl, ?_⟩
    show c = e.time + max 1 w.io_duration
    rw [← ht] at hover'
    unfold usub at hover'
    rw [if_pos (by omega)] at hover'
    rcases Nat.lt_or_ge w.io_duration 1 with hd | hd
    · rw [max_eq_left (by omega)] at hle ⊢
      omega
    · rw [max_eq_right hd] at hle ⊢
      omega
  hold := by
    intro c h w hw hnot
    obtain ⟨h1, e, he, hio, ht, hk1, _⟩ := hw
    have hnot' := hnot rfl
    obtain ⟨hlt, hle⟩ := hk1 rfl
    refine ⟨h1, e, he, hio, ht, fun hh => absurd hh (by decide), fun _ => ⟨by omega, ?_⟩⟩
    rw [← ht] at hnot'
    unfold usub at hnot'
    rw [if_pos (by omega)] at hnot'
    have : w.io_duration ≤ max 1 w.io_duration := le_max_right _ _
    omega
  preempt := by
    intro c h r p hr hp
    refine ⟨?_, getLast?_concat_not (by simp [Event.is_io_start])⟩
    show waits_exactly p.io_duration _
    rw [core_io_duration hp]
    exact hr.1.wait_skip hr.2 _
  run_on := by
    intro c h r p hr hp _ _
    refine ⟨?_, hr.2⟩
    show waits_exactly p.io_duration _
    rw [static_io_duration hp.1]
    exact hr.1
  block := by
    intro c h r w hr hw _ hstamp
    refine ⟨?_, _, List.getLast?_concat _, ⟨rfl, rfl⟩, (hstamp rfl).symm,
      fun hh => absurd hh (by decide), fun _ => ⟨le_refl _, ?_⟩⟩
    · show waits_exactly w.io_duration _
      rw [static_io_duration hw.1]
      exact hr.1.wait_skip hr.2 _
    · show c < c + max 1 w.io_duration
      have : 1 ≤ max 1 w.io_duration := le_max_left _ _
      omega
  expire := by
    intro c h r p hr hp _ _
    refine ⟨?_, getLast?_concat_not (by simp [Event.is_io_start])⟩
    show waits_exactly p.io_duration _
    rw [static_io_duration hp.1]
    exact hr.1.wait_skip hr.2 _
  finish := by
    intro c h r q hr _ hq
    refine ⟨?_, getLast?_concat_not (by simp [Event.is_io_start])⟩
    show waits_exactly q.io_duration _
    rw [static_io_duration hq]
    exact hr.1.wait_skip hr.2 _
  dispatch := by
    intro c h p r hp hr _ _
    refine ⟨?_, getLast?_concat_not (by simp [Event.is_io_start])⟩
    show waits_exactly r.io_duration _
    rw [static_io_duration hr]
    exact hp.1.wait_skip hp.2 _
  tick_ready := fun _ _ _ h => h
  tick_waiting := by
    intro c h w hw
    obtain ⟨h1, e, he, hio, ht, _, hk0⟩ := hw
    obtain ⟨hle, hlt⟩ := hk0 rfl
    exact ⟨h1, e, he, hio, ht, fun _ => ⟨by omega, by omega⟩,
      fun hh => absurd hh (by decide)⟩
  tick_cpu := fun _ _ _ h => h

/-- Exact waits, read off the whole table. -/
theorem returns_from_io_of_waits {p : PCB} {rows : List Event}
    (hw : waits_exactly p.io_duration (rows_of p.PID rows))
    (hlast : ∀ e, (rows_of p.PID rows).getLast? = some e → e.is_io_start →
      100000 < e.time + max 1 p.io_duration) : returns_from_io p rows := by
  intro pre e post hrows hpid hio hin
  have hsplit : rows_of p.PID rows = rows_of p.PID pre ++ e :: rows_of p.PID post := by
    rw [hrows, rows_of_append]
    congr 1
    unfold rows_of
    rw [List.filter_cons_of_pos (by simpa using hpid)]
  cases hpost : rows_of p.PID post with
  | nil =>
    exfalso
    rw [hpost] at hsplit
    have := hlast e (by rw [hsplit]; exact List.getLast?_concat _) hio
    omega
  | cons x rest =>
    rw [hpost] at hsplit
    rw [hsplit] at hw
    have hc := (List.chain'_split.1 hw).2
    obtain ⟨h1, h2, h3⟩ := (List.chain'_cons.1 hc).1 hio
    have hx : x ∈ rows_of p.PID post := by
      rw [hpost]
      exact List.mem_cons_self _ _
    have hxp := (mem_rows_of.1 hx).2
    show some x = some _
    congr 1
    cases x
    simp only at h1 h2 h3 hxp
    rw [h1, h2, h3, hxp]

/-- In the state in which the loop of RR or EP_RR ends, every process of the workload has
returned from each of its I/Os after exactly the length of the I/O. -/
theorem returns_from_io_at_exit {l : List PCB} {s : SimState} (h : Run io_waits l s)
    (hexit : loop_condition s = false ∨ s.current_time = 100001) (p : PCB) (hp : p ∈ l) :
    returns_from_io p s.execution_status := by
  rcases run_cases io_waits h p hp with ⟨x, _, hx, hs⟩ | ⟨x, hxm, hx, hs⟩ | ⟨_, hx, hs⟩ | hs |
    ⟨q, hx, hs⟩
  · have hs' : waits_exactly x.io_duration _ ∧ _ := hs
    rw [static_io_duration hx] at hs'
    exact returns_from_io_of_waits hs'.1 (fun e he hio => absurd hio (hs'.2 e he))
  · have hs' : waits_exactly x.io_duration _ ∧ _ := hs
    rw [static_io_duration hx] at hs'
    obtain ⟨h1, e, he, _, _, hk1, _⟩ := hs'
    refine returns_from_io_of_waits h1 (fun e' he' _ => ?_)
    rw [he, Option.some.injEq] at he'
    subst he'
    rcases hexit with hc | hc
    · have := loop_condition_of_live h.2.1 (mem_live_iff.2 (Or.inr (Or.inl hxm)))
      rw [hc] at this
      exact absurd this (by decide)
    · have := (hk1 rfl).2
      omega
  · have hs' : waits_exactly s.running.io_duration _ ∧ _ := hs
    rw [static_io_duration hx] at hs'
    exact returns_from_io_of_waits hs'.1 (fun e he hio => absurd hio (hs'.2 e he))
  · refine returns_from_io_of_waits (by rw [hs]; exact List.chain'_nil) (fun e he => ?_)
    rw [hs] at he
    simp at he
  · have hs' : waits_exactly q.io_duration _ ∧ _ := hs
    rw [static_io_duration hx] at hs'
    exact returns_from_io_of_waits hs'.1 (fun e he hio => absurd hio (hs'.2 e he))

theorem exit_cases {r : SimState × Bool} (h1 : r.2 = false → loop_condition r.1 = false)
    (h2 : r.2 = true → r.1.current_time = 100001) :
    loop_condition r.1 = false ∨ r.1.current_time = 100001 := by
  cases hr : r.2 with
  | false => exact Or.inl (h1 hr)
  | true => exact Or.inr (h2 hr)

/-- C14. In RR and EP_RR, for every workload with pairwise distinct PIDs, every allocator and
every `std::sort` and `idle_CPU` within their contracts: if the returned table has a
RUNNING -> WAITING row of a process at tick `t` and `t + max 1 io_duration` is at most 100000,
then the next row of that process in the table is its WAITING -> READY row, at exactly tick
`t + max 1 io_duration`, whatever other processes are in the wait queue. -/
theorem io_wait_is_exact (E : Env) (hE : SortContract E) (hI : IdleContract E)
    (l : List PCB) (hl : (pids l).Nodup) (p : PCB) (hp : p ∈ l) :
    returns_from_io p (RR.run_simulation E l).1.execution_status ∧
    returns_from_io p (EP_RR.run_simulation E l).1.execution_status := by
  have h1 := rr_run_at_exit io_waits sound_io_waits E hE hI l hl (fun _ _ => trivial)
  have h2 := ep_rr_run_at_exit io_waits sound_io_waits E hE hI l hl (fun _ _ => trivial)
  exact ⟨returns_from_io_at_exit h1.1 (exit_cases h1.2.1 h1.2.2) p hp,
    returns_from_io_at_exit h2.1 (exit_cases h2.2.1 h2.2.2) p hp⟩

theorem io_wait_is_exact_witness :
    returns_from_io (mk_process 1 0 4 2 5 1)
      (RR.run_simulation grant_all io_return_scenario).1.execution_status ∧
    returns_from_io (mk_process 1 0 4 2 5 1)
      (EP_RR.run_simulation grant_all io_return_scenario).1.execution_status :=
  io_wait_is_exact grant_all sortContract_grant_all idleContract_grant_all io_return_scenario
    (by decide) (mk_process 1 0 4 2 5 1) (by decide)

/-! ## The remaining time of a process -/

/-- The discipline of the remaining time is sound for the three simulators. -/
theorem sound_burst_bound (stamp : Bool) : Sound burst_bound stamp where
  arrive := by
    intro c q p hq _ hp
    show 1 ≤ p.remaining_time ∧ p.remaining_time ≤ p.processing_time
    rw [core_remaining hp, static_processing (core_static hp), hq.1]
    exact ⟨hq.2, le_refl _⟩
  release := by
    intro c h w p hw _ hp
    show 1 ≤ p.remaining_time ∧ p.remaining_time ≤ p.processing_time
    rw [core_remaining hp, static_processing (core_static hp)]
    exact hw
  hold := fun _ _ _ hw _ => hw
  preempt := by
    intro c h r p hr hp
    show 1 ≤ p.remaining_time ∧ p.remaining_time ≤ p.processing_time
    rw [core_remaining hp, static_processing (core_static hp)]
    exact hr
  run_on := by
    intro c h r p hr hp _ hpos
    have h1 : 1 ≤ r.remaining_time ∧ r.remaining_time ≤ r.processing_time := hr
    show 1 ≤ p.remaining_time ∧ p.remaining_time ≤ p.processing_time
    have h2 := hp.2.1
    rw [udec_of_pos h1.1] at h2
    rw [static_processing hp.1]
    omega
  block := by
    intro c h r w hr hw hio _
    have h1 : 1 ≤ r.remaining_time ∧ r.remaining_time ≤ r.processing_time := hr
    show 1 ≤ w.remaining_time ∧ w.remaining_time ≤ w.processing_time
    have h2 := hw.2.1
    have h3 : w.remaining_time > 0 := hio.1.2
    rw [udec_of_pos h1.1] at h2
    rw [static_processing hw.1]
    omega
  expire := by
    intro c h r p hr hp _ hpos
    have h1 : 1 ≤ r.remaining_time ∧ r.remaining_time ≤ r.processing_time := hr
    show 1 ≤ p.remaining_time ∧ p.remaining_time ≤ p.processing_time
    have h2 := hp.2.1
    rw [udec_of_pos h1.1] at h2
    rw [static_processing hp.1]
    omega
  finish := fun _ _ _ _ _ _ _ => trivial
  dispatch := by
    intro c h p r hp hs hr _
    show 1 ≤ r.remaining_time ∧ r.remaining_time ≤ r.processing_time
    rw [hr, static_processing hs]
    exact hp
  tick_ready := fun _ _ _ h => h
  tick_waiting := fun _ _ _ h => h
  tick_cpu := fun _ _ _ h => h

theorem bounded_of_holds {b k : Nat} {s : SimState} (h : Holds burst_bound b k s) :
    ∀ x ∈ live s, 1 ≤ x.remaining_time ∧ x.remaining_time ≤ x.processing_time := by
  intro x hx
  rcases mem_live_iff.1 hx with hx | hx | ⟨h1, h2⟩
  · exact h.ready x hx
  · exact h.waiting x hx
  · rw [h2]
    exact h.cpu h1

/-- The registry stays within bounds over a step whose new entries are copies of processes in a
queue or on the CPU, or have no remaining time. -/
theorem registry_bounded {s s' : SimState}
    (hreg : ∀ j ∈ s.job_list, j.remaining_time ≤ j.processing_time)
    (hjl : ∀ j ∈ s'.job_list, j ∈ s.job_list ∨ j ∈ live s' ∨ j.remaining_time = 0)
    (hlive : ∀ x ∈ live s', 1 ≤ x.remaining_time ∧ x.remaining_time ≤ x.processing_time) :
    ∀ j ∈ s'.job_list, j.remaining_time ≤ j.processing_time := by
  intro j hj
  rcases hjl j hj with h | h | h
  · exact hreg j h
  · exact (hlive j h).2
  · rw [h]
    exact Nat.zero_le _

/-- STEP 1 brings in the arrivals and leaves the other processes alone. -/
theorem admits_populate (E : Env) (touch : PCB → PCB) (s : SimState) :
    (∀ y ∈ live (populate E touch s),
      y ∈ live s ∨ ∃ q ∈ s.list_processes, q.arrival_time = s.current_time ∧ y = touch q) ∧
    (∀ j ∈ (populate E touch s).job_list, j ∈ s.job_list ∨ j ∈ live (populate E touch s)) := by
  refine ⟨fun y hy => ?_, fun j hj => ?_⟩
  · rcases List.mem_append.1 ((live_populate E touch s).mem_iff.1 hy) with h | h
    · exact Or.inl h
    · obtain ⟨q, hq, h1, h2⟩ := mem_admitted E touch _ _ _ y h
      exact Or.inr ⟨q, hq, h2, h1⟩
  · have hj' : j ∈ s.job_list ++ admitted E touch s.current_time 0 s.list_processes := hj
    rcases List.mem_append.1 hj' with h | h
    · exact Or.inl h
    · exact Or.inr ((live_populate E touch s).mem_iff.2 (List.mem_append_right _ h))

/-- STEP 2 moves processes without touching their remaining time. -/
theorem moved_manage_wait_queue (started : PCB → Nat) (touch : PCB → PCB)
    (htouch : ∀ p, (touch p).core = p.core) (s : SimState) :
    Moved s (manage_wait_queue started touch s) := by
  refine ⟨fun y hy => ?_, fun j hj => ?_⟩
  · rw [mem_live_iff] at hy
    rcases hy with hy | hy | ⟨h1, h2⟩
    · have hy' : y ∈ s.ready_queue ++ (s.wait_queue.filter
          (fun p => decide (usub s.current_time (started p) ≥ p.io_duration))).map touch := hy
      rcases List.mem_append.1 hy' with h | h
      · exact ⟨y, mem_live_iff.2 (Or.inl h), rfl, rfl⟩
      · obtain ⟨w, hw, rfl⟩ := List.mem_map.1 h
        exact ⟨w, mem_live_iff.2 (Or.inr (Or.inl (List.mem_filter.1 hw).1)),
          (core_static (htouch w)).symm, (core_remaining (htouch w)).symm⟩
    · have hy' : y ∈ s.wait_queue.filter
          (fun p => !decide (usub s.current_time (started p) ≥ p.io_duration)) := hy
      exact ⟨y, mem_live_iff.2 (Or.inr (Or.inl (List.mem_filter.1 hy').1)), rfl, rfl⟩
    · exact ⟨y, mem_live_iff.2 (Or.inr (Or.inr ⟨h1, h2⟩)), rfl, rfl⟩
  · have hj' : j ∈ ((s.wait_queue.filter
        (fun p => decide (usub s.current_time (started p) ≥ p.io_duration))).map
          touch).foldl sync_queue s.job_list := hj
    rcases (foldl_sync_queue _ _).1 j hj' with h | h
    · exact Or.inl h
    · exact Or.inr (Or.inl (mem_live_iff.2 (Or.inl (List.mem_append_right _ h))))

/-- STEP 4 moves processes without touching their remaining time. -/
theorem moved_dispatch (schedule : List PCB → List PCB) (quantum : Nat → Nat) (s : SimState)
    (hperm : (schedule s.ready_queue).Perm s.ready_queue) :
    Moved s (dispatch schedule quantum s) := by
  by_cases hidle : s.running.state = States.NOT_ASSIGNED
  · by_cases hne : s.ready_queue = []
    · rw [dispatch_of_empty _ _ _ hne]
      exact ⟨fun y hy => ⟨y, hy, rfl, rfl⟩, fun j hj => Or.inl hj⟩
    · obtain ⟨back, hback, heq⟩ := dispatch_eq schedule quantum s hperm hidle hne
      rw [heq]
      have hmem : ∀ x, x ∈ schedule s.ready_queue → x ∈ s.ready_queue :=
        fun x hx => hperm.mem_iff.1 hx
      have hb : back ∈ s.ready_queue := hmem back (by rw [hback]; simp)
      have hst : (started_at s.current_time back).static = back.static ∧
          (started_at s.current_time back).remaining_time = back.remaining_time := by
        unfold started_at
        dsimp only
        split_ifs <;> exact ⟨rfl, rfl⟩
      refine ⟨fun y hy => ?_, fun j hj => ?_⟩
      · rw [mem_live_iff] at hy
        rcases hy with hy | hy | ⟨_, h2⟩
        · have hy' : y ∈ (schedule s.ready_queue).dropLast := hy
          exact ⟨y, mem_live_iff.2 (Or.inl (hmem y (List.dropLast_subset _ hy'))), rfl, rfl⟩
        · exact ⟨y, mem_live_iff.2 (Or.inr (Or.inl hy)), rfl, rfl⟩
        · have h2' : y = started_at s.current_time back := h2
          rw [h2']
          exact ⟨back, mem_live_iff.2 (Or.inl hb), hst.1.symm, hst.2.symm⟩
      · have hj' : j ∈ sync_queue s.job_list (started_at s.current_time back) := hj
        rcases mem_sync_queue hj' with h | h
        · exact Or.inl h
        · refine Or.inr (Or.inl (mem_live_iff.2 (Or.inr (Or.inr ⟨?_, h⟩))))
          show (started_at s.current_time back).state = States.RUNNING
          rfl
  · rw [dispatch_of_busy _ _ _ hidle]
    exact ⟨fun y hy => ⟨y, hy, rfl, rfl⟩, fun j hj => Or.inl hj⟩

/-- STEP 2.5 of EP_RR moves processes without touching their remaining time, and a process that
is RUNNING afterwards was RUNNING before. -/
theorem moved_check_preemption (E : Env) (hE : SortContract E) (hI : IdleContract E)
    (new_arrival : Bool) (still_waiting : List PCB) (s : SimState) :
    Moved s (EP_RR.check_preemption E new_arrival still_waiting s) ∧
    ((EP_RR.check_preemption E new_arrival still_waiting s).running.state = States.RUNNING →
      (EP_RR.check_preemption E new_arrival still_waiting s).running = s.running) := by
  have hperm : (ep_rr_schedule E s.ready_queue).Perm s.ready_queue :=
    (hE _ strictWeak_ep_rr_schedule_cmp _).1
  unfold EP_RR.check_preemption
  dsimp only
  split_ifs with h1 h2
  · have hrun := running_of_should_preempt h2
    refine ⟨⟨fun y hy => ?_, fun j hj => ?_⟩, fun hr => ?_⟩
    · rw [mem_live_iff] at hy
      rcases hy with hy | hy | ⟨h3, _⟩
      · have hy' : y ∈ { s.running with state := States.READY, time_in_cpu := 0 } ::
            ep_rr_schedule E s.ready_queue := hy
        rcases List.mem_cons.1 hy' with h | h
        · rw [h]
          exact ⟨s.running, running_mem_live hrun, rfl, rfl⟩
        · exact ⟨y, mem_live_iff.2 (Or.inl (hperm.mem_iff.1 h)), rfl, rfl⟩
      · exact ⟨y, mem_live_iff.2 (Or.inr (Or.inl hy)), rfl, rfl⟩
      · have h3' : (E.idle_CPU { s.running with
            state := States.READY, time_in_cpu := 0 }).state = States.RUNNING := h3
        rw [hI] at h3'
        exact absurd h3' (by decide)
    · have hj' : j ∈ sync_queue s.job_list
          { s.running with state := States.READY, time_in_cpu := 0 } := hj
      rcases mem_sync_queue hj' with h | h
      · exact Or.inl h
      · refine Or.inr (Or.inl (mem_live_iff.2 (Or.inl ?_)))
        rw [h]
        exact List.mem_cons_self _ _
    · have h3' : (E.idle_CPU { s.running with
          state := States.READY, time_in_cpu := 0 }).state = States.RUNNING := hr
      rw [hI] at h3'
      exact absurd h3' (by decide)
  · refine ⟨⟨fun y hy => ?_, fun j hj => Or.inl hj⟩, fun _ => rfl⟩
    rw [mem_live_iff] at hy
    rcases hy with hy | hy | hy
    · exact ⟨y, mem_live_iff.2 (Or.inl (hperm.mem_iff.1 hy)), rfl, rfl⟩
    · exact ⟨y, mem_live_iff.2 (Or.inr (Or.inl hy)), rfl, rfl⟩
    · exact ⟨y, mem_live_iff.2 (Or.inr (Or.inr hy)), rfl, rfl⟩
  · exact ⟨⟨fun y hy => ⟨y, hy, rfl, rfl⟩, fun j hj => Or.inl hj⟩, fun _ => rfl⟩

theorem charges_of_fields {s s' : SimState}
    (hrq : ∀ y ∈ s'.ready_queue, y ∈ s.ready_queue ∨
      (s.running.state = States.RUNNING ∧ y.static = s.running.static ∧
        y.remaining_time = udec s.running.remaining_time))
    (hwq : ∀ y ∈ s'.wait_queue, y ∈ s.wait_queue ∨
      (s.running.state = States.RUNNING ∧ y.static = s.running.static ∧
        y.remaining_time = udec s.running.remaining_time))
    (hcpu : s'.running.state = States.RUNNING →
      s.running.state = States.RUNNING ∧ s'.running.static = s.running.static ∧
        s'.running.remaining_time = udec s.running.remaining_time)
    (hjl : ∀ j ∈ s'.job_list, j ∈ s.job_list ∨ j ∈ s'.ready_queue ∨ j ∈ s'.wait_queue ∨
      j.remaining_time = 0) : Charges s s' := by
  refine ⟨fun y hy => ?_, fun j hj => ?_⟩
  · rcases mem_live_iff.1 hy with h | h | ⟨h1, h2⟩
    · rcases hrq y h with h' | h'
      · exact Or.inl ⟨y, mem_live_iff.2 (Or.inl h'), rfl, rfl⟩
      · exact Or.inr h'
    · rcases hwq y h with h' | h'
      · exact Or.inl ⟨y, mem_live_iff.2 (Or.inr (Or.inl h')), rfl, rfl⟩
      · exact Or.inr h'
    · rw [h2]
      exact Or.inr (hcpu h1)
  · rcases hjl j hj with h | h | h | h
    · exact Or.inl h
    · exact Or.inr (Or.inl (mem_live_iff.2 (Or.inl h)))
    · exact Or.inr (Or.inl (mem_live_iff.2 (Or.inr (Or.inl h))))
    · exact Or.inr (Or.inr h)

theorem Charges.charges_same (s : SimState) : Charges s s :=
  ⟨fun y hy => Or.inl ⟨y, hy, rfl, rfl⟩, fun j hj => Or.inl hj⟩

/-- The decrement, the I/O check and the completion check of STEP 3 of RR and EP_RR charge the
process on the CPU and no other; afterwards the CPU is idle or holds the charged process. -/
theorem charges_quantum_checks (E : Env) (hI : IdleContract E) (s : SimState)
    (hrun : s.running.state = States.RUNNING) :
    (Charges s (Quantum.completion_check E (Quantum.io_check E (Quantum.execute s))) ∧
      (Quantum.completion_check E (Quantum.io_check E (Quantum.execute s))).running.state ≠
        States.RUNNING) ∨
    Quantum.completion_check E (Quantum.io_check E (Quantum.execute s)) =
      Quantum.execute s := by
  by_cases hdue : io_due (Quantum.charged s.running)
  · left
    have hidle : (E.idle_CPU { Quantum.charged s.running with
        state := States.WAITING, time_in_cpu := s.current_time }).state ≠ States.RUNNING := by
      rw [hI]; decide
    rw [quantum_io_check_of_due E (Quantum.execute s) hdue,
      (quantum_checks_of_idle E _ hidle).1]
    refine ⟨charges_of_fields (fun y hy => Or.inl hy) (fun y hy => ?_)
      (fun h => absurd h hidle) (fun j hj => ?_), hidle⟩
    · have hy' : y ∈ s.wait_queue ++ [{ Quantum.charged s.running with
          state := States.WAITING, time_in_cpu := s.current_time }] := hy
      rcases List.mem_append.1 hy' with h | h
      · exact Or.inl h
      · rw [List.mem_singleton] at h
        rw [h]
        exact Or.inr ⟨hrun, rfl, rfl⟩
    · have hj' : j ∈ sync_queue s.job_list { Quantum.charged s.running with
          state := States.WAITING, time_in_cpu := s.current_time } := hj
      rcases mem_sync_queue hj' with h | h
      · exact Or.inl h
      · refine Or.inr (Or.inr (Or.inl ?_))
        rw [h]
        exact List.mem_append_right _ (List.mem_singleton_self _)
  · rw [quantum_io_check_of_not_due E (Quantum.execute s) hdue]
    by_cases hz : (Quantum.charged s.running).remaining_time = 0
    · left
      have hidle : (E.idle_CPU (terminate_process (Quantum.execute s).running
          (Quantum.execute s).job_list).1).state ≠ States.RUNNING := by
        rw [hI]; decide
      have heq : Quantum.completion_check E (Quantum.execute s) =
          { Quantum.execute s with
            execution_status := s.execution_status ++
              [Event.mk s.current_time s.running.PID States.RUNNING States.TERMINATED]
            job_list := (terminate_process (Quantum.execute s).running
              (Quantum.execute s).job_list).2
            running := E.idle_CPU (terminate_process (Quantum.execute s).running
              (Quantum.execute s).job_list).1
            quantum_remaining := TIME_QUANTUM } := by
        unfold Quantum.completion_check
        rw [if_pos ⟨hz, hrun⟩]
        rfl
      rw [heq]
      refine ⟨charges_of_fields (fun y hy => Or.inl hy) (fun y hy => Or.inl hy)
        (fun h => absurd h hidle) (fun j hj => ?_), hidle⟩
      have hj' : j ∈ sync_queue s.job_list { Quantum.charged s.running with
          remaining_time := 0, state := States.TERMINATED } := hj
      rcases mem_sync_queue hj' with h | h
      · exact Or.inl h
      · refine Or.inr (Or.inr (Or.inr ?_))
        rw [h]
    · right
      exact quantum_completion_check_of_pos E _ (Nat.pos_of_ne_zero hz)

theorem charges_execute (s : SimState) (hrun : s.running.state = States.RUNNING)
    (q : Nat) : Charges s { Quantum.execute s with quantum_remaining := q } :=
  charges_of_fields (fun y hy => Or.inl hy) (fun y hy => Or.inl hy)
    (fun _ => ⟨hrun, rfl, rfl⟩) (fun j hj => Or.inl hj)

theorem charges_preempt (E : Env) (hI : IdleContract E) (s : SimState)
    (hrun : s.running.state = States.RUNNING) :
    Charges s (Quantum.preempt E (Quantum.execute s)) := by
  have hidle : (E.idle_CPU { Quantum.charged s.running with
      state := States.READY, time_in_cpu := 0 }).state ≠ States.RUNNING := by
    rw [hI]; decide
  refine charges_of_fields (fun y hy => ?_) (fun y hy => Or.inl hy)
    (fun h => absurd h hidle) (fun j hj => ?_)
  · have hy' : y ∈ { Quantum.charged s.running with
        state := States.READY, time_in_cpu := 0 } :: s.ready_queue := hy
    rcases List.mem_cons.1 hy' with h | h
    · rw [h]
      exact Or.inr ⟨hrun, rfl, rfl⟩
    · exact Or.inl h
  · have hj' : j ∈ sync_queue s.job_list { Quantum.charged s.running with
        state := States.READY, time_in_cpu := 0 } := hj
    rcases mem_sync_queue hj' with h | h
    · exact Or.inl h
    · refine Or.inr (Or.inl ?_)
      rw [h]
      exact List.mem_cons_self _ _

/-- STEP 3 of RR charges the process on the CPU and no other. -/
theorem charges_rr_handle_running (E : Env) (hI : IdleContract E) (s : SimState) :
    Charges s (RR.handle_running E s) := by
  unfold RR.handle_running
  split_ifs with hrun
  · rcases charges_quantum_checks E hI s hrun with ⟨h1, h2⟩ | h1
    · rw [(quantum_checks_of_idle E _ h2).2.1]
      exact h1
    · rw [h1]
      unfold RR.quantum_check
      split_ifs with hq
      · exact charges_preempt E hI s hrun
      · exact charges_execute s hrun _
  · exact Charges.charges_same s

/-- STEP 3 of EP_RR charges the process on the CPU and no other. -/
theorem charges_ep_rr_handle_running (E : Env) (hI : IdleContract E) (s : SimState) :
    Charges s (EP_RR.handle_running E s) := by
  unfold EP_RR.handle_running
  split_ifs with hrun
  · rcases charges_quantum_checks E hI s hrun with ⟨h1, h2⟩ | h1
    · rw [(quantum_checks_of_idle E _ h2).2.2]
      exact h1
    · rw [h1]
      unfold EP_RR.quantum_check
      split_ifs with hq hany
      · exact charges_preempt E hI s hrun
      · exact charges_execute s hrun _
      · exact charges_execute s hrun _
  · exact Charges.charges_same s

/-- STEP 3 of EP charges the process on the CPU and no other. -/
theorem charges_ep_handle_running (E : Env) (hI : IdleContract E) (s : SimState) :
    Charges s (EP.handle_running E s) := by
  unfold EP.handle_running
  split_ifs with hrun
  · by_cases hdue : io_due (EP.charged s.running)
    · have hidle : ∀ r, (E.idle_CPU r).state ≠ States.RUNNING := by
        intro r
        rw [hI]; decide
      have h1 := ep_io_check_of_due E { s with running := EP.charged s.running } hdue
      have h1' : EP.io_check E { s with running :=
          { s.running with remaining_time := udec s.running.remaining_time } } = _ := h1
      rw [h1']
      unfold EP.completion_check
      split_ifs with hz
      · refine charges_of_fields (fun y hy => Or.inl hy) (fun y hy => ?_)
          (fun h => absurd h (hidle _)) (fun j hj => ?_)
        · have hy' : y ∈ s.wait_queue ++ [{ EP.charged s.running with
              state := States.WAITING }] := hy
          rcases List.mem_append.1 hy' with h | h
          · exact Or.inl h
          · rw [List.mem_singleton] at h
            rw [h]
            exact Or.inr ⟨hrun, rfl, rfl⟩
        · have hj' : j ∈ sync_queue (sync_queue s.job_list { EP.charged s.running with
              state := States.WAITING })
              { E.idle_CPU { EP.charged s.running with state := States.WAITING } with
                remaining_time := 0, state := States.TERMINATED } := hj
          rcases mem_sync_queue hj' with h | h
          · rcases mem_sync_queue h with h | h
            · exact Or.inl h
            · refine Or.inr (Or.inr (Or.inl ?_))
              rw [h]
              exact List.mem_append_right _ (List.mem_singleton_self _)
          · refine Or.inr (Or.inr (Or.inr ?_))
            rw [h]
      · refine charges_of_fields (fun y hy => Or.inl hy) (fun y hy => ?_)
          (fun h => absurd h (hidle _)) (fun j hj => ?_)
        · have hy' : y ∈ s.wait_queue ++ [{ EP.charged s.running with
              state := States.WAITING }] := hy
          rcases List.mem_append.1 hy' with h | h
          · exact Or.inl h
          · rw [List.mem_singleton] at h
            rw [h]
            exact Or.inr ⟨hrun, rfl, rfl⟩
        · have hj' : j ∈ sync_queue s.job_list { EP.charged s.running with
              state := States.WAITING } := hj
          rcases mem_sync_queue hj' with h | h
          · exact Or.inl h
          · refine Or.inr (Or.inr (Or.inl ?_))
            rw [h]
            exact List.mem_append_right _ (List.mem_singleton_self _)
    · have h1 := ep_io_check_of_not_due E { s with running := EP.charged s.running } hdue
      have h1' : EP.io_check E { s with running :=
          { s.running with remaining_time := udec s.running.remaining_time } } = _ := h1
      rw [h1']
      unfold EP.completion_check
      split_ifs with hz
      · have hidle : ∀ r, (E.idle_CPU r).state ≠ States.RUNNING := by
          intro r
          rw [hI]; decide
        refine charges_of_fields (fun y hy => Or.inl hy) (fun y hy => Or.inl hy)
          (fun h => absurd h (hidle _)) (fun j hj => ?_)
        have hj' : j ∈ sync_queue s.job_list { EP.charged s.running with
            remaining_time := 0, state := States.TERMINATED } := hj
        rcases mem_sync_queue hj' with h | h
        · exact Or.inl h
        · refine Or.inr (Or.inr (Or.inr ?_))
          rw [h]
      · exact charges_of_fields (fun y hy => Or.inl hy) (fun y hy => Or.inl hy)
          (fun _ => ⟨hrun, rfl, rfl⟩) (fun j hj => Or.inl hj)
  · exact Charges.charges_same s

theorem Moved.moved_same (s : SimState) : Moved s s :=
  ⟨fun y hy => ⟨y, hy, rfl, rfl⟩, fun j hj => Or.inl hj⟩

/-- An invariant of the loop body holds after any number of iterations. -/
theorem after_ticks_induction (P : SimState → Prop) (tick : SimState → SimState)
    (htick : ∀ s, P s → P (tick s)) :
    ∀ (n : Nat) (s : SimState), P s → P (after_ticks tick n s) := by
  intro n
  induction n with
  | zero => intro s h; exact h
  | succ n ih =>
    intro s h
    unfold after_ticks
    dsimp only
    split_ifs
    · exact htick s h
    · exact ih _ (htick s h)

/-- One iteration of a loop body made of an admission step, two steps that move processes, a
step that charges the process on the CPU and another step that moves processes: the registry
stays within bounds and the remaining times change only by the decrement of the process that was
RUNNING. -/
theorem burst_of_chain {s s1 s2 s3 s4 s5 : SimState} (hinv : Inv s.current_time s)
    (h : Holds burst_bound s.current_time 1 s)
    (hreg : ∀ j ∈ s.job_list, j.remaining_time ≤ j.processing_time)
    (ha : ∀ y ∈ live s1, y ∈ live s ∨ ∃ q ∈ s.list_processes,
      q.arrival_time = s.current_time ∧ y.static = q.static ∧
        y.remaining_time = q.remaining_time)
    (hj : ∀ j ∈ s1.job_list, j ∈ s.job_list ∨ j ∈ live s1)
    (m12 : Moved s1 s2) (m23 : Moved s2 s3)
    (hrun : s3.running.state = States.RUNNING → s3.running = s.running)
    (c34 : Charges s3 s4) (m45 : Moved s4 s5)
    (b1 : ∀ x ∈ live s1, 1 ≤ x.remaining_time ∧ x.remaining_time ≤ x.processing_time)
    (b2 : ∀ x ∈ live s2, 1 ≤ x.remaining_time ∧ x.remaining_time ≤ x.processing_time)
    (b3 : ∀ x ∈ live s3, 1 ≤ x.remaining_time ∧ x.remaining_time ≤ x.processing_time)
    (b4 : ∀ x ∈ live s4, 1 ≤ x.remaining_time ∧ x.remaining_time ≤ x.processing_time)
    (b5 : ∀ x ∈ live s5, 1 ≤ x.remaining_time ∧ x.remaining_time ≤ x.processing_time) :
    (∀ j ∈ s5.job_list, j.remaining_time ≤ j.processing_time) ∧ burst_steps s s5 := by
  constructor
  · have r1 : ∀ j ∈ s1.job_list, j.remaining_time ≤ j.processing_time := by
      intro j hj1
      rcases hj j hj1 with h1 | h1
      · exact hreg j h1
      · exact (b1 j h1).2
    have r2 := registry_bounded r1 m12.2 b2
    have r3 := registry_bounded r2 m23.2 b3
    have r4 := registry_bounded r3 c34.2 b4
    exact registry_bounded r4 m45.2 b5
  · intro y hy
    obtain ⟨x4, hx4, hs4, hr4⟩ := m45.1 y hy
    rcases c34.1 x4 hx4 with ⟨x3, hx3, hs3, hr3⟩ | ⟨hr, hs3, hr3⟩
    · obtain ⟨x2, hx2, hs2, hr2⟩ := m23.1 x3 hx3
      obtain ⟨x1, hx1, hs1, hr1⟩ := m12.1 x2 hx2
      have hsx : x1.static = y.static := ((hs1.trans hs2).trans hs3).trans hs4
      have hrx : x1.remaining_time = y.remaining_time := ((hr1.trans hr2).trans hr3).trans hr4
      rcases ha x1 hx1 with h0 | ⟨q, hq, harr, hsq, hrq⟩
      · exact Or.inr ⟨x1, h0, static_pid hsx, Or.inl hrx.symm⟩
      · left
        have hyq : y.static = q.static := hsx.symm.trans hsq
        refine ⟨fun hmem => ?_, ?_⟩
        · obtain ⟨p, hp, hpp⟩ := mem_pids.1 hmem
          exact not_fresh_of_live hinv hp hq (le_of_eq harr.symm)
            ((static_pid hyq).symm.trans hpp.symm)
        · have hload : q.remaining_time = q.processing_time :=
            ((h.fresh q hq (le_of_eq harr.symm)).2).1
          rw [← hrx, hrq, hload, static_processing hyq]
    · have heq := hrun hr
      rw [heq] at hr hs3 hr3
      have hb : 1 ≤ s.running.remaining_time ∧ _ := h.cpu hr
      refine Or.inr ⟨s.running, running_mem_live hr, static_pid (hs4.symm.trans hs3).symm,
        Or.inr ⟨hr, rfl, ?_⟩⟩
      rw [← hr4, hr3, udec_of_pos hb.1]
      omega

/-- One iteration of RR keeps the registry within bounds and changes the remaining times only by
the decrement of the process that was RUNNING. -/
theorem burst_rr_tick (E : Env) (hE : SortContract E) (hI : IdleContract E) {s : SimState}
    (hinv : Inv s.current_time s) (h : Holds burst_bound s.current_time 1 s)
    (hreg : ∀ j ∈ s.job_list, j.remaining_time ≤ j.processing_time) :
    (∀ j ∈ (RR.tick E s).job_list, j.remaining_time ≤ j.processing_time) ∧
      burst_steps s (RR.tick E s) := by
  have hS := sound_burst_bound true
  have i1 := Inv.populate E Quantum.touch_new static_quantum_touch_new hinv
  have i2 := Inv.manage_wait_queue (fun p => p.time_in_cpu)
    Quantum.touch_done static_quantum_touch_done i1
  have i3 := Inv.rr_handle_running E hI i2
  have h1 := holds_populate burst_bound true hS E Quantum.touch_new (fun _ => rfl) hinv h
  have h2 := holds_manage_wait_queue burst_bound true hS (fun p => p.time_in_cpu)
    Quantum.touch_done (fun _ => rfl) (fun _ _ => rfl) i1 h1
  have h3 := holds_rr_handle_running burst_bound hS E hI i2 h2
  have h4 := holds_dispatch burst_bound true hS (fcfs_rr E) (fun _ => TIME_QUANTUM) i3 h3
    (hE _ strictWeak_fcfs_rr_cmp _).1
  have ha := admits_populate E Quantum.touch_new s
  have hchain := burst_of_chain hinv h hreg
    (fun y hy => (ha.1 y hy).imp id
      (fun ⟨q, hq, h5, h6⟩ => ⟨q, hq, h5, by rw [h6]; exact ⟨rfl, rfl⟩⟩))
    ha.2
    (moved_manage_wait_queue (fun p => p.time_in_cpu) Quantum.touch_done (fun _ => rfl) _)
    (Moved.moved_same _) (fun _ => rfl) (charges_rr_handle_running E hI _)
    (moved_dispatch (fcfs_rr E) (fun _ => TIME_QUANTUM) _ (hE _ strictWeak_fcfs_rr_cmp _).1)
    (bounded_of_holds h1) (bounded_of_holds h2) (bounded_of_holds h2) (bounded_of_holds h3)
    (bounded_of_holds h4)
  exact hchain

/-- One iteration of EP_RR keeps the registry within bounds and changes the remaining times only
by the decrement of the process that was RUNNING. -/
theorem burst_ep_rr_tick (E : Env) (hE : SortContract E) (hI : IdleContract E) {s : SimState}
    (hinv : Inv s.current_time s) (h : Holds burst_bound s.current_time 1 s)
    (hreg : ∀ j ∈ s.job_list, j.remaining_time ≤ j.processing_time) :
    (∀ j ∈ (EP_RR.tick E s).job_list, j.remaining_time ≤ j.processing_time) ∧
      burst_steps s (EP_RR.tick E s) := by
  have hS := sound_burst_bound true
  have i1 := Inv.populate E Quantum.touch_new static_quantum_touch_new hinv
  have i2 := Inv.manage_wait_queue (fun p => p.time_in_cpu)
    Quantum.touch_done static_quantum_touch_done i1
  have i25 : Inv (s.current_time + 1) (EP_RR.arrivals E s) :=
    Inv.check_preemption E hE hI _ _ i2
  have i3 := Inv.ep_rr_handle_running E hI i25
  have h1 := holds_populate burst_bound true hS E Quantum.touch_new (fun _ => rfl) hinv h
  have h2 := holds_manage_wait_queue burst_bound true hS (fun p => p.time_in_cpu)
    Quantum.touch_done (fun _ => rfl) (fun _ _ => rfl) i1 h1
  have h25 : Holds burst_bound (s.current_time + 1) 0 (EP_RR.arrivals E s) :=
    holds_check_preemption burst_bound hS E hE hI _ _ i2 h2
  have h3 := holds_ep_rr_handle_running burst_bound hS E hI i25 h25
  have h4 := holds_dispatch burst_bound true hS (ep_rr_schedule E) (fun _ => TIME_QUANTUM) i3 h3
    (hE _ strictWeak_ep_rr_schedule_cmp _).1
  have ha := admits_populate E Quantum.touch_new s
  have hcp : Moved (manage_wait_queue (fun p => p.time_in_cpu) Quantum.touch_done
      (populate E Quantum.touch_new s)) (EP_RR.arrivals E s) ∧
      ((EP_RR.arrivals E s).running.state = States.RUNNING →
        (EP_RR.arrivals E s).running = s.running) :=
    moved_check_preemption E hE hI _ _ _
  have hchain := burst_of_chain hinv h hreg
    (fun y hy => (ha.1 y hy).imp id
      (fun ⟨q, hq, h5, h6⟩ => ⟨q, hq, h5, by rw [h6]; exact ⟨rfl, rfl⟩⟩))
    ha.2
    (moved_manage_wait_queue (fun p => p.time_in_cpu) Quantum.touch_done (fun _ => rfl) _)
    hcp.1 hcp.2 (charges_ep_rr_handle_running E hI _)
    (moved_dispatch (ep_rr_schedule E) (fun _ => TIME_QUANTUM) _
      (hE _ strictWeak_ep_rr_schedule_cmp _).1)
    (bounded_of_holds h1) (bounded_of_holds h2) (bounded_of_holds h25) (bounded_of_holds h3)
    (bounded_of_holds h4)
  exact hchain

/-- One iteration of EP keeps the registry within bounds and changes the remaining times only by
the decrement of the process that was RUNNING. -/
theorem burst_ep_tick (E : Env) (hE : SortContract E) (hI : IdleContract E) {s : SimState}
    (hinv : Inv s.current_time s) (h : Holds burst_bound s.current_time 1 s)
    (hreg : ∀ j ∈ s.job_list, j.remaining_time ≤ j.processing_time)
    (hfree : ∀ r, (E.idle_CPU r).PID ∉ pids s.list_processes) :
    (∀ j ∈ (EP.tick E s).job_list, j.remaining_time ≤ j.processing_time) ∧
      burst_steps s (EP.tick E s) := by
  have hS := sound_burst_bound false
  have i1 := Inv.populate E EP.touch_new static_ep_touch_new hinv
  have i2 := Inv.manage_wait_queue (fun _ => (populate E EP.touch_new s).io_start_time)
    EP.touch_done static_ep_touch_done i1
  have i3 := Inv.ep_handle_running E hI i2
  have h1 := holds_populate burst_bound false hS E EP.touch_new (fun _ => rfl) hinv h
  have h2 := holds_manage_wait_queue burst_bound false hS
    (fun _ => (populate E EP.touch_new s).io_start_time) EP.touch_done
    (fun _ => rfl) (fun hh => absurd hh (by decide)) i1 h1
  have h3 := holds_ep_handle_running burst_bound hS E hI i2 h2 (fun r => by
    show (E.idle_CPU r).PID ∉ pids (marked E EP.touch_new s.current_time 0 s.list_processes)
    rw [pids_marked E EP.touch_new static_ep_touch_new]
    exact hfree r)
  have h4 := holds_dispatch burst_bound false hS (external_priorities E) (fun q => q) i3 h3
    (hE _ strictWeak_external_priorities_cmp _).1
  have ha := admits_populate E EP.touch_new s
  have hchain := burst_of_chain hinv h hreg
    (fun y hy => (ha.1 y hy).imp id
      (fun ⟨q, hq, h5, h6⟩ => ⟨q, hq, h5, by rw [h6]; exact ⟨rfl, rfl⟩⟩))
    ha.2
    (moved_manage_wait_queue (fun _ => (populate E EP.touch_new s).io_start_time)
      EP.touch_done (fun _ => rfl) _)
    (Moved.moved_same _) (fun _ => rfl) (charges_ep_handle_running E hI _)
    (moved_dispatch (external_priorities E) (fun q => q) _
      (hE _ strictWeak_external_priorities_cmp _).1)
    (bounded_of_holds h1) (bounded_of_holds h2) (bounded_of_holds h2) (bounded_of_holds h3)
    (bounded_of_holds h4)
  exact hchain

/-- The remaining times are kept in every run of a loop body that keeps the discipline of the
remaining time and the bounds of the registry. -/
theorem burst_kept_of_run (E : Env) (hI : IdleContract E) (l : List PCB)
    (hl : (pids l).Nodup)
    (hload : ∀ q ∈ l, q.remaining_time = q.processing_time ∧ 1 ≤ q.processing_time)
    (tick : SimState → SimState)
    (hrun : ∀ s, Run burst_bound l s → Run burst_bound l (tick s))
    (hstep : ∀ s, Run burst_bound l s →
      (∀ j ∈ s.job_list, j.remaining_time ≤ j.processing_time) →
      (∀ j ∈ (tick s).job_list, j.remaining_time ≤ j.processing_time) ∧
        burst_steps s (tick s)) :
    burst_kept tick (init E l) := by
  intro n
  have h := after_ticks_induction
    (fun s => Run burst_bound l s ∧ ∀ j ∈ s.job_list, j.remaining_time ≤ j.processing_time)
    tick (fun s hs => ⟨hrun s hs.1, (hstep s hs.1 hs.2).1⟩) n (init E l)
    ⟨run_init burst_bound E hI l hl hload, fun j hj => by simp [init] at hj⟩
  exact ⟨⟨bounded_of_holds h.1.2.2.1, h.2⟩, (hstep _ h.1 h.2).2⟩

/-- C19 (amended). For every workload with pairwise distinct PIDs whose processes are loaded with
a burst of at least 1 and the remaining time equal to the burst, every allocator and every
`std::sort` and `idle_CPU` within their contracts, in RR and EP_RR, and in EP when the
placeholder of the idle CPU does not carry the PID of a process: at the top of every iteration of
the loop the remaining time of a process in the ready queue, in the wait queue or on the CPU is
between 1 and its burst and the remaining time of an entry of the registry is at most its burst;
and over every iteration a process in a queue or on the CPU either is new there with the
remaining time equal to its burst, or keeps its remaining time, or is the process that was
RUNNING when the iteration began and has a remaining time that is less by exactly one. The state
in which `run_simulation` ends is one of these states. -/
theorem remaining_time_within_burst (E : Env) (hE : SortContract E) (hI : IdleContract E)
    (l : List PCB) (hl : (pids l).Nodup)
    (hload : ∀ q ∈ l, q.remaining_time = q.processing_time ∧ 1 ≤ q.processing_time) :
    ((∀ r, (E.idle_CPU r).PID ∉ pids l) →
      burst_kept (EP.tick E) (init E l) ∧
      ∃ n, (EP.run_simulation E l).1 = after_ticks (EP.tick E) n (init E l)) ∧
    (burst_kept (RR.tick E) (init E l) ∧
      ∃ n, (RR.run_simulation E l).1 = after_ticks (RR.tick E) n (init E l)) ∧
    (burst_kept (EP_RR.tick E) (init E l) ∧
      ∃ n, (EP_RR.run_simulation E l).1 = after_ticks (EP_RR.tick E) n (init E l)) := by
  refine ⟨fun hfree => ⟨?_, ?_⟩, ⟨?_, ?_⟩, ⟨?_, ?_⟩⟩
  · refine burst_kept_of_run E hI l hl hload _
      (fun s h => (run_tick burst_bound E hE hI l s h).1 (sound_burst_bound false) hfree)
      (fun s h hreg => burst_ep_tick E hE hI h.1 h.2.2.1 hreg (fun r => ?_))
    rw [pids_eq_map_static, h.2.2.2, ← pids_eq_map_static]
    exact hfree r
  · unfold EP.run_simulation
    rw [ep_loop_eq]
    exact run_loop_eq_after_ticks _ _ _
  · exact burst_kept_of_run E hI l hl hload _
      (fun s h => (run_tick burst_bound E hE hI l s h).2.1 (sound_burst_bound true))
      (fun s h hreg => burst_rr_tick E hE hI h.1 h.2.2.1 hreg)
  · unfold RR.run_simulation
    rw [rr_loop_eq]
    exact run_loop_eq_after_ticks _ _ _
  · exact burst_kept_of_run E hI l hl hload _
      (fun s h => (run_tick burst_bound E hE hI l s h).2.2 (sound_burst_bound true))
      (fun s h hreg => burst_ep_rr_tick E hE hI h.1 h.2.2.1 hreg)
  · unfold EP_RR.run_simulation
    rw [ep_rr_loop_eq]
    exact run_loop_eq_after_ticks _ _ _

theorem remaining_time_within_burst_witness :
    burst_kept (EP.tick grant_all) (init grant_all io_return_scenario) ∧
    burst_kept (RR.tick grant_all) (init grant_all io_return_scenario) ∧
    burst_kept (EP_RR.tick grant_all) (init grant_all io_return_scenario) :=
  have h := remaining_time_within_burst grant_all sortContract_grant_all idleContract_grant_all
    io_return_scenario (by decide) (by decide)
  ⟨(h.1 (fun _ => by show idle_pcb.PID ∉ pids io_return_scenario; decide)).1, h.2.1.1,
    h.2.2.1⟩

/-- C19 (counterexample). A process loaded with burst 0 is admitted and dispatched at tick 0 with
remaining time 0; at tick 1 the decrement of STEP 3 wraps, so that in each of the three
simulators the process on the CPU has remaining time 4294967295 although its burst is 0, and the
step from 0 to 4294967295 is not a decrement by one. The loop condition holds at ticks 0 and 1.
On a workload with bursts of at least 1 (`late_arrival_scenario`), the entry of PID 1 in the
registry of RR has remaining time 5 after five iterations and 0 after six: the registry is
synchronised at the transitions only. -/
theorem zero_burst_wraps :
    loop_condition (init grant_all zero_burst_scenario) = true ∧
    (loop_condition (after_ticks (EP.tick grant_all) 1 (init grant_all zero_burst_scenario)) =
        true ∧
      (after_ticks (EP.tick grant_all) 1 (init grant_all zero_burst_scenario)).running =
        { mk_process 1 0 0 0 0 1 with start_time := 0, state := States.RUNNING } ∧
      (after_ticks (EP.tick grant_all) 2 (init grant_all zero_burst_scenario)).running =
        { mk_process 1 0 0 0 0 1 with
          start_time := 0, state := States.RUNNING, remaining_time := 4294967295 }) ∧
    (loop_condition (after_ticks (RR.tick grant_all) 1 (init grant_all zero_burst_scenario)) =
        true ∧
      (after_ticks (RR.tick grant_all) 1 (init grant_all zero_burst_scenario)).running =
        { mk_process 1 0 0 0 0 1 with start_time := 0, state := States.RUNNING } ∧
      (after_ticks (RR.tick grant_all) 2 (init grant_all zero_burst_scenario)).running =
        { mk_process 1 0 0 0 0 1 with
          start_time := 0, state := States.RUNNING, remaining_time := 4294967295,
          time_in_cpu := 1 }) ∧
    (loop_condition (after_ticks (EP_RR.tick grant_all) 1
        (init grant_all zero_burst_scenario)) = true ∧
      (after_ticks (EP_RR.tick grant_all) 1 (init grant_all zero_burst_scenario)).running =
        { mk_process 1 0 0 0 0 1 with start_time := 0, state := States.RUNNING } ∧
      (after_ticks (EP_RR.tick grant_all) 2 (init grant_all zero_burst_scenario)).running =
        { mk_process 1 0 0 0 0 1 with
          start_time := 0, state := States.RUNNING, remaining_time := 4294967295,
          time_in_cpu := 1 }) ∧
    ((after_ticks (RR.tick grant_all) 5 (init grant_all late_arrival_scenario)).job_list.map
        (fun j => (j.PID, j.remaining_time)) = [(1, 5)] ∧
      (after_ticks (RR.tick grant_all) 6 (init grant_all late_arrival_scenario)).job_list.map
        (fun j => (j.PID, j.remaining_time)) = [(1, 0)]) := by
  refine ⟨by decide, ⟨by decide, by decide, by decide⟩, ⟨by decide, by decide, by decide⟩,
    ⟨by decide, by decide, by decide⟩, by decide, by decide⟩

/-! ## Runs without admission -/

theorem admitted_of_refused (E : Env) (touch : PCB → PCB) (now : Nat) :
    ∀ (l : List PCB) (i : Nat),
      (∀ j p, l[j]? = some p → p.arrival_time = now → E.assign_memory now (i + j) = false) →
      admitted E touch now i l = [] ∧ marked E touch now i l = l := by
  intro l
  induction l with
  | nil => intro i _; exact ⟨rfl, rfl⟩
  | cons p ps ih =>
    intro i h
    have hp : ¬ (p.arrival_time = now ∧ E.assign_memory now i = true) := by
      intro hh
      have := h 0 p (by simp) hh.1
      rw [Nat.add_zero, hh.2] at this
      exact absurd this (by decide)
    have := ih (i + 1) (fun j q hq hq' => by
      have := h (j + 1) q (by simpa using hq) hq'
      rw [show i + 1 + j = i + (j + 1) by omega]
      exact this)
    simp only [admitted, marked, if_neg hp, this.1, this.2, and_self]

/-- An iteration at which nothing is admitted, with empty queues and an idle CPU, only advances
the clock. -/
theorem tick_of_nothing (E : Env) (s : SimState)
    (hadm : ∀ touch, admitted E touch s.current_time 0 s.list_processes = [] ∧
      marked E touch s.current_time 0 s.list_processes = s.list_processes)
    (hrq : s.ready_queue = []) (hwq : s.wait_queue = [])
    (hidle : s.running.state = States.NOT_ASSIGNED) :
    EP.tick E s = { s with current_time := s.current_time + 1 } ∧
    RR.tick E s = { s with current_time := s.current_time + 1 } ∧
    EP_RR.tick E s = { s with current_time := s.current_time + 1 } := by
  have hpop : ∀ touch, populate E touch s = s := by
    intro touch
    unfold populate
    simp only [(hadm touch).1, (hadm touch).2, List.map_nil, List.append_nil]
  have hnr : s.running.state ≠ States.RUNNING := by rw [hidle]; decide
  refine ⟨?_, ?_, ?_⟩
  · unfold EP.tick
    dsimp only
    rw [hpop, manage_wait_queue_of_empty _ _ s hwq, ep_handle_running_of_not_running E s hnr]
    unfold EP.schedule
    rw [dispatch_of_empty _ _ _ hrq]
  · unfold RR.tick
    dsimp only
    rw [hpop, manage_wait_queue_of_empty _ _ s hwq]
    have h1 : RR.handle_running E s = s := by
      unfold RR.handle_running
      rw [if_neg hnr]
    rw [h1]
    unfold RR.schedule
    rw [dispatch_of_empty _ _ _ hrq]
  · unfold EP_RR.tick EP_RR.arrivals
    dsimp only
    rw [hpop, manage_wait_queue_of_empty _ _ s hwq, (hadm Quantum.touch_new).1]
    have h0 : EP_RR.check_preemption E (!([] : List PCB).isEmpty) s.wait_queue s = s :=
      EP_RR.check_preemption_without_arrival E s
    rw [h0, eprr_handle_running_of_not_running E s hnr]
    unfold EP_RR.schedule
    rw [dispatch_of_empty _ _ _ hrq]

/-- A loop whose body only advances the clock of the initial state is ended by the safety check,
in the initial state with the clock at 100001. -/
theorem run_of_nothing (E : Env) (l : List PCB) (tick : SimState → SimState)
    (htick : ∀ c, c ≤ 100000 →
      tick { init E l with current_time := c } = { init E l with current_time := c + 1 }) :
    run_loop tick 100001 (init E l) = ({ init E l with current_time := 100001 }, true) := by
  have h := run_loop_induction tick
    (fun s => s = { init E l with current_time := s.current_time })
    (fun s hs _ hc => by
      have h1 : tick s = { init E l with current_time := s.current_time + 1 } := by
        conv_lhs => rw [hs]
        exact htick s.current_time hc
      rw [h1]
      exact ⟨rfl, rfl⟩)
    100001 (init E l) rfl rfl
  obtain ⟨h1, h2, h3⟩ := h
  have hlc : loop_condition (run_loop tick 100001 (init E l)).1 = true := by
    apply loop_condition_of_empty
    rw [h1]
    rfl
  have hflag : (run_loop tick 100001 (init E l)).2 = true := by
    cases hf : (run_loop tick 100001 (init E l)).2 with
    | true => rfl
    | false =>
      rw [h2 hf] at hlc
      exact absurd hlc (by decide)
  have hct := h3 hflag
  rw [hct] at h1
  exact Prod.ext h1 hflag

/-- A loop body that only advances the clock of the initial state leaves, after `n` iterations,
the initial state with the clock advanced by `n`. -/
theorem after_ticks_of_nothing (E : Env) (l : List PCB) (tick : SimState → SimState)
    (htick : ∀ c, c ≤ 100000 →
      tick { init E l with current_time := c } = { init E l with current_time := c + 1 }) :
    ∀ n c, c + n ≤ 100001 →
      after_ticks tick n { init E l with current_time := c } =
        { init E l with current_time := c + n } := by
  intro n
  induction n with
  | zero => intro c _; rfl
  | succ n ih =>
    intro c hc
    have h1 := htick c (by omega)
    show (if (tick { init E l with current_time := c }).current_time > 100000 then
        tick { init E l with current_time := c }
      else after_ticks tick n (tick { init E l with current_time := c })) = _
    rw [h1]
    by_cases hgt : c + 1 > 100000
    · rw [if_pos hgt]
      have : n = 0 := by omega
      rw [this]
    · rw [if_neg hgt, ih (c + 1) (by omega)]
      rw [show c + 1 + n = c + (n + 1) by omega]

theorem idles_of_nothing (E : Env) (l : List PCB) (tick : SimState → SimState)
    (htick : ∀ c, c ≤ 100000 →
      tick { init E l with current_time := c } = { init E l with current_time := c + 1 }) :
    idles_to_ceiling E l tick (run_loop tick 100001 (init E l)) := by
  refine ⟨run_of_nothing E l tick htick, fun n hn => ?_⟩
  have h := after_ticks_of_nothing E l tick htick n 0 (by omega)
  rw [Nat.zero_add] at h
  exact h

/-- C22. In each of the three simulators, with `idle_CPU` within its contract, for the empty
workload and for every workload of which no process is ever admitted: the run is ended by the
safety check after the ticks 0 to 100000 (the loop is never left through its condition), the
registry and the two queues are empty all along, and the execution table has no row. -/
theorem run_without_admission_hits_ceiling (E : Env) (hI : IdleContract E) (l : List PCB)
    (h : never_admitted E l) :
    idles_to_ceiling E l (EP.tick E) (EP.run_simulation E l) ∧
    idles_to_ceiling E l (RR.tick E) (RR.run_simulation E l) ∧
    idles_to_ceiling E l (EP_RR.tick E) (EP_RR.run_simulation E l) := by
  have htick : ∀ c, c ≤ 100000 →
      EP.tick E { init E l with current_time := c } =
        { init E l with current_time := c + 1 } ∧
      RR.tick E { init E l with current_time := c } =
        { init E l with current_time := c + 1 } ∧
      EP_RR.tick E { init E l with current_time := c } =
        { init E l with current_time := c + 1 } := by
    intro c hc
    exact tick_of_nothing E { init E l with current_time := c }
      (fun touch => admitted_of_refused E touch c l 0 (fun j p hj hp => by
        rw [Nat.zero_add]
        exact h c j p hc hj hp))
      rfl rfl (hI _)
  refine ⟨?_, ?_, ?_⟩
  · unfold EP.run_simulation
    rw [ep_loop_eq]
    exact idles_of_nothing E l _ (fun c hc => (htick c hc).1)
  · unfold RR.run_simulation
    rw [rr_loop_eq]
    exact idles_of_nothing E l _ (fun c hc => (htick c hc).2.1)
  · unfold EP_RR.run_simulation
    rw [ep_rr_loop_eq]
    exact idles_of_nothing E l _ (fun c hc => (htick c hc).2.2)

theorem run_without_admission_hits_ceiling_witness :
    (EP.run_simulation grant_all []).2 = true ∧
    (EP.run_simulation grant_all []).1.execution_status = [] ∧
    (RR.run_simulation refuse_all scenario).2 = true ∧
    (RR.run_simulation refuse_all scenario).1.job_list = [] ∧
    (EP_RR.run_simulation refuse_all scenario).1.execution_status = [] ∧
    (EP_RR.run_simulation refuse_all scenario).1.current_time = 100001 := by
  have h1 := run_without_admission_hits_ceiling grant_all idleContract_grant_all []
    (fun t i p _ hp _ => by simp at hp)
  have h2 := run_without_admission_hits_ceiling refuse_all (fun _ => rfl) scenario
    (fun _ _ _ _ _ _ => rfl)
  rw [h1.1.1, h2.2.1.1, h2.2.2.1]
  exact ⟨rfl, rfl, rfl, rfl, rfl, rfl⟩

/-! ## Work conservation -/

theorem slot_quantum_checks (E : Env) (hI : IdleContract E) (s : SimState)
    (h : s.running.state = States.RUNNING) :
    Slot (Quantum.io_check E s) ∧ Slot (Quantum.completion_check E s) ∧
    Slot (Quantum.preempt E s) ∧ Slot (RR.quantum_check E s) ∧
    Slot (EP_RR.quantum_check E s) ∧ Slot (EP.io_check E s) := by
  refine ⟨?_, ?_, Or.inr (hI _), ?_, ?_, ep_io_check_slot E hI s h⟩
  · unfold Quantum.io_check
    dsimp only
    split_ifs
    · exact Or.inr (hI _)
    · exact Or.inl h
    · exact Or.inl h
  · unfold Quantum.completion_check
    split_ifs
    · exact Or.inr (hI _)
    · exact Or.inl h
  · unfold RR.quantum_check
    split_ifs
    · exact Or.inr (hI _)
    · exact Or.inl h
  · unfold EP_RR.quantum_check
    split_ifs
    · exact Or.inr (hI _)
    · exact Or.inl h
    · exact Or.inl h

theorem slot_ep_completion_check (E : Env) (hI : IdleContract E) (s : SimState)
    (h : Slot s) : Slot (EP.completion_check E s) := by
  unfold EP.completion_check
  split_ifs
  · exact Or.inr (hI _)
  · exact h

/-- STEP 3 leaves a RUNNING process or none in the running slot. -/
theorem slot_handle_running (E : Env) (hI : IdleContract E) (s : SimState) (h : Slot s) :
    Slot (EP.handle_running E s) ∧ Slot (RR.handle_running E s) ∧
    Slot (EP_RR.handle_running E s) := by
  have hq : s.running.state = States.RUNNING →
      Slot (Quantum.completion_check E (Quantum.io_check E (Quantum.execute s))) := by
    intro hrun
    rcases (slot_quantum_checks E hI (Quantum.execute s) hrun).1 with h1 | h1
    · exact (slot_quantum_checks E hI _ h1).2.1
    · rw [(quantum_checks_of_idle E _ (by rw [h1]; decide)).1]
      exact Or.inr h1
  refine ⟨?_, ?_, ?_⟩
  · unfold EP.handle_running
    split_ifs with hrun
    · exact slot_ep_completion_check E hI _
        (ep_io_check_slot E hI { s with running := EP.charged s.running } hrun)
    · exact h
  · unfold RR.handle_running
    split_ifs with hrun
    · rcases hq hrun with h1 | h1
      · exact (slot_quantum_checks E hI _ h1).2.2.2.1
      · rw [(quantum_checks_of_idle E _ (by rw [h1]; decide)).2.1]
        exact Or.inr h1
    · exact h
  · unfold EP_RR.handle_running
    split_ifs with hrun
    · rcases hq hrun with h1 | h1
      · exact (slot_quantum_checks E hI _ h1).2.2.2.2.1
      · rw [(quantum_checks_of_idle E _ (by rw [h1]; decide)).2.2]
        exact Or.inr h1
    · exact h

theorem slot_check_preemption (E : Env) (hI : IdleContract E) (new_arrival : Bool)
    (still_waiting : List PCB) (s : SimState) (h : Slot s) :
    Slot (EP_RR.check_preemption E new_arrival still_waiting s) := by
  unfold EP_RR.check_preemption
  dsimp only
  split_ifs
  · exact Or.inr (hI _)
  · exact h
  · exact h

/-- STEP 4 leaves the state work-conserving. -/
theorem dispatch_conserves (schedule : List PCB → List PCB) (quantum : Nat → Nat)
    (s : SimState) (hperm : (schedule s.ready_queue).Perm s.ready_queue) (h : Slot s) :
    Slot (dispatch schedule quantum s) ∧ work_conserving (dispatch schedule quantum s) := by
  by_cases hidle : s.running.state = States.NOT_ASSIGNED
  · by_cases hne : s.ready_queue = []
    · rw [dispatch_of_empty _ _ _ hne]
      exact ⟨h, fun hh => absurd hne hh⟩
    · obtain ⟨back, _, heq⟩ := dispatch_eq schedule quantum s hperm hidle hne
      rw [heq]
      exact ⟨Or.inl rfl, fun _ => rfl⟩
  · rw [dispatch_of_busy _ _ _ hidle]
    rcases h with h | h
    · exact ⟨Or.inl h, fun _ => h⟩
    · exact absurd h hidle

/-- Every iteration of each simulator ends in a work-conserving state. -/
theorem tick_conserves (E : Env) (hE : SortContract E) (hI : IdleContract E) (s : SimState)
    (h : Slot s) :
    (Slot (EP.tick E s) ∧ work_conserving (EP.tick E s)) ∧
    (Slot (RR.tick E s) ∧ work_conserving (RR.tick E s)) ∧
    (Slot (EP_RR.tick E s) ∧ work_conserving (EP_RR.tick E s)) := by
  refine ⟨?_, ?_, ?_⟩
  · have h2 : Slot (manage_wait_queue
        (fun _ => (populate E EP.touch_new s).io_start_time) EP.touch_done
        (populate E EP.touch_new s)) := h
    have h3 := (slot_handle_running E hI _ h2).1
    exact dispatch_conserves (external_priorities E) (fun q => q) _
      (hE _ strictWeak_external_priorities_cmp _).1 h3
  · have h2 : Slot (manage_wait_queue (fun p => p.time_in_cpu)
        Quantum.touch_done (populate E Quantum.touch_new s)) := h
    have h3 := (slot_handle_running E hI _ h2).2.1
    exact dispatch_conserves (fcfs_rr E) (fun _ => TIME_QUANTUM) _
      (hE _ strictWeak_fcfs_rr_cmp _).1 h3
  · have h2 : Slot (manage_wait_queue (fun p => p.time_in_cpu)
        Quantum.touch_done (populate E Quantum.touch_new s)) := h
    have h25 : Slot (EP_RR.arrivals E s) := slot_check_preemption E hI _ _ _ h2
    have h3 : Slot (EP_RR.handle_running E (EP_RR.arrivals E s)) :=
      (slot_handle_running E hI _ h25).2.2
    exact dispatch_conserves (ep_rr_schedule E) (fun _ => TIME_QUANTUM) _
      (hE _ strictWeak_ep_rr_schedule_cmp _).1 h3

/-- STEP 2 does nothing when no wait is over. -/
theorem manage_wait_queue_of_none (started : PCB → Nat) (touch : PCB → PCB) (s : SimState)
    (h : ∀ w ∈ s.wait_queue, usub s.current_time (started w) < w.io_duration) :
    manage_wait_queue started touch s = s := by
  have h1 : s.wait_queue.filter
      (fun p => decide (usub s.current_time (started p) ≥ p.io_duration)) = [] := by
    rw [List.filter_eq_nil_iff]
    intro w hw
    have := h w hw
    simp only [decide_eq_true_eq]
    omega
  have h2 : s.wait_queue.filter
      (fun p => !decide (usub s.current_time (started p) ≥ p.io_duration)) = s.wait_queue := by
    rw [List.filter_eq_self]
    intro w hw
    have := h w hw
    simp only [Bool.not_eq_true', decide_eq_false_iff_not]
    omega
  unfold manage_wait_queue
  simp only [h1, h2, List.map_nil, List.foldl_nil, List.append_nil]

theorem sort_singleton (E : Env) (hE : SortContract E) {comp : PCB → PCB → Bool}
    (hc : StrictWeak comp) (a : PCB) : E.sort comp [a] = [a] :=
  List.perm_singleton.1 (hE comp hc [a]).1

/-- STEP 4 with an idle CPU and a single ready process dispatches that process. -/
theorem dispatch_singleton (schedule : List PCB → List PCB) (quantum : Nat → Nat)
    (s : SimState) (a : PCB) (hs : schedule [a] = [a])
    (hidle : s.running.state = States.NOT_ASSIGNED) (hrq : s.ready_queue = [a]) :
    (dispatch schedule quantum s).running = started_at s.current_time a ∧
    (dispatch schedule quantum s).ready_queue = [] ∧
    (dispatch schedule quantum s).execution_status = s.execution_status ++
      [Event.mk s.current_time a.PID States.READY States.RUNNING] := by
  unfold dispatch
  rw [if_pos ⟨hidle, by rw [hrq]; simp⟩, hrq, hs]
  exact ⟨rfl, rfl, by rw [← pid_started_at s.current_time a]; rfl⟩

/-- An iteration that begins with an idle CPU and an empty ready queue, at which one process is
admitted and no wait is over, dispatches the admitted process. -/
theorem tick_dispatches_arrival (E : Env) (hE : SortContract E) (s : SimState)
    (hidle : s.running.state = States.NOT_ASSIGNED) (hrq : s.ready_queue = []) :
    (∀ a, admitted E EP.touch_new s.current_time 0 s.list_processes = [a] →
      (∀ w ∈ s.wait_queue, usub s.current_time s.io_start_time < w.io_duration) →
      dispatched_on_arrival s (EP.tick E s) a) ∧
    (∀ a, admitted E Quantum.touch_new s.current_time 0 s.list_processes = [a] →
      (∀ w ∈ s.wait_queue, usub s.current_time w.time_in_cpu < w.io_duration) →
      dispatched_on_arrival s (RR.tick E s) a ∧ dispatched_on_arrival s (EP_RR.tick E s) a) := by
  have hnr : s.running.state ≠ States.RUNNING := by rw [hidle]; decide
  refine ⟨fun a ha hw => ?_, fun a ha hw => ⟨?_, ?_⟩⟩
  · have h2 : manage_wait_queue (fun _ => (populate E EP.touch_new s).io_start_time)
        EP.touch_done (populate E EP.touch_new s) = populate E EP.touch_new s :=
      manage_wait_queue_of_none _ _ _ hw
    have h3 : EP.handle_running E (populate E EP.touch_new s) = populate E EP.touch_new s :=
      ep_handle_running_of_not_running E _ hnr
    have h1 : (populate E EP.touch_new s).ready_queue = [a] := by
      show s.ready_queue ++ admitted E EP.touch_new s.current_time 0 s.list_processes = [a]
      rw [hrq, ha, List.nil_append]
    have he : (populate E EP.touch_new s).execution_status = s.execution_status ++
        [Event.mk s.current_time a.PID States.NEW States.READY] := by
      show s.execution_status ++
        (admitted E EP.touch_new s.current_time 0 s.list_processes).map _ = _
      rw [ha]
      rfl
    obtain ⟨d1, d2, d3⟩ := dispatch_singleton (external_priorities E) (fun q => q)
      (populate E EP.touch_new s) a (sort_singleton E hE strictWeak_external_priorities_cmp a)
      hidle h1
    unfold EP.tick EP.schedule
    dsimp only
    rw [h2, h3]
    refine ⟨d1, d2, ?_⟩
    show (dispatch (external_priorities E) (fun q => q)
      (populate E EP.touch_new s)).execution_status = _
    rw [d3, he, List.append_assoc]
    rfl
  · have h2 : manage_wait_queue (fun p => p.time_in_cpu)
        Quantum.touch_done (populate E Quantum.touch_new s) = populate E Quantum.touch_new s :=
      manage_wait_queue_of_none _ _ _ hw
    have h3 : RR.handle_running E (populate E Quantum.touch_new s) =
        populate E Quantum.touch_new s := by
      unfold RR.handle_running
      exact if_neg hnr
    have h1 : (populate E Quantum.touch_new s).ready_queue = [a] := by
      show s.ready_queue ++ admitted E Quantum.touch_new s.current_time 0 s.list_processes =
        [a]
      rw [hrq, ha, List.nil_append]
    have he : (populate E Quantum.touch_new s).execution_status = s.execution_status ++
        [Event.mk s.current_time a.PID States.NEW States.READY] := by
      show s.execution_status ++
        (admitted E Quantum.touch_new s.current_time 0 s.list_processes).map _ = _
      rw [ha]
      rfl
    obtain ⟨d1, d2, d3⟩ := dispatch_singleton (fcfs_rr E) (fun _ => TIME_QUANTUM)
      (populate E Quantum.touch_new s) a (sort_singleton E hE strictWeak_fcfs_rr_cmp a)
      hidle h1
    unfold RR.tick RR.schedule
    dsimp only
    rw [h2, h3]
    refine ⟨d1, d2, ?_⟩
    show (dispatch (fcfs_rr E) (fun _ => TIME_QUANTUM)
      (populate E Quantum.touch_new s)).execution_status = _
    rw [d3, he, List.append_assoc]
    rfl
  · have h2 : manage_wait_queue (fun p => p.time_in_cpu)
        Quantum.touch_done (populate E Quantum.touch_new s) = populate E Quantum.touch_new s :=
      manage_wait_queue_of_none _ _ _ hw
    have h1 : (populate E Quantum.touch_new s).ready_queue = [a] := by
      show s.ready_queue ++ admitted E Quantum.touch_new s.current_time 0 s.list_processes =
        [a]
      rw [hrq, ha, List.nil_append]
    have he : (populate E Quantum.touch_new s).execution_status = s.execution_status ++
        [Event.mk s.current_time a.PID States.NEW States.READY] := by
      show s.execution_status ++
        (admitted E Quantum.touch_new s.current_time 0 s.list_processes).map _ = _
      rw [ha]
      rfl
    have hsort := sort_singleton E hE strictWeak_ep_rr_schedule_cmp a
    have h25 : EP_RR.arrivals E s = populate E Quantum.touch_new s := by
      unfold EP_RR.arrivals
      dsimp only
      rw [h2, ha]
      unfold EP_RR.check_preemption
      dsimp only
      split_ifs with c1 c2
      · exact absurd (running_of_should_preempt c2) hnr
      · rw [h1]
        show { populate E Quantum.touch_new s with
          ready_queue := E.sort ep_rr_schedule_cmp [a] } = _
        rw [hsort, ← h1]
      · exact absurd (Or.inl rfl) c1
    have h3 : EP_RR.handle_running E (populate E Quantum.touch_new s) =
        populate E Quantum.touch_new s :=
      eprr_handle_running_of_not_running E _ hnr
    obtain ⟨d1, d2, d3⟩ := dispatch_singleton (ep_rr_schedule E) (fun _ => TIME_QUANTUM)
      (populate E Quantum.touch_new s) a hsort hidle h1
    unfold EP_RR.tick EP_RR.schedule
    dsimp only
    rw [h25, h3]
    refine ⟨d1, d2, ?_⟩
    show (dispatch (ep_rr_schedule E) (fun _ => TIME_QUANTUM)
      (populate E Quantum.touch_new s)).execution_status = _
    rw [d3, he, List.append_assoc]
    rfl

/-- Every state of a run of a loop body whose iterations end work-conserving is
work-conserving. -/
theorem conserving_of_run (E : Env) (hI : IdleContract E) (l : List PCB)
    (tick : SimState → SimState)
    (htick : ∀ s, Slot s → Slot (tick s) ∧ work_conserving (tick s)) :
    (∀ n, work_conserving (after_ticks tick n (init E l))) ∧
    work_conserving (run_loop tick 100001 (init E l)).1 := by
  have h : ∀ n, Slot (after_ticks tick n (init E l)) ∧
      work_conserving (after_ticks tick n (init E l)) := fun n =>
    after_ticks_induction (fun s => Slot s ∧ work_conserving s) tick
      (fun s hs => htick s hs.1) n (init E l)
      ⟨Or.inr (hI _), fun hne => absurd rfl hne⟩
  refine ⟨fun n => (h n).2, ?_⟩
  obtain ⟨n, hn⟩ := run_loop_eq_after_ticks tick 100001 (init E l)
  rw [hn]
  exact (h n).2

/-- C23. In each of the three simulators, for every workload, every allocator and every
`std::sort` and `idle_CPU` within their contracts, the state after every iteration of the loop
(after STEP 4), and so the state in which `run_simulation` ends, is work-conserving: if the ready
queue is not empty then a process is RUNNING. In particular an iteration that begins with an idle
CPU and an empty ready queue, at which one process is admitted and no I/O wait is over,
dispatches the admitted process at that tick. -/
theorem scheduler_is_work_conserving (E : Env) (hE : SortContract E) (hI : IdleContract E)
    (l : List PCB) :
    ((∀ n, work_conserving (after_ticks (EP.tick E) n (init E l))) ∧
      work_conserving (EP.run_simulation E l).1) ∧
    ((∀ n, work_conserving (after_ticks (RR.tick E) n (init E l))) ∧
      work_conserving (RR.run_simulation E l).1) ∧
    ((∀ n, work_conserving (after_ticks (EP_RR.tick E) n (init E l))) ∧
      work_conserving (EP_RR.run_simulation E l).1) ∧
    ∀ s : SimState, s.running.state = States.NOT_ASSIGNED → s.ready_queue = [] →
      (∀ a, admitted E EP.touch_new s.current_time 0 s.list_processes = [a] →
        (∀ w ∈ s.wait_queue, usub s.current_time s.io_start_time < w.io_duration) →
        dispatched_on_arrival s (EP.tick E s) a) ∧
      (∀ a, admitted E Quantum.touch_new s.current_time 0 s.list_processes = [a] →
        (∀ w ∈ s.wait_queue, usub s.current_time w.time_in_cpu < w.io_duration) →
        dispatched_on_arrival s (RR.tick E s) a ∧
          dispatched_on_arrival s (EP_RR.tick E s) a) := by
  refine ⟨?_, ?_, ?_, fun s hidle hrq => tick_dispatches_arrival E hE s hidle hrq⟩
  · unfold EP.run_simulation
    rw [ep_loop_eq]
    exact conserving_of_run E hI l _ (fun s hs => (tick_conserves E hE hI s hs).1)
  · unfold RR.run_simulation
    rw [rr_loop_eq]
    exact conserving_of_run E hI l _ (fun s hs => (tick_conserves E hE hI s hs).2.1)
  · unfold EP_RR.run_simulation
    rw [ep_rr_loop_eq]
    exact conserving_of_run E hI l _ (fun s hs => (tick_conserves E hE hI s hs).2.2)

theorem scheduler_is_work_conserving_witness :
    work_conserving (EP.run_simulation grant_all scenario).1 ∧
    work_conserving (RR.run_simulation grant_all scenario).1 ∧
    work_conserving (EP_RR.run_simulation grant_all scenario).1 ∧
    dispatched_on_arrival (init grant_all late_arrival_scenario)
      (EP.tick grant_all (init grant_all late_arrival_scenario))
      (EP.touch_new (mk_process 1 0 5 0 0 1)) :=
  have h := scheduler_is_work_conserving grant_all sortContract_grant_all
    idleContract_grant_all scenario
  ⟨h.1.2, h.2.1.2, h.2.2.1.2,
    (h.2.2.2 (init grant_all late_arrival_scenario) rfl rfl).1
      (EP.touch_new (mk_process 1 0 5 0 0 1)) (by decide)
      (fun w hw => absurd hw (List.not_mem_nil w))⟩

/-! ## The exit of the loop -/

theorem loop_condition_eq_false_iff (s : SimState) :
    loop_condition s = false ↔ registry_done s := by
  unfold loop_condition registry_done
  cases hj : s.job_list with
  | nil => simp
  | cons j t => simp

theorem after_ticks_succ (tick : SimState → SimState) (n : Nat) (s : SimState)
    (h : ¬ (tick s).current_time > 100000) :
    after_ticks tick (n + 1) s = after_ticks tick n (tick s) := by
  show (if (tick s).current_time > 100000 then tick s else after_ticks tick n (tick s)) = _
  rw [if_neg h]

/-- The loop is left after the first iteration that ends with a registry that is not empty and
all TERMINATED, if that happens within the ceiling. -/
theorem run_loop_first_exit (tick : SimState → SimState)
    (hct : ∀ s, (tick s).current_time = s.current_time + 1) :
    ∀ (n : Nat) (s : SimState) (fuel : Nat), s.current_time + n ≤ 100000 → n < fuel →
      first_exit tick s n →
      run_loop tick fuel s = (after_ticks tick n s, false) ∧
        (after_ticks tick n s).current_time = s.current_time + n := by
  intro n
  induction n with
  | zero =>
    intro s fuel _ hf h
    obtain ⟨f, rfl⟩ : ∃ f, fuel = f + 1 := ⟨fuel - 1, by omega⟩
    have hlc : loop_condition s = false := (loop_condition_eq_false_iff s).2 h.2
    refine ⟨?_, rfl⟩
    show (if loop_condition s = true then _ else (s, false)) = (s, false)
    rw [if_neg (by rw [hlc]; decide)]
  | succ n ih =>
    intro s fuel hc hf h
    obtain ⟨f, rfl⟩ : ∃ f, fuel = f + 1 := ⟨fuel - 1, by omega⟩
    have hlc : loop_condition s = true := by
      cases hb : loop_condition s with
      | true => rfl
      | false => exact absurd ((loop_condition_eq_false_iff s).1 hb) (h.1 0 (by omega))
    have hgt : ¬ (tick s).current_time > 100000 := by
      rw [hct]
      omega
    have hfirst : first_exit tick (tick s) n := by
      refine ⟨fun m hm => ?_, ?_⟩
      · rw [← after_ticks_succ tick m s hgt]
        exact h.1 (m + 1) (by omega)
      · rw [← after_ticks_succ tick n s hgt]
        exact h.2
    obtain ⟨h1, h2⟩ := ih (tick s) f (by rw [hct]; omega) (by omega) hfirst
    rw [after_ticks_succ tick n s hgt]
    refine ⟨?_, by rw [h2, hct]; omega⟩
    show (if loop_condition s = true then
      (if (tick s).current_time > 100000 then (tick s, true) else run_loop tick f (tick s))
      else (s, false)) = _
    rw [if_pos hlc, if_neg hgt, h1]

theorem exits_of_first_exit (E : Env) (l : List PCB) (tick : SimState → SimState)
    (hct : ∀ s, (tick s).current_time = s.current_time + 1) (n : Nat) (hn : n ≤ 100000)
    (h : first_exit tick (init E l) n) :
    exits_after tick (init E l) (run_loop tick 100001 (init E l)) n := by
  have := run_loop_first_exit tick hct n (init E l) 100001
    (by show 0 + n ≤ 100000; omega) (by omega) h
  refine ⟨this.1, ?_⟩
  rw [this.2]
  show 0 + n = n
  omega

/-- In a state of the loop, a process of the workload that arrives at the current tick or later
has no row in the execution table. -/
theorem no_rows_of_late {D : Discipline} {l : List PCB} {s : SimState} (h : Run D l s)
    (p : PCB) (hp : p ∈ l) (harr : s.current_time ≤ p.arrival_time) :
    rows_of p.PID s.execution_status = [] := by
  obtain ⟨_, _, hd, hroster⟩ := h
  have hmem : p.static ∈ s.list_processes.map PCB.static := by
    rw [hroster]
    exact List.mem_map_of_mem _ hp
  obtain ⟨q, hq, hqs⟩ := List.mem_map.1 hmem
  rw [← static_pid hqs]
  exact (hd.fresh q hq (by rw [static_arrival hqs]; exact harr)).1

/-- C24. In each of the three simulators the loop is left at the end of the first iteration
after which the registry is not empty and all its processes are TERMINATED, if there is such an
iteration within the ceiling: the run ends there, with the clock at the number of iterations made
and without hitting the ceiling. With `std::sort` and `idle_CPU` within their contracts and
pairwise distinct PIDs (in EP: none of them the PID of the placeholder of the idle CPU), a process
whose arrival time is not before the final value of the clock, that is after the last tick that
was simulated, has no row in the returned table. -/
theorem loop_exits_when_registry_is_done (E : Env) (l : List PCB) :
    (∀ n, n ≤ 100000 →
      (first_exit (EP.tick E) (init E l) n →
        exits_after (EP.tick E) (init E l) (EP.run_simulation E l) n) ∧
      (first_exit (RR.tick E) (init E l) n →
        exits_after (RR.tick E) (init E l) (RR.run_simulation E l) n) ∧
      (first_exit (EP_RR.tick E) (init E l) n →
        exits_after (EP_RR.tick E) (init E l) (EP_RR.run_simulation E l) n)) ∧
    (SortContract E → IdleContract E → (pids l).Nodup → ∀ p ∈ l,
      ((∀ r, (E.idle_CPU r).PID ∉ pids l) →
        (EP.run_simulation E l).1.current_time ≤ p.arrival_time →
        rows_of p.PID (EP.run_simulation E l).1.execution_status = []) ∧
      ((RR.run_simulation E l).1.current_time ≤ p.arrival_time →
        rows_of p.PID (RR.run_simulation E l).1.execution_status = []) ∧
      ((EP_RR.run_simulation E l).1.current_time ≤ p.arrival_time →
        rows_of p.PID (EP_RR.run_simulation E l).1.execution_status = [])) := by
  refine ⟨fun n hn => ⟨fun h => ?_, fun h => ?_, fun h => ?_⟩,
    fun hE hI hl p hp => ⟨fun hfree harr => ?_, fun harr => ?_, fun harr => ?_⟩⟩
  · unfold EP.run_simulation
    rw [ep_loop_eq]
    exact exits_of_first_exit E l _ (fun s => (tick_within E s).1.1) n hn h
  · unfold RR.run_simulation
    rw [rr_loop_eq]
    exact exits_of_first_exit E l _ (fun s => (tick_within E s).2.1.1) n hn h
  · unfold EP_RR.run_simulation
    rw [ep_rr_loop_eq]
    exact exits_of_first_exit E l _ (fun s => (tick_within E s).2.2.1) n hn h
  · exact no_rows_of_late (ep_run_at_exit lifecycle (sound_lifecycle false) E hE hI l hl
      (fun _ _ => trivial) hfree).1 p hp harr
  · exact no_rows_of_late (rr_run_at_exit lifecycle (sound_lifecycle true) E hE hI l hl
      (fun _ _ => trivial)).1 p hp harr
  · exact no_rows_of_late (ep_rr_run_at_exit lifecycle (sound_lifecycle true) E hE hI l hl
      (fun _ _ => trivial)).1 p hp harr

theorem loop_exits_when_registry_is_done_witness :
    exits_after (EP.tick grant_all) (init grant_all late_arrival_scenario)
      (EP.run_simulation grant_all late_arrival_scenario) 6 ∧
    exits_after (RR.tick grant_all) (init grant_all late_arrival_scenario)
      (RR.run_simulation grant_all late_arrival_scenario) 6 ∧
    exits_after (EP_RR.tick grant_all) (init grant_all late_arrival_scenario)
      (EP_RR.run_simulation grant_all late_arrival_scenario) 6 ∧
    rows_of 2 (EP.run_simulation grant_all late_arrival_scenario).1.execution_status = [] ∧
    rows_of 2 (RR.run_simulation grant_all late_arrival_scenario).1.execution_status = [] ∧
    rows_of 2 (EP_RR.run_simulation grant_all late_arrival_scenario).1.execution_status = [] :=
  have h := loop_exits_when_registry_is_done grant_all late_arrival_scenario
  have h2 := h.2 sortContract_grant_all idleContract_grant_all (by decide)
    (mk_process 2 100 5 0 0 1) (by decide)
  ⟨(h.1 6 (by decide)).1 (by unfold first_exit; decide),
    (h.1 6 (by decide)).2.1 (by unfold first_exit; decide),
    (h.1 6 (by decide)).2.2 (by unfold first_exit; decide),
    h2.1 (fun _ => by show idle_pcb.PID ∉ pids late_arrival_scenario; decide) (by decide),
    h2.2.1 (by decide), h2.2.2 (by decide)⟩

/-! ## One place for every admitted process -/

theorem mem_sync_queue_ne {jl : List PCB} {x j : PCB} (h : j ∈ sync_queue jl x) :
    j = x ∨ (j ∈ jl ∧ j.PID ≠ x.PID) := by
  unfold sync_queue at h
  rw [List.mem_map] at h
  obtain ⟨q, hq, rfl⟩ := h
  split_ifs with hpid
  · exact Or.inl rfl
  · exact Or.inr ⟨hq, hpid⟩

/-- A step that synchronises the registry with `x`, which is TERMINATED or in a queue or on the
CPU afterwards, and keeps every other process in a queue or on the CPU. -/
theorem placed_move {s s' : SimState} (h : Placed s) (x : PCB)
    (hrq : ∀ p ∈ s'.ready_queue, p ∈ s.ready_queue ∨ p.state = States.READY)
    (hwq : ∀ p ∈ s'.wait_queue, p ∈ s.wait_queue ∨ p.state = States.WAITING)
    (hjl : ∀ j ∈ s'.job_list, j = x ∨ (j ∈ s.job_list ∧ j.PID ≠ x.PID))
    (hx : x.state = States.TERMINATED ∨ x.PID ∈ pids (live s'))
    (hlive : ∀ pid ∈ pids (live s), pid ≠ x.PID → pid ∈ pids (live s')) : Placed s' := by
  refine ⟨fun p hp => ?_, fun p hp => ?_, fun j hj => ?_⟩
  · rcases hrq p hp with h1 | h1
    · exact h.q_ready p h1
    · exact h1
  · rcases hwq p hp with h1 | h1
    · exact h.q_waiting p h1
    · exact h1
  · rcases hjl j hj with h1 | ⟨h1, h2⟩
    · rw [h1]
      exact hx
    · rcases h.registry j h1 with h3 | h3
      · exact Or.inl h3
      · exact Or.inr (hlive _ h3 h2)

/-- A step that leaves the registry alone and keeps every process in a queue or on the CPU. -/
theorem placed_keep {s s' : SimState} (h : Placed s)
    (hrq : ∀ p ∈ s'.ready_queue, p ∈ s.ready_queue ∨ p.state = States.READY)
    (hwq : ∀ p ∈ s'.wait_queue, p ∈ s.wait_queue ∨ p.state = States.WAITING)
    (hjl : ∀ j ∈ s'.job_list, j ∈ s.job_list)
    (hlive : ∀ pid ∈ pids (live s), pid ∈ pids (live s')) : Placed s' := by
  refine ⟨fun p hp => ?_, fun p hp => ?_, fun j hj => ?_⟩
  · rcases hrq p hp with h1 | h1
    · exact h.q_ready p h1
    · exact h1
  · rcases hwq p hp with h1 | h1
    · exact h.q_waiting p h1
    · exact h1
  · rcases h.registry j (hjl j hj) with h3 | h3
    · exact Or.inl h3
    · exact Or.inr (hlive _ h3)

/-- STEP 1 keeps the places consistent. -/
theorem placed_populate (E : Env) (touch : PCB → PCB)
    (htouch : ∀ p, (touch p).state = States.READY) {s : SimState} (h : Placed s) :
    Placed (populate E touch s) := by
  have hsub : ∀ pid ∈ pids (live s), pid ∈ pids (live (populate E touch s)) := by
    intro pid hpid
    obtain ⟨p, hp, hpp⟩ := mem_pids.1 hpid
    exact mem_pids.2 ⟨p, (live_populate E touch s).mem_iff.2 (List.mem_append_left _ hp), hpp⟩
  refine ⟨fun p hp => ?_, h.q_waiting, fun j hj => ?_⟩
  · have hp' : p ∈ s.ready_queue ++ admitted E touch s.current_time 0 s.list_processes := hp
    rcases List.mem_append.1 hp' with h1 | h1
    · exact h.q_ready p h1
    · obtain ⟨q, _, hq, _⟩ := mem_admitted E touch _ _ _ p h1
      rw [hq]
      exact htouch q
  · have hj' : j ∈ s.job_list ++ admitted E touch s.current_time 0 s.list_processes := hj
    rcases List.mem_append.1 hj' with h1 | h1
    · exact (h.registry j h1).imp id (hsub _)
    · exact Or.inr (mem_pids.2 ⟨j, (live_populate E touch s).mem_iff.2
        (List.mem_append_right _ h1), rfl⟩)

/-- STEP 2 keeps the places consistent. -/
theorem placed_manage_wait_queue (started : PCB → Nat) (touch : PCB → PCB)
    (htouch : ∀ p, (touch p).state = States.READY ∧ (touch p).PID = p.PID) {s : SimState}
    (h : Placed s) : Placed (manage_wait_queue started touch s) := by
  have hsub : ∀ pid ∈ pids (live s),
      pid ∈ pids (live (manage_wait_queue started touch s)) := by
    intro pid hpid
    rcases live_pid_cases hpid with ⟨p, hp, hpp⟩ | ⟨p, hp, hpp⟩ | ⟨hr, hpp⟩
    · rw [← hpp]
      exact pid_mem_live_of_ready (List.mem_append_left _ hp)
    · by_cases hover : usub s.current_time (started p) ≥ p.io_duration
      · rw [← hpp, ← (htouch p).2]
        refine pid_mem_live_of_ready (List.mem_append_right _ (List.mem_map_of_mem _ ?_))
        exact List.mem_filter.2 ⟨hp, by simpa using hover⟩
      · rw [← hpp]
        refine pid_mem_live_of_waiting ?_
        exact List.mem_filter.2 ⟨hp, by simpa using hover⟩
    · rw [← hpp]
      exact pid_mem_live_of_running hr
  refine ⟨fun p hp => ?_, fun p hp => ?_, fun j hj => ?_⟩
  · have hp' : p ∈ s.ready_queue ++ (s.wait_queue.filter
        (fun p => decide (usub s.current_time (started p) ≥ p.io_duration))).map touch := hp
    rcases List.mem_append.1 hp' with h1 | h1
    · exact h.q_ready p h1
    · obtain ⟨w, _, rfl⟩ := List.mem_map.1 h1
      exact (htouch w).1
  · have hp' : p ∈ s.wait_queue.filter
        (fun p => !decide (usub s.current_time (started p) ≥ p.io_duration)) := hp
    exact h.q_waiting p (List.mem_filter.1 hp').1
  · have hj' : j ∈ ((s.wait_queue.filter
        (fun p => decide (usub s.current_time (started p) ≥ p.io_duration))).map
          touch).foldl sync_queue s.job_list := hj
    rcases (foldl_sync_queue _ _).1 j hj' with h1 | h1
    · exact (h.registry j h1).imp id (hsub _)
    · exact Or.inr (pid_mem_live_of_ready (List.mem_append_right _ h1))

/-- STEP 4 keeps the places consistent. -/
theorem placed_dispatch (schedule : List PCB → List PCB) (quantum : Nat → Nat) {s : SimState}
    (hperm : (schedule s.ready_queue).Perm s.ready_queue) (h : Placed s) :
    Placed (dispatch schedule quantum s) := by
  by_cases hidle : s.running.state = States.NOT_ASSIGNED
  · by_cases hne : s.ready_queue = []
    · rw [dispatch_of_empty _ _ _ hne]
      exact h
    · obtain ⟨back, hback, heq⟩ := dispatch_eq schedule quantum s hperm hidle hne
      rw [heq]
      have hmem : ∀ x, x ∈ schedule s.ready_queue → x ∈ s.ready_queue :=
        fun x hx => hperm.mem_iff.1 hx
      refine placed_move h (started_at s.current_time back)
        (fun p hp => Or.inl (hmem p (List.dropLast_subset _ hp))) (fun p hp => Or.inl hp)
        (fun j hj => mem_sync_queue_ne hj) (Or.inr (pid_mem_live_of_running rfl)) ?_
      intro pid hpid hne'
      rcases live_pid_cases hpid with ⟨p, hp, hpp⟩ | ⟨p, hp, hpp⟩ | ⟨hr, _⟩
      · have hp' : p ∈ (schedule s.ready_queue).dropLast ++ [back] := by
          rw [← hback]
          exact hperm.mem_iff.2 hp
        rcases List.mem_append.1 hp' with h1 | h1
        · rw [← hpp]
          exact pid_mem_live_of_ready h1
        · rw [List.mem_singleton] at h1
          rw [pid_started_at, ← h1, hpp] at hne'
          exact absurd rfl hne'
      · rw [← hpp]
        exact pid_mem_live_of_waiting hp
      · rw [hidle] at hr
        exact absurd hr (by decide)
  · rw [dispatch_of_busy _ _ _ hidle]
    exact h

/-- STEP 2.5 of EP_RR keeps the places consistent. -/
theorem placed_check_preemption (E : Env) (hE : SortContract E) (hI : IdleContract E)
    (new_arrival : Bool) (still_waiting : List PCB) {s : SimState} (h : Placed s) :
    Placed (EP_RR.check_preemption E new_arrival still_waiting s) := by
  have hperm : (ep_rr_schedule E s.ready_queue).Perm s.ready_queue :=
    (hE _ strictWeak_ep_rr_schedule_cmp _).1
  unfold EP_RR.check_preemption
  dsimp only
  split_ifs with h1 h2
  · refine placed_move h { s.running with state := States.READY, time_in_cpu := 0 }
      (fun p hp => ?_) (fun p hp => Or.inl hp) (fun j hj => mem_sync_queue_ne hj)
      (Or.inr (pid_mem_live_of_ready (List.mem_cons_self _ _))) ?_
    · rcases List.mem_cons.1 hp with h3 | h3
      · rw [h3]
        exact Or.inr rfl
      · exact Or.inl (hperm.mem_iff.1 h3)
    · intro pid hpid _
      rcases live_pid_cases hpid with ⟨p, hp, hpp⟩ | ⟨p, hp, hpp⟩ | ⟨_, hpp⟩
      · rw [← hpp]
        exact pid_mem_live_of_ready (List.mem_cons_of_mem _ (hperm.mem_iff.2 hp))
      · rw [← hpp]
        exact pid_mem_live_of_waiting hp
      · rw [← hpp]
        exact pid_mem_live_of_ready (p := { s.running with
          state := States.READY, time_in_cpu := 0 }) (List.mem_cons_self _ _)
  · refine placed_keep h (fun p hp => Or.inl (hperm.mem_iff.1 hp)) (fun p hp => Or.inl hp)
      (fun j hj => hj) ?_
    intro pid hpid
    rcases live_pid_cases hpid with ⟨p, hp, hpp⟩ | ⟨p, hp, hpp⟩ | ⟨hr, hpp⟩
    · rw [← hpp]
      exact pid_mem_live_of_ready (hperm.mem_iff.2 hp)
    · rw [← hpp]
      exact pid_mem_live_of_waiting hp
    · rw [← hpp]
      exact pid_mem_live_of_running hr
  · exact h

/-- A PID that is in a queue or on the CPU stays so when the queues only grow, unless it is the
PID of the process on the CPU. -/
theorem live_pids_of {s s' : SimState} (hrq : ∀ p ∈ s.ready_queue, p ∈ s'.ready_queue)
    (hwq : ∀ p ∈ s.wait_queue, p ∈ s'.wait_queue) {pid : Int}
    (hpid : pid ∈ pids (live s)) :
    pid ∈ pids (live s') ∨ (s.running.state = States.RUNNING ∧ pid = s.running.PID) := by
  rcases live_pid_cases hpid with ⟨p, hp, hpp⟩ | ⟨p, hp, hpp⟩ | ⟨hr, hpp⟩
  · rw [← hpp]
    exact Or.inl (pid_mem_live_of_ready (hrq p hp))
  · rw [← hpp]
    exact Or.inl (pid_mem_live_of_waiting (hwq p hp))
  · exact Or.inr ⟨hr, hpp.symm⟩

/-- Charging the process on the CPU keeps the places consistent. -/
theorem placed_charge {s s' : SimState} (h : Placed s)
    (hrq : s'.ready_queue = s.ready_queue) (hwq : s'.wait_queue = s.wait_queue)
    (hjl : s'.job_list = s.job_list) (hpid : s'.running.PID = s.running.PID)
    (hst : s'.running.state = s.running.state) : Placed s' := by
  refine placed_keep h (fun p hp => Or.inl (hrq ▸ hp)) (fun p hp => Or.inl (hwq ▸ hp))
    (fun j hj => hjl ▸ hj) ?_
  intro pid hp
  rcases live_pids_of (fun p hp => hrq ▸ hp) (fun p hp => hwq ▸ hp) hp with h1 | ⟨hr, h1⟩
  · exact h1
  · rw [h1, ← hpid]
    exact pid_mem_live_of_running (by rw [hst]; exact hr)

/-- Taking the process off the CPU into a queue, or out of the system, keeps the places
consistent. -/
theorem placed_leave {s s' : SimState} (h : Placed s) (x : PCB)
    (hpid : x.PID = s.running.PID)
    (hrq : ∀ p ∈ s'.ready_queue, p ∈ s.ready_queue ∨ (p = x ∧ x.state = States.READY))
    (hwq : ∀ p ∈ s'.wait_queue, p ∈ s.wait_queue ∨ (p = x ∧ x.state = States.WAITING))
    (hrq' : ∀ p ∈ s.ready_queue, p ∈ s'.ready_queue)
    (hwq' : ∀ p ∈ s.wait_queue, p ∈ s'.wait_queue)
    (hjl : s'.job_list = sync_queue s.job_list x)
    (hx : x.state = States.TERMINATED ∨ x ∈ s'.ready_queue ∨ x ∈ s'.wait_queue) :
    Placed s' := by
  refine placed_move h x (fun p hp => ?_) (fun p hp => ?_)
    (fun j hj => mem_sync_queue_ne (hjl ▸ hj)) ?_ ?_
  · rcases hrq p hp with h1 | ⟨h1, h2⟩
    · exact Or.inl h1
    · rw [h1]
      exact Or.inr h2
  · rcases hwq p hp with h1 | ⟨h1, h2⟩
    · exact Or.inl h1
    · rw [h1]
      exact Or.inr h2
  · rcases hx with h1 | h1 | h1
    · exact Or.inl h1
    · exact Or.inr (pid_mem_live_of_ready h1)
    · exact Or.inr (pid_mem_live_of_waiting h1)
  · intro pid hp hne
    rcases live_pids_of hrq' hwq' hp with h1 | ⟨_, h1⟩
    · exact h1
    · rw [h1, ← hpid] at hne
      exact absurd rfl hne

/-- The checks of STEP 3 keep the places consistent. -/
theorem placed_checks (E : Env) {s : SimState} (h : Placed s) :
    Placed (Quantum.io_check E s) ∧ Placed (Quantum.completion_check E s) ∧
    Placed (Quantum.preempt E s) ∧ Placed (EP.io_check E s) ∧
    Placed (EP.completion_check E s) := by
  refine ⟨?_, ?_, ?_, ?_, ?_⟩
  · unfold Quantum.io_check
    dsimp only
    split_ifs
    · exact placed_leave h { s.running with
          state := States.WAITING, time_in_cpu := s.current_time } rfl
        (fun p hp => Or.inl hp)
        (fun p hp => (List.mem_append.1 hp).imp id
          (fun hh => ⟨List.mem_singleton.1 hh, rfl⟩))
        (fun p hp => hp) (fun p hp => List.mem_append_left _ hp) rfl
        (Or.inr (Or.inr (List.mem_append_right _ (List.mem_singleton_self _))))
    · exact h
    · exact h
  · unfold Quantum.completion_check
    split_ifs
    · exact placed_leave h { s.running with
          remaining_time := 0, state := States.TERMINATED } rfl
        (fun p hp => Or.inl hp) (fun p hp => Or.inl hp) (fun p hp => hp) (fun p hp => hp) rfl
        (Or.inl rfl)
    · exact h
  · exact placed_leave h { s.running with state := States.READY, time_in_cpu := 0 } rfl
      (fun p hp => (List.mem_cons.1 hp).symm.imp id (fun hh => ⟨hh, rfl⟩))
      (fun p hp => Or.inl hp) (fun p hp => List.mem_cons_of_mem _ hp) (fun p hp => hp) rfl
      (Or.inr (Or.inl (List.mem_cons_self _ _)))
  · unfold EP.io_check
    dsimp only
    split_ifs
    · exact placed_leave h { s.running with state := States.WAITING } rfl
        (fun p hp => Or.inl hp)
        (fun p hp => (List.mem_append.1 hp).imp id
          (fun hh => ⟨List.mem_singleton.1 hh, rfl⟩))
        (fun p hp => hp) (fun p hp => List.mem_append_left _ hp) rfl
        (Or.inr (Or.inr (List.mem_append_right _ (List.mem_singleton_self _))))
    · exact h
    · exact h
  · unfold EP.completion_check
    split_ifs
    · exact placed_leave h { s.running with
          remaining_time := 0, state := States.TERMINATED } rfl
        (fun p hp => Or.inl hp) (fun p hp => Or.inl hp) (fun p hp => hp) (fun p hp => hp) rfl
        (Or.inl rfl)
    · exact h

/-- STEP 3 keeps the places consistent. -/
theorem placed_handle_running (E : Env) {s : SimState} (h : Placed s) :
    Placed (EP.handle_running E s) ∧ Placed (RR.handle_running E s) ∧
    Placed (EP_RR.handle_running E s) := by
  have hx : Placed (Quantum.execute s) := placed_charge h rfl rfl rfl rfl rfl
  have hc := (placed_checks E (placed_checks E hx).1).2.1
  refine ⟨?_, ?_, ?_⟩
  · unfold EP.handle_running
    split_ifs
    · have h1 : Placed { s with running :=
          { s.running with remaining_time := udec s.running.remaining_time } } :=
        placed_charge h rfl rfl rfl rfl rfl
      exact (placed_checks E (placed_checks E h1).2.2.2.1).2.2.2.2
    · exact h
  · unfold RR.handle_running
    split_ifs
    · unfold RR.quantum_check
      split_ifs
      · exact (placed_checks E hc).2.2.1
      · exact hc
    · exact h
  · unfold EP_RR.handle_running
    split_ifs
    · unfold EP_RR.quantum_check
      split_ifs
      · exact (placed_checks E hc).2.2.1
      · exact placed_charge hc rfl rfl rfl rfl rfl
      · exact hc
    · exact h

/-- One iteration of each simulator keeps the places consistent. -/
theorem placed_tick (E : Env) (hE : SortContract E) (hI : IdleContract E) {s : SimState}
    (h : Placed s) :
    Placed (EP.tick E s) ∧ Placed (RR.tick E s) ∧ Placed (EP_RR.tick E s) := by
  refine ⟨?_, ?_, ?_⟩
  · have h1 := placed_populate E EP.touch_new (fun _ => rfl) h
    have h2 := placed_manage_wait_queue (fun _ => (populate E EP.touch_new s).io_start_time)
      EP.touch_done (fun _ => ⟨rfl, rfl⟩) h1
    have h3 := (placed_handle_running E h2).1
    have h4 := placed_dispatch (external_priorities E) (fun q => q)
      (hE _ strictWeak_external_priorities_cmp _).1 h3
    exact placed_charge h4 rfl rfl rfl rfl rfl
  · have h1 := placed_populate E Quantum.touch_new (fun _ => rfl) h
    have h2 := placed_manage_wait_queue (fun p => p.time_in_cpu)
      Quantum.touch_done (fun _ => ⟨rfl, rfl⟩) h1
    have h3 := (placed_handle_running E h2).2.1
    have h4 := placed_dispatch (fcfs_rr E) (fun _ => TIME_QUANTUM)
      (hE _ strictWeak_fcfs_rr_cmp _).1 h3
    exact placed_charge h4 rfl rfl rfl rfl rfl
  · have h1 := placed_populate E Quantum.touch_new (fun _ => rfl) h
    have h2 := placed_manage_wait_queue (fun p => p.time_in_cpu)
      Quantum.touch_done (fun _ => ⟨rfl, rfl⟩) h1
    have h25 : Placed (EP_RR.arrivals E s) := placed_check_preemption E hE hI _ _ h2
    have h3 := (placed_handle_running E h25).2.2
    have h4 := placed_dispatch (ep_rr_schedule E) (fun _ => TIME_QUANTUM)
      (hE _ strictWeak_ep_rr_schedule_cmp _).1 h3
    exact placed_charge h4 rfl rfl rfl rfl rfl

/-- The rows of a process that has not reached TERMINATED have no RUNNING -> TERMINATED row. -/
theorem Stage.no_termination {st : States} {a : Nat} {h : List Event} (hs : Stage st a h)
    (hst : st ≠ States.TERMINATED) : ∀ e ∈ h, ¬ e.is_termination := by
  intro e he hterm
  obtain ⟨pre, post, heq⟩ := List.append_of_mem he
  have hpost := hs.follows.2.2.2.2 pre e post heq hterm.2
  obtain ⟨x, hx, hxs⟩ := hs.2.2.2
  rw [heq, hpost, List.getLast?_concat, Option.some.injEq] at hx
  rw [← hx] at hxs
  exact hst (hxs.symm.trans hterm.2)

/-- A process in a queue or on the CPU has no RUNNING -> TERMINATED row. -/
theorem no_termination_of_live {l : List PCB} {s : SimState} (h : Run lifecycle l s)
    {p : PCB} (hp : p ∈ live s) :
    ∀ e ∈ rows_of p.PID s.execution_status, ¬ e.is_termination := by
  obtain ⟨_, _, hd, _⟩ := h
  rcases mem_live_iff.1 hp with h1 | h1 | ⟨h1, h2⟩
  · exact Stage.no_termination (hd.ready p h1) (by decide)
  · exact Stage.no_termination (hd.waiting p h1) (by decide)
  · rw [h2]
    exact Stage.no_termination (hd.cpu h1) (by decide)

/-- The loop invariants give every admitted process exactly one place. -/
theorem placed_once_of {l : List PCB} {s : SimState} (hrun : Run lifecycle l s)
    (hc : Conserved s) (hp : Placed s) : placed_once s := by
  refine ⟨hrun.1.nodup_live, hp.q_ready, hp.q_waiting, fun p hpl hst => ?_,
    fun pid hadm => ⟨?_, ?_⟩⟩
  · rcases mem_live_iff.1 hpl with h1 | h1 | ⟨_, h2⟩
    · rw [hp.q_ready p h1] at hst
      exact absurd hst (by decide)
    · rw [hp.q_waiting p h1] at hst
      exact absurd hst (by decide)
    · exact h2
  · exact mem_pids.1 (hc.2 pid hadm)
  · by_cases hlive : pid ∈ pids (live s)
    · left
      refine ⟨hlive, fun j hj hpid hterm => ?_⟩
      obtain ⟨e, he, hep, het⟩ := hc.1 j hj hterm
      obtain ⟨p, hpl, hpp⟩ := mem_pids.1 hlive
      exact no_termination_of_live hrun hpl e
        (mem_rows_of.2 ⟨he, by rw [hep, hpid, hpp]⟩) het
    · right
      refine ⟨hlive, fun j hj hpid => ?_⟩
      rcases hp.registry j hj with h1 | h1
      · exact h1
      · rw [hpid] at h1
        exact absurd h1 hlive

/-- Every state of a run of a loop body that keeps the loop invariants gives every admitted
process exactly one place. -/
theorem placed_once_of_run (E : Env) (hI : IdleContract E) (l : List PCB)
    (hl : (pids l).Nodup) (tick : SimState → SimState)
    (htick : ∀ s, Run lifecycle l s → Run lifecycle l (tick s))
    (hreg : ∀ s, Registers s (tick s))
    (hplaced : ∀ s, Placed s → Placed (tick s)) :
    (∀ n, placed_once (after_ticks tick n (init E l))) ∧
    placed_once (run_loop tick 100001 (init E l)).1 := by
  have h : ∀ n, placed_once (after_ticks tick n (init E l)) := by
    intro n
    have := after_ticks_induction
      (fun s => Run lifecycle l s ∧ Conserved s ∧ Placed s) tick
      (fun s hs => ⟨htick s hs.1, hs.2.1.step (hreg s), hplaced s hs.2.2⟩) n (init E l)
      ⟨run_init lifecycle E hI l hl (fun _ _ => trivial),
        ⟨fun j hj => by simp [init] at hj, fun pid hadm => by
          obtain ⟨e, he, _⟩ := hadm
          simp [init] at he⟩,
        ⟨fun p hp => by simp [init] at hp, fun p hp => by simp [init] at hp,
          fun j hj => by simp [init] at hj⟩⟩
    exact placed_once_of this.1 this.2.1 this.2.2
  refine ⟨h, ?_⟩
  obtain ⟨n, hn⟩ := run_loop_eq_after_ticks tick 100001 (init E l)
  rw [hn]
  exact h n

/-- C21. For every workload with pairwise distinct PIDs, every allocator and every `std::sort`
and `idle_CPU` within their contracts, in RR and EP_RR, and in EP when the placeholder of the idle
CPU does not carry the PID of a process: after every iteration of the loop, and in the state in
which `run_simulation` ends, no PID occurs twice among the ready queue, the wait queue and the
running slot; the processes of the ready queue are READY and those of the wait queue WAITING, so
that at most the process in the running slot is RUNNING; and every admitted process has an entry
in the registry and either is in one of the three places, with no TERMINATED entry, or is in none
of them, with its entry TERMINATED. -/
theorem admitted_process_is_in_one_place (E : Env) (hE : SortContract E)
    (hI : IdleContract E) (l : List PCB) (hl : (pids l).Nodup) :
    ((∀ r, (E.idle_CPU r).PID ∉ pids l) →
      (∀ n, placed_once (after_ticks (EP.tick E) n (init E l))) ∧
      placed_once (EP.run_simulation E l).1) ∧
    ((∀ n, placed_once (after_ticks (RR.tick E) n (init E l))) ∧
      placed_once (RR.run_simulation E l).1) ∧
    ((∀ n, placed_once (after_ticks (EP_RR.tick E) n (init E l))) ∧
      placed_once (EP_RR.run_simulation E l).1) := by
  refine ⟨fun hfree => ?_, ?_, ?_⟩
  · unfold EP.run_simulation
    rw [ep_loop_eq]
    exact placed_once_of_run E hI l hl _
      (fun s h => (run_tick lifecycle E hE hI l s h).1 (sound_lifecycle false) hfree)
      (fun s => (reg_tick E s).1) (fun s h => (placed_tick E hE hI h).1)
  · unfold RR.run_simulation
    rw [rr_loop_eq]
    exact placed_once_of_run E hI l hl _
      (fun s h => (run_tick lifecycle E hE hI l s h).2.1 (sound_lifecycle true))
      (fun s => (reg_tick E s).2.1) (fun s h => (placed_tick E hE hI h).2.1)
  · unfold EP_RR.run_simulation
    rw [ep_rr_loop_eq]
    exact placed_once_of_run E hI l hl _
      (fun s h => (run_tick lifecycle E hE hI l s h).2.2 (sound_lifecycle true))
      (fun s => (reg_tick E s).2.2) (fun s h => (placed_tick E hE hI h).2.2)

theorem admitted_process_is_in_one_place_witness :
    placed_once (EP.run_simulation grant_all io_return_scenario).1 ∧
    placed_once (RR.run_simulation grant_all io_return_scenario).1 ∧
    placed_once (EP_RR.run_simulation grant_all io_return_scenario).1 :=
  have h := admitted_process_is_in_one_place grant_all sortContract_grant_all
    idleContract_grant_all io_return_scenario (by decide)
  ⟨(h.1 (fun _ => by show idle_pcb.PID ∉ pids io_return_scenario; decide)).2, h.2.1.2,
    h.2.2.2⟩

/-! ## EP_RR on a workload that gives it no reason to preempt -/

theorem bare_fields {p q : PCB} (h : p.bare = q.bare) :
    p.PID = q.PID ∧ p.priority = q.priority ∧ p.arrival_time = q.arrival_time ∧
    p.start_time = q.start_time ∧ p.processing_time = q.processing_time ∧
    p.remaining_time = q.remaining_time ∧ p.state = q.state ∧ p.io_freq = q.io_freq ∧
    p.io_duration = q.io_duration := by
  cases p
  cases q
  simp only [PCB.bare, PCB.mk.injEq] at h
  simp only
  tauto

theorem bare_of_fields {p q : PCB} (h1 : p.PID = q.PID) (h2 : p.priority = q.priority)
    (h3 : p.arrival_time = q.arrival_time) (h4 : p.start_time = q.start_time)
    (h5 : p.processing_time = q.processing_time) (h6 : p.remaining_time = q.remaining_time)
    (h7 : p.state = q.state) (h8 : p.io_freq = q.io_freq)
    (h9 : p.io_duration = q.io_duration) : p.bare = q.bare := by
  cases p
  cases q
  simp only at h1 h2 h3 h4 h5 h6 h7 h8 h9
  simp only [PCB.bare, PCB.mk.injEq]
  exact ⟨h1, h2, h3, h4, h5, h6, h7, h8, h9, trivial⟩

theorem tag_of_bare {p q : PCB} (h : p.bare = q.bare) : p.tag = q.tag := by
  have := bare_fields h
  unfold PCB.tag
  rw [this.1, this.2.2.2.2.2.2.1]

theorem map_tag_of_map_bare {l₁ l₂ : List PCB} (h : l₁.map PCB.bare = l₂.map PCB.bare) :
    l₁.map PCB.tag = l₂.map PCB.tag := by
  have h1 : ∀ l : List PCB, l.map PCB.tag = (l.map PCB.bare).map PCB.tag := by
    intro l
    rw [List.map_map]
    rfl
  rw [h1 l₁, h1 l₂, h]

theorem map_pid_of_map_bare {l₁ l₂ : List PCB} (h : l₁.map PCB.bare = l₂.map PCB.bare) :
    l₁.map (fun p => p.PID) = l₂.map (fun p => p.PID) := by
  have h1 : ∀ l : List PCB, l.map (fun p => p.PID) = (l.map PCB.bare).map (fun p => p.PID) := by
    intro l
    rw [List.map_map]
    rfl
  rw [h1 l₁, h1 l₂, h]

/-- The registries stay in agreement when they are synchronised with matching processes. -/
theorem map_tag_sync_queue (x y : PCB) (hxy : x.tag = y.tag) :
    ∀ (l₁ l₂ : List PCB), l₁.map PCB.tag = l₂.map PCB.tag →
      (sync_queue l₁ x).map PCB.tag = (sync_queue l₂ y).map PCB.tag := by
  have hp : x.PID = y.PID := congrArg Prod.fst hxy
  intro l₁
  induction l₁ with
  | nil =>
    intro l₂ h
    cases l₂ with
    | nil => rfl
    | cons b t => simp at h
  | cons a t ih =>
    intro l₂ h
    cases l₂ with
    | nil => simp at h
    | cons b t₂ =>
      simp only [List.map_cons, List.cons.injEq] at h
      have hab : a.PID = b.PID := congrArg Prod.fst h.1
      have := ih t₂ h.2
      unfold sync_queue at this ⊢
      simp only [List.map_cons, List.cons.injEq]
      refine ⟨?_, this⟩
      rw [hab, hp]
      split_ifs
      · exact hxy
      · exact h.1

/-- The registries agree on the loop condition. -/
theorem loop_condition_of_tags {s e : SimState}
    (h : e.job_list.map PCB.tag = s.job_list.map PCB.tag) :
    loop_condition e = loop_condition s := by
  have h1 : ∀ l : List PCB, all_process_terminated l =
      (l.map PCB.tag).all (fun t => decide (t.2 = States.TERMINATED)) := by
    intro l
    unfold all_process_terminated
    induction l with
    | nil => rfl
    | cons a t ih =>
      simp only [List.all_cons, List.map_cons, ih]
      rfl
  have h2 : ∀ l : List PCB, l.isEmpty = (l.map PCB.tag).isEmpty := by
    intro l
    cases l <;> rfl
  unfold loop_condition
  rw [h1, h1, h2 e.job_list, h2 s.job_list, h]

/-- STEP 1 of EP_RR and of EP admit the same processes. -/
theorem admitted_bare (E : Env) (now : Nat) :
    ∀ (ls le : List PCB) (i : Nat), le.map PCB.bare = ls.map PCB.bare →
      (admitted E Quantum.touch_new now i le).map PCB.bare =
        (admitted E EP.touch_new now i ls).map PCB.bare ∧
      (marked E Quantum.touch_new now i le).map PCB.bare =
        (marked E EP.touch_new now i ls).map PCB.bare := by
  intro ls
  induction ls with
  | nil =>
    intro le i h
    cases le with
    | nil => exact ⟨rfl, rfl⟩
    | cons b t => simp at h
  | cons a t ih =>
    intro le i h
    cases le with
    | nil => simp at h
    | cons b t₂ =>
      simp only [List.map_cons, List.cons.injEq] at h
      have hf := bare_fields h.1
      have hrec := ih t₂ (i + 1) h.2
      have ht : (Quantum.touch_new b).bare = (EP.touch_new a).bare :=
        bare_of_fields hf.1 hf.2.1 hf.2.2.1 hf.2.2.2.1 hf.2.2.2.2.1 hf.2.2.2.2.2.1 rfl
          hf.2.2.2.2.2.2.2.1 hf.2.2.2.2.2.2.2.2
      simp only [admitted, marked, hf.2.2.1]
      split_ifs
      · simp only [List.map_cons, ht, hrec.1, hrec.2, and_self]
      · simp only [List.map_cons, h.1, hrec.1, hrec.2, and_self]

theorem sublist_map_priority_admitted (E : Env) (touch : PCB → PCB)
    (htouch : ∀ p, (touch p).static = p.static) (now : Nat) (l : List PCB) :
    ((admitted E touch now 0 l).map PCB.priority).Sublist (l.map PCB.priority) := by
  have h := (sublist_map_static_admitted E touch htouch now l 0).map (fun x => x.2.1)
  rw [List.map_map, List.map_map] at h
  exact h

theorem map_priority_marked (E : Env) (touch : PCB → PCB)
    (htouch : ∀ p, (touch p).static = p.static) (now : Nat) (l : List PCB) :
    (marked E touch now 0 l).map PCB.priority = l.map PCB.priority := by
  have h := congrArg (List.map (fun x => x.2.1)) (map_static_marked E touch htouch now l 0)
  rw [List.map_map, List.map_map] at h
  exact h

/-- STEP 1 keeps the two simulators matched. -/
theorem twin_populate (E : Env) {s e : SimState} (h : Twin s e) :
    Twin (populate E EP.touch_new s) (populate E Quantum.touch_new e) := by
  have hadm := admitted_bare E s.current_time s.list_processes e.list_processes 0 h.roster
  have hct : e.current_time = s.current_time := h.clock
  refine ⟨h.clock, ?_, h.wait, ?_, h.slot, ?_, ?_⟩
  · show e.execution_status ++
      (admitted E Quantum.touch_new e.current_time 0 e.list_processes).map
        (fun p => Event.mk e.current_time p.PID States.NEW States.READY) =
      s.execution_status ++
      (admitted E EP.touch_new s.current_time 0 s.list_processes).map
        (fun p => Event.mk s.current_time p.PID States.NEW States.READY)
    rw [h.table, hct]
    congr 1
    have h1 : ∀ l : List PCB,
        l.map (fun p => Event.mk s.current_time p.PID States.NEW States.READY) =
        (l.map (fun p => p.PID)).map
          (fun pid => Event.mk s.current_time pid States.NEW States.READY) := by
      intro l
      rw [List.map_map]
      rfl
    rw [h1, h1 (admitted E EP.touch_new s.current_time 0 s.list_processes),
      map_pid_of_map_bare hadm.1]
  · show ((e.ready_queue ++
      admitted E Quantum.touch_new e.current_time 0 e.list_processes).map PCB.bare).Perm
      ((s.ready_queue ++
        admitted E EP.touch_new s.current_time 0 s.list_processes).map PCB.bare)
    rw [List.map_append, List.map_append, hct, hadm.1]
    exact h.ready.append_right _
  · show (e.job_list ++
      admitted E Quantum.touch_new e.current_time 0 e.list_processes).map PCB.tag =
      (s.job_list ++ admitted E EP.touch_new s.current_time 0 s.list_processes).map PCB.tag
    rw [List.map_append, List.map_append, hct, h.registry, map_tag_of_map_bare hadm.1]
  · show (marked E Quantum.touch_new e.current_time 0 e.list_processes).map PCB.bare =
      (marked E EP.touch_new s.current_time 0 s.list_processes).map PCB.bare
    rw [hct]
    exact hadm.2

/-- STEP 1 of EP on a workload whose processes all arrive at the same tick, without I/O and with
pairwise distinct sizes. -/
theorem calm_populate (E : Env) (T : Nat) {s : SimState} (h : Calm s) (hr : Roster T s) :
    Calm (populate E EP.touch_new s) := by
  by_cases hT : s.current_time = T
  · obtain ⟨hrq, hidle⟩ := hr.early (le_of_eq hT)
    have hnr : ¬ s.running.state = States.RUNNING := by rw [hidle]; decide
    have hlive : live (populate E EP.touch_new s) =
        admitted E EP.touch_new s.current_time 0 s.list_processes := by
      show (s.ready_queue ++ admitted E EP.touch_new s.current_time 0 s.list_processes) ++
        s.wait_queue ++ on_cpu (populate E EP.touch_new s) = _
      have : on_cpu (populate E EP.touch_new s) = [] := by
        unfold on_cpu
        exact if_neg hnr
      rw [this, hrq, h.wait, List.nil_append, List.append_nil, List.append_nil]
    refine ⟨h.slot, h.wait, ?_, ?_, fun hrun => absurd hrun hnr⟩
    · intro p hp
      rw [hlive] at hp
      obtain ⟨q, hq, hpq, _⟩ := mem_admitted E EP.touch_new _ _ _ p hp
      rw [hpq]
      exact hr.no_io q hq
    · rw [hlive]
      exact (sublist_map_priority_admitted E EP.touch_new static_ep_touch_new _ _).nodup
        hr.distinct
  · rw [populate_of_no_arrival E EP.touch_new s
      (fun p hp => by rw [hr.arrivals p hp]; exact fun hh => hT hh.symm)]
    exact h

/-- STEP 2.5 of EP_RR with nothing to preempt only sorts the ready queue. -/
theorem twin_check_preemption (E : Env) (hE : SortContract E) (new_arrival : Bool)
    {s e : SimState} (h : Twin s e)
    (hidle : new_arrival = true → e.running.state ≠ States.RUNNING) :
    Twin s (EP_RR.check_preemption E new_arrival e.wait_queue e) := by
  unfold EP_RR.check_preemption
  dsimp only
  split_ifs with c1 c2
  · rcases c1 with c1 | c1
    · exact absurd (running_of_should_preempt c2) (hidle c1)
    · exact absurd rfl c1
  · refine ⟨h.clock, h.table, h.wait, ?_, h.slot, h.registry, h.roster⟩
    exact (((hE _ strictWeak_ep_rr_schedule_cmp e.ready_queue).1).map PCB.bare).trans h.ready
  · exact h

theorem cmp_bare (a b : PCB) :
    external_priorities_cmp a.bare b.bare = external_priorities_cmp a b ∧
    ep_rr_schedule_cmp a b = external_priorities_cmp a b := by
  refine ⟨rfl, ?_⟩
  unfold ep_rr_schedule_cmp external_priorities_cmp
  split_ifs <;> first | rfl | contradiction

/-- With pairwise distinct sizes the sorted ready queues of EP_RR and EP hold the same processes
in the same order. -/
theorem sorted_bare_eq (E : Env) (hE : SortContract E) (rs re : List PCB)
    (hperm : (re.map PCB.bare).Perm (rs.map PCB.bare))
    (hd : (rs.map PCB.priority).Nodup) :
    (ep_rr_schedule E re).map PCB.bare = (external_priorities E rs).map PCB.bare := by
  have he := hE _ strictWeak_ep_rr_schedule_cmp re
  have hs := hE _ strictWeak_external_priorities_cmp rs
  refine @eq_of_perm_of_sorted_of_strict external_priorities_cmp _ _
    (((he.1.map PCB.bare).trans hperm).trans (hs.1.map PCB.bare).symm) ?_ ?_
  · rw [List.pairwise_map]
    refine he.2.imp ?_
    intro a b hab
    rw [(cmp_bare b a).1, ← (cmp_bare b a).2]
    exact hab
  · rw [List.pairwise_map]
    have hd' : ((external_priorities E rs).map PCB.priority).Nodup :=
      (hs.1.map PCB.priority).nodup_iff.2 hd
    unfold List.Nodup at hd'
    rw [List.pairwise_map] at hd'
    refine (hs.2.and hd').imp ?_
    intro a b hab
    rw [(cmp_bare a b).1]
    have h1 := hab.1
    have h2 := hab.2
    unfold external_priorities_cmp at h1 ⊢
    rw [if_neg h2]
    rw [if_neg (fun hh => h2 hh.symm)] at h1
    simp only [decide_eq_false_iff_not, decide_eq_true_eq] at h1 ⊢
    omega

/-- A step that leaves the queues alone and keeps the state, the size and the I/O frequency of
the process in the running slot. -/
theorem calm_charge {s s' : SimState} (h : Calm s) (hrq : s'.ready_queue = s.ready_queue)
    (hwq : s'.wait_queue = s.wait_queue) (hst : s'.running.state = s.running.state)
    (hpr : s'.running.priority = s.running.priority)
    (hio : s'.running.io_freq = s.running.io_freq) : Calm s' := by
  have hslot : Slot s' := by
    unfold Slot
    rw [hst]
    exact h.slot
  by_cases hrun : s.running.state = States.RUNNING
  · have hrun' : s'.running.state = States.RUNNING := hst.trans hrun
    have hl' : live s' = s.ready_queue ++ s.wait_queue ++ [s'.running] := by
      unfold live
      rw [on_cpu_of_running hrun', hrq, hwq]
    have hl : live s = s.ready_queue ++ s.wait_queue ++ [s.running] := by
      unfold live
      rw [on_cpu_of_running hrun]
    refine ⟨hslot, hwq.trans h.wait, fun p hp => ?_, ?_, fun _ q hq => ?_⟩
    · rw [hl', List.mem_append, List.mem_singleton] at hp
      rcases hp with hp | hp
      · exact h.no_io p (by rw [hl]; exact List.mem_append_left _ hp)
      · rw [hp, hio]
        exact h.no_io _ (by rw [hl]; simp)
    · have := h.distinct
      rw [hl] at this
      rw [hl', List.map_append, List.map_singleton, hpr]
      rw [List.map_append, List.map_singleton] at this
      exact this
    · rw [hpr]
      exact h.lead hrun q (hrq ▸ hq)
  · have hrun' : s'.running.state ≠ States.RUNNING := by rw [hst]; exact hrun
    have hl' : live s' = live s := by
      unfold live
      rw [on_cpu_of_not_running hrun', on_cpu_of_not_running hrun, hrq, hwq]
    refine ⟨hslot, hwq.trans h.wait, ?_, ?_, fun hh => absurd hh hrun'⟩
    · rw [hl']
      exact h.no_io
    · rw [hl']
      exact h.distinct

/-- A step that leaves the queues alone and empties the running slot. -/
theorem calm_vacate {s s' : SimState} (h : Calm s) (hrq : s'.ready_queue = s.ready_queue)
    (hwq : s'.wait_queue = s.wait_queue) (hst : s'.running.state = States.NOT_ASSIGNED) :
    Calm s' := by
  have hrun' : s'.running.state ≠ States.RUNNING := by rw [hst]; decide
  have hl' : live s' = s.ready_queue ++ s.wait_queue ++ [] := by
    unfold live
    rw [on_cpu_of_not_running hrun', hrq, hwq]
  have hsub : (live s').Sublist (live s) := by
    rw [hl']
    unfold live
    exact List.Sublist.append (List.Sublist.refl _) (List.nil_sublist _)
  refine ⟨Or.inr hst, hwq.trans h.wait, fun p hp => h.no_io p (hsub.subset hp),
    (hsub.map _).nodup h.distinct, fun hh => absurd hh hrun'⟩

theorem bare_started_at (c : Nat) {p q : PCB} (h : p.bare = q.bare) :
    (started_at c p).bare = (started_at c q).bare := by
  have hf := bare_fields h
  unfold started_at
  dsimp only
  rw [hf.2.2.2.1]
  split_ifs
  · exact bare_of_fields hf.1 hf.2.1 hf.2.2.1 rfl hf.2.2.2.2.1 hf.2.2.2.2.2.1 rfl
      hf.2.2.2.2.2.2.2.1 hf.2.2.2.2.2.2.2.2
  · exact bare_of_fields hf.1 hf.2.1 hf.2.2.1 hf.2.2.2.1 hf.2.2.2.2.1 hf.2.2.2.2.2.1 rfl
      hf.2.2.2.2.2.2.2.1 hf.2.2.2.2.2.2.2.2

theorem priority_started_at (now : Nat) (back : PCB) :
    (started_at now back).priority = back.priority := by
  have := static_started_at now back
  simp only [PCB.static, Prod.mk.injEq] at this
  exact this.2.1

/-- STEP 4 of EP and of EP_RR dispatch the same process. -/
theorem calm_twin_dispatch (E : Env) (hE : SortContract E) (qs qe : Nat → Nat)
    {s e : SimState} (hc : Calm s) (ht : Twin s e) :
    Calm (dispatch (external_priorities E) qs s) ∧
    Twin (dispatch (external_priorities E) qs s) (dispatch (ep_rr_schedule E) qe e) := by
  by_cases hidle : s.running.state = States.NOT_ASSIGNED
  · have hidle' : e.running.state = States.NOT_ASSIGNED := ht.slot.1.trans hidle
    by_cases hne : s.ready_queue = []
    · have hne' : e.ready_queue = [] := by
        have := ht.ready
        rw [hne, List.map_nil, List.perm_nil] at this
        exact List.map_eq_nil_iff.1 this
      rw [dispatch_of_empty _ _ _ hne, dispatch_of_empty _ _ _ hne']
      exact ⟨hc, ht⟩
    · have hne' : e.ready_queue ≠ [] := by
        intro hh
        have := ht.ready
        rw [hh, List.map_nil] at this
        exact hne (List.map_eq_nil_iff.1 (List.perm_nil.1 this.symm))
      have hps := (hE _ strictWeak_external_priorities_cmp s.ready_queue)
      have hpe := (hE _ strictWeak_ep_rr_schedule_cmp e.ready_queue)
      obtain ⟨bs, hbs, heqs⟩ := dispatch_eq (external_priorities E) qs s hps.1 hidle hne
      obtain ⟨be, hbe, heqe⟩ := dispatch_eq (ep_rr_schedule E) qe e hpe.1 hidle' hne'
      have hnr : s.running.state ≠ States.RUNNING := by rw [hidle]; decide
      have hlive : live s = s.ready_queue := by
        unfold live
        rw [on_cpu_of_not_running hnr, hc.wait, List.append_nil, List.append_nil]
      have hd : (s.ready_queue.map PCB.priority).Nodup := by
        rw [← hlive]
        exact hc.distinct
      have hsorted := sorted_bare_eq E hE s.ready_queue e.ready_queue ht.ready hd
      rw [hbs, hbe, List.map_append, List.map_append, List.map_singleton,
        List.map_singleton] at hsorted
      have hinj := List.append_inj' hsorted rfl
      have hbb : be.bare = bs.bare := by
        have := hinj.2
        rw [List.cons.injEq] at this
        exact this.1
      have hsd : ((external_priorities E s.ready_queue).map PCB.priority).Nodup :=
        (hps.1.map PCB.priority).nodup_iff.2 hd
      rw [hbs, List.map_append, List.map_singleton] at hsd
      have hmem : ∀ x, x ∈ external_priorities E s.ready_queue → x ∈ s.ready_queue :=
        fun x hx => hps.1.mem_iff.1 hx
      rw [heqs, heqe]
      constructor
      · refine ⟨Or.inl rfl, hc.wait, fun p hp => ?_, ?_, fun _ q hq => ?_⟩
        · have hp' : p ∈ (external_priorities E s.ready_queue).dropLast ++ s.wait_queue ++
              [started_at s.current_time bs] := hp
          rw [hc.wait, List.append_nil, List.mem_append, List.mem_singleton] at hp'
          rcases hp' with hp' | hp'
          · exact hc.no_io p (by
              rw [hlive]
              exact hmem p (List.dropLast_subset _ hp'))
          · rw [hp', io_freq_started_at]
            exact hc.no_io bs (by
              rw [hlive]
              exact hmem bs (by rw [hbs]; simp))
        · show (((external_priorities E s.ready_queue).dropLast ++ s.wait_queue ++
            [started_at s.current_time bs]).map PCB.priority).Nodup
          rw [hc.wait, List.append_nil, List.map_append, List.map_singleton,
            priority_started_at]
          exact hsd
        · show (started_at s.current_time bs).priority < q.priority
          rw [priority_started_at]
          have hq' : q ∈ (external_priorities E s.ready_queue).dropLast := hq
          have hsrt := hps.2
          have hbs' : E.sort external_priorities_cmp s.ready_queue =
              (external_priorities E s.ready_queue).dropLast ++ [bs] := hbs
          rw [hbs'] at hsrt
          have hle := (back_is_best external_priorities_cmp_false _ bs hsrt q
            (List.mem_append_left _ hq')).1
          have hne2 : q.priority ≠ bs.priority := by
            rw [List.nodup_append] at hsd
            intro hh
            exact hsd.2.2 (List.mem_map_of_mem _ hq') (by rw [hh]; simp)
          omega
      · refine ⟨ht.clock, ?_, ht.wait, ?_, ⟨rfl, fun _ => ?_⟩, ?_, ht.roster⟩
        · show e.execution_status ++
            [Event.mk e.current_time be.PID States.READY States.RUNNING] =
            s.execution_status ++
            [Event.mk s.current_time bs.PID States.READY States.RUNNING]
          rw [ht.table, ht.clock, (bare_fields hbb).1]
        · show ((ep_rr_schedule E e.ready_queue).dropLast.map PCB.bare).Perm
            ((external_priorities E s.ready_queue).dropLast.map PCB.bare)
          rw [hinj.1]
        · show (started_at e.current_time be).bare = (started_at s.current_time bs).bare
          rw [ht.clock]
          exact bare_started_at _ hbb
        · show (sync_queue e.job_list (started_at e.current_time be)).map PCB.tag =
            (sync_queue s.job_list (started_at s.current_time bs)).map PCB.tag
          rw [ht.clock]
          exact map_tag_sync_queue _ _ (tag_of_bare (bare_started_at _ hbb)) _ _ ht.registry
  · have hidle' : e.running.state ≠ States.NOT_ASSIGNED := by rw [ht.slot.1]; exact hidle
    rw [dispatch_of_busy _ _ _ hidle, dispatch_of_busy _ _ _ hidle']
    exact ⟨hc, ht⟩

/-- STEP 3 of EP and of EP_RR do the same to matching states: the process on the CPU is charged
and, if it has no burst left, terminated; EP_RR finds no process of the same size in the ready
queue and so never preempts at the end of a quantum. -/
theorem calm_twin_handle_running (E : Env) (hI : IdleContract E) {s e : SimState}
    (hc : Calm s) (ht : Twin s e) :
    Calm (EP.handle_running E s) ∧
    Twin (EP.handle_running E s) (EP_RR.handle_running E e) := by
  by_cases hrun : s.running.state = States.RUNNING
  · have hrun' : e.running.state = States.RUNNING := ht.slot.1.trans hrun
    have hf := bare_fields (ht.slot.2 hrun)
    have hio : s.running.io_freq = 0 := hc.no_io _ (running_mem_live hrun)
    have hnd : ¬ io_due (EP.charged s.running) := by
      intro h
      have h1 : (EP.charged s.running).io_freq > 0 := h.1.1
      have h2 : (EP.charged s.running).io_freq = 0 := hio
      omega
    have hnd' : ¬ io_due (Quantum.execute e).running := by
      intro h
      have h1 : (Quantum.execute e).running.io_freq > 0 := h.1.1
      have h2 : (Quantum.execute e).running.io_freq = 0 := hf.2.2.2.2.2.2.2.1.trans hio
      omega
    rw [ep_handle_running_of_not_due E s hrun hnd]
    have he : EP_RR.handle_running E e =
        EP_RR.quantum_check E (Quantum.completion_check E (Quantum.execute e)) := by
      unfold EP_RR.handle_running
      rw [if_pos hrun', quantum_io_check_of_not_due E (Quantum.execute e) hnd']
    rw [he]
    have hrem : udec e.running.remaining_time = udec s.running.remaining_time := by
      rw [hf.2.2.2.2.2.1]
    by_cases hz : udec s.running.remaining_time = 0
    · have hs : EP.completion_check E { s with running := EP.charged s.running } =
          { s with
            execution_status := s.execution_status ++
              [Event.mk s.current_time s.running.PID States.RUNNING States.TERMINATED]
            job_list := sync_queue s.job_list
              { EP.charged s.running with remaining_time := 0, state := States.TERMINATED }
            running := E.idle_CPU
              { EP.charged s.running with
                remaining_time := 0, state := States.TERMINATED } } := by
        unfold EP.completion_check
        rw [if_pos (show ({ s with running := EP.charged s.running } :
          SimState).running.remaining_time = 0 from hz)]
        rfl
      have hidle : (E.idle_CPU { Quantum.charged e.running with
          remaining_time := 0, state := States.TERMINATED }).state ≠ States.RUNNING := by
        rw [hI]; decide
      have hq : Quantum.completion_check E (Quantum.execute e) =
          { Quantum.execute e with
            execution_status := e.execution_status ++
              [Event.mk e.current_time e.running.PID States.RUNNING States.TERMINATED]
            job_list := sync_queue e.job_list
              { Quantum.charged e.running with
                remaining_time := 0, state := States.TERMINATED }
            running := E.idle_CPU
              { Quantum.charged e.running with
                remaining_time := 0, state := States.TERMINATED }
            quantum_remaining := TIME_QUANTUM } := by
        unfold Quantum.completion_check
        rw [if_pos (show (Quantum.execute e).running.remaining_time = 0 ∧
          (Quantum.execute e).running.state = States.RUNNING from ⟨hrem.trans hz, hrun'⟩)]
        rfl
      rw [hs, hq, (quantum_checks_of_idle E _ hidle).2.2]
      refine ⟨calm_vacate hc rfl rfl (hI _), ht.clock, ?_, ht.wait, ht.ready,
        ⟨(hI _).trans (hI _).symm, fun h => ?_⟩, ?_, ht.roster⟩
      · show e.execution_status ++
          [Event.mk e.current_time e.running.PID States.RUNNING States.TERMINATED] =
          s.execution_status ++
          [Event.mk s.current_time s.running.PID States.RUNNING States.TERMINATED]
        rw [ht.table, ht.clock, hf.1]
      · have h' : (E.idle_CPU { EP.charged s.running with
            remaining_time := 0, state := States.TERMINATED }).state = States.RUNNING := h
        rw [hI] at h'
        exact absurd h' (by decide)
      · exact map_tag_sync_queue
          { Quantum.charged e.running with remaining_time := 0, state := States.TERMINATED }
          { EP.charged s.running with remaining_time := 0, state := States.TERMINATED }
          (by
            show ((e.running.PID, States.TERMINATED) : Int × States) =
              (s.running.PID, States.TERMINATED)
            rw [hf.1]) _ _ ht.registry
    · have hs : EP.completion_check E { s with running := EP.charged s.running } =
          { s with running := EP.charged s.running } := by
        unfold EP.completion_check
        rw [if_neg (show ¬ ({ s with running := EP.charged s.running } :
          SimState).running.remaining_time = 0 from hz)]
      have hq : Quantum.completion_check E (Quantum.execute e) = Quantum.execute e := by
        unfold Quantum.completion_check
        rw [if_neg (show ¬ ((Quantum.execute e).running.remaining_time = 0 ∧
          (Quantum.execute e).running.state = States.RUNNING) from
          fun hh => hz (hrem.symm.trans hh.1))]
      have hcalm : Calm { s with running := EP.charged s.running } :=
        calm_charge hc rfl rfl rfl rfl rfl
      have hbare : (Quantum.charged e.running).bare = (EP.charged s.running).bare :=
        bare_of_fields hf.1 hf.2.1 hf.2.2.1 hf.2.2.2.1 hf.2.2.2.2.1 hrem hf.2.2.2.2.2.2.1
          hf.2.2.2.2.2.2.2.1 hf.2.2.2.2.2.2.2.2
      have hpeer : e.ready_queue.any
          (fun proc => decide (proc.priority = (Quantum.execute e).running.priority)) =
          false := by
        rw [List.any_eq_false]
        intro q hq
        have hq' : q.bare ∈ s.ready_queue.map PCB.bare :=
          ht.ready.mem_iff.1 (List.mem_map_of_mem _ hq)
        obtain ⟨q0, hq0, hqq⟩ := List.mem_map.1 hq'
        have hlt := hc.lead hrun q0 hq0
        have hp : q.priority = q0.priority := ((bare_fields hqq).2.1).symm
        have hr : (Quantum.execute e).running.priority = s.running.priority := hf.2.1
        simp only [decide_eq_true_eq]
        omega
      rw [hs, hq]
      refine ⟨hcalm, ?_⟩
      unfold EP_RR.quantum_check
      split_ifs with c1 c2
      · have c2' : e.ready_queue.any
            (fun proc => decide (proc.priority = (Quantum.execute e).running.priority)) =
            true := c2
        rw [hpeer] at c2'
        exact absurd c2' (by decide)
      · exact ⟨ht.clock, ht.table, ht.wait, ht.ready, ⟨ht.slot.1, fun _ => hbare⟩,
          ht.registry, ht.roster⟩
      · exact ⟨ht.clock, ht.table, ht.wait, ht.ready, ⟨ht.slot.1, fun _ => hbare⟩,
          ht.registry, ht.roster⟩
  · have hrun' : e.running.state ≠ States.RUNNING := by rw [ht.slot.1]; exact hrun
    rw [ep_handle_running_of_not_running E s hrun,
      eprr_handle_running_of_not_running E e hrun']
    exact ⟨hc, ht⟩

theorem roster_of_static {l l' : List PCB} (h : l'.map PCB.static = l.map PCB.static)
    (T : Nat) (harr : ∀ p ∈ l, p.arrival_time = T) (hio : ∀ p ∈ l, p.io_freq = 0)
    (hd : (l.map PCB.priority).Nodup) :
    (∀ p ∈ l', p.arrival_time = T) ∧ (∀ p ∈ l', p.io_freq = 0) ∧
      (l'.map PCB.priority).Nodup := by
  have hmem : ∀ p ∈ l', ∃ q ∈ l, q.static = p.static := by
    intro p hp
    have : p.static ∈ l.map PCB.static := by
      rw [← h]
      exact List.mem_map_of_mem _ hp
    obtain ⟨q, hq, hqs⟩ := List.mem_map.1 this
    exact ⟨q, hq, hqs⟩
  refine ⟨fun p hp => ?_, fun p hp => ?_, ?_⟩
  · obtain ⟨q, hq, hqs⟩ := hmem p hp
    rw [← static_arrival hqs]
    exact harr q hq
  · obtain ⟨q, hq, hqs⟩ := hmem p hp
    rw [← static_io_freq hqs]
    exact hio q hq
  · have h1 := congrArg (List.map (fun x : Int × Nat × Nat × Nat × Nat × Nat => x.2.1)) h
    rw [List.map_map, List.map_map] at h1
    have h2 : l'.map PCB.priority = l.map PCB.priority := h1
    rw [h2]
    exact hd

theorem arrivals_of_bare {ls le : List PCB} (h : le.map PCB.bare = ls.map PCB.bare) (T : Nat)
    (harr : ∀ p ∈ ls, p.arrival_time = T) : ∀ p ∈ le, p.arrival_time = T := by
  intro p hp
  have : p.bare ∈ ls.map PCB.bare := by
    rw [← h]
    exact List.mem_map_of_mem _ hp
  obtain ⟨q, hq, hqs⟩ := List.mem_map.1 this
  rw [← (bare_fields hqs).2.2.1]
  exact harr q hq

/-- One iteration of EP and one of EP_RR take matching states to matching states, on a workload
whose processes all arrive at tick `T`, do no I/O and have pairwise distinct sizes. -/
theorem twin_tick (E : Env) (hE : SortContract E) (hI : IdleContract E) (T : Nat)
    {s e : SimState} (hc : Calm s) (hr : Roster T s) (ht : Twin s e) :
    Calm (EP.tick E s) ∧ Roster T (EP.tick E s) ∧ Twin (EP.tick E s) (EP_RR.tick E e) := by
  have hros := roster_of_static (roster_tick E s).1 T hr.arrivals hr.no_io hr.distinct
  have hearr := arrivals_of_bare ht.roster T hr.arrivals
  by_cases hlt : s.current_time < T
  · obtain ⟨hrq, hidle⟩ := hr.early (le_of_lt hlt)
    have hrq' : e.ready_queue = [] := by
      have := ht.ready
      rw [hrq, List.map_nil, List.perm_nil] at this
      exact List.map_eq_nil_iff.1 this
    have h1 := (tick_of_nothing E s
      (fun touch => admitted_of_no_arrival E touch s.current_time s.list_processes 0
        (fun p hp => by rw [hr.arrivals p hp]; omega)) hrq hc.wait hidle).1
    have h2 := (tick_of_nothing E e
      (fun touch => admitted_of_no_arrival E touch e.current_time e.list_processes 0
        (fun p hp => by rw [hearr p hp, ht.clock]; omega)) hrq' ht.wait
      (ht.slot.1.trans hidle)).2.2
    rw [h1, h2]
    refine ⟨calm_charge hc rfl rfl rfl rfl rfl,
      ⟨hr.arrivals, hr.no_io, hr.distinct, fun _ => ⟨hrq, hidle⟩⟩,
      ⟨congrArg (· + 1) ht.clock, ht.table, ht.wait, ht.ready, ht.slot, ht.registry,
        ht.roster⟩⟩
  · have hc1 := calm_populate E T hc hr
    have ht1 := twin_populate E ht
    have hm1 : manage_wait_queue (fun _ => (populate E EP.touch_new s).io_start_time)
        EP.touch_done (populate E EP.touch_new s) = populate E EP.touch_new s :=
      manage_wait_queue_of_empty _ _ _ hc1.wait
    have hm2 : manage_wait_queue (fun p => p.time_in_cpu) Quantum.touch_done
        (populate E Quantum.touch_new e) = populate E Quantum.touch_new e :=
      manage_wait_queue_of_empty _ _ _ ht1.wait
    have hidle : (!(admitted E Quantum.touch_new e.current_time 0
        e.list_processes).isEmpty) = true →
        (populate E Quantum.touch_new e).running.state ≠ States.RUNNING := by
      intro hna
      cases hadm : admitted E Quantum.touch_new e.current_time 0 e.list_processes with
      | nil =>
        rw [hadm] at hna
        exact absurd hna (by decide)
      | cons a t =>
        obtain ⟨q0, hq0, _, hq0t⟩ := mem_admitted E Quantum.touch_new _ _ _ a
          (by rw [hadm]; exact List.mem_cons_self _ _)
        have hT : s.current_time ≤ T := by
          rw [← ht.clock, ← hq0t, hearr q0 hq0]
        have := (hr.early hT).2
        show e.running.state ≠ States.RUNNING
        rw [ht.slot.1, this]
        decide
    have ht25 : Twin (populate E EP.touch_new s) (EP_RR.arrivals E e) := by
      unfold EP_RR.arrivals
      dsimp only
      rw [hm2]
      exact twin_check_preemption E hE _ ht1 hidle
    obtain ⟨hc3, ht3⟩ := calm_twin_handle_running E hI hc1 ht25
    obtain ⟨hc4, ht4⟩ := calm_twin_dispatch E hE (fun q => q) (fun _ => TIME_QUANTUM) hc3 ht3
    have hct : (EP.tick E s).current_time = s.current_time + 1 := (tick_within E s).1.1
    refine ⟨?_, ⟨hros.1, hros.2.1, hros.2.2, fun h => ?_⟩, ?_⟩
    · unfold EP.tick EP.schedule
      dsimp only
      rw [hm1]
      exact calm_charge hc4 rfl rfl rfl rfl rfl
    · rw [hct] at h
      omega
    · unfold EP.tick EP.schedule EP_RR.tick EP_RR.schedule
      dsimp only
      rw [hm1]
      exact ⟨congrArg (· + 1) ht4.clock, ht4.table, ht4.wait, ht4.ready, ht4.slot,
        ht4.registry, ht4.roster⟩

/-- The loops of EP and of EP_RR, started in matching states, end in matching states with the
same flag. -/
theorem twin_loop (E : Env) (hE : SortContract E) (hI : IdleContract E) (T : Nat) :
    ∀ (fuel : Nat) (s e : SimState), Calm s → Roster T s → Twin s e →
      Twin (run_loop (EP.tick E) fuel s).1 (run_loop (EP_RR.tick E) fuel e).1 ∧
      (run_loop (EP_RR.tick E) fuel e).2 = (run_loop (EP.tick E) fuel s).2 := by
  intro fuel
  induction fuel with
  | zero => intro s e _ _ ht; exact ⟨ht, rfl⟩
  | succ f ih =>
    intro s e hc hr ht
    obtain ⟨hc', hr', ht'⟩ := twin_tick E hE hI T hc hr ht
    have hlc := loop_condition_of_tags ht.registry
    unfold run_loop
    rw [hlc]
    by_cases h1 : loop_condition s = true
    · rw [if_pos h1, if_pos h1]
      dsimp only
      rw [ht'.clock]
      by_cases h2 : (EP.tick E s).current_time > 100000
      · rw [if_pos h2, if_pos h2]
        exact ⟨ht', rfl⟩
      · rw [if_neg h2, if_neg h2]
        exact ih _ _ hc' hr' ht'
    · rw [if_neg h1, if_neg h1]
      exact ⟨ht, rfl⟩

theorem calm_init (E : Env) (hI : IdleContract E) (l : List PCB) (T : Nat)
    (harr : ∀ p ∈ l, p.arrival_time = T) (hio : ∀ p ∈ l, p.io_freq = 0)
    (hsize : (l.map PCB.priority).Nodup) :
    Calm (init E l) ∧ Roster T (init E l) ∧ Twin (init E l) (init E l) := by
  have hnr : (init E l).running.state ≠ States.RUNNING := by
    show (E.idle_CPU uninitialised).state ≠ States.RUNNING
    rw [hI]
    decide
  have hlive : live (init E l) = [] := by
    unfold live
    rw [on_cpu_of_not_running hnr]
    rfl
  refine ⟨⟨Or.inr (hI _), rfl, fun p hp => ?_, ?_, fun h => absurd h hnr⟩,
    ⟨harr, hio, hsize, fun _ => ⟨rfl, hI _⟩⟩,
    ⟨rfl, rfl, rfl, List.Perm.refl _, ⟨rfl, fun _ => rfl⟩, rfl, rfl⟩⟩
  · rw [hlive] at hp
    exact absurd hp (List.not_mem_nil p)
  · rw [hlive]
    exact List.nodup_nil

/-- EP prints no RUNNING -> READY row. -/
theorem ep_prints_no_preemption (E : Env) (l : List PCB) :
    ∀ x ∈ (EP.run_simulation E l).1.execution_status, ¬ x.is_preemption := by
  unfold EP.run_simulation
  rw [ep_loop_eq]
  obtain ⟨n, hn⟩ := run_loop_eq_after_ticks (EP.tick E) 100001 (init E l)
  rw [hn]
  exact after_ticks_induction (fun s => ∀ x ∈ s.execution_status, ¬ x.is_preemption)
    (EP.tick E) (fun s hs x hx => by
      obtain ⟨rows, hrows, hnp⟩ := EP.tick_rows E s
      rw [hrows, List.mem_append] at hx
      rcases hx with hx | hx
      · exact hs x hx
      · exact hnp x hx) n (init E l) (fun x hx => absurd hx (List.not_mem_nil x))

/-- C25. For every workload whose processes all arrive at the same tick, do no I/O and have
pairwise distinct sizes, every allocator (the same for the two runs) and every `std::sort` and
`idle_CPU` within their contracts, EP_RR and EP return the same execution table and end in the
same way (both through the loop condition or both at the ceiling). The table has no
RUNNING -> READY row, and in every state of the run the process on the CPU has a smaller size
than every process of the ready queue, so that the processes run to completion in ascending
order of size. -/
theorem ep_rr_degenerates_to_ep (E : Env) (hE : SortContract E) (hI : IdleContract E)
    (l : List PCB) (T : Nat) (harr : ∀ p ∈ l, p.arrival_time = T)
    (hio : ∀ p ∈ l, p.io_freq = 0) (hsize : (l.map PCB.priority).Nodup) :
    (EP_RR.run_simulation E l).1.execution_status =
      (EP.run_simulation E l).1.execution_status ∧
    (EP_RR.run_simulation E l).2 = (EP.run_simulation E l).2 ∧
    (∀ x ∈ (EP_RR.run_simulation E l).1.execution_status, ¬ x.is_preemption) ∧
    (∀ n, runs_smallest (after_ticks (EP.tick E) n (init E l))) := by
  obtain ⟨hc0, hr0, ht0⟩ := calm_init E hI l T harr hio hsize
  have hloop := twin_loop E hE hI T 100001 (init E l) (init E l) hc0 hr0 ht0
  have htable : (EP_RR.run_simulation E l).1.execution_status =
      (EP.run_simulation E l).1.execution_status := by
    unfold EP_RR.run_simulation EP.run_simulation
    rw [ep_loop_eq, ep_rr_loop_eq]
    exact hloop.1.table
  refine ⟨htable, ?_, ?_, fun n => ?_⟩
  · unfold EP_RR.run_simulation EP.run_simulation
    rw [ep_loop_eq, ep_rr_loop_eq]
    exact hloop.2
  · rw [htable]
    exact ep_prints_no_preemption E l
  · have := after_ticks_induction (fun s => Calm s ∧ Roster T s ∧ ∃ e, Twin s e) (EP.tick E)
      (fun s hs => by
        obtain ⟨h1, h2, e, h3⟩ := hs
        obtain ⟨h4, h5, h6⟩ := twin_tick E hE hI T h1 h2 h3
        exact ⟨h4, h5, _, h6⟩) n (init E l) ⟨hc0, hr0, _, ht0⟩
    exact this.1.lead

theorem ep_rr_degenerates_to_ep_witness :
    (EP_RR.run_simulation grant_all same_arrival_scenario).1.execution_status =
      (EP.run_simulation grant_all same_arrival_scenario).1.execution_status ∧
    (EP_RR.run_simulation grant_all same_arrival_scenario).2 =
      (EP.run_simulation grant_all same_arrival_scenario).2 :=
  have h := ep_rr_degenerates_to_ep grant_all sortContract_grant_all idleContract_grant_all
    same_arrival_scenario 0 (by decide) (by decide) (by decide)
  ⟨h.1, h.2.1⟩

end Sched
